import Mathlib

/-!
# HandyVariations: skeleton rotation, vertex skinning slots and keypoints

A shallow embedding of the skeletal-animation core of the HandyVariations
repository (`classes/bone/bone.cpp`, `classes/mesh/mesh.cpp`,
`classes/object_rigged/object_rigged.cpp`, `structs/vertex/vertex.h`) and of
`calculateKeypoints` (`main.cpp`, `main.h`).

Modelling conventions:

* `float` values are modelled twice. Where a statement is about which operations the
  code performs, in which order and grouping, or about exact arithmetic, they are exact
  rationals (`ℚ`); `glm::mat4` is a 4x4 rational matrix and `A * B` is the mathematical
  matrix product, as it is in glm. Where rounding matters they are binary32 values
  (`F32`): every sum, product and quotient is rounded to the nearest value of 24
  significant binary digits, a tie to the even one; a result that rounds to `2 ^ 128` or
  beyond is an infinity, NaN is a value, and the two zeros are one value. The sums inside
  a `float` matrix product are taken in the order of glm's `operator*`; the examples on
  binary32 values use matrices whose entries are 0, 1, -1, 2, -2 and translations, so
  that inside their matrix products every product is exact, at most two terms of a sum
  are not zero and the order of the sum does not matter. The definitions on binary32 values carry the suffix
  `32`, and so do the lemmas on `rotate32`, which are those on `rotate` proved again.
* `Bone*` pointers are addresses into a `Skeleton`, the list of all bones; a
  pointer that leads nowhere makes the operation fail (`none`).
* The recursion of `Bone::propagateRotate` follows the `children` pointers and is
  driven by a fuel counter; running out of fuel is `none`.
* `glm::rotate(glm::mat4(1.0f), glm::radians(angle), glm::vec3(x, y, z))` is a
  library value; the functions that need it take it as the parameter `glmRotate`.
  Likewise `glm::inverse` on a `glm::mat4` is the parameter `glmInverse`.
* The bone map of a mesh (`std::map<std::string, Bone>`) is the list of its nodes in
  order of creation; a pointer to a bone of the map is the position of its node, and
  iteration over the map visits the nodes in key order.
* An unchecked `operator[]` of a `std::vector` with an index out of range makes the
  operation fail (`none`), and so does an `assert` whose condition is false.
* The hierarchy tree (`aiNode`) and the bones of the model (`aiBone`) are the inputs of
  the `Mesh` constructor; of each only the fields that the constructor reads are kept.
* `propagateRotateCalls` and `rotateCalls` are `propagateRotate` and `rotate` with a
  record of the recursive calls next to the skeleton.
-/

namespace HandyVariations

/-! ## Matrices and vectors -/

/-- A `glm::mat4` with its entries read as exact rationals: the products of such matrices
are exact and associative. `Mat32` and `mulMat32` are the `float` matrices and their product,
which rounds. -/
abbrev Mat4 := Matrix (Fin 4) (Fin 4) ℚ

/-- A `glm::vec4` with its components read as exact rationals; `Vec32` has `float`
components. -/
abbrev Vec4 := Fin 4 → ℚ

/-- A `glm::vec3`. -/
abbrev Vec3 := Fin 3 → ℚ

/-- A `glm::vec2`. -/
abbrev Vec2 := Fin 2 → ℚ

/-- The type of the library call
`glm::rotate(glm::mat4(1.0f), glm::radians(angle), glm::vec3(x, y, z))`
as a function of `x`, `y`, `z` and `angle`. -/
abbrev RotationLib := ℚ → ℚ → ℚ → ℚ → Mat4

/-- The homogeneous origin `(0, 0, 0, 1)`. -/
def origin4 : Vec4 := ![0, 0, 0, 1]

/-! ## Bones (`classes/bone/bone.h`, `classes/bone/bone.cpp`) -/

/-- The fields of `class Bone`; `parent` and `children` hold addresses of bones
of the enclosing skeleton. -/
structure Bone where
  bone_id : Int
  offset : Mat4
  offset_inv : Mat4
  name : String
  transforms : Mat4
  parent : Option Nat
  children : List Nat

/-- Equality of bones is decided field by field. -/
instance : DecidableEq Bone := fun a b =>
  decidable_of_iff
    (a.bone_id = b.bone_id ∧ a.offset = b.offset ∧ a.offset_inv = b.offset_inv ∧
      a.name = b.name ∧ a.transforms = b.transforms ∧ a.parent = b.parent ∧
      a.children = b.children)
    (by cases a; cases b; simp)

/-- Equality of optional values, decided on the values themselves, so that it evaluates
also when the values hold matrices. -/
instance (priority := 2000) optionDecEq {α : Type} [DecidableEq α] : DecidableEq (Option α)
  | none, none => isTrue rfl
  | none, some _ => isFalse (by simp)
  | some _, none => isFalse (by simp)
  | some a, some b => decidable_of_iff (a = b) (by simp)

/-- All the bones that pointers can lead to, by address. -/
abbrev Skeleton := List Bone

/-- The method `Bone::resetTransforms` on the bone itself: `this->transforms = glm::mat4(1.0f)`. -/
def Bone.resetTransforms (this : Bone) : Bone :=
  { this with transforms := 1 }

/-- The method `Bone::resetTransforms` called through a pointer into the skeleton. -/
def resetTransforms (sk : Skeleton) (this : Nat) : Option Skeleton :=
  match sk[this]? with
  | none => none
  | some bone => some (sk.set this bone.resetTransforms)

/-- The method `Bone::propagateRotate`: `this->transforms = propagate * this->transforms`,
then the same call on every child in list order. -/
def propagateRotate : Nat → Skeleton → Nat → Mat4 → Option Skeleton
  | 0, _, _, _ => none
  | fuel + 1, sk, this, propagate =>
    match sk[this]? with
    | none => none
    | some bone =>
      bone.children.foldlM (fun s child => propagateRotate fuel s child propagate)
        (sk.set this { bone with transforms := propagate * bone.transforms })

/-- The matrix `this->offset_inv * rotation_matrix * this->offset` of `Bone::rotate`. -/
def Bone.jointRotation (this : Bone) (rotation_matrix : Mat4) : Mat4 :=
  this.offset_inv * rotation_matrix * this.offset

/-- The method `Bone::rotate`: builds the rotation matrix, moves it to the joint,
`this->transforms = this->transforms * rotation_matrix`, then `propagateRotate`
on every child in list order. -/
def rotate (glmRotate : RotationLib) (fuel : Nat) (sk : Skeleton) (this : Nat)
    (x y z angle : ℚ) : Option Skeleton :=
  match sk[this]? with
  | none => none
  | some bone =>
    let rotation_matrix := bone.jointRotation (glmRotate x y z angle)
    bone.children.foldlM (fun s child => propagateRotate fuel s child rotation_matrix)
      (sk.set this { bone with transforms := bone.transforms * rotation_matrix })

/-- The constant `MAX_BONE_INFLUEN` of `vertex.h`. -/
abbrev MAX_BONE_INFLUEN : Nat := 4

/-- The fields of `struct Vertex`. -/
structure Vertex where
  position : Vec3
  normal : Vec3
  color : Vec3
  uv : Vec2
  tangent : Vec3
  bitangent : Vec3
  bone_ids : Fin MAX_BONE_INFLUEN → Int
  bone_weights : Fin MAX_BONE_INFLUEN → ℚ

/-- Equality of vertices is decided field by field. -/
instance : DecidableEq Vertex := fun a b =>
  decidable_of_iff
    (a.position = b.position ∧ a.normal = b.normal ∧ a.color = b.color ∧ a.uv = b.uv ∧
      a.tangent = b.tangent ∧ a.bitangent = b.bitangent ∧ a.bone_ids = b.bone_ids ∧
      a.bone_weights = b.bone_weights)
    (by cases a; cases b; simp)

/-- The fields of `class Mesh` that the skeleton and the skinning use. The nodes of the
map `bone_mapping` are listed in order of creation, each with its key; a `Bone*` into the
map is the position of its node. -/
structure Mesh where
  vertices : List Vertex
  transforms : Mat4
  bone_count : Int
  bone_mapping : List (String × Bone)

/-- The empty vertex that the `Mesh` constructor builds for every vertex of the model
(`mesh.cpp` lines 59 to 66), its bone slots not yet initialised. -/
def emptyVertex : Vertex :=
  { position := ![0, 0, 0], normal := ![1, 1, 1], color := ![0, 0, 1], uv := ![0, 0],
    tangent := ![0, 1, 0], bitangent := ![1, 0, 0],
    bone_ids := fun _ => 0, bone_weights := fun _ => 0 }

/-- The loop of the `Mesh` constructor that initialises the bone slots of a vertex:
`bone_ids[i] = -1; bone_weights[i] = 0.0` for every `i < MAX_BONE_INFLUEN`. -/
def initBoneSlots (vertex : Vertex) : Vertex :=
  (List.finRange MAX_BONE_INFLUEN).foldl
    (fun v i => { v with bone_ids := Function.update v.bone_ids i (-1),
                         bone_weights := Function.update v.bone_weights i 0 })
    vertex

/-- The first loop of `Mesh::updateVertexBones`: starting from slot 0, scan the slots
in order and keep `(lowest_weight_id, lowest_weight)`, replaced whenever a slot weight
is strictly lower. -/
def lowestWeight (bone_weights : Fin MAX_BONE_INFLUEN → ℚ) : Fin MAX_BONE_INFLUEN × ℚ :=
  (List.finRange MAX_BONE_INFLUEN).foldl
    (fun lowest k => if bone_weights k < lowest.2 then (k, bone_weights k) else lowest)
    (0, bone_weights 0)

/-- What `Mesh::updateVertexBones` does to the vertex it addresses: if the lowest weight
is smaller than `weight`, the slot that holds it is overwritten. -/
def Vertex.updateBones (v : Vertex) (bone_id : Int) (weight : ℚ) : Vertex :=
  let lowest := lowestWeight v.bone_weights
  if lowest.2 < weight then
    { v with bone_ids := Function.update v.bone_ids lowest.1 bone_id,
             bone_weights := Function.update v.bone_weights lowest.1 weight }
  else v

/-- The method `Mesh::updateVertexBones`; an index outside `vertices` is an access out of bounds
(`none`). -/
def Mesh.updateVertexBones (m : Mesh) (vertex_id : Int) (bone_id : Int) (weight : ℚ) :
    Option Mesh :=
  if vertex_id < 0 then none
  else
    match m.vertices[vertex_id.toNat]? with
    | none => none
    | some v =>
      some { m with vertices := m.vertices.set vertex_id.toNat (v.updateBones bone_id weight) }

/-- A run of `Mesh::updateVertexBones` calls, in order; each entry is
`(vertex_id, bone_id, weight)`. -/
def Mesh.updateAll : List (Int × Int × ℚ) → Mesh → Option Mesh
  | [], m => some m
  | (vertex_id, bone_id, weight) :: rest, m =>
    (m.updateVertexBones vertex_id bone_id weight).bind (Mesh.updateAll rest)

/-- The calls that bind a list of influences `(bone_id, weight)` to one vertex. -/
def influencesOn (vertex_id : Int) (influences : List (Int × ℚ)) : List (Int × Int × ℚ) :=
  influences.map (fun x => (vertex_id, x.1, x.2))

/-- The method `Mesh::resetBones`: `resetTransforms` on the bone of every node of the map. -/
def Mesh.resetBones (m : Mesh) : Mesh :=
  { m with bone_mapping := m.bone_mapping.map (fun node => (node.1, node.2.resetTransforms)) }

/-- The `(bone_id, weight)` pairs held by the used slots of a vertex (bone id not -1). -/
def usedSlots (v : Vertex) : Finset (Int × ℚ) :=
  (Finset.univ.filter (fun k => v.bone_ids k ≠ -1)).image
    (fun k => (v.bone_ids k, v.bone_weights k))

/-- The influences of a list that are among its four heaviest: fewer than four entries
of the list weigh more. -/
def topFour (influences : List (Int × ℚ)) : Finset (Int × ℚ) :=
  (influences.filter
    (fun x => (influences.filter (fun y => x.2 < y.2)).length < MAX_BONE_INFLUEN)).toFinset

/-- The state of the slots of a vertex after the influences `bound` have been bound to
it: every slot is unset or holds one of them, used slots hold different weights, an
influence that is in no slot is lighter than all four slots, which are then all used,
and the number of used slots is `min 4 n`. -/
structure TopInv (bound : List (Int × ℚ)) (v : Vertex) : Prop where
  slot : ∀ k, (v.bone_ids k = -1 ∧ v.bone_weights k = 0) ∨
    (v.bone_ids k, v.bone_weights k) ∈ bound
  inj : ∀ k k', v.bone_ids k ≠ -1 → v.bone_weights k = v.bone_weights k' → k = k'
  beaten : ∀ x ∈ bound, (∃ k, (v.bone_ids k, v.bone_weights k) = x) ∨
    (∀ k, v.bone_ids k ≠ -1 ∧ x.2 < v.bone_weights k)
  count : (Finset.univ.filter (fun k => v.bone_ids k ≠ -1)).card
    = min MAX_BONE_INFLUEN bound.length

/-- Influences with non-negative bone ids and positive, pairwise different weights. -/
def GoodInfluences (influences : List (Int × ℚ)) : Prop :=
  (∀ x ∈ influences, 0 ≤ x.1 ∧ 0 < x.2) ∧ (influences.map Prod.snd).Nodup

/-- What a run of `Mesh::updateVertexBones` calls does to the vertex it addresses. -/
def Vertex.bindAll (v : Vertex) (influences : List (Int × ℚ)) : Vertex :=
  influences.foldl (fun u x => u.updateBones x.1 x.2) v

/-! ## The bone graph -/

/-- The children pointers of the bone at an address (none for a dangling address). -/
def childrenOf (sk : Skeleton) (b : Nat) : List Nat :=
  match sk[b]? with
  | some bone => bone.children
  | none => []

/-- The accumulated transform of the bone at an address. -/
def transformsAt (sk : Skeleton) (b : Nat) : Option Mat4 :=
  (sk[b]?).map Bone.transforms

/-- Every children list of the skeleton, one after the other. -/
def allChildren : Skeleton → List Nat
  | [] => []
  | bone :: rest => bone.children ++ allChildren rest

/-- The bone `c` is in the children list of `p`. -/
def IsChild (sk : Skeleton) (p c : Nat) : Prop := c ∈ childrenOf sk p

instance (sk : Skeleton) (p c : Nat) : Decidable (IsChild sk p c) :=
  inferInstanceAs (Decidable (c ∈ childrenOf sk p))

/-- The bone `d` is a proper descendant of `b`: reachable by one or more children links. -/
def Descendant (sk : Skeleton) (b d : Nat) : Prop := Relation.TransGen (IsChild sk) b d

/-- What is reachable from `b` by zero or more children links. -/
def Reach (sk : Skeleton) (b d : Nat) : Prop := Relation.ReflTransGen (IsChild sk) b d

/-- The bone graph is a forest: children pointers lead to bones of the skeleton, no
bone is listed twice across all children lists, and there is no cycle (a rank
strictly decreases along every children link). -/
structure Forest (sk : Skeleton) : Prop where
  closed : ∀ p c, IsChild sk p c → c < sk.length
  once : (allChildren sk).Nodup
  acyclic : ∃ rank : Nat → Nat, ∀ p c, IsChild sk p c → rank c < rank p

/-- A bone with everything but the accumulated transform: what rotation must not touch. -/
def Bone.frame (bone : Bone) : Bone := { bone with transforms := 1 }

/-- Every bone of the skeleton has the identity as accumulated transform. -/
def AtRest (sk : Skeleton) : Prop := ∀ bone ∈ sk, bone.transforms = 1

instance (sk : Skeleton) : Decidable (AtRest sk) :=
  inferInstanceAs (Decidable (∀ bone ∈ sk, bone.transforms = 1))

/-- The type of the library call `glm::inverse` on a `glm::mat4`. -/
abbrev InverseLib := Mat4 → Mat4

/-- The constructor `Bone::Bone()`. It does not assign `offset_inv`: the field holds
whatever the default constructor of `glm::mat4` leaves there, the parameter `uninit`. -/
def Bone.empty (uninit : Mat4) : Bone :=
  { bone_id := -1, offset := 1, offset_inv := uninit, name := "", transforms := 1,
    parent := none, children := [] }

/-- The constructor `Bone::Bone(bone_id, offset, name)`. -/
def Bone.create (glmInverse : InverseLib) (bone_id : Int) (offset : Mat4) (name : String) :
    Bone :=
  { bone_id := bone_id, offset := offset, offset_inv := glmInverse offset, name := name,
    transforms := 1, parent := none, children := [] }

/-- The fields of `class ObjectRigged`. -/
structure ObjectRigged where
  meshes : List Mesh

/-- The position of the node with a given key among the nodes of a map, if there is one. -/
def findNode (bone_name : String) : List (String × Bone) → Option Nat
  | [] => none
  | node :: rest =>
    if node.1 = bone_name then some 0 else (findNode bone_name rest).map (· + 1)

/-- The expression `this->bone_mapping[bone_name]`: the address of the node with that
key; when there is none, `operator[]` of `std::map` first adds a node holding a
default-constructed bone. -/
def Mesh.nodeAt (uninit : Mat4) (m : Mesh) (bone_name : String) : Mesh × Nat :=
  match findNode bone_name m.bone_mapping with
  | some address => (m, address)
  | none =>
    ({ m with bone_mapping := m.bone_mapping ++ [(bone_name, Bone.empty uninit)] },
      m.bone_mapping.length)

/-- The bones of the nodes of the map, by address. -/
def Mesh.skeleton (m : Mesh) : Skeleton := m.bone_mapping.map Prod.snd

/-- The mesh with the bones of its nodes replaced, by address. -/
def Mesh.withSkeleton (m : Mesh) (sk : Skeleton) : Mesh :=
  { m with bone_mapping := List.zipWith (fun node bone => (node.1, bone)) m.bone_mapping sk }

/-- The method `Mesh::rotateBone`: `this->bone_mapping[bone_name].rotate(x, y, z, angle)`. -/
def Mesh.rotateBone (glmRotate : RotationLib) (uninit : Mat4) (fuel : Nat) (m : Mesh)
    (bone_name : String) (x y z angle : ℚ) : Option Mesh :=
  let found := m.nodeAt uninit bone_name
  (rotate glmRotate fuel found.1.skeleton found.2 x y z angle).map found.1.withSkeleton

/-- The method `ObjectRigged::rotateBone`: `rotateBone` on every mesh, in order. -/
def ObjectRigged.rotateBone (glmRotate : RotationLib) (uninit : Mat4) (fuel : Nat)
    (o : ObjectRigged) (bone_name : String) (x y z angle : ℚ) : Option ObjectRigged :=
  (o.meshes.mapM
    (fun (m : Mesh) => m.rotateBone glmRotate uninit fuel bone_name x y z angle)).map
    ObjectRigged.mk

/-- The method `Mesh::getBones`: a vector of as many default-constructed bones as the map
has nodes, then `list_bones[bone.getID()] = bone` for every node in key order; an id
outside the vector is a write out of bounds (`none`). -/
def Mesh.getBones (uninit : Mat4) (m : Mesh) : Option (List Bone) :=
  (m.bone_mapping.insertionSort (fun a b => a.1 ≤ b.1)).foldlM
    (fun list_bones node =>
      if 0 ≤ node.2.bone_id ∧ node.2.bone_id.toNat < list_bones.length then
        some (list_bones.set node.2.bone_id.toNat node.2)
      else none)
    (List.replicate m.bone_mapping.length (Bone.empty uninit))

/-- The method `ObjectRigged::getBones`: the bones of every mesh, one mesh after the other. -/
def ObjectRigged.getBones (uninit : Mat4) (o : ObjectRigged) : Option (List Bone) :=
  (o.meshes.mapM (Mesh.getBones uninit)).map List.flatten

/-! ## Keypoints (`main.h`, `main.cpp`) -/

/-- The constant `MAX_BONE_INFLUENCE` of `main.h`. -/
abbrev MAX_BONE_INFLUENCE : Nat := 4

/-- The table `key_mapping` of `main.h`: the reference bone of each keypoint. -/
def key_mapping : List Int :=
  [1, 2, 3, 4, 4, 6, 7, 14, 14, 9, 15, 18, 18, 11, 16, 19, 19, 13, 17, 20, 20]

/-- The table `keypoint_bone_map` of `main.h`: the reference vertex of each keypoint. -/
def keypoint_bone_map : List Int :=
  [36563, 30249, 53106, 790, 528, 28613, 20338, 21906, 17825, 38509, 25734, 24593, 23377,
    28657, 9382, 10482, 6617, 60805, 15913, 16162, 12608]

/-- The element of a vector at an `int` index: `v[i]`; an index outside the vector is an
access out of bounds (`none`). -/
def atIndex {α : Type} (v : List α) (i : Int) : Option α :=
  if i < 0 then none else v[i.toNat]?

/-- The conversion `glm::vec3(v)` of a `glm::vec4`. -/
def xyz (v : Vec4) : Vec3 := ![v 0, v 1, v 2]

/-- The `switch (i)` of `calculateKeypoints`: the vector added to the joint centre of
keypoint `i`, with the decimals of the literals as exact rationals; `correctiveOffset32`
holds the `float` values of the literals. -/
def correctiveOffset (i : Nat) : Vec4 :=
  match i with
  | 4 => ![-2.712357, 10.171295, 18.986443, 0]
  | 8 => ![-0.000015, 8.476074, 12.544624, 0]
  | 12 => ![1.017120, 10.171303, 11.527489, 0]
  | 16 => ![2.034241, 12.544601, 10.510353, 0]
  | 20 => ![0.678085, 10.171295, 7.119926, 0]
  | _ => 0

/-- Lines 97 to 131 of `calculateKeypoints`: the point that goes into the skinning of
keypoint `i`, from the current `keypoints[i]` and the offset of the reference bone. -/
def referencePoint (glmInverse : InverseLib) (keypoint : Vec3) (offset : Mat4) (i : Nat) :
    Vec4 :=
  (glmInverse offset).mulVec ![keypoint 0, keypoint 1, keypoint 2, 1] + correctiveOffset i

/-- One round of the loop over the influencing bones (lines 145 to 165): the state is
`(interpol_pnt, accum_weight)`. After the two guards the bone id is an index into
`bones`, so the last case of the match does not occur. -/
def skinStep (bones : List Bone) (closest : Vertex) (aux_pnt : Vec4) (acc : Vec4 × ℚ)
    (j : Fin MAX_BONE_INFLUENCE) : Vec4 × ℚ :=
  if closest.bone_ids j ≤ -1 then acc
  else if (bones.length : Int) ≤ closest.bone_ids j then acc
  else
    match bones[(closest.bone_ids j).toNat]? with
    | some bone =>
      (acc.1 + closest.bone_weights j • bone.transforms.mulVec aux_pnt,
        acc.2 + closest.bone_weights j)
    | none => acc

/-- The skinning step of `calculateKeypoints` (lines 138 to 179): the loop over the four
slots, then the original point if the accumulated weight is 0 and the weighted sum
divided by the accumulated weight otherwise. The sums, products and the division are
exact here; `skinPoint32` is the same code with every operation rounded to `float`. -/
def skinPoint (bones : List Bone) (closest : Vertex) (aux_pnt : Vec4) : Vec4 :=
  let sums := (List.finRange MAX_BONE_INFLUENCE).foldl (skinStep bones closest aux_pnt) (0, 0)
  if sums.2 = 0 then aux_pnt else fun k => sums.1 k / sums.2

/-- Lines 97 to 179 for keypoint `i`: the homogeneous skinned point, before the model
transform is applied. -/
def skinnedKeypoint (glmInverse : InverseLib) (key_mapping keypoint_bone_map : List Int)
    (bones : List Bone) (vertices : List Vertex) (keypoint : Vec3) (i : Nat) : Option Vec4 :=
  match key_mapping[i]? with
  | none => none
  | some reference_bone =>
    match atIndex bones reference_bone with
    | none => none
    | some bone =>
      match keypoint_bone_map[i]? with
      | none => none
      | some reference_vertex =>
        match atIndex vertices reference_vertex with
        | none => none
        | some closest =>
          some (skinPoint bones closest (referencePoint glmInverse keypoint bone.offset i))

/-- One round of the loop of `calculateKeypoints` over the keypoints: it reads
`keypoints[i]` and writes it back. -/
def keypointStep (glmInverse : InverseLib) (key_mapping keypoint_bone_map : List Int)
    (bones : List Bone) (vertices : List Vertex) (model : Mat4) (keypoints : List Vec3)
    (i : Nat) : Option (List Vec3) :=
  match keypoints[i]? with
  | none => none
  | some keypoint =>
    match skinnedKeypoint glmInverse key_mapping keypoint_bone_map bones vertices keypoint i with
    | none => none
    | some interpol_pnt => some (keypoints.set i (xyz (model.mulVec interpol_pnt)))

/-- The body of `calculateKeypoints` once the bones, the vertices and the model transform
of the first mesh are at hand: 21 zero keypoints, then one round for every index of
`key_mapping`. The two tables are globals in the source. -/
def calculateKeypointsFrom (glmInverse : InverseLib) (key_mapping keypoint_bone_map : List Int)
    (bones : List Bone) (vertices : List Vertex) (model : Mat4) : Option (List Vec3) :=
  (List.range key_mapping.length).foldlM
    (keypointStep glmInverse key_mapping keypoint_bone_map bones vertices model)
    (List.replicate 21 0)

/-- The function `calculateKeypoints` on the object `hand`, with the tables of `main.h`. -/
def calculateKeypoints (glmInverse : InverseLib) (uninit : Mat4) (hand : ObjectRigged) :
    Option (List Vec3) :=
  match hand.getBones uninit with
  | none => none
  | some bones =>
    match hand.meshes[0]? with
    | none => none
    | some mesh =>
      calculateKeypointsFrom glmInverse key_mapping keypoint_bone_map bones mesh.vertices
        mesh.transforms

/-- A slot whose bone id passes the two guards of the skinning loop. -/
def ValidSlot (bones : List Bone) (v : Vertex) (j : Fin MAX_BONE_INFLUENCE) : Prop :=
  -1 < v.bone_ids j ∧ v.bone_ids j < bones.length

instance (bones : List Bone) (v : Vertex) (j : Fin MAX_BONE_INFLUENCE) :
    Decidable (ValidSlot bones v j) :=
  inferInstanceAs (Decidable (-1 < v.bone_ids j ∧ v.bone_ids j < bones.length))

/-- The accumulated transform of the bone that a slot refers to (zero when it refers to
none). -/
def slotTransform (bones : List Bone) (v : Vertex) (j : Fin MAX_BONE_INFLUENCE) : Mat4 :=
  match bones[(v.bone_ids j).toNat]? with
  | some bone => bone.transforms
  | none => 0

/-- A vertex whose only used slot holds bone id `b` with weight 1; the other slots are
unset. -/
def BoundOnlyTo (v : Vertex) (b : Int) : Prop :=
  ∃ k, v.bone_ids k = b ∧ v.bone_weights k = 1 ∧
    ∀ j, j ≠ k → v.bone_ids j = -1 ∧ v.bone_weights j = 0

/-- A vertex with all four slots unset. -/
def Unbound (v : Vertex) : Prop := ∀ k, v.bone_ids k = -1 ∧ v.bone_weights k = 0

instance (v : Vertex) : Decidable (Unbound v) :=
  inferInstanceAs (Decidable (∀ k, v.bone_ids k = -1 ∧ v.bone_weights k = 0))

instance (v : Vertex) (b : Int) : Decidable (BoundOnlyTo v b) :=
  inferInstanceAs (Decidable (∃ k, v.bone_ids k = b ∧ v.bone_weights k = 1 ∧
    ∀ j, j ≠ k → v.bone_ids j = -1 ∧ v.bone_weights j = 0))

/-- The weight that a slot adds to `accum_weight`: its own weight when its bone id passes
the guards, nothing otherwise. -/
def slotWeight (bones : List Bone) (v : Vertex) (j : Fin MAX_BONE_INFLUENCE) : ℚ :=
  if ValidSlot bones v j then v.bone_weights j else 0

/-- The point that a slot adds to `interpol_pnt`. -/
def slotPoint (bones : List Bone) (v : Vertex) (p : Vec4) (j : Fin MAX_BONE_INFLUENCE) : Vec4 :=
  if ValidSlot bones v j then v.bone_weights j • (slotTransform bones v j).mulVec p else 0

/-- The vertex with every slot that fails the guards of the skinning loop unset. -/
def dropInvalid (bones : List Bone) (v : Vertex) : Vertex :=
  { v with
    bone_ids := fun j => if ValidSlot bones v j then v.bone_ids j else -1,
    bone_weights := fun j => if ValidSlot bones v j then v.bone_weights j else 0 }

/-! ## Helpers for the statements on `getBones` and `rotateBone` -/

/-- One round of the loop of `Mesh::getBones`: `list_bones[bone.getID()] = bone`. -/
def storeById (list_bones : List Bone) (node : String × Bone) : Option (List Bone) :=
  if 0 ≤ node.2.bone_id ∧ node.2.bone_id.toNat < list_bones.length then
    some (list_bones.set node.2.bone_id.toNat node.2)
  else none

/-- The bone ids of the map are pairwise different. -/
def DistinctIds (m : Mesh) : Prop := (m.bone_mapping.map (fun node => node.2.bone_id)).Nodup

instance (m : Mesh) : Decidable (DistinctIds m) :=
  inferInstanceAs
    (Decidable (m.bone_mapping.map (fun (node : String × Bone) => node.2.bone_id)).Nodup)

/-- What `Mesh::rotateBone` leaves of a mesh when `bone_name` is not a key of its map:
the vertices, the model transform, the bone count and every node of the map, at its
address, with its key and its bone. -/
def KeepsNodes (m m' : Mesh) : Prop :=
  m'.vertices = m.vertices ∧ m'.transforms = m.transforms ∧ m'.bone_count = m.bone_count ∧
    ∀ (i : Nat) (node : String × Bone),
      m.bone_mapping[i]? = some node → m'.bone_mapping[i]? = some node

/-! ## The assertion on vertex ids (`mesh.cpp`) -/

/-- The value of an `int` after its conversion to `size_t` (64 bits), which the comparison
of an `int` with `vertices.size()` makes. -/
def toSizeT (i : Int) : Nat := (i % 2 ^ 64).toNat

/-- The condition of the `assert` that precedes `updateVertexBones` in the bone loop of the
`Mesh` constructor: `vertex_id <= vertices.size()`. -/
def Mesh.assertVertexId (m : Mesh) (vertex_id : Int) : Prop :=
  toSizeT vertex_id ≤ m.vertices.length

instance (m : Mesh) (vertex_id : Int) : Decidable (m.assertVertexId vertex_id) :=
  inferInstanceAs (Decidable (toSizeT vertex_id ≤ m.vertices.length))

/-- The bone ids that the slots of a vertex hold. -/
def slotIds (v : Vertex) : Finset Int := Finset.univ.image v.bone_ids

/-! ## Runs of `rotate` and the record of calls -/

/-- Two `Bone::rotate` calls in a row: on `first`, then on `second`; each rotation is
`(x, y, z, angle)`. -/
def rotateTwo (glmRotate : RotationLib) (fuel : Nat) (sk : Skeleton) (first : Nat)
    (r₁ : ℚ × ℚ × ℚ × ℚ) (second : Nat) (r₂ : ℚ × ℚ × ℚ × ℚ) : Option Skeleton :=
  (rotate glmRotate fuel sk first r₁.1 r₁.2.1 r₁.2.2.1 r₁.2.2.2).bind
    (fun s => rotate glmRotate fuel s second r₂.1 r₂.2.1 r₂.2.2.1 r₂.2.2.2)

/-- One round of the children loop of `rotate` and `propagateRotate`, with the record of
calls: `call` is the recursive call on a child, and the bones it was called on are added
to the record. -/
def childRound (call : Skeleton → Nat → Option (Skeleton × List Nat))
    (acc : Skeleton × List Nat) (child : Nat) : Option (Skeleton × List Nat) :=
  (call acc.1 child).map (fun r => (r.1, acc.2 ++ r.2))

/-- The method `Bone::propagateRotate` once more, with a record next to the skeleton: the
bones on which `propagateRotate` is called, in the order of the calls. -/
def propagateRotateCalls : Nat → Skeleton → Nat → Mat4 → Option (Skeleton × List Nat)
  | 0, _, _, _ => none
  | fuel + 1, sk, this, propagate =>
    match sk[this]? with
    | none => none
    | some bone =>
      bone.children.foldlM
        (childRound (fun s child => propagateRotateCalls fuel s child propagate))
        (sk.set this { bone with transforms := propagate * bone.transforms }, [this])

/-- The method `Bone::rotate` once more, with the record of the bones on which its loop
and the recursion beneath it call `propagateRotate`. -/
def rotateCalls (glmRotate : RotationLib) (fuel : Nat) (sk : Skeleton) (this : Nat)
    (x y z angle : ℚ) : Option (Skeleton × List Nat) :=
  match sk[this]? with
  | none => none
  | some bone =>
    let rotation_matrix := bone.jointRotation (glmRotate x y z angle)
    bone.children.foldlM
      (childRound (fun s child => propagateRotateCalls fuel s child rotation_matrix))
      (sk.set this { bone with transforms := bone.transforms * rotation_matrix }, [])

/-! ## The bone loop of the `Mesh` constructor (`mesh.cpp`) -/

/-- The fields of `aiBone` that the `Mesh` constructor reads: the name, the offset matrix
and the weights, each a pair `(mVertexId, mWeight)`. -/
structure AiBone where
  mName : String
  mOffsetMatrix : Mat4
  mWeights : List (Int × ℚ)

/-- The statement `bone_mapping[bone_name] = new_bone`: `operator[]` gives the node with
that key, adding one when there is none, and the assignment overwrites its bone. -/
def Mesh.assignBone (uninit : Mat4) (m : Mesh) (bone_name : String) (new_bone : Bone) : Mesh :=
  let found := m.nodeAt uninit bone_name
  match found.1.bone_mapping[found.2]? with
  | some node =>
    { found.1 with bone_mapping := found.1.bone_mapping.set found.2 (node.1, new_bone) }
  | none => found.1

/-- The body of the loop over the weights of a bone: the `assert`, whose failure aborts
(`none`), then `updateVertexBones(vertex_id, bone_id, weight)`. -/
def Mesh.bindWeight (bone_id : Int) (m : Mesh) (w : Int × ℚ) : Option Mesh :=
  if m.assertVertexId w.1 then m.updateVertexBones w.1 bone_id w.2 else none

/-- One round of the bone loop of the `Mesh` constructor (`mesh.cpp` lines 119 to 160): a
bone whose name is not yet a key is created with the id `bone_count`, stored in the map,
and `bone_count` is incremented; then the id stored under the name is read back and the
weights are bound. -/
def Mesh.loadBone (glmInverse : InverseLib) (uninit : Mat4) (m : Mesh) (bone : AiBone) :
    Option Mesh :=
  let created :=
    if findNode bone.mName m.bone_mapping = none then
      { m.assignBone uninit bone.mName
          (Bone.create glmInverse m.bone_count bone.mOffsetMatrix bone.mName) with
        bone_count := m.bone_count + 1 }
    else m
  let found := created.nodeAt uninit bone.mName
  match found.1.bone_mapping[found.2]? with
  | none => none
  | some node => bone.mWeights.foldlM (Mesh.bindWeight node.2.bone_id) found.1

/-- The bone loop of the `Mesh` constructor over the bones of the model, in order. -/
def Mesh.loadBones (glmInverse : InverseLib) (uninit : Mat4) (bones : List AiBone) (m : Mesh) :
    Option Mesh :=
  bones.foldlM (Mesh.loadBone glmInverse uninit) m

/-- The number of different names that occur in `names` before the first occurrence of
`name`. -/
def namesBefore (names : List String) (name : String) : Nat :=
  (names.take (names.indexOf name)).toFinset.card

/-- The state of the map after the bone loop has run over bones with the names `seen`:
the keys are the names seen, each once, `bone_count` is their number, and the node at
address `k` holds the bone with id `k`, whose key is the `k`-th new name. -/
structure BonesLoaded (seen : List String) (m : Mesh) : Prop where
  keys_nodup : (m.bone_mapping.map Prod.fst).Nodup
  keys : ∀ name, name ∈ m.bone_mapping.map Prod.fst ↔ name ∈ seen
  count : m.bone_count = m.bone_mapping.length
  size : m.bone_mapping.length = seen.toFinset.card
  ids : ∀ (k : Nat) (node : String × Bone), m.bone_mapping[k]? = some node →
    node.2.bone_id = k ∧ node.2.name = node.1 ∧ k = namesBefore seen node.1

/-! ## The hierarchy tree and `Mesh::loadBoneHierarchy` (`mesh.cpp`) -/

/-- The fields of `aiNode` that `Mesh::loadBoneHierarchy` reads: the name of the node and
its children. -/
inductive AiNode where
  | mk (mName : String) (mChildren : List AiNode)

/-- The name of a node of the hierarchy tree. -/
def AiNode.mName : AiNode → String
  | .mk name _ => name

/-- The children of a node of the hierarchy tree. -/
def AiNode.mChildren : AiNode → List AiNode
  | .mk _ children => children

/-- The method `Bone::setParent`. -/
def Bone.setParent (this : Bone) (parent : Nat) : Bone := { this with parent := some parent }

/-- The method `Bone::addChild`: `this->children.push_back(child)`. -/
def Bone.addChild (this : Bone) (child : Nat) : Bone :=
  { this with children := this.children ++ [child] }

/-- A method of `Bone` called on the bone of the node at an address of the map. -/
def Mesh.onBone (m : Mesh) (address : Nat) (method : Bone → Bone) : Mesh :=
  match m.bone_mapping[address]? with
  | some node => { m with bone_mapping := m.bone_mapping.set address (node.1, method node.2) }
  | none => m

/-- The `if` of `Mesh::loadBoneHierarchy` on the names of a node and of its parent: when
both are keys of the map, `setParent` on the bone of the node and `addChild` on the bone
of the parent. -/
def Mesh.linkNodes (m : Mesh) (node_name pare_name : String) : Mesh :=
  match findNode node_name m.bone_mapping, findNode pare_name m.bone_mapping with
  | some node, some pare =>
    (m.onBone node (fun bone => bone.setParent pare)).onBone pare
      (fun bone => bone.addChild node)
  | _, _ => m

mutual
/-- The method `Mesh::loadBoneHierarchy(node, parent)`; `parent` is `none` for `nullptr`. -/
def Mesh.loadBoneHierarchy (m : Mesh) : AiNode → Option AiNode → Mesh
  | .mk name children, parent =>
    Mesh.loadChildren
      (match parent with
        | some pare => m.linkNodes name pare.mName
        | none => m)
      children (.mk name children)
/-- The loop of `Mesh::loadBoneHierarchy` over the children of `node`. -/
def Mesh.loadChildren (m : Mesh) : List AiNode → AiNode → Mesh
  | [], _ => m
  | child :: rest, node => Mesh.loadChildren (Mesh.loadBoneHierarchy m child (some node)) rest node
end

mutual
/-- The pairs `(node_name, pare_name)` on which the walk of `loadBoneHierarchy` reaches
its `if`, in the order of the walk. -/
def AiNode.links : AiNode → Option AiNode → List (String × String)
  | .mk name children, parent =>
    (match parent with
      | some pare => [(name, pare.mName)]
      | none => []) ++ AiNode.linksOf children (.mk name children)
/-- The pairs of the walk over the children of `node`. -/
def AiNode.linksOf : List AiNode → AiNode → List (String × String)
  | [], _ => []
  | child :: rest, node => AiNode.links child (some node) ++ AiNode.linksOf rest node
end

mutual
/-- The names of the nodes of a tree, parents before children. -/
def AiNode.names : AiNode → List String
  | .mk name children => name :: AiNode.namesOf children
/-- The names of the nodes of a list of trees. -/
def AiNode.namesOf : List AiNode → List String
  | [] => []
  | child :: rest => AiNode.names child ++ AiNode.namesOf rest
end

/-- The parent pointer of the bone at an address. -/
def parentOf (sk : Skeleton) (b : Nat) : Option Nat := (sk[b]?).bind Bone.parent

/-- The children that the walk over `links` adds to the bone at address `a`: the
addresses of the nodes linked beneath the key of `a`, in the order of the walk. -/
def linkedChildren (nodes : List (String × Bone)) (links : List (String × String)) (a : Nat) :
    List Nat :=
  links.filterMap (fun e =>
    if findNode e.2 nodes = some a then findNode e.1 nodes else none)

/-- The parents that the walk over `links` sets in the bone at address `a`, one after the
other. -/
def linkedParents (nodes : List (String × Bone)) (links : List (String × String)) (a : Nat) :
    List Nat :=
  links.filterMap (fun e =>
    if findNode e.1 nodes = some a then findNode e.2 nodes else none)

/-- No bone of the map has a parent or a child yet. -/
def Unlinked (m : Mesh) : Prop :=
  ∀ node ∈ m.bone_mapping, node.2.parent = none ∧ node.2.children = []

instance (m : Mesh) : Decidable (Unlinked m) :=
  inferInstanceAs (Decidable (∀ node ∈ m.bone_mapping,
    node.2.parent = none ∧ node.2.children = []))

mutual
/-- The nodes of a tree, the root first. -/
def AiNode.subtrees : AiNode → List AiNode
  | .mk name children => .mk name children :: AiNode.subtreesOf children
/-- The nodes of a list of trees. -/
def AiNode.subtreesOf : List AiNode → List AiNode
  | [] => []
  | child :: rest => AiNode.subtrees child ++ AiNode.subtreesOf rest
end

/-- The tree has a node named `node_name` whose immediate parent node is named
`pare_name`. -/
def AiNode.HasLink (tree : AiNode) (node_name pare_name : String) : Prop :=
  ∃ pare ∈ tree.subtrees, ∃ node ∈ pare.mChildren,
    node.mName = node_name ∧ pare.mName = pare_name

/-- The name `x` stands before the name `y` in the list. -/
def Before (names : List String) (x y : String) : Prop :=
  ∃ l₁ l₂ l₃, names = l₁ ++ x :: (l₂ ++ y :: l₃)

/-- The key of the node at an address of the map (the empty string when there is none). -/
def keyAt (nodes : List (String × Bone)) (a : Nat) : String :=
  match nodes[a]? with
  | some node => node.1
  | none => ""

/-- The children that the walk over `links` adds to all bones together, in the order of
the walk. -/
def linkedAll (nodes : List (String × Bone)) (links : List (String × String)) : List Nat :=
  links.filterMap (fun e =>
    if (findNode e.2 nodes).isSome then findNode e.1 nodes else none)

/-- The names of the nodes of a tree that are keys of the bone map, parents before
children. -/
def AiNode.boneNames (tree : AiNode) (m : Mesh) : List String :=
  tree.names.filter (fun name => (findNode name m.bone_mapping).isSome)

/-! ## Binary32 arithmetic (`float`) -/

/-- A value of the type `float`, IEEE 754 binary32: a finite value, held as the rational
number it stands for (the two zeros are one value), an infinity with its sign, or a NaN. -/
inductive F32 where
  | fin (q : ℚ)
  | inf (negative : Bool)
  | nan
deriving DecidableEq

/-- The number of binary digits of `n`, by halving; `fuel` bounds the number of rounds. -/
def bitLengthFrom : Nat → Nat → Nat
  | 0, _ => 0
  | fuel + 1, n => if n = 0 then 0 else bitLengthFrom fuel (n / 2) + 1

/-- The number of binary digits of `n`. -/
def bitLength (n : Nat) : Nat := bitLengthFrom n n

/-- The binary exponent of a rational `a` other than zero: the `e` with
`2 ^ e ≤ |a| < 2 ^ (e + 1)`. -/
def floorLog2 (a : ℚ) : Int :=
  if (2 : ℚ) ^ ((bitLength a.num.natAbs : Int) - (bitLength a.den : Int)) ≤ |a| then
    (bitLength a.num.natAbs : Int) - (bitLength a.den : Int)
  else (bitLength a.num.natAbs : Int) - (bitLength a.den : Int) - 1

/-- Rounding to the nearest integer, a tie to the even one. -/
def roundEven (x : ℚ) : Int :=
  if x - ⌊x⌋ < 1 / 2 then ⌊x⌋
  else if 1 / 2 < x - ⌊x⌋ then ⌊x⌋ + 1
  else if ⌊x⌋ % 2 = 0 then ⌊x⌋ else ⌊x⌋ + 1

/-- The spacing of the binary32 values around `q`: 24 significant binary digits, and no
exponent below -126 (the values beneath `2 ^ (-126)` are the subnormal ones). -/
def ulp32 (q : ℚ) : ℚ := (2 : ℚ) ^ (max (floorLog2 q) (-126) - 23)

/-- The binary32 value of an exact result: the nearest value, a tie to the even
significand; a result that rounds to `2 ^ 128` or beyond is an infinity. -/
def round32 (q : ℚ) : F32 :=
  if q = 0 then .fin 0
  else if (2 : ℚ) ^ 128 ≤ |roundEven (q / ulp32 q) * ulp32 q| then .inf (decide (q < 0))
  else .fin (roundEven (q / ulp32 q) * ulp32 q)

/-- The sum of two `float` values. -/
def F32.add : F32 → F32 → F32
  | .fin a, .fin b => round32 (a + b)
  | .fin _, .inf s => .inf s
  | .inf s, .fin _ => .inf s
  | .inf s, .inf t => if s = t then .inf s else .nan
  | _, _ => .nan

/-- The product of two `float` values. -/
def F32.mul : F32 → F32 → F32
  | .fin a, .fin b => round32 (a * b)
  | .fin a, .inf s => if a = 0 then .nan else .inf (xor (decide (a < 0)) s)
  | .inf s, .fin b => if b = 0 then .nan else .inf (xor s (decide (b < 0)))
  | .inf s, .inf t => .inf (xor s t)
  | _, _ => .nan

/-- The quotient of two `float` values. As the sign of a zero is not kept, a non-zero
value divided by zero is taken to be the infinity with the sign of the dividend. -/
def F32.div : F32 → F32 → F32
  | .fin a, .fin b =>
    if b = 0 then (if a = 0 then .nan else .inf (decide (a < 0))) else round32 (a / b)
  | .fin _, .inf _ => .fin 0
  | .inf s, .fin b => .inf (xor s (decide (b < 0)))
  | _, _ => .nan

instance : Add F32 := ⟨F32.add⟩
instance : Mul F32 := ⟨F32.mul⟩
instance : Div F32 := ⟨F32.div⟩
instance : Zero F32 := ⟨.fin 0⟩
instance : One F32 := ⟨.fin 1⟩

/-- A rational number that is a binary32 value. -/
def IsF32 (q : ℚ) : Prop := round32 q = .fin q

instance (q : ℚ) : Decidable (IsF32 q) := inferInstanceAs (Decidable (round32 q = .fin q))

/-- A `glm::vec4` of `float` components. -/
abbrev Vec32 := Fin 4 → F32

/-- A `glm::mat4` of `float` components; `m i j` is the entry in row `i` and column `j`. -/
abbrev Mat32 := Fin 4 → Fin 4 → F32

/-- The matrix `glm::mat4(1.0f)`. -/
def Mat32.one : Mat32 := fun i j => if i = j then 1 else 0

/-- The product `m * v` of a `glm::mat4` and a `glm::vec4`: glm multiplies the columns of
`m` by the components of `v` and adds the first two and the last two products before it
adds the two sums. -/
def mulVec32 (m : Mat32) (v : Vec32) : Vec32 :=
  fun i => (m i 0 * v 0 + m i 1 * v 1) + (m i 2 * v 2 + m i 3 * v 3)

/-- The product `a * b` of two `glm::mat4`: glm adds the four products of each entry from
left to right. -/
def mulMat32 (a b : Mat32) : Mat32 :=
  fun i j => a i 0 * b 0 j + a i 1 * b 1 j + a i 2 * b 2 j + a i 3 * b 3 j

/-- The `float` matrix nearest to a rational one, entry by entry. -/
def toMat32 (m : Mat4) : Mat32 := fun i j => round32 (m i j)

/-- The `float` vector nearest to a rational one, component by component. -/
def toVec32 (v : Vec4) : Vec32 := fun k => round32 (v k)

/-- The homogeneous origin `(0, 0, 0, 1)` in `float` components. -/
def origin32 : Vec32 := ![0, 0, 0, 1]

/-- The type of `glm::rotate` on `float` arguments. -/
abbrev RotationLib32 := F32 → F32 → F32 → F32 → Mat32

/-- The type of `glm::inverse` on a `float` matrix. -/
abbrev InverseLib32 := Mat32 → Mat32

/-! ## The code on `float` values -/

/-- The fields of `class Bone`, the matrices in `float` components. -/
structure Bone32 where
  bone_id : Int
  offset : Mat32
  offset_inv : Mat32
  name : String
  transforms : Mat32
  parent : Option Nat
  children : List Nat

/-- Equality of bones is decided field by field. -/
instance : DecidableEq Bone32 := fun a b =>
  decidable_of_iff
    (a.bone_id = b.bone_id ∧ a.offset = b.offset ∧ a.offset_inv = b.offset_inv ∧
      a.name = b.name ∧ a.transforms = b.transforms ∧ a.parent = b.parent ∧
      a.children = b.children)
    (by cases a; cases b; simp)

/-- The bone with every matrix entry rounded to `float`. -/
def Bone.to32 (bone : Bone) : Bone32 :=
  { bone_id := bone.bone_id, offset := toMat32 bone.offset, offset_inv := toMat32 bone.offset_inv,
    name := bone.name, transforms := toMat32 bone.transforms, parent := bone.parent,
    children := bone.children }

/-- The method `Bone::propagateRotate` on `float` matrices. -/
def propagateRotate32 : Nat → List Bone32 → Nat → Mat32 → Option (List Bone32)
  | 0, _, _, _ => none
  | fuel + 1, sk, this, propagate =>
    match sk[this]? with
    | none => none
    | some bone =>
      bone.children.foldlM (fun s child => propagateRotate32 fuel s child propagate)
        (sk.set this { bone with transforms := mulMat32 propagate bone.transforms })

/-- The matrix `this->offset_inv * rotation_matrix * this->offset` of `Bone::rotate` on
`float` matrices: the left product first. -/
def Bone32.jointRotation (this : Bone32) (rotation_matrix : Mat32) : Mat32 :=
  mulMat32 (mulMat32 this.offset_inv rotation_matrix) this.offset

/-- The method `Bone::rotate` on `float` matrices. -/
def rotate32 (glmRotate : RotationLib32) (fuel : Nat) (sk : List Bone32) (this : Nat)
    (x y z angle : F32) : Option (List Bone32) :=
  match sk[this]? with
  | none => none
  | some bone =>
    let rotation_matrix := bone.jointRotation (glmRotate x y z angle)
    bone.children.foldlM (fun s child => propagateRotate32 fuel s child rotation_matrix)
      (sk.set this { bone with transforms := mulMat32 bone.transforms rotation_matrix })

/-- The accumulated transform of the bone at an address, on `float` matrices. -/
def transformsAt32 (sk : List Bone32) (b : Nat) : Option Mat32 :=
  (sk[b]?).map Bone32.transforms

/-- Two calls of `Bone::rotate` on `float` matrices, one after the other. -/
def rotateTwo32 (glmRotate : RotationLib32) (fuel : Nat) (sk : List Bone32) (first : Nat)
    (r₁ : F32 × F32 × F32 × F32) (second : Nat) (r₂ : F32 × F32 × F32 × F32) :
    Option (List Bone32) :=
  (rotate32 glmRotate fuel sk first r₁.1 r₁.2.1 r₁.2.2.1 r₁.2.2.2).bind
    (fun s => rotate32 glmRotate fuel s second r₂.1 r₂.2.1 r₂.2.2.1 r₂.2.2.2)

/-- The fields of `struct Vertex` that the skinning step reads, the weights as `float`. -/
structure Vertex32 where
  bone_ids : Fin MAX_BONE_INFLUEN → Int
  bone_weights : Fin MAX_BONE_INFLUEN → F32

/-- The vertex with its weights rounded to `float`. -/
def Vertex.to32 (v : Vertex) : Vertex32 :=
  { bone_ids := v.bone_ids, bone_weights := fun j => round32 (v.bone_weights j) }

/-- One round of the loop over the influencing bones on `float` values:
`partial_pnt = transforms * aux_pnt; interpol_pnt += partial_pnt * weight;
accum_weight += weight`. -/
def skinStep32 (bones : List Bone32) (closest : Vertex32) (aux_pnt : Vec32)
    (acc : Vec32 × F32) (j : Fin MAX_BONE_INFLUENCE) : Vec32 × F32 :=
  if closest.bone_ids j ≤ -1 then acc
  else if (bones.length : Int) ≤ closest.bone_ids j then acc
  else
    match bones[(closest.bone_ids j).toNat]? with
    | some bone =>
      (fun k => acc.1 k + mulVec32 bone.transforms aux_pnt k * closest.bone_weights j,
        acc.2 + closest.bone_weights j)
    | none => acc

/-- The skinning step of `calculateKeypoints` on `float` values: the loop over the four
slots, then `if (accum_weight == 0.0) interpol_pnt = aux_pnt; else interpol_pnt /=
accum_weight`. -/
def skinPoint32 (bones : List Bone32) (closest : Vertex32) (aux_pnt : Vec32) : Vec32 :=
  let sums :=
    (List.finRange MAX_BONE_INFLUENCE).foldl (skinStep32 bones closest aux_pnt) (fun _ => 0, 0)
  if sums.2 = 0 then aux_pnt else fun k => sums.1 k / sums.2

/-- A slot whose bone id passes the two guards of the skinning loop. -/
def ValidSlot32 (bones : List Bone32) (v : Vertex32) (j : Fin MAX_BONE_INFLUENCE) : Prop :=
  -1 < v.bone_ids j ∧ v.bone_ids j < bones.length

instance (bones : List Bone32) (v : Vertex32) (j : Fin MAX_BONE_INFLUENCE) :
    Decidable (ValidSlot32 bones v j) :=
  inferInstanceAs (Decidable (-1 < v.bone_ids j ∧ v.bone_ids j < bones.length))

/-- The accumulated transform of the bone that a slot refers to (zero when it refers to
none), in `float` components. -/
def slotTransform32 (bones : List Bone32) (v : Vertex32) (j : Fin MAX_BONE_INFLUENCE) : Mat32 :=
  match bones[(v.bone_ids j).toNat]? with
  | some bone => bone.transforms
  | none => fun _ _ => 0

/-- The slots that pass the two guards of the skinning loop, in slot order. -/
def validSlots32 (bones : List Bone32) (v : Vertex32) : List (Fin MAX_BONE_INFLUENCE) :=
  (List.finRange MAX_BONE_INFLUENCE).filter (fun j => ValidSlot32 bones v j)

/-- The value of `accum_weight` after the loop: the `float` sum of the weights of the
valid slots, taken in slot order from 0. -/
def accumWeight32 (bones : List Bone32) (v : Vertex32) : F32 :=
  (validSlots32 bones v).foldl (fun a j => a + v.bone_weights j) 0

/-- The value of `interpol_pnt` after the loop: the `float` sum of the points
`(T_j * p) * w_j` of the valid slots, taken in slot order from the zero vector. -/
def accumPoint32 (bones : List Bone32) (v : Vertex32) (p : Vec32) : Vec32 :=
  (validSlots32 bones v).foldl
    (fun s j => fun k => s k + mulVec32 (slotTransform32 bones v j) p k * v.bone_weights j)
    (fun _ => 0)

/-- A `float` value that is finite. -/
def F32.Finite (x : F32) : Prop := ∃ q, x = .fin q ∧ IsF32 q

/-- The `switch (i)` of `calculateKeypoints` on `float` values: every literal is the
`float` nearest to its decimals. -/
def correctiveOffset32 (i : Nat) : Vec32 := toVec32 (correctiveOffset i)

/-- Lines 97 to 131 of `calculateKeypoints` on `float` values. -/
def referencePoint32 (glmInverse : InverseLib32) (keypoint : Fin 3 → F32) (offset : Mat32)
    (i : Nat) : Vec32 :=
  fun k => mulVec32 (glmInverse offset) ![keypoint 0, keypoint 1, keypoint 2, 1] k
    + correctiveOffset32 i k

/-- The conversion `glm::vec3(v)` of a `glm::vec4` of `float` components. -/
def xyz32 (v : Vec32) : Fin 3 → F32 := ![v 0, v 1, v 2]

/-- Lines 97 to 179 for keypoint `i` on `float` values. -/
def skinnedKeypoint32 (glmInverse : InverseLib32) (key_mapping keypoint_bone_map : List Int)
    (bones : List Bone32) (vertices : List Vertex32) (keypoint : Fin 3 → F32) (i : Nat) :
    Option Vec32 :=
  match key_mapping[i]? with
  | none => none
  | some reference_bone =>
    match atIndex bones reference_bone with
    | none => none
    | some bone =>
      match keypoint_bone_map[i]? with
      | none => none
      | some reference_vertex =>
        match atIndex vertices reference_vertex with
        | none => none
        | some closest =>
          some (skinPoint32 bones closest (referencePoint32 glmInverse keypoint bone.offset i))

/-- One round of the loop of `calculateKeypoints` over the keypoints on `float` values. -/
def keypointStep32 (glmInverse : InverseLib32) (key_mapping keypoint_bone_map : List Int)
    (bones : List Bone32) (vertices : List Vertex32) (model : Mat32)
    (keypoints : List (Fin 3 → F32)) (i : Nat) : Option (List (Fin 3 → F32)) :=
  match keypoints[i]? with
  | none => none
  | some keypoint =>
    match skinnedKeypoint32 glmInverse key_mapping keypoint_bone_map bones vertices keypoint i
      with
    | none => none
    | some interpol_pnt => some (keypoints.set i (xyz32 (mulVec32 model interpol_pnt)))

/-- The body of `calculateKeypoints` on `float` values, once the bones, the vertices and
the model transform of the first mesh are at hand. -/
def calculateKeypointsFrom32 (glmInverse : InverseLib32)
    (key_mapping keypoint_bone_map : List Int) (bones : List Bone32)
    (vertices : List Vertex32) (model : Mat32) : Option (List (Fin 3 → F32)) :=
  (List.range key_mapping.length).foldlM
    (keypointStep32 glmInverse key_mapping keypoint_bone_map bones vertices model)
    (List.replicate 21 (fun _ => 0))

/-- All the bones that pointers can lead to, by address, with `float` matrices. -/
abbrev Skeleton32 := List Bone32

/-- The children pointers of the bone at an address (none for a dangling address). -/
def childrenOf32 (sk : Skeleton32) (b : Nat) : List Nat :=
  match sk[b]? with
  | some bone => bone.children
  | none => []

/-- Every children list of the skeleton, one after the other. -/
def allChildren32 : Skeleton32 → List Nat
  | [] => []
  | bone :: rest => bone.children ++ allChildren32 rest

/-- The bone `c` is in the children list of `p`. -/
def IsChild32 (sk : Skeleton32) (p c : Nat) : Prop := c ∈ childrenOf32 sk p

instance (sk : Skeleton32) (p c : Nat) : Decidable (IsChild32 sk p c) :=
  inferInstanceAs (Decidable (c ∈ childrenOf32 sk p))

/-- The bone `d` is a proper descendant of `b`: reachable by one or more children links. -/
def Descendant32 (sk : Skeleton32) (b d : Nat) : Prop := Relation.TransGen (IsChild32 sk) b d

/-- What is reachable from `b` by zero or more children links. -/
def Reach32 (sk : Skeleton32) (b d : Nat) : Prop := Relation.ReflTransGen (IsChild32 sk) b d

/-- The bone graph is a forest: children pointers lead to bones of the skeleton, no
bone is listed twice across all children lists, and there is no cycle (a rank
strictly decreases along every children link). -/
structure Forest32 (sk : Skeleton32) : Prop where
  closed : ∀ p c, IsChild32 sk p c → c < sk.length
  once : (allChildren32 sk).Nodup
  acyclic : ∃ rank : Nat → Nat, ∀ p c, IsChild32 sk p c → rank c < rank p

/-- A bone with everything but the accumulated transform: what rotation must not touch. -/
def Bone32.frame (bone : Bone32) : Bone32 := { bone with transforms := Mat32.one }

/-! ## Concrete data for the examples -/

/-- The rotation matrix that the library builds from the cosine `c` and the sine `s` of
the angle, for a unit axis `(x, y, z)`. -/
def rotationFrom (c s x y z : ℚ) : Mat4 :=
  !![c + (1 - c) * x * x, (1 - c) * x * y - s * z, (1 - c) * x * z + s * y, 0;
     (1 - c) * x * y + s * z, c + (1 - c) * y * y, (1 - c) * y * z - s * x, 0;
     (1 - c) * x * z - s * y, (1 - c) * y * z + s * x, c + (1 - c) * z * z, 0;
     0, 0, 0, 1]

/-- The library at a quarter turn (cosine 0, sine 1); the examples call it with angle 90
and a unit axis. -/
def quarterTurn : RotationLib := fun x y z _ => rotationFrom 0 1 x y z

/-- The matrix of a translation. -/
def translation (tx ty tz : ℚ) : Mat4 :=
  !![1, 0, 0, tx; 0, 1, 0, ty; 0, 0, 1, tz; 0, 0, 0, 1]

/-- The wrist of `handChain`: its joint sits at `(0, 2, 0)`. -/
def wristBone : Bone :=
  { bone_id := 1, offset := translation 0 (-2) 0, offset_inv := translation 0 2 0,
    name := "Wrist", transforms := 1, parent := some 0, children := [2] }

/-- A chain Root -> Wrist -> Finger at rest. -/
def handChain : Skeleton :=
  [ { bone_id := 0, offset := 1, offset_inv := 1, name := "Root", transforms := 1,
      parent := none, children := [1] },
    wristBone,
    { bone_id := 2, offset := translation 0 (-5) 0, offset_inv := translation 0 5 0,
      name := "Finger", transforms := 1, parent := some 1, children := [] } ]

/-- The joint-space quarter turn of the wrist about X. -/
def wristTurnX : Mat4 := !![1, 0, 0, 0; 0, 0, -1, 2; 0, 1, 0, -2; 0, 0, 0, 1]

/-- The joint-space quarter turn of the wrist about Z. -/
def wristTurnZ : Mat4 := !![0, -1, 0, 2; 1, 0, 0, 2; 0, 0, 1, 0; 0, 0, 0, 1]

/-- The wrist of `handChain` after a quarter turn about X. -/
def bentWrist : Bone := { wristBone with transforms := wristTurnX }

/-- The chain `handChain` after `rotate` of the wrist by a quarter turn about X. -/
def bentChain : Skeleton :=
  [ { bone_id := 0, offset := 1, offset_inv := 1, name := "Root", transforms := 1,
      parent := none, children := [1] },
    bentWrist,
    { bone_id := 2, offset := translation 0 (-5) 0, offset_inv := translation 0 5 0,
      name := "Finger", transforms := wristTurnX, parent := some 1, children := [] } ]

/-- The rank used for `handChain`: the root is highest. -/
def chainRank (i : Nat) : Nat := 3 - i

/-- The product `wristTurnX * wristTurnZ`. -/
def wristTurnXZ : Mat4 := !![0, -1, 0, 2; 0, 0, -1, 2; 1, 0, 0, 0; 0, 0, 0, 1]

/-- The product `wristTurnZ * wristTurnX`. -/
def wristTurnZX : Mat4 := !![0, 0, 1, 0; 1, 0, 0, 2; 0, 1, 0, -2; 0, 0, 0, 1]

/-- The wrist of `handChain` after a quarter turn about X and then one about Z. -/
def twistedWrist : Bone := { wristBone with transforms := wristTurnXZ }

/-- The chain `handChain` after a quarter turn of the wrist about X and then one about Z. -/
def twistedChain : Skeleton :=
  [ { bone_id := 0, offset := 1, offset_inv := 1, name := "Root", transforms := 1,
      parent := none, children := [1] },
    twistedWrist,
    { bone_id := 2, offset := translation 0 (-5) 0, offset_inv := translation 0 5 0,
      name := "Finger", transforms := wristTurnZX, parent := some 1, children := [] } ]

/-- A mesh with one vertex, freshly initialised, and no bones. -/
def oneVertexMesh : Mesh :=
  { vertices := [initBoneSlots emptyVertex], transforms := 1, bone_count := 0,
    bone_mapping := [] }

/-- The five influences of the example: bones 0 to 4 with weights 0.9, 0.05, 0.3, 0.2
and 0.95. -/
def fiveInfluences : List (Int × ℚ) :=
  [(0, 9 / 10), (1, 1 / 20), (2, 3 / 10), (3, 1 / 5), (4, 19 / 20)]

/-- The determinant of the 3x3 matrix left when row `i` and column `j` are removed. -/
def minor (m : Mat4) (i j : Fin 4) : ℚ :=
  let a (r c : Fin 3) : ℚ := m (i.succAbove r) (j.succAbove c)
  a 0 0 * (a 1 1 * a 2 2 - a 1 2 * a 2 1) - a 0 1 * (a 1 0 * a 2 2 - a 1 2 * a 2 0)
    + a 0 2 * (a 1 0 * a 2 1 - a 1 1 * a 2 0)

/-- The cofactor of the entry in row `i` and column `j`. -/
def cofactor (m : Mat4) (i j : Fin 4) : ℚ := (-1) ^ (i.val + j.val) * minor m i j

/-- The determinant, expanded along the first row. -/
def det4 (m : Mat4) : ℚ := ∑ j, m 0 j * cofactor m 0 j

/-- The exact inverse of an invertible matrix, by cofactors: the library `glm::inverse`
in the examples. -/
def cofactorInverse : InverseLib := fun m => Matrix.of (fun i j => cofactor m j i / det4 m)

/-- The finger of `twistedChain`. -/
def twistedFinger : Bone :=
  { bone_id := 2, offset := translation 0 (-5) 0, offset_inv := translation 0 5 0,
    name := "Finger", transforms := wristTurnZX, parent := some 1, children := [] }

/-- A vertex with the given slots and the geometry of `emptyVertex`. -/
def vertexWith (ids : Fin MAX_BONE_INFLUEN → Int) (weights : Fin MAX_BONE_INFLUEN → ℚ) : Vertex :=
  { emptyVertex with bone_ids := ids, bone_weights := weights }

/-- A vertex bound only to the finger of `handChain` (bone 2), in slot 1. -/
def fingerVertex : Vertex := vertexWith ![-1, 2, -1, -1] ![0, 1, 0, 0]

/-- A vertex bound only to the root of `handChain` (bone 0), in slot 0. -/
def rootVertex : Vertex := vertexWith ![0, -1, -1, -1] ![1, 0, 0, 0]

/-- A vertex between the wrist and the finger of `handChain`, with a slot that refers to
no bone of the chain (bone id 100). -/
def blendVertex : Vertex := vertexWith ![1, 2, 100, -1] ![1 / 2, 1 / 4, 3, 0]

/-- The nodes of a bone map with 21 bones at rest, keyed `A` to `U`; bone `k` has its
joint at `(k, 0, 0)`. -/
def restNodes : List (String × Bone) :=
  (List.range 21).map (fun k =>
    (String.singleton (Char.ofNat (65 + k)),
      Bone.create cofactorInverse k (translation (-(k : ℚ)) 0 0)
        (String.singleton (Char.ofNat (65 + k)))))

/-- The bones of `restNodes`, by id. -/
def restBones : List Bone := restNodes.map Prod.snd

/-- A mesh with the 21 bones of `restNodes` and 60806 vertices, each of them a copy of
`blendVertex`, one of whose slots holds the bone id 100. -/
def restMesh : Mesh :=
  { vertices := List.replicate 60806 blendVertex, transforms := 1, bone_count := 21,
    bone_mapping := restNodes }

/-- The object with `restMesh` as its only mesh. -/
def restHand : ObjectRigged := { meshes := [restMesh] }

/-- A model transform for the examples: a translation after a scaling by 2. -/
def exampleModel : Mat4 := !![2, 0, 0, 1; 0, 2, 0, 2; 0, 0, 2, 3; 0, 0, 0, 1]

/-- A mesh with the bones of `handChain` under the keys Root, Wrist and Finger. -/
def chainMesh : Mesh :=
  { vertices := [fingerVertex, rootVertex], transforms := 1, bone_count := 3,
    bone_mapping := List.zipWith (fun key bone => (key, bone)) ["Root", "Wrist", "Finger"]
      handChain }

/-- The chain `handChain` after `rotate` of the wrist by a quarter turn about Z. -/
def turnedChain : Skeleton :=
  [ { bone_id := 0, offset := 1, offset_inv := 1, name := "Root", transforms := 1,
      parent := none, children := [1] },
    { wristBone with transforms := wristTurnZ },
    { bone_id := 2, offset := translation 0 (-5) 0, offset_inv := translation 0 5 0,
      name := "Finger", transforms := wristTurnZ, parent := some 1, children := [] } ]

/-- Five influences with different bone ids and the same weight. -/
def fiveTied : List (Int × ℚ) := [(0, 1 / 2), (1, 1 / 2), (2, 1 / 2), (3, 1 / 2), (4, 1 / 2)]

/-- Four bones of a model, the first and the third with the same name. -/
def exampleAiBones : List AiBone :=
  [ { mName := "Root", mOffsetMatrix := 1, mWeights := [(0, 1 / 2)] },
    { mName := "Wrist", mOffsetMatrix := translation 0 (-2) 0, mWeights := [(0, 1 / 4)] },
    { mName := "Root", mOffsetMatrix := 1, mWeights := [] },
    { mName := "Finger", mOffsetMatrix := translation 0 (-5) 0, mWeights := [(0, 1 / 8)] } ]

/-- A mesh with the bones of `handChain` under the keys Root, Wrist and Finger, before
`loadBoneHierarchy` has linked them. -/
def looseChainMesh : Mesh :=
  { vertices := [fingerVertex, rootVertex], transforms := 1, bone_count := 3,
    bone_mapping :=
      [ ("Root", { bone_id := 0, offset := 1, offset_inv := 1, name := "Root",
                   transforms := 1, parent := none, children := [] }),
        ("Wrist", { wristBone with parent := none, children := [] }),
        ("Finger", { bone_id := 2, offset := translation 0 (-5) 0,
                     offset_inv := translation 0 5 0, name := "Finger", transforms := 1,
                     parent := none, children := [] }) ] }

/-- A hierarchy tree: Scene -> Root -> Wrist -> Finger, and a mesh node next to Root;
Scene and HandMesh are not bones. -/
def chainTree : AiNode :=
  .mk "Scene"
    [ .mk "Root" [ .mk "Wrist" [ .mk "Finger" [] ] ],
      .mk "HandMesh" [] ]

/-- The finger of `handChain`: its joint sits at `(0, 5, 0)`. -/
def fingerBone : Bone :=
  { bone_id := 2, offset := translation 0 (-5) 0, offset_inv := translation 0 5 0,
    name := "Finger", transforms := 1, parent := some 1, children := [] }

/-- The root of `handChain`. -/
def rootBone : Bone :=
  { bone_id := 0, offset := 1, offset_inv := 1, name := "Root", transforms := 1,
    parent := none, children := [1] }

/-- A hierarchy tree in which a node named Root has a child named Root. -/
def selfTree : AiNode := .mk "Scene" [ .mk "Root" [ .mk "Root" [] ] ]

/-- A hierarchy tree in which Root has two children named Wrist. -/
def twinTree : AiNode := .mk "Scene" [ .mk "Root" [ .mk "Wrist" [], .mk "Wrist" [] ] ]

/-- A hierarchy tree in which two nodes are named Helper, a name that is no bone:
Scene -> Root -> (Helper, Wrist -> (Helper, Finger)). -/
def helperTree : AiNode :=
  .mk "Scene"
    [ .mk "Root" [ .mk "Helper" [], .mk "Wrist" [ .mk "Helper" [], .mk "Finger" [] ] ] ]

/-- The chain at rest, in `float` components. -/
def handChain32 : List Bone32 := handChain.map Bone.to32

/-- A vertex blended between wrist and finger with the `float` weights nearest to 0.7
and 0.2. -/
def unevenVertex32 : Vertex32 :=
  { bone_ids := ![1, 2, -1, -1], bone_weights := ![round32 0.7, round32 0.2, 0, 0] }

/-- The twisted chain, in `float` components. -/
def twistedChain32 : List Bone32 := twistedChain.map Bone.to32

/-- A vertex blended between wrist and finger with the weights 1/4 and 1/2. -/
def quarterHalfVertex32 : Vertex32 :=
  { bone_ids := ![1, 2, -1, -1], bone_weights := ![.fin (1 / 4), .fin (1 / 2), 0, 0] }

/-- The vertex `quarterHalfVertex32` with its four weights multiplied by 3. -/
def tripledVertex32 : Vertex32 :=
  { quarterHalfVertex32 with
    bone_weights := fun j => .fin 3 * quarterHalfVertex32.bone_weights j }

/-- A vertex bound only to the finger (bone 2), in slot 1, with the `float` weight 1. -/
def fingerVertex32 : Vertex32 :=
  { bone_ids := ![-1, 2, -1, -1], bone_weights := ![0, 1, 0, 0] }

/-- The rational number that a finite `float` value stands for (zero for the others). -/
def F32.toRat : F32 → ℚ
  | .fin q => q
  | _ => 0

/-- A `glm::inverse` for the examples: the exact inverse, rounded to `float`. -/
def exactInverse32 : InverseLib32 :=
  fun m => toMat32 (cofactorInverse (Matrix.of (fun i j => (m i j).toRat)))

/-- The 21 bones of `restNodes`, at rest, in `float` components. -/
def restBones32 : List Bone32 := restBones.map Bone.to32

/-- The 60806 vertices of `restMesh` in `float` components: copies of `blendVertex`, with
the weights 1/2 and 1/4. -/
def restVertices32 : List Vertex32 := List.replicate 60806 blendVertex.to32

/-- A vertex with all four slots unset, as the `Mesh` constructor leaves it. -/
def looseVertex32 : Vertex32 := { bone_ids := fun _ => -1, bone_weights := fun _ => 0 }

/-- 60806 vertices that are bound to no bone. -/
def looseVertices32 : List Vertex32 := List.replicate 60806 looseVertex32

/-- A `glm::rotate` for the examples: the quarter turn about the axis `(x, y, z)`, whose
entries are 0, 1 and -1. -/
def quarterTurn32 : RotationLib32 :=
  fun x y z _ => toMat32 (rotationFrom 0 1 x.toRat y.toRat z.toRat)

/-- A bone at rest whose joint sits at `(0, 1, 0.1f)`, with `0.1f = 13421773 / 2 ^ 27` the
`float` nearest to 0.1. -/
def tenthBone : Bone :=
  { bone_id := 0, offset := translation 0 (-1) (-(13421773 / 134217728)),
    offset_inv := translation 0 1 (13421773 / 134217728), name := "Tenth", transforms := 1,
    parent := none, children := [] }

/-- A chain Root -> Wrist at rest, the joint of the root at `(0, 0, 1)` and that of the
wrist at `(0, 0, 0.3f)`, with `0.3f = 5033165 / 2 ^ 24` the `float` nearest to 0.3. -/
def farChain : Skeleton :=
  [ { bone_id := 0, offset := translation 0 0 (-1), offset_inv := translation 0 0 1,
      name := "Root", transforms := 1, parent := none, children := [1] },
    { bone_id := 1, offset := translation 0 0 (-(5033165 / 16777216)),
      offset_inv := translation 0 0 (5033165 / 16777216), name := "Wrist", transforms := 1,
      parent := some 0, children := [] } ]

/-- The chain Root -> Wrist of `farChain`, in `float` components. -/
def farChain32 : Skeleton32 := farChain.map Bone.to32

/-- The chain `farChain` after a quarter turn of the wrist about X: the wrist holds its
joint-space rotation, whose entries are `float` values. -/
def farTurned : Skeleton :=
  [ { bone_id := 0, offset := translation 0 0 (-1), offset_inv := translation 0 0 1,
      name := "Root", transforms := 1, parent := none, children := [1] },
    { bone_id := 1, offset := translation 0 0 (-(5033165 / 16777216)),
      offset_inv := translation 0 0 (5033165 / 16777216), name := "Wrist",
      transforms :=
        !![1, 0, 0, 0; 0, 0, -1, 5033165 / 16777216; 0, 1, 0, 5033165 / 16777216; 0, 0, 0, 1],
      parent := some 0, children := [] } ]

/-- The skeleton `farTurned`, in `float` components. -/
def farTurned32 : Skeleton32 := farTurned.map Bone.to32

/-! ## Lemmas on the bone graph -/

theorem childrenOf_mem_allChildren {sk : Skeleton} {p c : Nat} (h : c ∈ childrenOf sk p) :
    c ∈ allChildren sk := by
  induction sk generalizing p with
  | nil => simp [childrenOf] at h
  | cons bone rest ih =>
    cases p with
    | zero =>
      simp only [childrenOf, List.getElem?_cons_zero] at h
      simp [allChildren, h]
    | succ p =>
      have h' : c ∈ childrenOf rest p := by
        simpa [childrenOf, List.getElem?_cons_succ] using h
      simp [allChildren, ih h']

theorem childrenOf_nodup {sk : Skeleton} (h : (allChildren sk).Nodup) (p : Nat) :
    (childrenOf sk p).Nodup := by
  induction sk generalizing p with
  | nil => simp [childrenOf]
  | cons bone rest ih =>
    simp only [allChildren, List.nodup_append] at h
    cases p with
    | zero => simpa [childrenOf] using h.1
    | succ p => simpa [childrenOf, List.getElem?_cons_succ] using ih h.2.1 p

theorem parent_unique {sk : Skeleton} (h : (allChildren sk).Nodup) {p q c : Nat}
    (hp : c ∈ childrenOf sk p) (hq : c ∈ childrenOf sk q) : p = q := by
  induction sk generalizing p q with
  | nil => simp [childrenOf] at hp
  | cons bone rest ih =>
    simp only [allChildren, List.nodup_append] at h
    cases p with
    | zero =>
      cases q with
      | zero => rfl
      | succ q =>
        have h1 : c ∈ bone.children := by simpa [childrenOf] using hp
        have h2 : c ∈ childrenOf rest q := by
          simpa [childrenOf, List.getElem?_cons_succ] using hq
        exact absurd (childrenOf_mem_allChildren h2) (fun h3 => h.2.2 h1 h3)
    | succ p =>
      have h1 : c ∈ childrenOf rest p := by
        simpa [childrenOf, List.getElem?_cons_succ] using hp
      cases q with
      | zero =>
        have h2 : c ∈ bone.children := by simpa [childrenOf] using hq
        exact absurd (childrenOf_mem_allChildren h1) (fun h3 => h.2.2 h2 h3)
      | succ q =>
        have h2 : c ∈ childrenOf rest q := by
          simpa [childrenOf, List.getElem?_cons_succ] using hq
        rw [ih h.2.1 h1 h2]

theorem reach_iff {sk : Skeleton} {b d : Nat} : Reach sk b d ↔ d = b ∨ Descendant sk b d :=
  Relation.reflTransGen_iff_eq_or_transGen

theorem rank_le_of_reach {sk : Skeleton} {rank : Nat → Nat}
    (hr : ∀ p c, IsChild sk p c → rank c < rank p) {b d : Nat} (h : Reach sk b d) :
    rank d ≤ rank b := by
  induction h with
  | refl => exact le_rfl
  | tail _ hcd ih => exact le_trans (le_of_lt (hr _ _ hcd)) ih

theorem rank_lt_of_descendant {sk : Skeleton} {rank : Nat → Nat}
    (hr : ∀ p c, IsChild sk p c → rank c < rank p) {b d : Nat} (h : Descendant sk b d) :
    rank d < rank b := by
  obtain ⟨c, hbc, hcd⟩ := Relation.TransGen.head'_iff.mp h
  exact lt_of_le_of_lt (rank_le_of_reach hr hcd) (hr _ _ hbc)

theorem not_descendant_self {sk : Skeleton} (hF : Forest sk) (b : Nat) : ¬ Descendant sk b b := by
  obtain ⟨rank, hr⟩ := hF.acyclic
  exact fun h => lt_irrefl _ (rank_lt_of_descendant hr h)

/-- In a forest the subtrees of two different children of one bone share no bone. -/
theorem siblings_disjoint {sk : Skeleton} (hF : Forest sk) {p c₁ c₂ i : Nat}
    (h₁ : IsChild sk p c₁) (h₂ : IsChild sk p c₂) (hne : c₁ ≠ c₂)
    (r₁ : Reach sk c₁ i) (r₂ : Reach sk c₂ i) : False := by
  obtain ⟨rank, hr⟩ := hF.acyclic
  have U : Relator.RightUnique (Function.swap (IsChild sk)) := by
    intro a b c hab hac
    exact parent_unique hF.once hab hac
  have key : ∀ a b, IsChild sk p a → IsChild sk p b → a ≠ b → Reach sk a b → False := by
    intro a b ha hb hab hreach
    rcases reach_iff.mp hreach with h | h
    · exact hab h.symm
    · obtain ⟨q, haq, hqb⟩ := Relation.TransGen.tail'_iff.mp h
      have hq : q = p := parent_unique hF.once hqb hb
      subst hq
      exact absurd (rank_le_of_reach hr haq) (not_le.mpr (hr _ _ ha))
  rcases Relation.ReflTransGen.total_of_right_unique U
      (Relation.ReflTransGen.swap r₁) (Relation.ReflTransGen.swap r₂) with h | h
  · exact key c₂ c₁ h₂ h₁ (Ne.symm hne) (Relation.reflTransGen_swap.mp h)
  · exact key c₁ c₂ h₁ h₂ hne (Relation.reflTransGen_swap.mp h)

/-! ## What rotation leaves alone -/

theorem frame_length {sk sk' : Skeleton} (h : sk'.map Bone.frame = sk.map Bone.frame) :
    sk'.length = sk.length := by
  simpa using congrArg List.length h

theorem frame_getElem? {sk sk' : Skeleton} (h : sk'.map Bone.frame = sk.map Bone.frame)
    (i : Nat) : (sk'[i]?).map Bone.frame = (sk[i]?).map Bone.frame := by
  have := congrArg (fun l => l[i]?) h
  simpa [List.getElem?_map] using this

theorem frame_childrenOf {sk sk' : Skeleton} (h : sk'.map Bone.frame = sk.map Bone.frame)
    (p : Nat) : childrenOf sk' p = childrenOf sk p := by
  have hp := frame_getElem? h p
  unfold childrenOf
  cases h1 : sk'[p]? with
  | none =>
    cases h2 : sk[p]? with
    | none => rfl
    | some b => simp [h1, h2] at hp
  | some b' =>
    cases h2 : sk[p]? with
    | none => simp [h1, h2] at hp
    | some b =>
      simp only [h1, h2, Option.map_some', Option.some.injEq] at hp
      have hc := congrArg Bone.children hp
      exact hc

theorem frame_set {sk : Skeleton} {b : Nat} {bone : Bone} (h : sk[b]? = some bone) (M : Mat4) :
    (sk.set b { bone with transforms := M }).map Bone.frame = sk.map Bone.frame := by
  apply List.ext_getElem?
  intro i
  simp only [List.getElem?_map, List.getElem?_set]
  by_cases hi : b = i
  · subst hi
    have hlt : b < sk.length := by
      by_contra hc
      rw [List.getElem?_eq_none (not_lt.mp hc)] at h
      cases h
    simp [hlt, h, Bone.frame]
  · simp [hi]

theorem transformsAt_set {sk : Skeleton} {b : Nat} {bone : Bone} (h : sk[b]? = some bone)
    (M : Mat4) (i : Nat) :
    transformsAt (sk.set b { bone with transforms := M }) i
      = if i = b then some M else transformsAt sk i := by
  have hlt : b < sk.length := by
    by_contra hc
    rw [List.getElem?_eq_none (not_lt.mp hc)] at h
    cases h
  unfold transformsAt
  by_cases hi : i = b
  · subst hi
    simp [List.getElem?_set, hlt]
  · have : b ≠ i := fun e => hi e.symm
    simp [List.getElem?_set, this, hi]

/-- The loop over a children list, given what one `propagateRotate` call does. -/
theorem propagate_children {sk₀ : Skeleton} {fuel : Nat} {M : Mat4} {P : Nat → Prop}
    (one : ∀ sk c, sk.map Bone.frame = sk₀.map Bone.frame → P c →
      ∃ sk', propagateRotate fuel sk c M = some sk' ∧
        sk'.map Bone.frame = sk₀.map Bone.frame ∧
        (∀ i, Reach sk₀ c i → transformsAt sk' i = (transformsAt sk i).map (M * ·)) ∧
        (∀ i, ¬ Reach sk₀ c i → transformsAt sk' i = transformsAt sk i)) :
    ∀ (cs : List Nat) (sk : Skeleton), sk.map Bone.frame = sk₀.map Bone.frame →
      (∀ c ∈ cs, P c) →
      cs.Pairwise (fun c₁ c₂ => ∀ i, Reach sk₀ c₁ i → Reach sk₀ c₂ i → False) →
      ∃ sk', cs.foldlM (fun s child => propagateRotate fuel s child M) sk = some sk' ∧
        sk'.map Bone.frame = sk₀.map Bone.frame ∧
        (∀ i, (∃ c ∈ cs, Reach sk₀ c i) → transformsAt sk' i = (transformsAt sk i).map (M * ·)) ∧
        (∀ i, (¬ ∃ c ∈ cs, Reach sk₀ c i) → transformsAt sk' i = transformsAt sk i) := by
  intro cs
  induction cs with
  | nil =>
    intro sk hfr _ _
    exact ⟨sk, rfl, hfr, by simp, by simp⟩
  | cons c cs ih =>
    intro sk hfr hlt hpw
    obtain ⟨sk₁, h1, hfr1, hin1, hout1⟩ := one sk c hfr (hlt c (List.mem_cons_self _ _))
    obtain ⟨hdisj, hpw'⟩ := List.pairwise_cons.mp hpw
    obtain ⟨sk', h2, hfr2, hin2, hout2⟩ :=
      ih sk₁ hfr1 (fun d hd => hlt d (List.mem_cons_of_mem _ hd)) hpw'
    refine ⟨sk', ?_, hfr2, ?_, ?_⟩
    · simp only [List.foldlM_cons, h1]
      exact h2
    · intro i hi
      by_cases hc : Reach sk₀ c i
      · have hno : ¬ ∃ d ∈ cs, Reach sk₀ d i := by
          rintro ⟨d, hd, hdi⟩
          exact hdisj d hd i hc hdi
        rw [hout2 i hno, hin1 i hc]
      · have hrest : ∃ d ∈ cs, Reach sk₀ d i := by
          obtain ⟨d, hd, hdi⟩ := hi
          rcases List.mem_cons.mp hd with e | e
          · exact absurd (e ▸ hdi) hc
          · exact ⟨d, e, hdi⟩
        rw [hin2 i hrest, hout1 i hc]
    · intro i hi
      have hc : ¬ Reach sk₀ c i := fun h => hi ⟨c, List.mem_cons_self _ _, h⟩
      have hrest : ¬ ∃ d ∈ cs, Reach sk₀ d i := by
        rintro ⟨d, hd, hdi⟩
        exact hi ⟨d, List.mem_cons_of_mem _ hd, hdi⟩
      rw [hout2 i hrest, hout1 i hc]

theorem children_pairwise {sk₀ : Skeleton} (hF : Forest sk₀) (p : Nat) :
    (childrenOf sk₀ p).Pairwise
      (fun c₁ c₂ => ∀ i, Reach sk₀ c₁ i → Reach sk₀ c₂ i → False) := by
  have hnd : (childrenOf sk₀ p).Pairwise (fun a b => a ≠ b) := childrenOf_nodup hF.once p
  refine List.Pairwise.imp_of_mem ?_ hnd
  intro a b ha hb hab i r₁ r₂
  exact siblings_disjoint hF ha hb hab r₁ r₂

theorem getElem?_of_frame {sk sk₀ : Skeleton} (h : sk.map Bone.frame = sk₀.map Bone.frame)
    {b : Nat} (hb : b < sk₀.length) : ∃ bone, sk[b]? = some bone := by
  have hlt : b < sk.length := by rw [frame_length h]; exact hb
  exact ⟨sk[b], List.getElem?_eq_getElem hlt⟩

/-- Overwriting the transform of `b` and then running the children loop: `b` keeps the
new value, every proper descendant is multiplied on the left by `M`, the rest is as before. -/
theorem set_then_children {sk₀ : Skeleton} (hF : Forest sk₀) {rank : Nat → Nat}
    (hr : ∀ p c, IsChild sk₀ p c → rank c < rank p) (M N : Mat4) (fuel : Nat)
    (IH : ∀ sk c, sk.map Bone.frame = sk₀.map Bone.frame → (c < sk₀.length ∧ rank c < fuel) →
      ∃ sk', propagateRotate fuel sk c M = some sk' ∧
        sk'.map Bone.frame = sk₀.map Bone.frame ∧
        (∀ i, Reach sk₀ c i → transformsAt sk' i = (transformsAt sk i).map (M * ·)) ∧
        (∀ i, ¬ Reach sk₀ c i → transformsAt sk' i = transformsAt sk i))
    (sk : Skeleton) (b : Nat) (bone : Bone) (hfr : sk.map Bone.frame = sk₀.map Bone.frame)
    (hb : sk[b]? = some bone) (hfuel : rank b ≤ fuel) :
    ∃ sk', bone.children.foldlM (fun s child => propagateRotate fuel s child M)
          (sk.set b { bone with transforms := N }) = some sk' ∧
      sk'.map Bone.frame = sk₀.map Bone.frame ∧
      transformsAt sk' b = some N ∧
      (∀ i, Descendant sk₀ b i → transformsAt sk' i = (transformsAt sk i).map (M * ·)) ∧
      (∀ i, i ≠ b → ¬ Descendant sk₀ b i → transformsAt sk' i = transformsAt sk i) := by
  have hch : bone.children = childrenOf sk₀ b := by
    rw [← frame_childrenOf hfr b]
    simp [childrenOf, hb]
  have hfr1 : (sk.set b { bone with transforms := N }).map Bone.frame = sk₀.map Bone.frame := by
    rw [frame_set hb N]; exact hfr
  have hP : ∀ c ∈ bone.children, c < sk₀.length ∧ rank c < fuel := by
    intro c hc
    rw [hch] at hc
    exact ⟨hF.closed b c hc, lt_of_lt_of_le (hr b c hc) hfuel⟩
  have hpw := children_pairwise hF b
  rw [← hch] at hpw
  obtain ⟨sk', hrun, hfr', hin, hout⟩ := propagate_children IH bone.children _ hfr1 hP hpw
  have hself : ¬ ∃ c ∈ bone.children, Reach sk₀ c b := by
    rintro ⟨c, hc, hcb⟩
    rw [hch] at hc
    exact absurd (rank_le_of_reach hr hcb) (not_le.mpr (hr b c hc))
  refine ⟨sk', hrun, hfr', ?_, ?_, ?_⟩
  · rw [hout b hself, transformsAt_set hb]
    simp
  · intro i hi
    obtain ⟨c, hbc, hci⟩ := Relation.TransGen.head'_iff.mp hi
    have hib : i ≠ b := by
      rintro rfl
      exact not_descendant_self hF _ hi
    have hc : c ∈ bone.children := by rw [hch]; exact hbc
    rw [hin i ⟨c, hc, hci⟩, transformsAt_set hb]
    simp [hib]
  · intro i hib hi
    have hno : ¬ ∃ c ∈ bone.children, Reach sk₀ c i := by
      rintro ⟨c, hc, hci⟩
      rw [hch] at hc
      exact hi (Relation.TransGen.head'_iff.mpr ⟨c, hc, hci⟩)
    rw [hout i hno, transformsAt_set hb]
    simp [hib]

/-- What `propagateRotate` does on a forest, given fuel above the rank of the bone. -/
theorem propagateRotate_spec {sk₀ : Skeleton} (hF : Forest sk₀) {rank : Nat → Nat}
    (hr : ∀ p c, IsChild sk₀ p c → rank c < rank p) (M : Mat4) :
    ∀ (fuel : Nat) (sk : Skeleton) (b : Nat), sk.map Bone.frame = sk₀.map Bone.frame →
      (b < sk₀.length ∧ rank b < fuel) →
      ∃ sk', propagateRotate fuel sk b M = some sk' ∧
        sk'.map Bone.frame = sk₀.map Bone.frame ∧
        (∀ i, Reach sk₀ b i → transformsAt sk' i = (transformsAt sk i).map (M * ·)) ∧
        (∀ i, ¬ Reach sk₀ b i → transformsAt sk' i = transformsAt sk i) := by
  intro fuel
  induction fuel with
  | zero => intro sk b _ h; exact absurd h.2 (Nat.not_lt_zero _)
  | succ fuel ih =>
    intro sk b hfr hb
    obtain ⟨bone, hbone⟩ := getElem?_of_frame hfr hb.1
    obtain ⟨sk', hrun, hfr', hown, hin, hout⟩ :=
      set_then_children hF hr M (M * bone.transforms) fuel ih sk b bone hfr hbone
        (Nat.lt_succ_iff.mp hb.2)
    refine ⟨sk', ?_, hfr', ?_, ?_⟩
    · simp only [propagateRotate, hbone]
      exact hrun
    · intro i hi
      rcases reach_iff.mp hi with h | h
      · subst h
        rw [hown]
        simp [transformsAt, hbone]
      · exact hin i h
    · intro i hi
      have h1 : i ≠ b := fun e => hi (reach_iff.mpr (Or.inl e))
      have h2 : ¬ Descendant sk₀ b i := fun e => hi (reach_iff.mpr (Or.inr e))
      exact hout i h1 h2

/-- What `Bone::rotate` does on a forest: the rotated bone is multiplied on the right by the
joint-space rotation, every proper descendant on the left, everything else is untouched. -/
theorem rotate_spec (glmRotate : RotationLib) {sk : Skeleton} (hF : Forest sk) {rank : Nat → Nat}
    (hr : ∀ p c, IsChild sk p c → rank c < rank p) (b : Nat) (bone : Bone)
    (hb : sk[b]? = some bone) (x y z angle : ℚ) (fuel : Nat) (hfuel : rank b ≤ fuel) :
    ∃ sk', rotate glmRotate fuel sk b x y z angle = some sk' ∧
      sk'.map Bone.frame = sk.map Bone.frame ∧
      transformsAt sk' b
        = some (bone.transforms * bone.jointRotation (glmRotate x y z angle)) ∧
      (∀ i, Descendant sk b i → transformsAt sk' i
        = (transformsAt sk i).map (bone.jointRotation (glmRotate x y z angle) * ·)) ∧
      (∀ i, i ≠ b → ¬ Descendant sk b i → transformsAt sk' i = transformsAt sk i) := by
  obtain ⟨sk', hrun, rest⟩ :=
    set_then_children hF hr (bone.jointRotation (glmRotate x y z angle))
      (bone.transforms * bone.jointRotation (glmRotate x y z angle)) fuel
      (propagateRotate_spec hF hr _ fuel) sk b bone rfl hb hfuel
  refine ⟨sk', ?_, rest⟩
  simp only [rotate, hb]
  exact hrun

/-! ## Facts that hold on every bone graph -/

theorem frame_isChild {sk sk' : Skeleton} (h : sk'.map Bone.frame = sk.map Bone.frame) :
    IsChild sk' = IsChild sk := by
  funext p c
  simp only [IsChild, frame_childrenOf h p]

theorem frame_reach {sk sk' : Skeleton} (h : sk'.map Bone.frame = sk.map Bone.frame) :
    Reach sk' = Reach sk := by
  funext b d
  simp only [Reach, frame_isChild h]

theorem frame_descendant {sk sk' : Skeleton} (h : sk'.map Bone.frame = sk.map Bone.frame) :
    Descendant sk' = Descendant sk := by
  funext b d
  simp only [Descendant, frame_isChild h]

/-- A loop of calls that each keep the frame and touch only what they reach. -/
theorem fold_touches_reach {sk₀ : Skeleton} (f : Skeleton → Nat → Option Skeleton)
    (one : ∀ s c s', s.map Bone.frame = sk₀.map Bone.frame → f s c = some s' →
      s'.map Bone.frame = sk₀.map Bone.frame ∧
        ∀ i, ¬ Reach sk₀ c i → transformsAt s' i = transformsAt s i) :
    ∀ (cs : List Nat) (s s' : Skeleton), s.map Bone.frame = sk₀.map Bone.frame →
      cs.foldlM f s = some s' →
      s'.map Bone.frame = sk₀.map Bone.frame ∧
        ∀ i, (∀ c ∈ cs, ¬ Reach sk₀ c i) → transformsAt s' i = transformsAt s i := by
  intro cs
  induction cs with
  | nil =>
    intro s s' hfr h
    simp only [List.foldlM_nil, Option.pure_def, Option.some.injEq] at h
    subst h
    exact ⟨hfr, fun _ _ => rfl⟩
  | cons c cs ih =>
    intro s s' hfr h
    simp only [List.foldlM_cons, Option.bind_eq_bind] at h
    cases h1 : f s c with
    | none => simp [h1] at h
    | some s₁ =>
      simp only [h1, Option.some_bind] at h
      obtain ⟨hfr1, hout1⟩ := one s c s₁ hfr h1
      obtain ⟨hfr2, hout2⟩ := ih s₁ s' hfr1 h
      refine ⟨hfr2, fun i hi => ?_⟩
      rw [hout2 i (fun d hd => hi d (List.mem_cons_of_mem _ hd)),
        hout1 i (hi c (List.mem_cons_self _ _))]

/-- Whenever `propagateRotate` returns, it has kept every frame and has touched only
bones reachable from where it started. -/
theorem propagateRotate_touches_reach (sk₀ : Skeleton) (M : Mat4) :
    ∀ (fuel : Nat) (s : Skeleton) (c : Nat) (s' : Skeleton),
      s.map Bone.frame = sk₀.map Bone.frame → propagateRotate fuel s c M = some s' →
      s'.map Bone.frame = sk₀.map Bone.frame ∧
        ∀ i, ¬ Reach sk₀ c i → transformsAt s' i = transformsAt s i := by
  intro fuel
  induction fuel with
  | zero => intro s c s' _ h; simp [propagateRotate] at h
  | succ fuel ih =>
    intro s c s' hfr h
    simp only [propagateRotate] at h
    cases hb : s[c]? with
    | none => simp [hb] at h
    | some bone =>
      simp only [hb] at h
      have hfr1 : (s.set c { bone with transforms := M * bone.transforms }).map Bone.frame
          = sk₀.map Bone.frame := by rw [frame_set hb]; exact hfr
      obtain ⟨hfr', hout⟩ :=
        fold_touches_reach (fun s child => propagateRotate fuel s child M)
          (fun s d s' hs hd => ih s d s' hs hd) bone.children _ s' hfr1 h
      refine ⟨hfr', fun i hi => ?_⟩
      have hch : bone.children = childrenOf sk₀ c := by
        rw [← frame_childrenOf hfr c]; simp [childrenOf, hb]
      have hic : i ≠ c := fun e => hi (e ▸ Relation.ReflTransGen.refl)
      rw [hout i ?_, transformsAt_set hb]
      · simp [hic]
      · intro d hd hdi
        rw [hch] at hd
        exact hi (Relation.ReflTransGen.head hd hdi)

/-- On a cycle of children links `propagateRotate` never returns. -/
theorem propagateRotate_cycle (sk₀ : Skeleton) (M : Mat4) :
    ∀ (fuel : Nat) (s : Skeleton) (c : Nat), s.map Bone.frame = sk₀.map Bone.frame →
      Descendant sk₀ c c → propagateRotate fuel s c M = none := by
  intro fuel
  induction fuel with
  | zero => intro s c _ _; rfl
  | succ fuel ih =>
    intro s c hfr hcyc
    simp only [propagateRotate]
    cases hb : s[c]? with
    | none => rfl
    | some bone =>
      simp only []
      have hch : bone.children = childrenOf sk₀ c := by
        rw [← frame_childrenOf hfr c]; simp [childrenOf, hb]
      obtain ⟨y, hcy, hyc⟩ := Relation.TransGen.head'_iff.mp hcyc
      have hy : y ∈ bone.children := by rw [hch]; exact hcy
      have hycyc : Descendant sk₀ y y := Relation.TransGen.trans_right hyc (Relation.TransGen.single hcy)
      have hfr1 : (s.set c { bone with transforms := M * bone.transforms }).map Bone.frame
          = sk₀.map Bone.frame := by rw [frame_set hb]; exact hfr
      have loop : ∀ (cs : List Nat) (t : Skeleton), y ∈ cs →
          t.map Bone.frame = sk₀.map Bone.frame →
          cs.foldlM (fun s child => propagateRotate fuel s child M) t = none := by
        intro cs
        induction cs with
        | nil => intro t h; simp at h
        | cons d ds ihl =>
          intro t hmem hfrt
          simp only [List.foldlM_cons, Option.bind_eq_bind]
          cases h1 : propagateRotate fuel t d M with
          | none => rfl
          | some t₁ =>
            simp only [Option.some_bind]
            rcases List.mem_cons.mp hmem with e | e
            · subst e
              rw [ih t y hfrt hycyc] at h1
              cases h1
            · exact ihl t₁ e (propagateRotate_touches_reach sk₀ M fuel t d t₁ hfrt h1).1
      exact loop bone.children _ hy hfr1

/-- More fuel does not change a result of `propagateRotate`. -/
theorem propagateRotate_mono (M : Mat4) :
    ∀ (fuel : Nat) (s : Skeleton) (c : Nat) (s' : Skeleton),
      propagateRotate fuel s c M = some s' → propagateRotate (fuel + 1) s c M = some s' := by
  intro fuel
  induction fuel with
  | zero => intro s c s' h; simp [propagateRotate] at h
  | succ fuel ih =>
    intro s c s' h
    rw [propagateRotate] at h ⊢
    cases hb : s[c]? with
    | none => simp [hb] at h
    | some bone =>
      simp only [hb] at h ⊢
      have loop : ∀ (cs : List Nat) (t : Skeleton),
          cs.foldlM (fun s child => propagateRotate fuel s child M) t = some s' →
          cs.foldlM (fun s child => propagateRotate (fuel + 1) s child M) t = some s' := by
        intro cs
        induction cs with
        | nil => intro t h; exact h
        | cons d ds ihl =>
          intro t ht
          simp only [List.foldlM_cons, Option.bind_eq_bind] at ht ⊢
          cases h1 : propagateRotate fuel t d M with
          | none => simp [h1] at ht
          | some t₁ =>
            simp only [h1, Option.some_bind] at ht
            rw [ih t d t₁ h1]
            exact ihl t₁ ht
      exact loop bone.children _ h

theorem foldlM_mono {f g : Skeleton → Nat → Option Skeleton}
    (h : ∀ t d t', f t d = some t' → g t d = some t') :
    ∀ (cs : List Nat) (t s' : Skeleton), cs.foldlM f t = some s' → cs.foldlM g t = some s' := by
  intro cs
  induction cs with
  | nil => intro t s' ht; exact ht
  | cons d ds ih =>
    intro t s' ht
    simp only [List.foldlM_cons, Option.bind_eq_bind] at ht ⊢
    cases h1 : f t d with
    | none => simp [h1] at ht
    | some t₁ =>
      simp only [h1, Option.some_bind] at ht
      rw [h t d t₁ h1]
      exact ih t₁ s' ht

theorem propagateRotate_mono_le (M : Mat4) {fuel fuel' : Nat} (hle : fuel ≤ fuel')
    (s : Skeleton) (c : Nat) (s' : Skeleton) (h : propagateRotate fuel s c M = some s') :
    propagateRotate fuel' s c M = some s' := by
  induction hle with
  | refl => exact h
  | step _ ih => exact propagateRotate_mono M _ s c s' ih

/-- More fuel does not change a result of `rotate`. -/
theorem rotate_mono_le (glmRotate : RotationLib) {fuel fuel' : Nat} (hle : fuel ≤ fuel')
    (sk : Skeleton) (b : Nat) (x y z angle : ℚ) (sk' : Skeleton)
    (h : rotate glmRotate fuel sk b x y z angle = some sk') :
    rotate glmRotate fuel' sk b x y z angle = some sk' := by
  unfold rotate at h ⊢
  cases hb : sk[b]? with
  | none => simp [hb] at h
  | some bone =>
    simp only [hb] at h ⊢
    exact foldlM_mono (fun t d t' ht => propagateRotate_mono_le _ hle t d t' ht) _ _ _ h

/-- Any result of `rotate` on a forest is the one described by `rotate_spec`. -/
theorem rotate_result {glmRotate : RotationLib} {sk : Skeleton} (hF : Forest sk) {b : Nat}
    {bone : Bone} (hb : sk[b]? = some bone) {x y z angle : ℚ} {fuel : Nat} {sk' : Skeleton}
    (h : rotate glmRotate fuel sk b x y z angle = some sk') :
    sk'.map Bone.frame = sk.map Bone.frame ∧
      transformsAt sk' b
        = some (bone.transforms * bone.jointRotation (glmRotate x y z angle)) ∧
      (∀ i, Descendant sk b i → transformsAt sk' i
        = (transformsAt sk i).map (bone.jointRotation (glmRotate x y z angle) * ·)) ∧
      (∀ i, i ≠ b → ¬ Descendant sk b i → transformsAt sk' i = transformsAt sk i) := by
  obtain ⟨rank, hr⟩ := hF.acyclic
  obtain ⟨sk'', hrun, hspec⟩ :=
    rotate_spec glmRotate hF hr b bone hb x y z angle (max fuel (rank b)) (le_max_right _ _)
  have h' := rotate_mono_le glmRotate (le_max_left fuel (rank b)) sk b x y z angle sk' h
  rw [h'] at hrun
  cases hrun
  exact hspec

/-- On a forest `rotate` returns, given enough fuel. -/
theorem rotate_returns (glmRotate : RotationLib) {sk : Skeleton} (hF : Forest sk) {b : Nat}
    {bone : Bone} (hb : sk[b]? = some bone) (x y z angle : ℚ) :
    ∃ fuel₀, ∀ fuel, fuel₀ ≤ fuel →
      ∃ sk', rotate glmRotate fuel sk b x y z angle = some sk' := by
  obtain ⟨rank, hr⟩ := hF.acyclic
  refine ⟨rank b, fun fuel hfuel => ?_⟩
  obtain ⟨sk', hrun, _⟩ := rotate_spec glmRotate hF hr b bone hb x y z angle fuel hfuel
  exact ⟨sk', hrun⟩

/-- On every bone graph, a `rotate` that returns has multiplied the rotated bone on the
right by its joint-space rotation and kept every frame. -/
theorem rotate_own {glmRotate : RotationLib} {sk : Skeleton} {b : Nat} {bone : Bone}
    (hb : sk[b]? = some bone) {x y z angle : ℚ} {fuel : Nat} {sk' : Skeleton}
    (h : rotate glmRotate fuel sk b x y z angle = some sk') :
    sk'.map Bone.frame = sk.map Bone.frame ∧
      transformsAt sk' b
        = some (bone.transforms * bone.jointRotation (glmRotate x y z angle)) := by
  unfold rotate at h
  simp only [hb] at h
  have hfr1 := frame_set hb (bone.transforms * bone.jointRotation (glmRotate x y z angle))
  have hch : bone.children = childrenOf sk b := by simp [childrenOf, hb]
  obtain ⟨hfr', hout⟩ :=
    fold_touches_reach
      (fun s child => propagateRotate fuel s child (bone.jointRotation (glmRotate x y z angle)))
      (fun s d s' hs hd => propagateRotate_touches_reach sk _ fuel s d s' hs hd)
      bone.children _ sk' hfr1 h
  refine ⟨hfr', ?_⟩
  by_cases hcyc : ∃ c ∈ bone.children, Reach sk c b
  · exfalso
    obtain ⟨c, hc, hcb⟩ := hcyc
    rw [hch] at hc
    have hcc : Descendant sk c c := Relation.TransGen.trans_right hcb (Relation.TransGen.single hc)
    have loop : ∀ (cs : List Nat) (t : Skeleton), c ∈ cs →
        t.map Bone.frame = sk.map Bone.frame →
        cs.foldlM (fun s child =>
          propagateRotate fuel s child (bone.jointRotation (glmRotate x y z angle))) t = none := by
      intro cs
      induction cs with
      | nil => intro t hm; simp at hm
      | cons d ds ihl =>
        intro t hmem hfrt
        simp only [List.foldlM_cons, Option.bind_eq_bind]
        cases h1 : propagateRotate fuel t d (bone.jointRotation (glmRotate x y z angle)) with
        | none => rfl
        | some t₁ =>
          simp only [Option.some_bind]
          rcases List.mem_cons.mp hmem with e | e
          · subst e
            rw [propagateRotate_cycle sk _ fuel t c hfrt hcc] at h1
            cases h1
          · exact ihl t₁ e (propagateRotate_touches_reach sk _ fuel t d t₁ hfrt h1).1
    rw [loop bone.children _ (hch ▸ hc) hfr1] at h
    cases h
  · rw [hout b (fun c hc hcb => hcyc ⟨c, hc, hcb⟩), transformsAt_set hb]
    simp

/-- A forest from three checks that can be evaluated. -/
theorem forest_of_checks {sk : Skeleton} (rank : Nat → Nat)
    (h1 : ∀ c ∈ allChildren sk, c < sk.length) (h2 : (allChildren sk).Nodup)
    (h3 : ∀ p < sk.length, ∀ c ∈ childrenOf sk p, rank c < rank p) : Forest sk := by
  refine ⟨fun p c hc => h1 c (childrenOf_mem_allChildren hc), h2, rank, fun p c hc => ?_⟩
  by_cases hp : p < sk.length
  · exact h3 p hp c hc
  · simp [IsChild, childrenOf, List.getElem?_eq_none (not_lt.mp hp)] at hc

theorem handChain_forest : Forest handChain :=
  forest_of_checks chainRank (by decide) (by decide) (by decide)

theorem bentChain_forest : Forest bentChain :=
  forest_of_checks chainRank (by decide) (by decide) (by decide)

theorem handChain_wrist_finger : Descendant handChain 1 2 :=
  Relation.TransGen.single (by decide)

theorem handChain_root_wrist : Descendant handChain 0 1 :=
  Relation.TransGen.single (by decide)

theorem frame_fields {sk sk' : Skeleton} (h : sk'.map Bone.frame = sk.map Bone.frame)
    {i : Nat} {old : Bone} (hi : sk[i]? = some old) :
    ∃ new, sk'[i]? = some new ∧ new.bone_id = old.bone_id ∧ new.name = old.name ∧
      new.offset = old.offset ∧ new.offset_inv = old.offset_inv ∧
      new.parent = old.parent ∧ new.children = old.children := by
  have hp := frame_getElem? h i
  cases h1 : sk'[i]? with
  | none => simp [h1, hi] at hp
  | some new =>
    simp only [h1, hi, Option.map_some', Option.some.injEq] at hp
    have e1 := congrArg Bone.bone_id hp
    have e2 := congrArg Bone.name hp
    have e3 := congrArg Bone.offset hp
    have e4 := congrArg Bone.offset_inv hp
    have e5 := congrArg Bone.parent hp
    have e6 := congrArg Bone.children hp
    exact ⟨new, rfl, e1, e2, e3, e4, e5, e6⟩

/-! ## Rotation: the claims -/

/-- C1: on a forest skeleton `Bone::rotate` on a bone `b` returns, and every proper
descendant `d` of `b` ends with the accumulated transform `J * T_D`, where `T_D` is its
transform before the call and `J = b.offset_inv * R * b.offset` with `R` the rotation
matrix of the axis and angle: the same `J` for every descendant, applied once. -/
theorem rotate_descendants_left_mul (glmRotate : RotationLib) (sk : Skeleton)
    (hF : Forest sk) (b : Nat) (bone : Bone) (hb : sk[b]? = some bone) (x y z angle : ℚ) :
    (∃ fuel sk', rotate glmRotate fuel sk b x y z angle = some sk') ∧
    ∀ fuel sk', rotate glmRotate fuel sk b x y z angle = some sk' →
      ∀ d T_D, Descendant sk b d → transformsAt sk d = some T_D →
        transformsAt sk' d
          = some (bone.offset_inv * glmRotate x y z angle * bone.offset * T_D) := by
  constructor
  · obtain ⟨fuel₀, h⟩ := rotate_returns glmRotate hF hb x y z angle
    obtain ⟨sk', hrun⟩ := h fuel₀ le_rfl
    exact ⟨fuel₀, sk', hrun⟩
  · intro fuel sk' hrun d T_D hd hT
    obtain ⟨_, _, hin, _⟩ := rotate_result hF hb hrun
    rw [hin d hd, hT]
    rfl

/-- C1, on the chain Root -> Wrist -> Finger: a quarter turn of the wrist about X gives
the finger the joint-space rotation of the wrist. -/
theorem rotate_descendants_left_mul_witness :
    Forest handChain ∧ handChain[1]? = some wristBone ∧ Descendant handChain 1 2 ∧
      rotate quarterTurn 2 handChain 1 1 0 0 90 = some bentChain ∧
      transformsAt bentChain 2
        = some (wristBone.offset_inv * quarterTurn 1 0 0 90 * wristBone.offset * 1) :=
  ⟨handChain_forest, by decide!, handChain_wrist_finger, by decide!,
    (rotate_descendants_left_mul quarterTurn handChain handChain_forest 1 wristBone
      (by decide!) 1 0 0 90).2 2 bentChain (by decide!) 2 1 handChain_wrist_finger
      (by decide!)⟩

/-- C2: whenever `Bone::rotate` on a bone with accumulated transform `T_B` returns, the
bone's own accumulated transform is `T_B * J` with `J = offset_inv * R * offset`
(multiplication on the right); on a forest skeleton the call does return. -/
theorem rotate_own_right_mul (glmRotate : RotationLib) (sk : Skeleton) (b : Nat) (bone : Bone)
    (hb : sk[b]? = some bone) (x y z angle : ℚ) :
    (Forest sk → ∃ fuel sk', rotate glmRotate fuel sk b x y z angle = some sk') ∧
    ∀ fuel sk', rotate glmRotate fuel sk b x y z angle = some sk' →
      transformsAt sk' b
        = some (bone.transforms * (bone.offset_inv * glmRotate x y z angle * bone.offset)) := by
  constructor
  · intro hF
    obtain ⟨fuel₀, h⟩ := rotate_returns glmRotate hF hb x y z angle
    obtain ⟨sk', hrun⟩ := h fuel₀ le_rfl
    exact ⟨fuel₀, sk', hrun⟩
  · intro fuel sk' hrun
    exact (rotate_own hb hrun).2

/-- C2, on the chain whose wrist was turned about X: a quarter turn about Z then gives
the wrist `T_B * J`. -/
theorem rotate_own_right_mul_witness :
    bentChain[1]? = some bentWrist ∧
      rotate quarterTurn 2 bentChain 1 0 0 1 90 = some twistedChain ∧
      transformsAt twistedChain 1
        = some (bentWrist.transforms
            * (bentWrist.offset_inv * quarterTurn 0 0 1 90 * bentWrist.offset)) :=
  ⟨by decide!, by decide!,
    (rotate_own_right_mul quarterTurn bentChain 1 bentWrist (by decide!) 0 0 1 90).2 2
      twistedChain (by decide!)⟩

/-- C3 fails: the wrist of `bentChain` (the chain after a quarter turn of the wrist about
X) holds `T_B = wristTurnX`; after a quarter turn about Z its transform is not `J * T_B`. -/
theorem rotate_own_left_mul_counterexample :
    rotate quarterTurn 2 handChain 1 1 0 0 90 = some bentChain ∧
      bentChain[1]? = some bentWrist ∧
      rotate quarterTurn 2 bentChain 1 0 0 1 90 = some twistedChain ∧
      transformsAt twistedChain 1 = some wristTurnXZ ∧
      (bentWrist.offset_inv * quarterTurn 0 0 1 90 * bentWrist.offset) * bentWrist.transforms
        = wristTurnZX ∧
      transformsAt twistedChain 1
        ≠ some ((bentWrist.offset_inv * quarterTurn 0 0 1 90 * bentWrist.offset)
            * bentWrist.transforms) := by
  decide!

/-- C3 amended: `Bone::rotate` multiplies the rotated bone's own accumulated transform on
the right: every run that returns, on any bone graph, leaves `T_B * J` with
`J = offset_inv * R * offset`, and on a forest skeleton the run returns (given enough
fuel); `T_B * J` is `J * T_B` when `T_B` and `J` commute, as they do for a bone at rest
(`T_B` the identity). -/
theorem rotate_own_left_mul_when_commute (glmRotate : RotationLib) (sk : Skeleton)
    (b : Nat) (bone : Bone) (hb : sk[b]? = some bone) (x y z angle : ℚ) :
    (Forest sk → ∃ fuel₀, ∀ fuel, fuel₀ ≤ fuel →
      ∃ sk', rotate glmRotate fuel sk b x y z angle = some sk') ∧
    ∀ fuel sk', rotate glmRotate fuel sk b x y z angle = some sk' →
      transformsAt sk' b
        = some (bone.transforms * (bone.offset_inv * glmRotate x y z angle * bone.offset)) ∧
      (Commute bone.transforms (bone.offset_inv * glmRotate x y z angle * bone.offset) →
        transformsAt sk' b
          = some ((bone.offset_inv * glmRotate x y z angle * bone.offset) * bone.transforms)) ∧
      (bone.transforms = 1 →
        transformsAt sk' b
          = some ((bone.offset_inv * glmRotate x y z angle * bone.offset) * bone.transforms)) := by
  refine ⟨fun hF => rotate_returns glmRotate hF hb x y z angle, fun fuel sk' hrun => ?_⟩
  have h := (rotate_own hb hrun).2
  refine ⟨h, fun hc => ?_, fun h1 => ?_⟩
  · rw [h]
    exact congrArg some hc.eq
  · rw [h, h1]
    simp [Bone.jointRotation]

/-- C3 amended, on the chain at rest, a quarter turn of the wrist about X; and on the bent
chain, where the wrist holds `wristTurnX`, a quarter turn about Z: the wrist ends with
`T_B * J`. -/
theorem rotate_own_left_mul_when_commute_witness :
    Forest handChain ∧ handChain[1]? = some wristBone ∧
      rotate quarterTurn 2 handChain 1 1 0 0 90 = some bentChain ∧
      transformsAt bentChain 1
        = some ((wristBone.offset_inv * quarterTurn 1 0 0 90 * wristBone.offset)
            * wristBone.transforms) ∧
      (∃ fuel₀, ∀ fuel, fuel₀ ≤ fuel →
        ∃ sk', rotate quarterTurn fuel bentChain 1 0 0 1 90 = some sk') ∧
      transformsAt twistedChain 1
        = some (bentWrist.transforms
            * (bentWrist.offset_inv * quarterTurn 0 0 1 90 * bentWrist.offset)) :=
  ⟨handChain_forest, by decide!, by decide!,
    ((rotate_own_left_mul_when_commute quarterTurn handChain 1 wristBone
      (by decide!) 1 0 0 90).2 2 bentChain (by decide!)).2.2 (by decide!),
    (rotate_own_left_mul_when_commute quarterTurn bentChain 1 bentWrist
      (by decide!) 0 0 1 90).1 bentChain_forest,
    ((rotate_own_left_mul_when_commute quarterTurn bentChain 1 bentWrist
      (by decide!) 0 0 1 90).2 2 twistedChain (by decide!)).1⟩

/-- C4: on a forest skeleton `Bone::rotate` on `b` returns and leaves the accumulated
transform of every bone that is neither `b` nor a descendant of `b` as it was, in
particular that of every ancestor of `b`; the number of bones and the id, name, offset,
offset_inv, parent and children of every bone are unchanged. -/
theorem rotate_frame (glmRotate : RotationLib) (sk : Skeleton) (hF : Forest sk) (b : Nat)
    (bone : Bone) (hb : sk[b]? = some bone) (x y z angle : ℚ) :
    (∃ fuel sk', rotate glmRotate fuel sk b x y z angle = some sk') ∧
    ∀ fuel sk', rotate glmRotate fuel sk b x y z angle = some sk' →
      (∀ i, i ≠ b → ¬ Descendant sk b i → transformsAt sk' i = transformsAt sk i) ∧
      (∀ a, Descendant sk a b → transformsAt sk' a = transformsAt sk a) ∧
      sk'.length = sk.length ∧
      (∀ (i : Nat) (old : Bone), sk[i]? = some old →
        ∃ new : Bone, sk'[i]? = some new ∧ new.bone_id = old.bone_id ∧ new.name = old.name ∧
          new.offset = old.offset ∧ new.offset_inv = old.offset_inv ∧
          new.parent = old.parent ∧ new.children = old.children) := by
  constructor
  · obtain ⟨fuel₀, h⟩ := rotate_returns glmRotate hF hb x y z angle
    obtain ⟨sk', hrun⟩ := h fuel₀ le_rfl
    exact ⟨fuel₀, sk', hrun⟩
  · intro fuel sk' hrun
    obtain ⟨hfr, _, _, hout⟩ := rotate_result hF hb hrun
    refine ⟨hout, fun a ha => ?_, frame_length hfr, fun i old hi => frame_fields hfr hi⟩
    have hab : a ≠ b := by
      rintro rfl
      exact not_descendant_self hF _ ha
    have hba : ¬ Descendant sk b a := fun h =>
      not_descendant_self hF _ (Relation.TransGen.trans ha h)
    exact hout a hab hba

/-- C4, on the chain Root -> Wrist -> Finger: a quarter turn of the wrist leaves the root,
an ancestor, at the identity. -/
theorem rotate_frame_witness :
    Forest handChain ∧ handChain[1]? = some wristBone ∧ Descendant handChain 0 1 ∧
      rotate quarterTurn 2 handChain 1 1 0 0 90 = some bentChain ∧
      transformsAt bentChain 0 = transformsAt handChain 0 :=
  ⟨handChain_forest, by decide!, handChain_root_wrist, by decide!,
    ((rotate_frame quarterTurn handChain handChain_forest 1 wristBone (by decide!)
      1 0 0 90).2 2 bentChain (by decide!)).2.1 0 handChain_root_wrist⟩

/-! ## The joint centre -/

/-! ## Several rotations of one bone -/

theorem forest_of_frame {sk sk' : Skeleton} (h : sk'.map Bone.frame = sk.map Bone.frame)
    (hF : Forest sk) : Forest sk' := by
  have hall : allChildren sk' = allChildren sk := by
    have aux : ∀ l : Skeleton, allChildren l = ((l.map Bone.frame).map Bone.children).flatten := by
      intro l
      induction l with
      | nil => rfl
      | cons a l ih => simp [allChildren, ih, Bone.frame]
    rw [aux, aux, h]
  refine ⟨?_, ?_, ?_⟩
  · intro p c hc
    rw [frame_isChild h] at hc
    rw [frame_length h]
    exact hF.closed p c hc
  · rw [hall]; exact hF.once
  · obtain ⟨rank, hr⟩ := hF.acyclic
    exact ⟨rank, fun p c hc => hr p c (by rw [frame_isChild h] at hc; exact hc)⟩

theorem jointRotation_of_frame {a b : Bone} (h : a.frame = b.frame) (R : Mat4) :
    a.jointRotation R = b.jointRotation R := by
  have e1 := congrArg Bone.offset h
  have e2 := congrArg Bone.offset_inv h
  simp only [Bone.frame] at e1 e2
  simp [Bone.jointRotation, e1, e2]

theorem frame_bone {sk sk' : Skeleton} (h : sk'.map Bone.frame = sk.map Bone.frame)
    {i : Nat} {a b : Bone} (ha : sk'[i]? = some a) (hb : sk[i]? = some b) :
    a.frame = b.frame := by
  have hp := frame_getElem? h i
  simpa [ha, hb] using hp

theorem transformsAt_of_atRest {sk : Skeleton} (h : AtRest sk) {i : Nat} (hi : i < sk.length) :
    transformsAt sk i = some 1 := by
  simp only [transformsAt, List.getElem?_eq_getElem hi, Option.map_some', Option.some.injEq]
  exact h _ (List.getElem_mem _)

/-- C7: `Bone::resetTransforms` on a bone of any skeleton state returns, leaves the bone
with the identity as accumulated transform and every other field as it was, leaves every
other bone as it was, and a second call changes nothing more; this holds in particular
for the state left by a `rotate` or a `propagateRotate`. `Mesh::resetBones` leaves every bone of the bone map
with the identity, keeps the keys and every other field, and is idempotent. -/
theorem reset_identity (sk : Skeleton) (b : Nat) (bone : Bone) (hb : sk[b]? = some bone) :
    (∃ sk', resetTransforms sk b = some sk' ∧
      transformsAt sk' b = some 1 ∧
      resetTransforms sk' b = some sk' ∧
      sk'[b]? = some { bone with transforms := 1 } ∧
      sk'.length = sk.length ∧
      ∀ i, i ≠ b → sk'[i]? = sk[i]?) ∧
    (∀ (glmRotate : RotationLib) (x y z angle : ℚ) (fuel : Nat) (sk₁ : Skeleton),
      rotate glmRotate fuel sk b x y z angle = some sk₁ →
      ∃ sk', resetTransforms sk₁ b = some sk' ∧ transformsAt sk' b = some 1) ∧
    (∀ (propagate : Mat4) (fuel : Nat) (a : Nat) (sk₁ : Skeleton),
      propagateRotate fuel sk a propagate = some sk₁ →
      ∃ sk', resetTransforms sk₁ b = some sk' ∧ transformsAt sk' b = some 1) ∧
    (∀ m : Mesh,
      (∀ node ∈ m.resetBones.bone_mapping, node.2.transforms = 1) ∧
      m.resetBones.bone_mapping.map (fun node => (node.1, node.2.frame))
        = m.bone_mapping.map (fun node => (node.1, node.2.frame)) ∧
      m.resetBones.vertices = m.vertices ∧ m.resetBones.transforms = m.transforms ∧
      m.resetBones.bone_count = m.bone_count ∧
      m.resetBones.resetBones = m.resetBones) := by
  have hlt : b < sk.length := by
    by_contra hc
    rw [List.getElem?_eq_none (not_lt.mp hc)] at hb
    cases hb
  have reset_at : ∀ (s : Skeleton) (a : Bone), s[b]? = some a →
      ∃ s', resetTransforms s b = some s' ∧ transformsAt s' b = some 1 := by
    intro s a ha
    have hl : b < s.length := by
      by_contra hc
      rw [List.getElem?_eq_none (not_lt.mp hc)] at ha
      cases ha
    refine ⟨s.set b a.resetTransforms, by simp [resetTransforms, ha], ?_⟩
    simp [transformsAt, List.getElem?_set, hl, Bone.resetTransforms]
  refine ⟨⟨sk.set b bone.resetTransforms, by simp [resetTransforms, hb], ?_, ?_, ?_, ?_, ?_⟩,
    ?_, ?_, ?_⟩
  · simp [transformsAt, List.getElem?_set, hlt, Bone.resetTransforms]
  · simp [resetTransforms, List.getElem?_set, hlt, Bone.resetTransforms]
  · simp [List.getElem?_set, hlt, Bone.resetTransforms]
  · simp
  · intro i hi
    simp [List.getElem?_set, Ne.symm hi]
  · intro glmRotate x y z angle fuel sk₁ hrun
    obtain ⟨a, ha, _⟩ := frame_fields (rotate_own hb hrun).1 hb
    exact reset_at sk₁ a ha
  · intro propagate fuel a sk₁ hrun
    obtain ⟨c, hc, _⟩ :=
      frame_fields (propagateRotate_touches_reach sk propagate fuel sk a sk₁ rfl hrun).1 hb
    exact reset_at sk₁ c hc
  · intro m
    refine ⟨?_, ?_, rfl, rfl, rfl, ?_⟩
    · intro node hnode
      simp only [Mesh.resetBones, List.mem_map] at hnode
      obtain ⟨n, _, rfl⟩ := hnode
      rfl
    · simp [Mesh.resetBones, Bone.resetTransforms, Bone.frame]
    · simp [Mesh.resetBones, Bone.resetTransforms]

/-- C7, on the chain after its two quarter turns: resetting the wrist gives the identity. -/
theorem reset_identity_witness :
    twistedChain[1]? = some twistedWrist ∧
      ∃ sk', resetTransforms twistedChain 1 = some sk' ∧ transformsAt sk' 1 = some 1 :=
  ⟨by decide!,
    let ⟨sk', h1, h2, _⟩ := (reset_identity twistedChain 1 twistedWrist (by decide!)).1
    ⟨sk', h1, h2⟩⟩

/-! ## Vertex bone slots -/

theorem finRange_four : List.finRange MAX_BONE_INFLUEN = [0, 1, 2, 3] := by decide

/-- The scan returns a slot that holds the minimum weight, the first such slot. -/
theorem lowestWeight_spec (w : Fin MAX_BONE_INFLUEN → ℚ) :
    w (lowestWeight w).1 = (lowestWeight w).2 ∧
      (∀ j, (lowestWeight w).2 ≤ w j) ∧
      (∀ j, j < (lowestWeight w).1 → (lowestWeight w).2 < w j) := by
  simp only [lowestWeight, finRange_four, List.foldl]
  split_ifs <;> refine ⟨rfl, ?_, ?_⟩ <;> intro j <;> fin_cases j <;>
    simp_all <;> (try intros) <;> linarith

/-- The minimum weight and the first slot that holds it are what the scan returns. -/
theorem lowestWeight_unique (w : Fin MAX_BONE_INFLUEN → ℚ) (k : Fin MAX_BONE_INFLUEN) (lo : ℚ)
    (hk : w k = lo) (hmin : ∀ j, lo ≤ w j) (hfirst : ∀ j, j < k → lo < w j) :
    lowestWeight w = (k, lo) := by
  obtain ⟨h1, h2, h3⟩ := lowestWeight_spec w
  have hlo : (lowestWeight w).2 = lo :=
    le_antisymm (hk ▸ h2 k) (h1 ▸ hmin _)
  have hidx : (lowestWeight w).1 = k := by
    rcases lt_trichotomy (lowestWeight w).1 k with h | h | h
    · have := hfirst _ h
      rw [h1, hlo] at this
      exact absurd this (lt_irrefl _)
    · exact h
    · have := h3 _ h
      rw [hk, hlo] at this
      exact absurd this (lt_irrefl _)
  exact Prod.ext hidx hlo

theorem updateVertexBones_eq {m : Mesh} {vertex_id : Int} {v : Vertex} (hid : 0 ≤ vertex_id)
    (hv : m.vertices[vertex_id.toNat]? = some v) (bone_id : Int) (weight : ℚ) :
    m.updateVertexBones vertex_id bone_id weight
      = some { m with vertices := m.vertices.set vertex_id.toNat (v.updateBones bone_id weight) } := by
  simp [Mesh.updateVertexBones, not_lt.mpr hid, hv]

theorem getElem?_lt {α : Type} {l : List α} {i : Nat} {a : α} (h : l[i]? = some a) :
    i < l.length := by
  by_contra hc
  rw [List.getElem?_eq_none (not_lt.mp hc)] at h
  cases h

/-- C9: one call of `Mesh::updateVertexBones` on an existing vertex. With `lo` the minimum
of the four slot weights and `k` the lowest slot index whose weight is `lo`: the call
returns; if `weight > lo`, slot `k` becomes `(bone_id, weight)` and the other slots are
unchanged; if `weight <= lo` the vertex is unchanged. The other fields of the vertex,
every other vertex and the rest of the mesh are unchanged in both cases. -/
theorem updateVertexBones_step (m : Mesh) (vertex_id : Int) (v : Vertex) (bone_id : Int)
    (weight : ℚ) (hid : 0 ≤ vertex_id) (hv : m.vertices[vertex_id.toNat]? = some v)
    (k : Fin MAX_BONE_INFLUEN) (lo : ℚ) (hk : v.bone_weights k = lo)
    (hmin : ∀ j, lo ≤ v.bone_weights j) (hfirst : ∀ j, j < k → lo < v.bone_weights j) :
    ∃ (m' : Mesh) (v' : Vertex),
      m.updateVertexBones vertex_id bone_id weight = some m' ∧
      m'.vertices[vertex_id.toNat]? = some v' ∧
      (lo < weight →
        v'.bone_ids k = bone_id ∧ v'.bone_weights k = weight ∧
        ∀ j, j ≠ k → v'.bone_ids j = v.bone_ids j ∧ v'.bone_weights j = v.bone_weights j) ∧
      (weight ≤ lo → v' = v) ∧
      (v'.position = v.position ∧ v'.normal = v.normal ∧ v'.color = v.color ∧
        v'.uv = v.uv ∧ v'.tangent = v.tangent ∧ v'.bitangent = v.bitangent) ∧
      m'.vertices.length = m.vertices.length ∧
      (∀ i, i ≠ vertex_id.toNat → m'.vertices[i]? = m.vertices[i]?) ∧
      m'.transforms = m.transforms ∧ m'.bone_count = m.bone_count ∧
      m'.bone_mapping = m.bone_mapping := by
  have hlow := lowestWeight_unique v.bone_weights k lo hk hmin hfirst
  have hlt := getElem?_lt hv
  refine ⟨_, v.updateBones bone_id weight, updateVertexBones_eq hid hv bone_id weight, ?_,
    ?_, ?_, ?_, ?_, ?_, rfl, rfl, rfl⟩
  · simp [List.getElem?_set, hlt]
  · intro h
    simp only [Vertex.updateBones, hlow, h, if_true]
    refine ⟨by simp, by simp, fun j hj => ?_⟩
    simp [Function.update_noteq hj]
  · intro h
    simp [Vertex.updateBones, hlow, not_lt.mpr h]
  · simp only [Vertex.updateBones]
    split_ifs <;> simp
  · simp
  · intro i hi
    simp [List.getElem?_set, Ne.symm hi]

/-- C9, on the fresh vertex of `oneVertexMesh`: the minimum is 0 at slot 0, and binding
bone 7 with weight 1/2 puts it into slot 0. -/
theorem updateVertexBones_step_witness :
    ∃ (m' : Mesh) (v' : Vertex),
      oneVertexMesh.updateVertexBones 0 7 (1 / 2) = some m' ∧
      m'.vertices[(0 : Int).toNat]? = some v' ∧
      v'.bone_ids 0 = 7 ∧ v'.bone_weights 0 = 1 / 2 :=
  let ⟨m', v', h1, h2, h3, _⟩ :=
    updateVertexBones_step oneVertexMesh 0 (initBoneSlots emptyVertex) 7 (1 / 2)
      (by decide) (by decide!) 0 0 (by decide!) (by decide!) (by decide)
  ⟨m', v', h1, h2, (h3 (by decide!)).1, (h3 (by decide!)).2.1⟩

/-- The loop of the constructor leaves every slot with bone id -1 and weight 0. -/
theorem initBoneSlots_fresh (v : Vertex) (k : Fin MAX_BONE_INFLUEN) :
    (initBoneSlots v).bone_ids k = -1 ∧ (initBoneSlots v).bone_weights k = 0 := by
  simp only [initBoneSlots, finRange_four, List.foldl]
  fin_cases k <;> simp [Function.update]

/-- One call keeps every slot either unset or holding a non-negative bone id with a
positive weight that satisfies `P`, when the bound pair satisfies `P`. -/
theorem updateBones_slots (v : Vertex) (bone_id : Int) (weight : ℚ) (P : Int → ℚ → Prop)
    (hbone : 0 ≤ bone_id) (hP : P bone_id weight)
    (hv : ∀ k, (v.bone_ids k = -1 ∧ v.bone_weights k = 0) ∨
      (0 ≤ v.bone_ids k ∧ 0 < v.bone_weights k ∧ P (v.bone_ids k) (v.bone_weights k))) :
    ∀ k, ((v.updateBones bone_id weight).bone_ids k = -1 ∧
        (v.updateBones bone_id weight).bone_weights k = 0) ∨
      (0 ≤ (v.updateBones bone_id weight).bone_ids k ∧
        0 < (v.updateBones bone_id weight).bone_weights k ∧
        P ((v.updateBones bone_id weight).bone_ids k)
          ((v.updateBones bone_id weight).bone_weights k)) := by
  obtain ⟨h1, _, _⟩ := lowestWeight_spec v.bone_weights
  have hnonneg : 0 ≤ (lowestWeight v.bone_weights).2 := by
    rw [← h1]
    rcases hv (lowestWeight v.bone_weights).1 with h | h
    · exact le_of_eq h.2.symm
    · exact le_of_lt h.2.1
  intro k
  simp only [Vertex.updateBones]
  split_ifs with hlt
  · by_cases hk : k = (lowestWeight v.bone_weights).1
    · subst hk
      right
      simp only [Function.update_same]
      exact ⟨hbone, lt_of_le_of_lt hnonneg hlt, hP⟩
    · simp only [Function.update_noteq hk]
      exact hv k
  · exact hv k

theorem updateAll_slots :
    ∀ (calls done : List (Int × Int × ℚ)) (m m' : Mesh),
      (∀ c ∈ calls, 0 ≤ c.2.1) →
      (∀ (i : Nat) (v : Vertex), m.vertices[i]? = some v → ∀ k,
        (v.bone_ids k = -1 ∧ v.bone_weights k = 0) ∨
        (0 ≤ v.bone_ids k ∧ 0 < v.bone_weights k ∧
          ((i : Int), v.bone_ids k, v.bone_weights k) ∈ done)) →
      m.updateAll calls = some m' →
      m'.vertices.length = m.vertices.length ∧
      ∀ (i : Nat) (v : Vertex), m'.vertices[i]? = some v → ∀ k,
        (v.bone_ids k = -1 ∧ v.bone_weights k = 0) ∨
        (0 ≤ v.bone_ids k ∧ 0 < v.bone_weights k ∧
          ((i : Int), v.bone_ids k, v.bone_weights k) ∈ done ++ calls) := by
  intro calls
  induction calls with
  | nil =>
    intro done m m' _ hinv hrun
    simp only [Mesh.updateAll, Option.some.injEq] at hrun
    subst hrun
    simpa using hinv
  | cons c rest ih =>
    intro done m m' hids hinv hrun
    obtain ⟨vertex_id, bone_id, weight⟩ := c
    simp only [Mesh.updateAll] at hrun
    cases h1 : m.updateVertexBones vertex_id bone_id weight with
    | none => simp [h1] at hrun
    | some m₁ =>
      simp only [h1, Option.some_bind] at hrun
      have hbone : 0 ≤ bone_id := hids (vertex_id, bone_id, weight) (List.mem_cons_self _ _)
      have hid : 0 ≤ vertex_id := by
        by_contra hc
        simp [Mesh.updateVertexBones, not_le.mp hc] at h1
      obtain ⟨v, hv⟩ : ∃ v, m.vertices[vertex_id.toNat]? = some v := by
        cases hget : m.vertices[vertex_id.toNat]? with
        | none => simp [Mesh.updateVertexBones, not_lt.mpr hid, hget] at h1
        | some v => exact ⟨v, rfl⟩
      rw [updateVertexBones_eq hid hv, Option.some.injEq] at h1
      subst h1
      have hlt := getElem?_lt hv
      have hinv₁ : ∀ (i : Nat) (u : Vertex),
          (m.vertices.set vertex_id.toNat (v.updateBones bone_id weight))[i]? = some u → ∀ k,
          (u.bone_ids k = -1 ∧ u.bone_weights k = 0) ∨
          (0 ≤ u.bone_ids k ∧ 0 < u.bone_weights k ∧
            ((i : Int), u.bone_ids k, u.bone_weights k)
              ∈ done ++ [(vertex_id, bone_id, weight)]) := by
        intro i u hu k
        by_cases hi : vertex_id.toNat = i
        · subst hi
          simp only [List.getElem?_set, hlt, if_true, Option.some.injEq] at hu
          subst hu
          have hcast : ((vertex_id.toNat : Nat) : Int) = vertex_id := Int.toNat_of_nonneg hid
          refine updateBones_slots v bone_id weight
            (fun a b => (((vertex_id.toNat : Nat) : Int), a, b)
              ∈ done ++ [(vertex_id, bone_id, weight)]) hbone ?_ ?_ k
          · simp [hcast]
          · intro j
            rcases hinv _ v hv j with h | ⟨h1, h2, h3⟩
            · exact Or.inl h
            · exact Or.inr ⟨h1, h2, List.mem_append_left _ h3⟩
        · simp only [List.getElem?_set, hi, if_false] at hu
          rcases hinv i u hu k with h | ⟨h1, h2, h3⟩
          · exact Or.inl h
          · exact Or.inr ⟨h1, h2, List.mem_append_left _ h3⟩
      obtain ⟨hlen, hres⟩ := ih (done ++ [(vertex_id, bone_id, weight)]) _ m'
        (fun c hc => hids c (List.mem_cons_of_mem _ hc)) hinv₁ hrun
      refine ⟨by simpa using hlen, ?_⟩
      simpa [List.append_assoc] using hres

theorem updateAll_returns :
    ∀ (calls : List (Int × Int × ℚ)) (m : Mesh),
      (∀ c ∈ calls, 0 ≤ c.1 ∧ c.1.toNat < m.vertices.length) →
      ∃ m', m.updateAll calls = some m' ∧ m'.vertices.length = m.vertices.length := by
  intro calls
  induction calls with
  | nil => intro m _; exact ⟨m, rfl, rfl⟩
  | cons c rest ih =>
    intro m h
    obtain ⟨vertex_id, bone_id, weight⟩ := c
    obtain ⟨hid, hlt⟩ := h (vertex_id, bone_id, weight) (List.mem_cons_self _ _)
    obtain ⟨v, hv⟩ : ∃ v, m.vertices[vertex_id.toNat]? = some v :=
      ⟨_, List.getElem?_eq_getElem hlt⟩
    obtain ⟨m', hrun, hlen⟩ := ih
      { m with vertices := m.vertices.set vertex_id.toNat (v.updateBones bone_id weight) }
      (fun c hc => by simpa using h c (List.mem_cons_of_mem _ hc))
    refine ⟨m', ?_, by simpa using hlen⟩
    simp only [Mesh.updateAll, updateVertexBones_eq hid hv, Option.some_bind]
    exact hrun

theorem usedSlots_card_le (v : Vertex) : (usedSlots v).card ≤ MAX_BONE_INFLUEN := by
  unfold usedSlots
  refine le_trans Finset.card_image_le (le_trans (Finset.card_filter_le _ _) ?_)
  simp

/-! ## Keeping the four heaviest influences -/

theorem topInv_fresh {v : Vertex} (h : ∀ k, v.bone_ids k = -1 ∧ v.bone_weights k = 0) :
    TopInv [] v := by
  refine ⟨fun k => Or.inl (h k), fun k _ hk => absurd (h k).1 hk, by simp, ?_⟩
  have : Finset.univ.filter (fun k => v.bone_ids k ≠ -1) = ∅ := by
    ext k
    simp [(h k).1]
  simp [this]

theorem used_of_all {v : Vertex} (h : ∀ k, v.bone_ids k ≠ -1) :
    (Finset.univ.filter (fun k => v.bone_ids k ≠ -1)).card = MAX_BONE_INFLUEN := by
  have : Finset.univ.filter (fun k => v.bone_ids k ≠ -1) = Finset.univ := by
    ext k
    simp [h k]
  simp [this]

/-- Binding one more influence keeps the slot state. -/
theorem topInv_step {bound : List (Int × ℚ)} {v : Vertex} (x : Int × ℚ)
    (hinv : TopInv bound v) (hgood : GoodInfluences (bound ++ [x])) :
    TopInv (bound ++ [x]) (v.updateBones x.1 x.2) := by
  obtain ⟨hall, hnd⟩ := hgood
  have hx : 0 ≤ x.1 ∧ 0 < x.2 := hall x (by simp)
  have hD : ∀ y ∈ bound, 0 ≤ y.1 ∧ 0 < y.2 := fun y hy => hall y (List.mem_append_left _ hy)
  have hnew : ∀ y ∈ bound, y.2 ≠ x.2 := by
    intro y hy
    simp only [List.map_append, List.map_cons, List.map_nil] at hnd
    have := (List.nodup_append.mp hnd).2.2
    intro e
    exact this (List.mem_map_of_mem Prod.snd hy) (by simp [e])
  obtain ⟨h1, h2, _⟩ := lowestWeight_spec v.bone_weights
  -- what a slot can be
  have slotcases : ∀ k, (v.bone_ids k = -1 ∧ v.bone_weights k = 0) ∨
      (v.bone_ids k ≠ -1 ∧ 0 < v.bone_weights k ∧ v.bone_weights k ≠ x.2 ∧
        (v.bone_ids k, v.bone_weights k) ∈ bound) := by
    intro k
    rcases hinv.slot k with h | h
    · exact Or.inl h
    · refine Or.inr ⟨?_, (hD _ h).2, hnew _ h, h⟩
      have := (hD _ h).1
      simp only at this
      omega
  have used_pos : ∀ k, v.bone_ids k ≠ -1 → 0 < v.bone_weights k := by
    intro k hk
    rcases slotcases k with h | h
    · exact absurd h.1 hk
    · exact h.2.1
  have hx1 : x.1 ≠ -1 := by have := hx.1; omega
  simp only [Vertex.updateBones]
  split_ifs with hlt
  · -- the lowest slot is overwritten
    set k₀ := (lowestWeight v.bone_weights).1 with hk₀
    set lo := (lowestWeight v.bone_weights).2 with hlo
    refine ⟨?_, ?_, ?_, ?_⟩
    · intro k
      by_cases hk : k = k₀
      · subst hk
        right
        simp
      · simp only [Function.update_noteq hk]
        rcases hinv.slot k with h | h
        · exact Or.inl h
        · exact Or.inr (List.mem_append_left _ h)
    · intro k k' hk hw
      by_cases e : k = k₀ <;> by_cases e' : k' = k₀
      · rw [e, e']
      · exfalso
        rw [e] at hw
        simp only [Function.update_same, Function.update_noteq e'] at hw
        rcases slotcases k' with h | h
        · rw [h.2] at hw
          exact absurd hw (ne_of_gt hx.2)
        · exact h.2.2.1 hw.symm
      · exfalso
        rw [e'] at hw
        simp only [Function.update_same, Function.update_noteq e] at hw hk
        rcases slotcases k with h | h
        · exact hk h.1
        · exact h.2.2.1 hw
      · simp only [Function.update_noteq e, Function.update_noteq e'] at hw hk
        exact hinv.inj k k' hk hw
    · intro y hy
      rcases List.mem_append.mp hy with hy | hy
      · rcases hinv.beaten y hy with ⟨k, hk⟩ | hb
        · by_cases e : k = k₀
          · -- the evicted influence
            right
            have hyw : y.2 = lo := by rw [← hk, e]; exact h1
            have hk₀used : v.bone_ids k₀ ≠ -1 := by
              have := (hD y hy).1
              rw [← hk, e] at this
              simp only at this
              omega
            intro j
            by_cases ej : j = k₀
            · subst ej
              simp only [Function.update_same]
              exact ⟨hx1, hyw ▸ hlt⟩
            · simp only [Function.update_noteq ej]
              rcases slotcases j with h | h
              · exfalso
                have := h2 j
                rw [h.2] at this
                have hpos := (hD y hy).2
                rw [hyw] at hpos
                exact absurd this (not_le.mpr hpos)
              · refine ⟨h.1, ?_⟩
                rw [hyw]
                rcases lt_or_eq_of_le (h2 j) with hl | he
                · exact hl
                · exact absurd (hinv.inj k₀ j hk₀used (h1.trans he)).symm ej
          · left
            exact ⟨k, by simp only [Function.update_noteq e]; exact hk⟩
        · right
          intro j
          by_cases ej : j = k₀
          · subst ej
            simp only [Function.update_same]
            exact ⟨hx1, lt_trans (h1 ▸ (hb _).2) hlt⟩
          · simp only [Function.update_noteq ej]
            exact hb j
      · left
        simp only [List.mem_singleton] at hy
        subst hy
        exact ⟨k₀, by simp⟩
    · have hset : Finset.univ.filter (fun k => Function.update v.bone_ids k₀ x.1 k ≠ -1)
          = insert k₀ (Finset.univ.filter (fun k => v.bone_ids k ≠ -1)) := by
        ext j
        by_cases ej : j = k₀
        · subst ej
          simp [hx1]
        · simp [Function.update_noteq ej, ej]
      rw [hset, List.length_append, List.length_singleton]
      by_cases hused : v.bone_ids k₀ ≠ -1
      · have hallused : ∀ j, v.bone_ids j ≠ -1 := by
          intro j
          rcases slotcases j with h | h
          · exfalso
            have := h2 j
            rw [h.2, ← h1] at this
            exact absurd this (not_le.mpr (used_pos _ hused))
          · exact h.1
        have hc := used_of_all hallused
        rw [Finset.insert_eq_of_mem (by simp [hused]), hc]
        have := hinv.count
        rw [hc] at this
        simp only [MAX_BONE_INFLUEN] at this ⊢
        omega
      · rw [Finset.card_insert_of_not_mem (by simp [hused])]
        have hle : (Finset.univ.filter (fun k => v.bone_ids k ≠ -1)).card
            ≤ (Finset.univ.erase k₀).card := by
          apply Finset.card_le_card
          intro j hj
          simp only [Finset.mem_filter, Finset.mem_univ, true_and] at hj
          simp only [Finset.mem_erase, Finset.mem_univ, and_true]
          rintro rfl
          exact hused hj
        have h3 : (Finset.univ.erase k₀).card = 3 := by
          simp [Finset.card_erase_of_mem]
        have := hinv.count
        have hM : MAX_BONE_INFLUEN = 4 := rfl
        omega
  · -- the influence is discarded
    have hle : x.2 ≤ (lowestWeight v.bone_weights).2 := not_lt.mp hlt
    have hallused : ∀ j, v.bone_ids j ≠ -1 ∧ x.2 < v.bone_weights j := by
      intro j
      rcases slotcases j with h | h
      · exfalso
        have := le_trans hle (h2 j)
        rw [h.2] at this
        exact absurd this (not_le.mpr hx.2)
      · exact ⟨h.1, lt_of_le_of_ne (le_trans hle (h2 j)) (Ne.symm h.2.2.1)⟩
    refine ⟨?_, hinv.inj, ?_, ?_⟩
    · intro k
      rcases hinv.slot k with h | h
      · exact Or.inl h
      · exact Or.inr (List.mem_append_left _ h)
    · intro y hy
      rcases List.mem_append.mp hy with hy | hy
      · exact hinv.beaten y hy
      · simp only [List.mem_singleton] at hy
        subst hy
        exact Or.inr hallused
    · have hc := used_of_all (fun j => (hallused j).1)
      have := hinv.count
      rw [hc] at this ⊢
      rw [List.length_append, List.length_singleton]
      simp only [MAX_BONE_INFLUEN] at this ⊢
      omega

theorem topInv_bindAll : ∀ (influences bound : List (Int × ℚ)) (v : Vertex),
    TopInv bound v → GoodInfluences (bound ++ influences) →
    TopInv (bound ++ influences) (v.bindAll influences) := by
  intro influences
  induction influences with
  | nil => intro bound v h _; simpa [Vertex.bindAll] using h
  | cons x rest ih =>
    intro bound v h hgood
    have hgood' : GoodInfluences (bound ++ [x] ++ rest) := by
      simpa [List.append_assoc] using hgood
    have hstep : GoodInfluences (bound ++ [x]) := by
      refine ⟨fun y hy => hgood'.1 y (List.mem_append_left _ hy), ?_⟩
      have := hgood'.2
      rw [List.map_append] at this
      exact (List.nodup_append.mp this).1
    have := ih (bound ++ [x]) (v.updateBones x.1 x.2) (topInv_step x h hstep) hgood'
    simpa [Vertex.bindAll, List.append_assoc] using this

theorem updateAll_influencesOn : ∀ (influences : List (Int × ℚ)) (m : Mesh) (vertex_id : Int)
    (v : Vertex), 0 ≤ vertex_id → m.vertices[vertex_id.toNat]? = some v →
    m.updateAll (influencesOn vertex_id influences)
      = some { m with vertices := m.vertices.set vertex_id.toNat (v.bindAll influences) } := by
  intro influences
  induction influences with
  | nil =>
    intro m vertex_id v _ hv
    have : m.vertices.set vertex_id.toNat v = m.vertices := by
      apply List.ext_getElem?
      intro i
      by_cases hi : vertex_id.toNat = i
      · subst hi; simp [List.getElem?_set, getElem?_lt hv, hv]
      · simp [List.getElem?_set, hi]
    simp [influencesOn, Mesh.updateAll, Vertex.bindAll, this]
  | cons x rest ih =>
    intro m vertex_id v hid hv
    have hlt := getElem?_lt hv
    have hv' : ({ m with vertices := m.vertices.set vertex_id.toNat (v.updateBones x.1 x.2) }
        : Mesh).vertices[vertex_id.toNat]? = some (v.updateBones x.1 x.2) := by
      simp [List.getElem?_set, hlt]
    have := ih _ vertex_id _ hid hv'
    simp only [influencesOn] at this
    simp only [influencesOn, List.map_cons, Mesh.updateAll, updateVertexBones_eq hid hv,
      Option.some_bind, this]
    simp [Vertex.bindAll, List.set_set]

/-- With the slot state of `TopInv`, the used slots are the influences with fewer than
four heavier ones. -/
theorem usedSlots_eq_topFour {influences : List (Int × ℚ)} {v : Vertex}
    (hinv : TopInv influences v) (hgood : GoodInfluences influences) :
    usedSlots v = topFour influences ∧
      (usedSlots v).card = min MAX_BONE_INFLUEN influences.length := by
  have hndL : influences.Nodup := List.Nodup.of_map _ hgood.2
  have wne : ∀ y ∈ influences, ∀ y' ∈ influences, y.2 = y'.2 → y = y' := by
    intro y hy y' hy' e
    exact List.inj_on_of_nodup_map hgood.2 hy hy' e
  have used_mem : ∀ k, v.bone_ids k ≠ -1 → (v.bone_ids k, v.bone_weights k) ∈ influences := by
    intro k hk
    rcases hinv.slot k with h | h
    · exact absurd h.1 hk
    · exact h
  constructor
  · ext x
    simp only [usedSlots, topFour, Finset.mem_image, Finset.mem_filter, Finset.mem_univ,
      true_and, List.mem_toFinset, List.mem_filter, decide_eq_true_eq]
    constructor
    · rintro ⟨k, hk, rfl⟩
      refine ⟨used_mem k hk, ?_⟩
      have hsub : (influences.filter (fun y => decide (v.bone_weights k < y.2))).toFinset
          ⊆ (Finset.univ.erase k).image (fun j => (v.bone_ids j, v.bone_weights j)) := by
        intro y hy
        simp only [List.mem_toFinset, List.mem_filter, decide_eq_true_eq] at hy
        simp only [Finset.mem_image, Finset.mem_erase, Finset.mem_univ, and_true]
        rcases hinv.beaten y hy.1 with ⟨j, hj⟩ | hb
        · refine ⟨j, ?_, hj⟩
          rintro rfl
          have : v.bone_weights j = y.2 := by rw [← hj]
          rw [this] at hy
          exact lt_irrefl _ hy.2
        · exact absurd (lt_trans hy.2 (hb k).2) (lt_irrefl _)
      have hcard := Finset.card_le_card hsub
      have h3 : (Finset.univ.erase k).card = 3 := by simp [Finset.card_erase_of_mem]
      have himg := Finset.card_image_le (s := Finset.univ.erase k)
        (f := fun j => (v.bone_ids j, v.bone_weights j))
      rw [List.toFinset_card_of_nodup (hndL.filter _)] at hcard
      simp only at *
      have hM : MAX_BONE_INFLUEN = 4 := rfl
      omega
    · rintro ⟨hx, hcount⟩
      rcases hinv.beaten x hx with ⟨k, hk⟩ | hb
      · refine ⟨k, ?_, hk⟩
        have := (hgood.1 x hx).1
        rw [← hk] at this
        simp only at this
        omega
      · exfalso
        have hsub : Finset.univ.image (fun j => (v.bone_ids j, v.bone_weights j))
            ⊆ (influences.filter (fun y => decide (x.2 < y.2))).toFinset := by
          intro y hy
          simp only [Finset.mem_image, Finset.mem_univ, true_and] at hy
          obtain ⟨j, rfl⟩ := hy
          simp only [List.mem_toFinset, List.mem_filter, decide_eq_true_eq]
          exact ⟨used_mem j (hb j).1, (hb j).2⟩
        have hinj : Function.Injective (fun j => (v.bone_ids j, v.bone_weights j)) := by
          intro j j' e
          exact hinv.inj j j' (hb j).1 (congrArg Prod.snd e)
        have hcard := Finset.card_le_card hsub
        rw [Finset.card_image_of_injective _ hinj, List.toFinset_card_of_nodup (hndL.filter _)]
          at hcard
        simp only [Finset.card_univ, Fintype.card_fin] at hcard
        have hM : MAX_BONE_INFLUEN = 4 := rfl
        omega
  · rw [← hinv.count]
    unfold usedSlots
    apply Finset.card_image_of_injOn
    intro j hj j' _ e
    simp only [Finset.coe_filter, Finset.mem_univ, true_and, Set.mem_setOf_eq] at hj
    exact hinv.inj j j' hj (congrArg Prod.snd e)

theorem goodInfluences_perm {a b : List (Int × ℚ)} (h : a.Perm b) (hb : GoodInfluences b) :
    GoodInfluences a :=
  ⟨fun x hx => hb.1 x (h.mem_iff.mp hx), (h.map Prod.snd).nodup_iff.mpr hb.2⟩

theorem topFour_perm {a b : List (Int × ℚ)} (h : a.Perm b) : topFour a = topFour b := by
  ext x
  simp only [topFour, List.mem_toFinset, List.mem_filter, decide_eq_true_eq]
  rw [h.mem_iff, (h.filter (fun y => decide (x.2 < y.2))).length_eq]

/-- C8: binding, in any order, influences with non-negative bone ids and positive,
pairwise different weights to a freshly initialised vertex of a mesh returns, and the
`(bone_id, weight)` pairs in the used slots are then exactly the influences with fewer
than four heavier ones, `min 4 n` of them; every ordering of the influences leaves the
same set. For the weights 0.9, 0.05, 0.3, 0.2, 0.95 the weights 0.9, 0.3, 0.2 and 0.95
are kept and 0.05 is not. -/
theorem updateVertexBones_keeps_top_four (m : Mesh) (vertex_id : Int) (v : Vertex)
    (influences : List (Int × ℚ)) (hid : 0 ≤ vertex_id)
    (hv : m.vertices[vertex_id.toNat]? = some v)
    (hfresh : ∀ k, v.bone_ids k = -1 ∧ v.bone_weights k = 0)
    (hgood : GoodInfluences influences) :
    (∃ (m' : Mesh) (v' : Vertex),
      m.updateAll (influencesOn vertex_id influences) = some m' ∧
      m'.vertices[vertex_id.toNat]? = some v' ∧
      usedSlots v' = topFour influences ∧
      (usedSlots v').card = min MAX_BONE_INFLUEN influences.length ∧
      ∀ other : List (Int × ℚ), other.Perm influences →
        ∃ (m'' : Mesh) (v'' : Vertex),
          m.updateAll (influencesOn vertex_id other) = some m'' ∧
          m''.vertices[vertex_id.toNat]? = some v'' ∧ usedSlots v'' = usedSlots v') ∧
    (oneVertexMesh.updateAll (influencesOn 0 fiveInfluences)).map
        (fun m' => m'.vertices.map (fun u => (usedSlots u).image Prod.snd))
      = some [{9 / 10, 3 / 10, 1 / 5, 19 / 20}] := by
  have hlt := getElem?_lt hv
  have run : ∀ l : List (Int × ℚ), GoodInfluences l →
      ∃ (m' : Mesh) (v' : Vertex),
        m.updateAll (influencesOn vertex_id l) = some m' ∧
        m'.vertices[vertex_id.toNat]? = some v' ∧
        usedSlots v' = topFour l ∧ (usedSlots v').card = min MAX_BONE_INFLUEN l.length := by
    intro l hl
    have hinv : TopInv l (v.bindAll l) := by
      have := topInv_bindAll l [] v (topInv_fresh hfresh) (by simpa using hl)
      simpa using this
    obtain ⟨h1, h2⟩ := usedSlots_eq_topFour hinv hl
    exact ⟨_, v.bindAll l, updateAll_influencesOn l m vertex_id v hid hv,
      by simp [List.getElem?_set, hlt], h1, h2⟩
  refine ⟨?_, by decide!⟩
  obtain ⟨m', v', h1, h2, h3, h4⟩ := run influences hgood
  refine ⟨m', v', h1, h2, h3, h4, fun other hperm => ?_⟩
  obtain ⟨m'', v'', g1, g2, g3, _⟩ := run other (goodInfluences_perm hperm hgood)
  exact ⟨m'', v'', g1, g2, by rw [g3, h3, topFour_perm hperm]⟩

/-- C8, on the five influences of the example bound to the fresh vertex of
`oneVertexMesh`: bones 0, 2, 3 and 4 are kept, bone 1 with weight 0.05 is not. -/
theorem updateVertexBones_keeps_top_four_witness :
    GoodInfluences fiveInfluences ∧
      topFour fiveInfluences = {(0, 9 / 10), (2, 3 / 10), (3, 1 / 5), (4, 19 / 20)} ∧
      ∃ (m' : Mesh) (v' : Vertex),
        oneVertexMesh.updateAll (influencesOn 0 fiveInfluences) = some m' ∧
        m'.vertices[(0 : Int).toNat]? = some v' ∧
        usedSlots v' = topFour fiveInfluences :=
  ⟨⟨by decide!, by decide!⟩, by decide!,
    let ⟨m', v', h1, h2, h3, _⟩ :=
      (updateVertexBones_keeps_top_four oneVertexMesh 0 (initBoneSlots emptyVertex)
        fiveInfluences (by decide) (by decide!) (initBoneSlots_fresh emptyVertex)
        ⟨by decide!, by decide!⟩).1
    ⟨m', v', h1, h2, h3⟩⟩

/-- C10: the loop of the `Mesh` constructor leaves the four slots of a vertex with bone
id -1 and weight 0; starting from vertices in that state, a run of
`Mesh::updateVertexBones` calls with non-negative bone ids and arbitrary weights returns
when its vertex ids are in range, and after it every slot of every vertex is either unset
(bone id -1, weight exactly 0) or holds a bone id `>= 0` and a weight `> 0` that are the
bone id and the weight of one of the calls on that vertex; no vertex holds more than
four influences. -/
theorem slot_invariant (m : Mesh) (calls : List (Int × Int × ℚ))
    (hfresh : ∀ v ∈ m.vertices, ∀ k, v.bone_ids k = -1 ∧ v.bone_weights k = 0)
    (hids : ∀ c ∈ calls, 0 ≤ c.2.1) :
    (∀ (v : Vertex) (k : Fin MAX_BONE_INFLUEN),
      (initBoneSlots v).bone_ids k = -1 ∧ (initBoneSlots v).bone_weights k = 0) ∧
    ((∀ c ∈ calls, 0 ≤ c.1 ∧ c.1.toNat < m.vertices.length) →
      ∃ m', m.updateAll calls = some m') ∧
    ∀ m', m.updateAll calls = some m' →
      ∀ (i : Nat) (v : Vertex), m'.vertices[i]? = some v →
        (∀ k, (v.bone_ids k = -1 ∧ v.bone_weights k = 0) ∨
          (0 ≤ v.bone_ids k ∧ 0 < v.bone_weights k ∧
            ((i : Int), v.bone_ids k, v.bone_weights k) ∈ calls)) ∧
        (usedSlots v).card ≤ MAX_BONE_INFLUEN := by
  refine ⟨initBoneSlots_fresh, fun hrange => ?_, fun m' hrun i v hv => ⟨?_, usedSlots_card_le v⟩⟩
  · obtain ⟨m', h, _⟩ := updateAll_returns calls m hrange
    exact ⟨m', h⟩
  · have h := (updateAll_slots calls [] m m' hids
      (fun j u hu k => Or.inl (hfresh u (List.getElem?_mem hu) k)) hrun).2 i v hv
    simpa using h

/-- C10, on `oneVertexMesh` and the five influences of the example, followed by a call
with weight 0 and one with a negative weight, which are discarded. -/
theorem slot_invariant_witness :
    ∃ m', oneVertexMesh.updateAll
        (influencesOn 0 fiveInfluences ++ [(0, 5, 0), (0, 6, -1)]) = some m' ∧
      ∀ (i : Nat) (v : Vertex), m'.vertices[i]? = some v →
        ∀ k, (v.bone_ids k = -1 ∧ v.bone_weights k = 0) ∨
          (0 ≤ v.bone_ids k ∧ 0 < v.bone_weights k ∧
            ((i : Int), v.bone_ids k, v.bone_weights k)
              ∈ influencesOn 0 fiveInfluences ++ [(0, 5, 0), (0, 6, -1)]) :=
  let h := slot_invariant oneVertexMesh
    (influencesOn 0 fiveInfluences ++ [(0, 5, 0), (0, 6, -1)]) (by decide!) (by decide!)
  let ⟨m', hm'⟩ := h.2.1 (by decide!)
  ⟨m', hm', fun i v hv => (h.2.2 m' hm' i v hv).1⟩

/-! ## Skinning -/

theorem skinStep_eq (bones : List Bone) (v : Vertex) (p : Vec4) (acc : Vec4 × ℚ)
    (j : Fin MAX_BONE_INFLUENCE) :
    skinStep bones v p acc j = (acc.1 + slotPoint bones v p j, acc.2 + slotWeight bones v j) := by
  unfold skinStep slotPoint slotWeight ValidSlot slotTransform
  by_cases h1 : v.bone_ids j ≤ -1
  · have : ¬ (-1 < v.bone_ids j ∧ v.bone_ids j < (bones.length : Int)) := fun h => by omega
    simp [h1, this]
  · by_cases h2 : (bones.length : Int) ≤ v.bone_ids j
    · have : ¬ (-1 < v.bone_ids j ∧ v.bone_ids j < (bones.length : Int)) := fun h => by omega
      simp [h1, h2, this]
    · have hv : -1 < v.bone_ids j ∧ v.bone_ids j < (bones.length : Int) := by omega
      have hlt : (v.bone_ids j).toNat < bones.length := by omega
      simp only [h1, h2, if_false, hv, and_self, if_true, List.getElem?_eq_getElem hlt]

theorem skinPoint_eq (bones : List Bone) (v : Vertex) (p : Vec4) :
    skinPoint bones v p
      = if ∑ j, slotWeight bones v j = 0 then p
        else (∑ j, slotWeight bones v j)⁻¹ • ∑ j, slotPoint bones v p j := by
  have hfold : (List.finRange MAX_BONE_INFLUENCE).foldl (skinStep bones v p) (0, 0)
      = (∑ j, slotPoint bones v p j, ∑ j, slotWeight bones v j) := by
    simp only [finRange_four, List.foldl, skinStep_eq, Fin.sum_univ_four, zero_add, add_assoc]
    rfl
  simp only [skinPoint, hfold]
  split_ifs
  · rfl
  · funext k
    simp [div_eq_inv_mul]


theorem slotWeight_of_unset {bones : List Bone} {v : Vertex} {j : Fin MAX_BONE_INFLUENCE}
    (h : v.bone_ids j = -1) : slotWeight bones v j = 0 ∧ ∀ p, slotPoint bones v p j = 0 := by
  have : ¬ ValidSlot bones v j := fun hv => by
    have := hv.1
    rw [h] at this
    exact lt_irrefl _ this
  simp [slotWeight, slotPoint, this]

/-- With all four slots unset the skinned point is the input point. -/
theorem skinPoint_unbound {bones : List Bone} {v : Vertex} (h : Unbound v) (p : Vec4) :
    skinPoint bones v p = p := by
  rw [skinPoint_eq]
  have : ∑ j, slotWeight bones v j = 0 :=
    Finset.sum_eq_zero (fun j _ => (slotWeight_of_unset (h j).1).1)
  simp [this]

/-- With one used slot of weight 1 the skinned point is the transform of its bone
applied to the input point. -/
theorem skinPoint_single {bones : List Bone} {v : Vertex} {b : Int} {bone : Bone}
    (hv : BoundOnlyTo v b) (hb : atIndex bones b = some bone) (p : Vec4) :
    skinPoint bones v p = bone.transforms.mulVec p := by
  obtain ⟨k, hid, hw, hrest⟩ := hv
  have hb0 : ¬ b < 0 := by
    intro h
    simp [atIndex, h] at hb
  have hget : bones[b.toNat]? = some bone := by simpa [atIndex, hb0] using hb
  have hlt := getElem?_lt hget
  have hvalid : ValidSlot bones v k := by
    constructor
    · rw [hid]; omega
    · rw [hid]; omega
  have hwk : ∀ j, slotWeight bones v j = if j = k then 1 else 0 := by
    intro j
    by_cases e : j = k
    · subst e; simp [slotWeight, hvalid, hw]
    · simp [e, (slotWeight_of_unset (hrest j e).1).1]
  have hpk : ∀ j, slotPoint bones v p j = if j = k then bone.transforms.mulVec p else 0 := by
    intro j
    by_cases e : j = k
    · subst e; simp [slotPoint, hvalid, hw, slotTransform, hid, hget]
    · simp [e, (slotWeight_of_unset (hrest j e).1).2]
  rw [skinPoint_eq]
  simp [hwk, hpk]

/-- When every bone that a valid slot refers to has the identity as accumulated
transform, the skinned point is the input point. -/
theorem skinPoint_atRest {bones : List Bone} {v : Vertex}
    (h : ∀ j, ValidSlot bones v j → slotTransform bones v j = 1) (p : Vec4) :
    skinPoint bones v p = p := by
  rw [skinPoint_eq]
  have hp : ∀ j, slotPoint bones v p j = slotWeight bones v j • p := by
    intro j
    by_cases hv : ValidSlot bones v j
    · simp [slotPoint, slotWeight, hv, h j hv]
    · simp [slotPoint, slotWeight, hv]
  split_ifs with h0
  · rfl
  · simp only [hp, ← Finset.sum_smul, smul_smul, inv_mul_cancel₀ h0, one_smul]


/-- C11: in the skinning step of `calculateKeypoints`, a vertex whose four slots are all
unset (bone id -1, weight 0) gives back the input point, for every list of bones and
every point. -/
theorem skinPoint_degenerate (bones : List Bone) (v : Vertex) (p : Vec4) (h : Unbound v) :
    skinPoint bones v p = p :=
  skinPoint_unbound h p

/-- C11, on the freshly initialised vertex and the bones of the twisted chain. -/
theorem skinPoint_degenerate_witness :
    Unbound (initBoneSlots emptyVertex) ∧
      skinPoint twistedChain (initBoneSlots emptyVertex) ![1, 2, 3, 1] = ![1, 2, 3, 1] :=
  ⟨by decide!, skinPoint_degenerate twistedChain (initBoneSlots emptyVertex) ![1, 2, 3, 1]
    (by decide!)⟩

/-- C12: in the skinning step of `calculateKeypoints`, a vertex whose only used slot
holds, with weight 1, a bone id `b` that is an index into the bone list gives `T_b * p`,
with `T_b` the accumulated transform of bone `b`. -/
theorem skinPoint_single_bone (bones : List Bone) (v : Vertex) (b : Int) (bone : Bone)
    (p : Vec4) (hv : BoundOnlyTo v b) (hb : atIndex bones b = some bone) :
    skinPoint bones v p = bone.transforms.mulVec p :=
  skinPoint_single hv hb p

/-- C12, on a vertex bound to the finger of the twisted chain. -/
theorem skinPoint_single_bone_witness :
    BoundOnlyTo fingerVertex 2 ∧
      atIndex twistedChain 2 = some twistedFinger ∧
      skinPoint twistedChain fingerVertex ![1, 2, 3, 1] = wristTurnZX.mulVec ![1, 2, 3, 1] :=
  ⟨by decide!, by decide!,
    skinPoint_single_bone twistedChain fingerVertex 2 twistedFinger ![1, 2, 3, 1]
      (by decide!) (by decide!)⟩

/-! ## The loop over the keypoints -/

theorem keypointStep_some {glmInverse : InverseLib} {km kbm : List Int} {bones : List Bone}
    {vertices : List Vertex} {model : Mat4} {keypoints kps : List Vec3} {i : Nat}
    (h : keypointStep glmInverse km kbm bones vertices model keypoints i = some kps) :
    ∃ keypoint s, keypoints[i]? = some keypoint ∧
      skinnedKeypoint glmInverse km kbm bones vertices keypoint i = some s ∧
      kps = keypoints.set i (xyz (model.mulVec s)) := by
  unfold keypointStep at h
  cases h1 : keypoints[i]? with
  | none => simp [h1] at h
  | some keypoint =>
    simp only [h1] at h
    cases h2 : skinnedKeypoint glmInverse km kbm bones vertices keypoint i with
    | none => simp [h2] at h
    | some s =>
      simp only [h2, Option.some.injEq] at h
      exact ⟨keypoint, s, rfl, h2, h.symm⟩

/-- What the first `k` rounds of the loop leave, when they return. -/
theorem keypointLoop_inv (glmInverse : InverseLib) (km kbm : List Int) (bones : List Bone)
    (vertices : List Vertex) (model : Mat4) (init : List Vec3) (hinit : init.length = 21)
    (hzero : ∀ i, i < 21 → init[i]? = some 0) :
    ∀ (k : Nat) (kps : List Vec3),
      (List.range k).foldlM (keypointStep glmInverse km kbm bones vertices model) init
        = some kps →
      k ≤ 21 ∧ kps.length = 21 ∧
      (∀ i, i < k → ∃ s, skinnedKeypoint glmInverse km kbm bones vertices 0 i = some s ∧
        kps[i]? = some (xyz (model.mulVec s))) ∧
      (∀ i, k ≤ i → i < 21 → kps[i]? = some 0) := by
  intro k
  induction k with
  | zero =>
    intro kps h
    simp only [List.range_zero, List.foldlM_nil, Option.pure_def, Option.some.injEq] at h
    subst h
    exact ⟨by omega, hinit, fun i hi => absurd hi (Nat.not_lt_zero _), fun i _ hi => hzero i hi⟩
  | succ k ih =>
    intro kps h
    rw [List.range_succ, List.foldlM_append] at h
    cases hmid : (List.range k).foldlM (keypointStep glmInverse km kbm bones vertices model)
        init with
    | none => simp [hmid] at h
    | some mid =>
      simp only [hmid, Option.bind_eq_bind, Option.some_bind, List.foldlM_cons, List.foldlM_nil,
        Option.pure_def, Option.bind_some] at h
      obtain ⟨hk, hlen, hdone, htodo⟩ := ih mid hmid
      obtain ⟨keypoint, s, hget, hs, rfl⟩ := keypointStep_some h
      have hk21 : k < 21 := by
        have := getElem?_lt hget
        omega
      have hzero' : keypoint = 0 := by
        have := htodo k le_rfl hk21
        rw [hget] at this
        exact Option.some.inj this
      subst hzero'
      refine ⟨hk21, by simpa using hlen, fun i hi => ?_, fun i hi hi21 => ?_⟩
      · by_cases e : i = k
        · subst e
          exact ⟨s, hs, by simp [List.getElem?_set, hlen, hk21]⟩
        · obtain ⟨t, ht, hget'⟩ := hdone i (by omega)
          exact ⟨t, ht, by simp [List.getElem?_set, Ne.symm e, hget']⟩
      · have e : k ≠ i := by omega
        simp [List.getElem?_set, e, htodo i (by omega) hi21]

/-- The first `k` rounds of the loop return when every round finds its references. -/
theorem keypointLoop_returns (glmInverse : InverseLib) (km kbm : List Int) (bones : List Bone)
    (vertices : List Vertex) (model : Mat4) (init : List Vec3) (hinit : init.length = 21)
    (hzero : ∀ i, i < 21 → init[i]? = some 0) :
    ∀ k : Nat, k ≤ 21 →
      (∀ i, i < k → ∃ s, skinnedKeypoint glmInverse km kbm bones vertices 0 i = some s) →
      ∃ kps, (List.range k).foldlM (keypointStep glmInverse km kbm bones vertices model) init
        = some kps := by
  intro k
  induction k with
  | zero => intro _ _; exact ⟨_, rfl⟩
  | succ k ih =>
    intro hk hall
    obtain ⟨mid, hmid⟩ := ih (by omega) (fun i hi => hall i (by omega))
    obtain ⟨_, _, _, htodo⟩ :=
      keypointLoop_inv glmInverse km kbm bones vertices model init hinit hzero k mid hmid
    obtain ⟨s, hs⟩ := hall k (by omega)
    refine ⟨mid.set k (xyz (model.mulVec s)), ?_⟩
    rw [List.range_succ, List.foldlM_append, hmid]
    simp [keypointStep, htodo k le_rfl (by omega), hs]

theorem zeroKeypoints_spec :
    (List.replicate 21 (0 : Vec3)).length = 21 ∧
      ∀ i, i < 21 → (List.replicate 21 (0 : Vec3))[i]? = some 0 := by
  refine ⟨List.length_replicate _ _, fun i hi => ?_⟩
  rw [List.getElem?_replicate, if_pos hi]

/-- The skinned point of keypoint `i` is defined exactly when the two tables have an
entry for `i` and both entries are indices in range. -/
theorem skinnedKeypoint_isSome (glmInverse : InverseLib) (km kbm : List Int) (bones : List Bone)
    (vertices : List Vertex) (keypoint : Vec3) (i : Nat) :
    (∃ s, skinnedKeypoint glmInverse km kbm bones vertices keypoint i = some s) ↔
      ∃ rb rv bone closest, km[i]? = some rb ∧ kbm[i]? = some rv ∧
        atIndex bones rb = some bone ∧ atIndex vertices rv = some closest := by
  unfold skinnedKeypoint
  constructor
  · rintro ⟨s, h⟩
    cases h1 : km[i]? with
    | none => simp [h1] at h
    | some rb =>
      cases h2 : atIndex bones rb with
      | none => simp [h1, h2] at h
      | some bone =>
        cases h3 : kbm[i]? with
        | none => simp [h1, h2, h3] at h
        | some rv =>
          cases h4 : atIndex vertices rv with
          | none => simp [h1, h2, h3, h4] at h
          | some closest => exact ⟨rb, rv, bone, closest, rfl, rfl, h2, h4⟩
  · rintro ⟨rb, rv, bone, closest, h1, h3, h2, h4⟩
    simp [h1, h2, h3, h4]

theorem skinnedKeypoint_eq {glmInverse : InverseLib} {km kbm : List Int} {bones : List Bone}
    {vertices : List Vertex} {keypoint : Vec3} {i : Nat} {rb rv : Int} {bone : Bone}
    {closest : Vertex} (h1 : km[i]? = some rb) (h3 : kbm[i]? = some rv)
    (h2 : atIndex bones rb = some bone) (h4 : atIndex vertices rv = some closest) :
    skinnedKeypoint glmInverse km kbm bones vertices keypoint i
      = some (skinPoint bones closest (referencePoint glmInverse keypoint bone.offset i)) := by
  simp [skinnedKeypoint, h1, h2, h3, h4]

theorem atIndex_isSome {α : Type} {l : List α} {r : Int} (h0 : 0 ≤ r) (h1 : r < l.length) :
    ∃ a, atIndex l r = some a := by
  have hlt : r.toNat < l.length := by omega
  exact ⟨l.get ⟨_, hlt⟩, by simp [atIndex, not_lt.mpr h0, List.getElem?_eq_getElem hlt]⟩

theorem key_mapping_range : key_mapping.length = 21 ∧ ∀ r ∈ key_mapping, 0 ≤ r ∧ r < 21 := by
  decide

theorem keypoint_bone_map_range :
    keypoint_bone_map.length = 21 ∧ ∀ r ∈ keypoint_bone_map, 0 ≤ r ∧ r < 60806 := by
  decide

/-- With at least 21 bones and 60806 vertices every keypoint finds its references. -/
theorem references_found {bones : List Bone} {vertices : List Vertex}
    (hb : 21 ≤ bones.length) (hv : 60806 ≤ vertices.length) (i : Nat) (hi : i < 21) :
    ∃ rb rv bone closest, key_mapping[i]? = some rb ∧ keypoint_bone_map[i]? = some rv ∧
      atIndex bones rb = some bone ∧ atIndex vertices rv = some closest := by
  have h1 : i < key_mapping.length := by rw [key_mapping_range.1]; exact hi
  have h2 : i < keypoint_bone_map.length := by rw [keypoint_bone_map_range.1]; exact hi
  have hr1 := key_mapping_range.2 _ (List.getElem_mem h1)
  have hr2 := keypoint_bone_map_range.2 _ (List.getElem_mem h2)
  obtain ⟨bone, hbone⟩ := atIndex_isSome (l := bones) hr1.1 (by omega)
  obtain ⟨closest, hclosest⟩ := atIndex_isSome (l := vertices) hr2.1 (by omega)
  exact ⟨_, _, bone, closest, List.getElem?_eq_getElem h1, List.getElem?_eq_getElem h2,
    hbone, hclosest⟩

theorem calculateKeypoints_eq {glmInverse : InverseLib} {uninit : Mat4} {hand : ObjectRigged}
    {bones : List Bone} {mesh : Mesh} (hbones : hand.getBones uninit = some bones)
    (hmesh : hand.meshes[0]? = some mesh) :
    calculateKeypoints glmInverse uninit hand
      = (List.range 21).foldlM
          (keypointStep glmInverse key_mapping keypoint_bone_map bones mesh.vertices
            mesh.transforms)
          (List.replicate 21 0) := by
  simp only [calculateKeypoints, hbones, hmesh, calculateKeypointsFrom, key_mapping_range.1]


theorem restHand_bones : restHand.getBones 0 = some restBones := by decide!

theorem restMesh_vertices : 60806 ≤ restMesh.vertices.length :=
  le_of_eq (List.length_replicate _ _).symm

theorem xyz_add (a b : Vec4) : xyz (a + b) = xyz a + xyz b := by
  funext k
  fin_cases k <;> simp [xyz]

theorem referencePoint_zero (glmInverse : InverseLib) (offset : Mat4) (i : Nat) :
    referencePoint glmInverse 0 offset i
      = (glmInverse offset).mulVec origin4 + correctiveOffset i := by
  simp [referencePoint, origin4]

/-- With at least 21 bones and 60806 vertices `calculateKeypoints` returns. -/
theorem calculateKeypoints_returns {glmInverse : InverseLib} {uninit : Mat4}
    {hand : ObjectRigged} {bones : List Bone} {mesh : Mesh}
    (hbones : hand.getBones uninit = some bones) (hmesh : hand.meshes[0]? = some mesh)
    (hb : 21 ≤ bones.length) (hv : 60806 ≤ mesh.vertices.length) :
    ∃ kps, calculateKeypoints glmInverse uninit hand = some kps := by
  rw [calculateKeypoints_eq hbones hmesh]
  exact keypointLoop_returns glmInverse _ _ bones mesh.vertices mesh.transforms _
    zeroKeypoints_spec.1 zeroKeypoints_spec.2 21 le_rfl
    (fun i hi => (skinnedKeypoint_isSome _ _ _ _ _ _ i).mpr (references_found hb hv i hi))

/-- Every keypoint that `calculateKeypoints` returns is the model transform applied to
the skinned point of its index. -/
theorem calculateKeypoints_result {glmInverse : InverseLib} {uninit : Mat4}
    {hand : ObjectRigged} {bones : List Bone} {mesh : Mesh}
    (hbones : hand.getBones uninit = some bones) (hmesh : hand.meshes[0]? = some mesh)
    {kps : List Vec3} (hrun : calculateKeypoints glmInverse uninit hand = some kps) :
    kps.length = 21 ∧
      ∀ i, i < 21 → ∃ rb rv bone closest,
        key_mapping[i]? = some rb ∧ keypoint_bone_map[i]? = some rv ∧
        atIndex bones rb = some bone ∧ atIndex mesh.vertices rv = some closest ∧
        kps[i]? = some (xyz (mesh.transforms.mulVec
          (skinPoint bones closest
            ((glmInverse bone.offset).mulVec origin4 + correctiveOffset i)))) := by
  rw [calculateKeypoints_eq hbones hmesh] at hrun
  obtain ⟨_, hlen, hdone, _⟩ := keypointLoop_inv glmInverse _ _ bones mesh.vertices
    mesh.transforms _ zeroKeypoints_spec.1 zeroKeypoints_spec.2 21 kps hrun
  refine ⟨hlen, fun i hi => ?_⟩
  obtain ⟨s, hs, hget⟩ := hdone i hi
  obtain ⟨rb, rv, bone, closest, h1, h3, h2, h4⟩ :=
    (skinnedKeypoint_isSome _ _ _ _ _ _ i).mp ⟨s, hs⟩
  rw [skinnedKeypoint_eq h1 h3 h2 h4, Option.some.injEq, referencePoint_zero] at hs
  exact ⟨rb, rv, bone, closest, h1, h3, h2, h4, by rw [hget, hs]⟩

theorem slotTransform_of_atRest {bones : List Bone} (hrest : ∀ b ∈ bones, b.transforms = 1)
    (v : Vertex) (j : Fin MAX_BONE_INFLUENCE) (hj : ValidSlot bones v j) :
    slotTransform bones v j = 1 := by
  have hlt : (v.bone_ids j).toNat < bones.length := by
    have := hj.1; have := hj.2; simp only at *; omega
  simp only [slotTransform, List.getElem?_eq_getElem hlt]
  exact hrest _ (List.getElem_mem _)


theorem restHand_rest : ∀ b ∈ restBones, b.transforms = 1 := by decide!

/-! ## The corrective offset and the model transform -/

theorem getBones_transforms (uninit : Mat4) (mesh : Mesh) (rest : List Mesh) (M : Mat4) :
    ObjectRigged.getBones uninit ⟨{ mesh with transforms := M } :: rest⟩
      = ObjectRigged.getBones uninit ⟨mesh :: rest⟩ := by
  simp only [ObjectRigged.getBones, List.mapM_cons]
  rfl

/-- C17: for every state of the bones and every model transform `M` of the first mesh,
when `calculateKeypoints` returns, keypoint `i` is `xyz(M * s_i)` for every `i` in 0..20,
where the homogeneous skinned point `s_i` is computed from the bones and the vertices
alone: it is the same for every `M`, and with the identity as model transform
`calculateKeypoints` returns `xyz(s_i)`. With 21 bones and 60806 vertices it returns. -/
theorem model_transform_last (glmInverse : InverseLib) (uninit : Mat4) (mesh : Mesh)
    (rest : List Mesh) (bones : List Bone)
    (hbones : ObjectRigged.getBones uninit ⟨mesh :: rest⟩ = some bones) (M : Mat4) :
    (21 ≤ bones.length → 60806 ≤ mesh.vertices.length →
      ∃ kps, calculateKeypoints glmInverse uninit ⟨{ mesh with transforms := M } :: rest⟩
        = some kps) ∧
    ∀ kps, calculateKeypoints glmInverse uninit ⟨{ mesh with transforms := M } :: rest⟩
        = some kps →
      ∃ kps₁, calculateKeypoints glmInverse uninit ⟨{ mesh with transforms := 1 } :: rest⟩
          = some kps₁ ∧
        ∀ i, i < 21 → ∃ s,
          skinnedKeypoint glmInverse key_mapping keypoint_bone_map bones mesh.vertices 0 i
            = some s ∧
          kps[i]? = some (xyz (M.mulVec s)) ∧ kps₁[i]? = some (xyz s) := by
  have hb : ∀ N : Mat4,
      ObjectRigged.getBones uninit ⟨{ mesh with transforms := N } :: rest⟩ = some bones := by
    intro N
    rw [getBones_transforms]
    exact hbones
  have hm : ∀ N : Mat4, (ObjectRigged.mk ({ mesh with transforms := N } :: rest)).meshes[0]?
      = some { mesh with transforms := N } := fun _ => by simp
  constructor
  · intro h21 hv
    exact calculateKeypoints_returns (hb M) (hm M) h21 hv
  · intro kps hrun
    rw [calculateKeypoints_eq (hb M) (hm M)] at hrun
    obtain ⟨_, _, hdone, _⟩ := keypointLoop_inv glmInverse _ _ bones mesh.vertices M _
      zeroKeypoints_spec.1 zeroKeypoints_spec.2 21 kps hrun
    obtain ⟨kps₁, hrun₁⟩ := keypointLoop_returns glmInverse key_mapping keypoint_bone_map bones
      mesh.vertices 1 _ zeroKeypoints_spec.1 zeroKeypoints_spec.2 21 le_rfl
      (fun i hi => (hdone i hi).imp (fun s hs => hs.1))
    obtain ⟨_, _, hdone₁, _⟩ := keypointLoop_inv glmInverse _ _ bones mesh.vertices 1 _
      zeroKeypoints_spec.1 zeroKeypoints_spec.2 21 kps₁ hrun₁
    refine ⟨kps₁, by rw [calculateKeypoints_eq (hb 1) (hm 1)]; exact hrun₁, fun i hi => ?_⟩
    obtain ⟨s, hs, hget⟩ := hdone i hi
    obtain ⟨s₁, hs₁, hget₁⟩ := hdone₁ i hi
    rw [hs] at hs₁
    cases hs₁
    exact ⟨s, hs, hget, by rw [hget₁, Matrix.one_mulVec]⟩

/-- C17, on `restHand` with a model transform that scales by 2 and translates. -/
theorem model_transform_last_witness :
    ∃ kps, calculateKeypoints cofactorInverse 0 ⟨[{ restMesh with transforms := exampleModel }]⟩
        = some kps ∧
      ∃ s, skinnedKeypoint cofactorInverse key_mapping keypoint_bone_map restBones
          restMesh.vertices 0 8 = some s ∧
        kps[8]? = some (xyz (exampleModel.mulVec s)) :=
  let h := model_transform_last cofactorInverse 0 restMesh [] restBones restHand_bones
    exampleModel
  let ⟨kps, hk⟩ := h.1 (by decide) restMesh_vertices
  let ⟨_, _, hall⟩ := h.2 kps hk
  let ⟨s, hs, hget, _⟩ := hall 8 (by decide)
  ⟨kps, hk, s, hs, hget⟩

/-! ## Influences that refer to no bone -/

theorem validSlot_dropInvalid (bones : List Bone) (v : Vertex) (j : Fin MAX_BONE_INFLUENCE) :
    ValidSlot bones (dropInvalid bones v) j ↔ ValidSlot bones v j := by
  by_cases h : ValidSlot bones v j
  · have h2 := h
    unfold ValidSlot at h2
    simp only [ValidSlot, dropInvalid, if_pos h2]
  · have h2 := h
    unfold ValidSlot at h2
    have : ¬ ValidSlot bones (dropInvalid bones v) j := by
      simp only [ValidSlot, dropInvalid, if_neg h2]
      omega
    exact iff_of_false this h

/-- The skinning loop reads nothing of a slot whose bone id fails its guards. -/
theorem skinPoint_dropInvalid (bones : List Bone) (v : Vertex) (p : Vec4) :
    skinPoint bones (dropInvalid bones v) p = skinPoint bones v p := by
  have hw : ∀ j, slotWeight bones (dropInvalid bones v) j = slotWeight bones v j := by
    intro j
    by_cases h : ValidSlot bones v j
    · simp only [slotWeight, if_pos h, if_pos ((validSlot_dropInvalid bones v j).mpr h)]
      simp only [dropInvalid, if_pos h]
    · simp only [slotWeight, if_neg h, if_neg (mt (validSlot_dropInvalid bones v j).mp h)]
  have hp : ∀ j, slotPoint bones (dropInvalid bones v) p j = slotPoint bones v p j := by
    intro j
    by_cases h : ValidSlot bones v j
    · simp only [slotPoint, if_pos h, if_pos ((validSlot_dropInvalid bones v j).mpr h)]
      simp only [dropInvalid, slotTransform, if_pos h]
    · simp only [slotPoint, if_neg h, if_neg (mt (validSlot_dropInvalid bones v j).mp h)]
  rw [skinPoint_eq, skinPoint_eq]
  simp only [hw, hp]

theorem restMesh_at {r : Int} {closest : Vertex}
    (h : atIndex restMesh.vertices r = some closest) : closest = blendVertex := by
  unfold atIndex at h
  split_ifs at h
  exact List.eq_of_mem_replicate (List.getElem?_mem h)

/-- C20 fails: every vertex of `restHand` carries an influence with bone id 100, while
the hand has 21 bones; `calculateKeypoints` reports nothing and returns 21 keypoints,
the first of them `(1, 0, 0)`, the joint of bone 1, as if that influence were not there. -/
theorem bad_influence_counterexample :
    restHand.getBones 0 = some restBones ∧ restBones.length = 21 ∧
      (∀ closest ∈ restMesh.vertices, closest.bone_ids 2 = 100) ∧
      ∃ kps, calculateKeypoints cofactorInverse 0 restHand = some kps ∧ kps.length = 21 ∧
        kps[0]? = some ![1, 0, 0] := by
  refine ⟨restHand_bones, by decide, fun closest h => ?_, ?_⟩
  · rw [List.eq_of_mem_replicate h]
    decide
  · have hmesh : restHand.meshes[0]? = some restMesh := rfl
    have hret : ∃ kps, calculateKeypoints cofactorInverse 0 restHand = some kps :=
      calculateKeypoints_returns restHand_bones hmesh (by decide) restMesh_vertices
    obtain ⟨kps, hk⟩ := hret
    obtain ⟨hlen, hall⟩ := calculateKeypoints_result restHand_bones hmesh hk
    obtain ⟨rb, rv, bone, closest, h1, _, h2, h4, hget⟩ := hall 0 (by decide)
    have hrb : rb = 1 := by
      have : key_mapping[0]? = some 1 := by decide
      rw [this] at h1
      exact (Option.some.inj h1).symm
    subst hrb
    have hbone : bone = Bone.create cofactorInverse 1 (translation (-1) 0 0) "B" := by
      have : atIndex restBones 1
          = some (Bone.create cofactorInverse 1 (translation (-1) 0 0) "B") := by decide!
      rw [this] at h2
      exact (Option.some.inj h2).symm
    rw [restMesh_at h4, hbone] at hget
    refine ⟨kps, hk, hlen, ?_⟩
    rw [hget]
    decide!

/-- C20 amended: `calculateKeypoints` has no error report, and an influence whose bone id
is not below the number of bones is skipped silently. Whenever every `key_mapping` entry
is a valid bone index and every `keypoint_bone_map` entry a valid vertex index, it returns
all 21 keypoints, whatever bone ids the reference vertices carry, and keypoint `i` is what
it is when the influences with a bone id out of range are unset (id -1, weight 0). -/
theorem bad_influence_skipped (glmInverse : InverseLib) (uninit : Mat4) (hand : ObjectRigged)
    (bones : List Bone) (mesh : Mesh)
    (hbones : hand.getBones uninit = some bones) (hmesh : hand.meshes[0]? = some mesh)
    (hrefs : ∀ i, i < 21 → ∃ rb rv bone closest,
      key_mapping[i]? = some rb ∧ keypoint_bone_map[i]? = some rv ∧
      atIndex bones rb = some bone ∧ atIndex mesh.vertices rv = some closest) :
    ∃ kps, calculateKeypoints glmInverse uninit hand = some kps ∧ kps.length = 21 ∧
      ∀ i, i < 21 → ∃ rb rv bone closest,
        key_mapping[i]? = some rb ∧ keypoint_bone_map[i]? = some rv ∧
        atIndex bones rb = some bone ∧ atIndex mesh.vertices rv = some closest ∧
        kps[i]? = some (xyz (mesh.transforms.mulVec
          (skinPoint bones (dropInvalid bones closest)
            (referencePoint glmInverse 0 bone.offset i)))) := by
  have hret : ∃ kps, calculateKeypoints glmInverse uninit hand = some kps := by
    rw [calculateKeypoints_eq hbones hmesh]
    exact keypointLoop_returns glmInverse _ _ bones mesh.vertices mesh.transforms _
      zeroKeypoints_spec.1 zeroKeypoints_spec.2 21 le_rfl
      (fun i hi => (skinnedKeypoint_isSome _ _ _ _ _ _ i).mpr (hrefs i hi))
  obtain ⟨kps, hk⟩ := hret
  obtain ⟨hlen, hall⟩ := calculateKeypoints_result hbones hmesh hk
  refine ⟨kps, hk, hlen, fun i hi => ?_⟩
  obtain ⟨rb, rv, bone, closest, h1, h3, h2, h4, hget⟩ := hall i hi
  refine ⟨rb, rv, bone, closest, h1, h3, h2, h4, ?_⟩
  rw [hget, skinPoint_dropInvalid, referencePoint_zero]

/-- C20 amended, on `restHand`, whose vertices all carry the bone id 100. -/
theorem bad_influence_skipped_witness :
    ∃ kps, calculateKeypoints cofactorInverse 0 restHand = some kps ∧ kps.length = 21 ∧
      ∀ i, i < 21 → ∃ rb rv bone closest,
        key_mapping[i]? = some rb ∧ keypoint_bone_map[i]? = some rv ∧
        atIndex restBones rb = some bone ∧ atIndex restMesh.vertices rv = some closest ∧
        kps[i]? = some (xyz (restMesh.transforms.mulVec
          (skinPoint restBones (dropInvalid restBones closest)
            (referencePoint cofactorInverse 0 bone.offset i)))) :=
  bad_influence_skipped cofactorInverse 0 restHand restBones restMesh restHand_bones rfl
    (references_found (by decide) restMesh_vertices)

/-! ## From a rotation by name to the skinned point -/

theorem getBones_eq (uninit : Mat4) (m : Mesh) :
    m.getBones uninit
      = (m.bone_mapping.insertionSort (fun a b => a.1 ≤ b.1)).foldlM storeById
          (List.replicate m.bone_mapping.length (Bone.empty uninit)) := rfl

theorem storeById_spec (nodes : List (String × Bone)) :
    (nodes.map (fun node => node.2.bone_id)).Nodup →
    ∀ init res, nodes.foldlM storeById init = some res →
      res.length = init.length ∧
      (∀ node ∈ nodes, atIndex res node.2.bone_id = some node.2) ∧
      (∀ k : Nat, (∀ node ∈ nodes, node.2.bone_id ≠ (k : Int)) → res[k]? = init[k]?) := by
  induction nodes with
  | nil =>
    intro _ init res h
    simp only [List.foldlM_nil, Option.pure_def, Option.some.injEq] at h
    subst h
    exact ⟨rfl, fun _ hn => absurd hn (List.not_mem_nil _), fun _ _ => rfl⟩
  | cons node rest ih =>
    intro hnd init res h
    rw [List.map_cons, List.nodup_cons] at hnd
    rw [List.foldlM_cons] at h
    by_cases hg : 0 ≤ node.2.bone_id ∧ node.2.bone_id.toNat < init.length
    · have hstep : storeById init node = some (init.set node.2.bone_id.toNat node.2) := by
        simp only [storeById, if_pos hg]
      rw [hstep] at h
      obtain ⟨hlen, hin, hout⟩ := ih hnd.2 _ res h
      have hcast : ((node.2.bone_id.toNat : Nat) : Int) = node.2.bone_id :=
        Int.toNat_of_nonneg hg.1
      refine ⟨by rw [hlen, List.length_set], ?_, ?_⟩
      · intro n hn
        rcases List.mem_cons.mp hn with rfl | hn
        · have hk := hout n.2.bone_id.toNat (fun n' hn' e => hnd.1 (by
            rw [hcast] at e
            rw [← e]
            exact List.mem_map_of_mem (fun node => node.2.bone_id) hn'))
          simp only [atIndex, if_neg (not_lt.mpr hg.1)]
          rw [hk, List.getElem?_set_self hg.2]
        · exact hin n hn
      · intro k hk
        have hne : node.2.bone_id.toNat ≠ k := by
          intro e
          apply hk node (List.mem_cons_self _ _)
          rw [← e, hcast]
        rw [hout k (fun n hn => hk n (List.mem_cons_of_mem _ hn)), List.getElem?_set_ne hne]
    · have hstep : storeById init node = none := by
        simp only [storeById, if_neg hg]
      rw [hstep] at h
      cases h

theorem storeById_returns (nodes : List (String × Bone)) :
    ∀ init : List Bone,
      (∀ node ∈ nodes, 0 ≤ node.2.bone_id ∧ node.2.bone_id < init.length) →
      ∃ res, nodes.foldlM storeById init = some res := by
  induction nodes with
  | nil => intro init _; exact ⟨init, rfl⟩
  | cons node rest ih =>
    intro init h
    have hg := h node (List.mem_cons_self _ _)
    have hg2 : 0 ≤ node.2.bone_id ∧ node.2.bone_id.toNat < init.length := ⟨hg.1, by omega⟩
    rw [List.foldlM_cons]
    have hstep : storeById init node = some (init.set node.2.bone_id.toNat node.2) := by
      simp only [storeById, if_pos hg2]
    rw [hstep]
    exact ih _ (fun n hn => by
      rw [List.length_set]
      exact h n (List.mem_cons_of_mem _ hn))

/-- When the bone ids of the map are pairwise different, `getBones` holds every bone of the
map at the index of its id. -/
theorem getBones_spec {uninit : Mat4} {m : Mesh} (hids : DistinctIds m) {bones : List Bone}
    (h : m.getBones uninit = some bones) :
    ∀ node ∈ m.bone_mapping, atIndex bones node.2.bone_id = some node.2 := by
  rw [getBones_eq] at h
  have hperm := List.perm_insertionSort (fun (a b : String × Bone) => a.1 ≤ b.1) m.bone_mapping
  have hnd : ((m.bone_mapping.insertionSort (fun a b => a.1 ≤ b.1)).map
      (fun node => node.2.bone_id)).Nodup :=
    (List.Perm.nodup_iff (hperm.map _)).mpr hids
  obtain ⟨_, hin, _⟩ := storeById_spec _ hnd _ _ h
  exact fun node hn => hin node (hperm.mem_iff.mpr hn)

theorem getBones_returns (uninit : Mat4) (m : Mesh)
    (h : ∀ node ∈ m.bone_mapping, 0 ≤ node.2.bone_id ∧ node.2.bone_id < m.bone_mapping.length) :
    ∃ bones, m.getBones uninit = some bones := by
  rw [getBones_eq]
  have hperm := List.perm_insertionSort (fun (a b : String × Bone) => a.1 ≤ b.1) m.bone_mapping
  apply storeById_returns
  intro node hn
  rw [List.length_replicate]
  exact h node (hperm.mem_iff.mp hn)

theorem zipWith_snd (nodes : List (String × Bone)) :
    ∀ sk : Skeleton, sk.length = nodes.length →
      (List.zipWith (fun node bone => (node.1, bone)) nodes sk).map Prod.snd = sk := by
  induction nodes with
  | nil =>
    intro sk h
    cases sk with
    | nil => rfl
    | cons _ _ => simp at h
  | cons node rest ih =>
    intro sk h
    cases sk with
    | nil => simp at h
    | cons b bs =>
      simp only [List.zipWith_cons_cons, List.map_cons, List.cons.injEq, true_and]
      exact ih bs (by simpa using h)

theorem zipWith_fst (nodes : List (String × Bone)) :
    ∀ sk : Skeleton, sk.length = nodes.length →
      (List.zipWith (fun node bone => (node.1, bone)) nodes sk).map Prod.fst
        = nodes.map Prod.fst := by
  induction nodes with
  | nil =>
    intro sk h
    cases sk with
    | nil => rfl
    | cons _ _ => simp at h
  | cons node rest ih =>
    intro sk h
    cases sk with
    | nil => simp at h
    | cons b bs =>
      simp only [List.zipWith_cons_cons, List.map_cons, List.cons.injEq, true_and]
      exact ih bs (by simpa using h)

theorem withSkeleton_skeleton (m : Mesh) (sk : Skeleton)
    (h : sk.length = m.bone_mapping.length) : (m.withSkeleton sk).skeleton = sk :=
  zipWith_snd m.bone_mapping sk h

theorem skeleton_length (m : Mesh) : m.skeleton.length = m.bone_mapping.length :=
  List.length_map _ _

theorem skeleton_mem {m : Mesh} {i : Nat} {bone : Bone} (h : m.skeleton[i]? = some bone) :
    ∃ node ∈ m.bone_mapping, node.2 = bone := by
  have hm := List.getElem?_mem h
  simp only [Mesh.skeleton, List.mem_map] at hm
  exact hm

theorem rotateBone_known {glmRotate : RotationLib} {uninit : Mat4} {m : Mesh}
    {bone_name : String} {address : Nat} (h : findNode bone_name m.bone_mapping = some address)
    (fuel : Nat) (x y z angle : ℚ) :
    m.rotateBone glmRotate uninit fuel bone_name x y z angle
      = (rotate glmRotate fuel m.skeleton address x y z angle).map m.withSkeleton := by
  simp only [Mesh.rotateBone, Mesh.nodeAt, h]

theorem distinctIds_of_frame {m m' : Mesh}
    (h : m'.skeleton.map Bone.frame = m.skeleton.map Bone.frame) (hids : DistinctIds m) :
    DistinctIds m' := by
  have e : ∀ n : Mesh, n.bone_mapping.map (fun node => node.2.bone_id)
      = (n.skeleton.map Bone.frame).map Bone.bone_id := by
    intro n
    simp only [Mesh.skeleton, List.map_map]
    rfl
  unfold DistinctIds at *
  rw [e, h, ← e]
  exact hids

/-- What a rotation by name leaves in the map: the skeleton that `Bone::rotate` returns,
under the same keys. -/
theorem rotateBone_skeleton {glmRotate : RotationLib} {uninit : Mat4} {m m' : Mesh}
    {bone_name : String} {address : Nat} (hname : findNode bone_name m.bone_mapping = some address)
    {fuel : Nat} {x y z angle : ℚ}
    (h : m.rotateBone glmRotate uninit fuel bone_name x y z angle = some m') :
    rotate glmRotate fuel m.skeleton address x y z angle = some m'.skeleton ∧
      m' = m.withSkeleton m'.skeleton := by
  rw [rotateBone_known hname] at h
  cases hr : rotate glmRotate fuel m.skeleton address x y z angle with
  | none => simp [hr] at h
  | some sk' =>
    simp only [hr, Option.map_some', Option.some.injEq] at h
    subst h
    have hlen : sk'.length = m.bone_mapping.length := by
      have hb : ∃ bone, m.skeleton[address]? = some bone := by
        cases hb : m.skeleton[address]? with
        | none => simp [rotate, hb] at hr
        | some bone => exact ⟨bone, rfl⟩
      obtain ⟨bone, hb⟩ := hb
      rw [frame_length (rotate_own hb hr).1, skeleton_length]
    rw [withSkeleton_skeleton m sk' hlen]
    exact ⟨rfl, rfl⟩

/-- C18: end to end on a forest skeleton at rest with a chain Root -> Wrist -> Finger,
whose bone ids are pairwise different. `Mesh::rotateBone` of the wrist by its key returns
(given enough fuel) and, with `R` the rotation matrix of the call and `bones` what
`getBones` returns afterwards, a point `p` skinned with a vertex bound only to the finger
with weight 1 is `(Wrist.offset_inv * R * Wrist.offset) * p`, in which the offset of the
finger does not occur, and a point skinned with a vertex bound only to the root with
weight 1 is `p` itself. `getBones` returns when every id is an index of the map. -/
theorem wrist_rotation_end_to_end (glmRotate : RotationLib) (uninit : Mat4) (m : Mesh)
    (hF : Forest m.skeleton) (hrest : AtRest m.skeleton) (hids : DistinctIds m)
    (r w f : Nat) (root wrist finger : Bone) (wrist_name : String)
    (hroot : m.skeleton[r]? = some root) (hwrist : m.skeleton[w]? = some wrist)
    (hfinger : m.skeleton[f]? = some finger)
    (hname : findNode wrist_name m.bone_mapping = some w)
    (hrw : IsChild m.skeleton r w) (hwf : IsChild m.skeleton w f)
    (x y z angle : ℚ) (vF vR : Vertex)
    (hvF : BoundOnlyTo vF finger.bone_id) (hvR : BoundOnlyTo vR root.bone_id) :
    (∃ fuel m', m.rotateBone glmRotate uninit fuel wrist_name x y z angle = some m') ∧
    ∀ fuel m', m.rotateBone glmRotate uninit fuel wrist_name x y z angle = some m' →
      ((∀ node ∈ m.bone_mapping,
          0 ≤ node.2.bone_id ∧ node.2.bone_id < m.bone_mapping.length) →
        ∃ bones, m'.getBones uninit = some bones) ∧
      ∀ bones, m'.getBones uninit = some bones → ∀ p : Vec4,
        skinPoint bones vF p
          = (wrist.offset_inv * glmRotate x y z angle * wrist.offset).mulVec p ∧
        skinPoint bones vR p = p := by
  constructor
  · obtain ⟨fuel₀, h⟩ := rotate_returns glmRotate hF hwrist x y z angle
    obtain ⟨sk', hrun⟩ := h fuel₀ le_rfl
    exact ⟨fuel₀, m.withSkeleton sk', by rw [rotateBone_known hname, hrun]; rfl⟩
  · intro fuel m' hrun
    obtain ⟨hrot, hm'⟩ := rotateBone_skeleton hname hrun
    obtain ⟨hfr, _, hin, hout⟩ := rotate_result hF hwrist hrot
    have hids' : DistinctIds m' := distinctIds_of_frame hfr hids
    have hlen : m'.bone_mapping.length = m.bone_mapping.length := by
      rw [← skeleton_length, ← skeleton_length, frame_length hfr]
    constructor
    · intro hrange
      apply getBones_returns
      intro node hn
      obtain ⟨i, hi⟩ := List.getElem?_of_mem hn
      have hsk : m'.skeleton[i]? = some node.2 := by
        simp only [Mesh.skeleton, List.getElem?_map, hi, Option.map_some']
      have hilt : i < m.skeleton.length := by
        rw [← frame_length hfr]
        exact getElem?_lt hsk
      obtain ⟨old, hold⟩ : ∃ old, m.skeleton[i]? = some old :=
        ⟨_, List.getElem?_eq_getElem hilt⟩
      obtain ⟨new, hnew, hid, _⟩ := frame_fields hfr hold
      rw [hsk] at hnew
      cases hnew
      obtain ⟨onode, hon, rfl⟩ := skeleton_mem hold
      rw [hid, hlen]
      exact hrange onode hon
    · intro bones hbones p
      have hwf' : Descendant m.skeleton w f := Relation.TransGen.single hwf
      have hrw' : Descendant m.skeleton r w := Relation.TransGen.single hrw
      have hrne : r ≠ w := by
        rintro rfl
        exact not_descendant_self hF _ hrw'
      have hnd : ¬ Descendant m.skeleton w r := fun h =>
        not_descendant_self hF _ (Relation.TransGen.trans hrw' h)
      obtain ⟨finger', hf', hfid, _⟩ := frame_fields hfr hfinger
      obtain ⟨root', hr', hrid, _⟩ := frame_fields hfr hroot
      have hft : finger'.transforms
          = wrist.offset_inv * glmRotate x y z angle * wrist.offset := by
        have h1 := hin f hwf'
        rw [transformsAt_of_atRest hrest (getElem?_lt hfinger)] at h1
        simp only [transformsAt, hf', Option.map_some', Option.some.injEq, mul_one] at h1
        exact h1
      have hrt : root'.transforms = 1 := by
        have h1 := hout r hrne hnd
        rw [transformsAt_of_atRest hrest (getElem?_lt hroot)] at h1
        simp only [transformsAt, hr', Option.map_some', Option.some.injEq] at h1
        exact h1
      obtain ⟨nf, hnf, hnfe⟩ := skeleton_mem hf'
      obtain ⟨nr, hnr, hnre⟩ := skeleton_mem hr'
      have hbf := getBones_spec hids' hbones nf hnf
      have hbr := getBones_spec hids' hbones nr hnr
      rw [hnfe, hfid] at hbf
      rw [hnre, hrid] at hbr
      rw [skinPoint_single hvF hbf, skinPoint_single hvR hbr, hft, hrt, Matrix.one_mulVec]
      exact ⟨rfl, rfl⟩

theorem chainMesh_skeleton : chainMesh.skeleton = handChain := by decide!

/-- C18, on `chainMesh`: after a quarter turn of the wrist about Z, the point `(1, 5, 0)`
skinned with the finger vertex is `(-3, 3, 0)` and skinned with the root vertex is itself. -/
theorem wrist_rotation_end_to_end_witness :
    (chainMesh.rotateBone quarterTurn 0 2 "Wrist" 0 0 1 90).map Mesh.skeleton
        = some turnedChain ∧
      ∃ m' bones, chainMesh.rotateBone quarterTurn 0 2 "Wrist" 0 0 1 90 = some m' ∧
        m'.getBones 0 = some bones ∧
        skinPoint bones fingerVertex ![1, 5, 0, 1] = ![-3, 3, 0, 1] ∧
        skinPoint bones rootVertex ![1, 5, 0, 1] = ![1, 5, 0, 1] :=
  have hrun : ∃ m', chainMesh.rotateBone quarterTurn 0 2 "Wrist" 0 0 1 90 = some m' :=
    Option.isSome_iff_exists.mp (by decide!)
  let ⟨m', hm'⟩ := hrun
  let h := (wrist_rotation_end_to_end quarterTurn 0 chainMesh
    (chainMesh_skeleton ▸ handChain_forest) (by decide!) (by decide!) 0 1 2
    { bone_id := 0, offset := 1, offset_inv := 1, name := "Root", transforms := 1,
      parent := none, children := [1] }
    wristBone
    { bone_id := 2, offset := translation 0 (-5) 0, offset_inv := translation 0 5 0,
      name := "Finger", transforms := 1, parent := some 1, children := [] }
    "Wrist" (by decide!) (by decide!) (by decide!) (by decide!) (by decide!) (by decide!)
    0 0 1 90 fingerVertex rootVertex (by decide!) (by decide!)).2 2 m' hm'
  let ⟨bones, hb⟩ := h.1 (by decide!)
  let hp := h.2 bones hb ![1, 5, 0, 1]
  ⟨by decide!, m', bones, hm', hb, hp.1.trans (by decide!), hp.2⟩

/-! ## Rotating a bone that is not in the map -/

theorem findNode_none {bone_name : String} :
    ∀ {nodes : List (String × Bone)}, (∀ node ∈ nodes, node.1 ≠ bone_name) →
      findNode bone_name nodes = none := by
  intro nodes
  induction nodes with
  | nil => intro _; rfl
  | cons node rest ih =>
    intro h
    simp only [findNode, if_neg (h node (List.mem_cons_self _ _)),
      ih (fun n hn => h n (List.mem_cons_of_mem _ hn)), Option.map_none']

theorem zipWith_self (nodes : List (String × Bone)) :
    List.zipWith (fun (node : String × Bone) (bone : Bone) => (node.1, bone)) nodes
      (nodes.map Prod.snd) = nodes := by
  induction nodes with
  | nil => rfl
  | cons node rest ih => simp only [List.map_cons, List.zipWith_cons_cons, ih]

theorem set_last {α : Type} (l : List α) (a b : α) : (l ++ [a]).set l.length b = l ++ [b] := by
  induction l with
  | nil => rfl
  | cons x xs ih => simp only [List.cons_append, List.length_cons, List.set_cons_succ, ih]

/-- With a name that is not a key, `Mesh::rotateBone` returns for every fuel, and what it
returns is the mesh with one more node: `operator[]` adds a default-constructed bone under
the name, and `rotate` turns that bone. -/
theorem unknownBone_eq (glmRotate : RotationLib) (uninit : Mat4) (fuel : Nat)
    (m : Mesh) (bone_name : String) (x y z angle : ℚ)
    (h : findNode bone_name m.bone_mapping = none) :
    m.rotateBone glmRotate uninit fuel bone_name x y z angle
      = some { m with bone_mapping := m.bone_mapping ++
          [(bone_name, { Bone.empty uninit with
            transforms := 1 * (uninit * glmRotate x y z angle * 1) })] } := by
  have hget : (m.bone_mapping.map Prod.snd ++ [Bone.empty uninit])[m.bone_mapping.length]?
      = some (Bone.empty uninit) := by
    rw [List.getElem?_append_right (by simp)]
    simp
  simp only [Mesh.rotateBone, Mesh.nodeAt, h, Mesh.skeleton, List.map_append, List.map_cons,
    List.map_nil, rotate, hget]
  simp only [Bone.empty, List.foldlM_nil, Option.pure_def, Option.map_some', Option.some.injEq,
    Mesh.withSkeleton, Bone.jointRotation]
  have hlen : m.bone_mapping.length = (m.bone_mapping.map Prod.snd).length := by simp
  congr 1
  rw [hlen, set_last, List.zipWith_append _ _ _ _ _ (by simp), zipWith_self]
  rfl

theorem unknownBone_keeps (glmRotate : RotationLib) (uninit : Mat4) (fuel : Nat)
    (m : Mesh) (bone_name : String) (x y z angle : ℚ)
    (h : ∀ node ∈ m.bone_mapping, node.1 ≠ bone_name) :
    ∃ m', m.rotateBone glmRotate uninit fuel bone_name x y z angle = some m' ∧
      KeepsNodes m m' := by
  refine ⟨_, unknownBone_eq glmRotate uninit fuel m bone_name x y z angle
    (findNode_none h), rfl, rfl, rfl, fun i node hi => ?_⟩
  simp only
  rw [List.getElem?_append_left (getElem?_lt hi)]
  exact hi

theorem mapM_forall2 {α β : Type} (f : α → Option β) (P : α → β → Prop) :
    ∀ l : List α, (∀ a ∈ l, ∃ b, f a = some b ∧ P a b) →
      ∃ l', l.mapM f = some l' ∧ List.Forall₂ P l l' := by
  intro l
  induction l with
  | nil => intro _; exact ⟨[], rfl, List.Forall₂.nil⟩
  | cons a as ih =>
    intro h
    obtain ⟨b, hb, hP⟩ := h a (List.mem_cons_self _ _)
    obtain ⟨bs, hbs, hPs⟩ := ih (fun x hx => h x (List.mem_cons_of_mem _ hx))
    refine ⟨b :: bs, ?_, List.Forall₂.cons hP hPs⟩
    simp only [List.mapM_cons, hb, hbs, Option.pure_def, Option.bind_eq_bind, Option.some_bind]

/-- C19 fails: `Thumb` is not a key of the bone map of `chainMesh`, and `Mesh::rotateBone`
and `ObjectRigged::rotateBone` report nothing and leave a map with the four keys Root,
Wrist, Finger and Thumb. -/
theorem rotateBone_unknown_counterexample :
    chainMesh.bone_mapping.map Prod.fst = ["Root", "Wrist", "Finger"] ∧
      findNode "Thumb" chainMesh.bone_mapping = none ∧
      (chainMesh.rotateBone quarterTurn 0 0 "Thumb" 1 0 0 90).map
          (fun m' => m'.bone_mapping.map Prod.fst)
        = some ["Root", "Wrist", "Finger", "Thumb"] ∧
      (ObjectRigged.rotateBone quarterTurn 0 0 ⟨[chainMesh]⟩ "Thumb" 1 0 0 90).map
          (fun o' => o'.meshes.map (fun m' => m'.bone_mapping.map Prod.fst))
        = some [["Root", "Wrist", "Finger", "Thumb"]] := by
  decide!

/-- C19 amended: rotating an unknown bone reports nothing and changes no bone of the map.
For every bone name that is not a key of the bone map of any mesh of the object,
`ObjectRigged::rotateBone` returns, whatever the fuel, after `Mesh::rotateBone` on every
mesh; each mesh keeps its vertices, its model transform and every node of its map, under
the same key and with the same bone, accumulated transform included. -/
theorem rotateBone_unknown (glmRotate : RotationLib) (uninit : Mat4) (fuel : Nat)
    (o : ObjectRigged) (bone_name : String) (x y z angle : ℚ)
    (h : ∀ m ∈ o.meshes, ∀ node ∈ m.bone_mapping, node.1 ≠ bone_name) :
    ∃ o', o.rotateBone glmRotate uninit fuel bone_name x y z angle = some o' ∧
      List.Forall₂
        (fun m m' => m.rotateBone glmRotate uninit fuel bone_name x y z angle = some m' ∧
          KeepsNodes m m')
        o.meshes o'.meshes := by
  obtain ⟨l', hl', hP⟩ := mapM_forall2
    (fun (m : Mesh) => m.rotateBone glmRotate uninit fuel bone_name x y z angle)
    (fun m m' => m.rotateBone glmRotate uninit fuel bone_name x y z angle = some m' ∧
      KeepsNodes m m')
    o.meshes
    (fun m hm => by
      obtain ⟨m', hm', hk⟩ :=
        unknownBone_keeps glmRotate uninit fuel m bone_name x y z angle (h m hm)
      exact ⟨m', hm', hm', hk⟩)
  exact ⟨⟨l'⟩, by simp only [ObjectRigged.rotateBone, hl', Option.map_some'], hP⟩

/-- C19 amended, on the object with `chainMesh` as its only mesh and the name `Thumb`. -/
theorem rotateBone_unknown_witness :
    ∃ o', ObjectRigged.rotateBone quarterTurn 0 0 ⟨[chainMesh]⟩ "Thumb" 1 0 0 90 = some o' ∧
      List.Forall₂
        (fun m m' => m.rotateBone quarterTurn 0 0 "Thumb" 1 0 0 90 = some m' ∧
          KeepsNodes m m')
        [chainMesh] o'.meshes :=
  rotateBone_unknown quarterTurn 0 0 ⟨[chainMesh]⟩ "Thumb" 1 0 0 90 (by decide)

/-! ## Table lookups, ties and the assertion on vertex ids -/

/-- C24: `key_mapping` and `keypoint_bone_map` have 21 entries each, in 0..20 and in
0..60805; so for every hand whose bones number at least 21 and whose first mesh has at
least 60806 vertices, every access `bones[key_mapping[i]]` and
`vertices[keypoint_bone_map[i]]`, `i` in 0..20, is within bounds, and `calculateKeypoints`
returns a list of exactly 21 points with keypoint `i` at position `i`. -/
theorem keypoint_lookups_in_range (glmInverse : InverseLib) (uninit : Mat4)
    (hand : ObjectRigged) (bones : List Bone) (mesh : Mesh)
    (hbones : hand.getBones uninit = some bones) (hmesh : hand.meshes[0]? = some mesh)
    (hb : 21 ≤ bones.length) (hv : 60806 ≤ mesh.vertices.length) :
    key_mapping.length = 21 ∧ keypoint_bone_map.length = 21 ∧
    (∀ r ∈ key_mapping, 0 ≤ r ∧ r ≤ 20) ∧ (∀ r ∈ keypoint_bone_map, 0 ≤ r ∧ r ≤ 60805) ∧
    (∀ i, i < 21 → ∃ (rb rv : Int) (bone : Bone) (closest : Vertex),
      key_mapping[i]? = some rb ∧ keypoint_bone_map[i]? = some rv ∧
      0 ≤ rb ∧ rb < (bones.length : Int) ∧ 0 ≤ rv ∧ rv < (mesh.vertices.length : Int) ∧
      atIndex bones rb = some bone ∧ atIndex mesh.vertices rv = some closest) ∧
    ∃ kps, calculateKeypoints glmInverse uninit hand = some kps ∧ kps.length = 21 ∧
      ∀ i, i < 21 → ∃ s,
        skinnedKeypoint glmInverse key_mapping keypoint_bone_map bones mesh.vertices 0 i
          = some s ∧
        kps[i]? = some (xyz (mesh.transforms.mulVec s)) := by
  refine ⟨key_mapping_range.1, keypoint_bone_map_range.1,
    fun r hr => ⟨(key_mapping_range.2 r hr).1, by have := (key_mapping_range.2 r hr).2; omega⟩,
    fun r hr => ⟨(keypoint_bone_map_range.2 r hr).1,
      by have := (keypoint_bone_map_range.2 r hr).2; omega⟩, fun i hi => ?_, ?_⟩
  · obtain ⟨rb, rv, bone, closest, h1, h3, h2, h4⟩ := references_found hb hv i hi
    have hr1 := key_mapping_range.2 rb (List.getElem?_mem h1)
    have hr3 := keypoint_bone_map_range.2 rv (List.getElem?_mem h3)
    exact ⟨rb, rv, bone, closest, h1, h3, hr1.1, by omega, hr3.1, by omega, h2, h4⟩
  · obtain ⟨kps, hk⟩ : ∃ kps, calculateKeypoints glmInverse uninit hand = some kps :=
      calculateKeypoints_returns hbones hmesh hb hv
    have hrun := hk
    rw [calculateKeypoints_eq hbones hmesh] at hrun
    obtain ⟨_, hlen, hdone, _⟩ := keypointLoop_inv glmInverse _ _ bones mesh.vertices
      mesh.transforms _ zeroKeypoints_spec.1 zeroKeypoints_spec.2 21 kps hrun
    exact ⟨kps, hk, hlen, hdone⟩

/-- C24, on `restHand`: 21 bones and 60806 vertices. -/
theorem keypoint_lookups_in_range_witness :
    ∃ kps, calculateKeypoints cofactorInverse 0 restHand = some kps ∧ kps.length = 21 ∧
      ∀ i, i < 21 → ∃ s,
        skinnedKeypoint cofactorInverse key_mapping keypoint_bone_map restBones
          restMesh.vertices 0 i = some s ∧
        kps[i]? = some (xyz (restMesh.transforms.mulVec s)) :=
  have hmesh : restHand.meshes[0]? = some restMesh := rfl
  (keypoint_lookups_in_range cofactorInverse 0 restHand restBones restMesh restHand_bones
    hmesh (by decide) restMesh_vertices).2.2.2.2.2

/-- C25 fails on `Bone()`: with zeros in the memory of `offset_inv`, the bone that the
default constructor builds has the identity as offset and the zero matrix, not its
inverse, as stored inverse; `Mesh::rotateBone` with the name `Thumb`, which is not in the
map of `chainMesh`, leaves such a bone in the map, turned with that stored inverse. -/
theorem default_bone_offset_inv_unset :
    (Bone.empty 0).offset = 1 ∧ cofactorInverse (Bone.empty 0).offset = 1 ∧
      (Bone.empty 0).offset_inv = 0 ∧
      (Bone.empty 0).offset_inv ≠ cofactorInverse (Bone.empty 0).offset ∧
      (chainMesh.rotateBone quarterTurn 0 0 "Thumb" 1 0 0 90).map
          (fun m' => (m'.bone_mapping[3]?).map (fun node => node.1))
        = some (some "Thumb") ∧
      (chainMesh.rotateBone quarterTurn 0 0 "Thumb" 1 0 0 90).map
          (fun m' => (m'.bone_mapping[3]?).map (fun node => node.2.offset))
        = some (some 1) ∧
      (chainMesh.rotateBone quarterTurn 0 0 "Thumb" 1 0 0 90).map
          (fun m' => (m'.bone_mapping[3]?).map (fun node => node.2.offset_inv))
        = some (some 0) ∧
      (chainMesh.rotateBone quarterTurn 0 0 "Thumb" 1 0 0 90).map
          (fun m' => (m'.bone_mapping[3]?).map (fun node => node.2.transforms))
        = some (some 0) :=
  ⟨by decide!, by decide!, by decide!, by decide!, by decide!, by decide!, by decide!,
    by decide!⟩

theorem updateBones_tie (v : Vertex) (bone_id : Int) :
    v.updateBones bone_id (lowestWeight v.bone_weights).2 = v := by
  simp only [Vertex.updateBones, lt_irrefl, if_false]

/-- C26: an influence whose weight equals the lowest slot weight is discarded by
`Mesh::updateVertexBones`, and the outcome depends on the order of arrival: the five
influences of `fiveTied` (bones 0 to 4, all with weight 0.5), bound to a freshly
initialised vertex in this order and in the reverse order, leave different sets of bone
ids in the slots. -/
theorem tied_weights_depend_on_order :
    (∀ (v : Vertex) (bone_id : Int),
      v.updateBones bone_id (lowestWeight v.bone_weights).2 = v) ∧
    ∃ first second : List (Int × ℚ),
      first.Perm second ∧ (first.map Prod.fst).Nodup ∧ (∀ x ∈ first, x.2 = 1 / 2) ∧
      ∃ m₁ m₂ v₁ v₂,
        oneVertexMesh.updateAll (influencesOn 0 first) = some m₁ ∧
        oneVertexMesh.updateAll (influencesOn 0 second) = some m₂ ∧
        m₁.vertices[0]? = some v₁ ∧ m₂.vertices[0]? = some v₂ ∧
        slotIds v₁ = {0, 1, 2, 3} ∧ slotIds v₂ = {4, 3, 2, 1} ∧ slotIds v₁ ≠ slotIds v₂ := by
  have h₁ := updateAll_influencesOn fiveTied oneVertexMesh 0 (initBoneSlots emptyVertex)
    le_rfl rfl
  have h₂ := updateAll_influencesOn fiveTied.reverse oneVertexMesh 0
    (initBoneSlots emptyVertex) le_rfl rfl
  have hperm : fiveTied.Perm fiveTied.reverse := (List.reverse_perm _).symm
  have hids : (fiveTied.map Prod.fst).Nodup := by decide
  have hw : ∀ x ∈ fiveTied, x.2 = 1 / 2 := by decide!
  have e₁ : slotIds ((initBoneSlots emptyVertex).bindAll fiveTied) = {0, 1, 2, 3} := by
    decide!
  have e₂ : slotIds ((initBoneSlots emptyVertex).bindAll fiveTied.reverse) = {4, 3, 2, 1} := by
    decide!
  have ne : slotIds ((initBoneSlots emptyVertex).bindAll fiveTied)
      ≠ slotIds ((initBoneSlots emptyVertex).bindAll fiveTied.reverse) := by decide!
  have hlen : (0 : Int).toNat < oneVertexMesh.vertices.length := by decide
  exact ⟨updateBones_tie, fiveTied, fiveTied.reverse, hperm, hids, hw, _, _, _, _, h₁, h₂,
    List.getElem?_set_self hlen, List.getElem?_set_self hlen, e₁, e₂, ne⟩

/-- C30 fails: the asserted condition `vertex_id <= vertices.size()` holds for the vertex
id `vertices.size()`, one past the last vertex, where `vertices[vertex_id]` does not exist
and `Mesh::updateVertexBones` reads and writes out of bounds. -/
theorem assert_admits_past_the_end (m : Mesh) (bone_id : Int) (weight : ℚ) :
    m.assertVertexId m.vertices.length ∧
      m.vertices[((m.vertices.length : Nat) : Int).toNat]? = none ∧
      m.updateVertexBones m.vertices.length bone_id weight = none := by
  refine ⟨?_, ?_, ?_⟩
  · unfold Mesh.assertVertexId toSizeT
    omega
  · simp
  · simp [Mesh.updateVertexBones]

/-! ## Rotating two bones -/

/-- One `rotate` call on a skeleton that has the frame of the forest `sk₀`. -/
theorem rotate_step {glmRotate : RotationLib} {sk₀ sk sk' : Skeleton} (hF : Forest sk₀)
    (hfr : sk.map Bone.frame = sk₀.map Bone.frame) {b : Nat} {bone₀ : Bone}
    (hb₀ : sk₀[b]? = some bone₀) {x y z angle : ℚ} {fuel : Nat}
    (hrun : rotate glmRotate fuel sk b x y z angle = some sk') :
    sk'.map Bone.frame = sk₀.map Bone.frame ∧
    transformsAt sk' b
      = (transformsAt sk b).map (· * bone₀.jointRotation (glmRotate x y z angle)) ∧
    (∀ i, Descendant sk₀ b i → transformsAt sk' i
      = (transformsAt sk i).map (bone₀.jointRotation (glmRotate x y z angle) * ·)) ∧
    (∀ i, i ≠ b → ¬ Descendant sk₀ b i → transformsAt sk' i = transformsAt sk i) := by
  obtain ⟨bone, hbone⟩ : ∃ bone, sk[b]? = some bone := getElem?_of_frame hfr (getElem?_lt hb₀)
  have hJ : bone.jointRotation (glmRotate x y z angle)
      = bone₀.jointRotation (glmRotate x y z angle) :=
    jointRotation_of_frame (frame_bone hfr hbone hb₀) _
  obtain ⟨hfr1, hown, hin, hout⟩ := rotate_result (forest_of_frame hfr hF) hbone hrun
  rw [hJ] at hown hin
  rw [frame_descendant hfr] at hin hout
  refine ⟨hfr1.trans hfr, ?_, hin, hout⟩
  rw [hown]
  simp [transformsAt, hbone]

theorem rotate_step_returns (glmRotate : RotationLib) {sk₀ : Skeleton} (hF : Forest sk₀)
    {b : Nat} (hb : b < sk₀.length) (x y z angle : ℚ) :
    ∃ fuel₀, ∀ fuel, fuel₀ ≤ fuel → ∀ sk : Skeleton,
      sk.map Bone.frame = sk₀.map Bone.frame →
      ∃ sk', rotate glmRotate fuel sk b x y z angle = some sk' := by
  obtain ⟨rank, hr⟩ := hF.acyclic
  refine ⟨rank b, fun fuel hfuel sk hfr => ?_⟩
  obtain ⟨bone, hbone⟩ := getElem?_of_frame hfr hb
  have hr' : ∀ p c, IsChild sk p c → rank c < rank p := by
    rw [frame_isChild hfr]
    exact hr
  obtain ⟨sk', hrun, _⟩ :=
    rotate_spec glmRotate (forest_of_frame hfr hF) hr' b bone hbone x y z angle fuel hfuel
  exact ⟨sk', hrun⟩

/-- Two skeletons with the same frame and the same accumulated transforms are equal. -/
theorem skeleton_ext {sk₁ sk₂ : Skeleton} (hfr : sk₁.map Bone.frame = sk₂.map Bone.frame)
    (h : ∀ i, transformsAt sk₁ i = transformsAt sk₂ i) : sk₁ = sk₂ := by
  apply List.ext_getElem?
  intro i
  have hf := frame_getElem? hfr i
  have ht := h i
  unfold transformsAt at ht
  cases h1 : sk₁[i]? with
  | none =>
    cases h2 : sk₂[i]? with
    | none => rfl
    | some b => simp [h1, h2] at hf
  | some a =>
    cases h2 : sk₂[i]? with
    | none => simp [h1, h2] at hf
    | some b =>
      simp only [h1, h2, Option.map_some', Option.some.injEq] at hf ht
      cases a
      cases b
      simp only [Bone.frame, Bone.mk.injEq] at hf
      simp only at ht
      simp only [Option.some.injEq, Bone.mk.injEq]
      exact ⟨hf.1, hf.2.1, hf.2.2.1, hf.2.2.2.1, ht, hf.2.2.2.2.2.1, hf.2.2.2.2.2.2⟩

/-- In a forest two bones with a common proper descendant are equal or one is a proper
descendant of the other. -/
theorem ancestors_comparable {sk : Skeleton} (hF : Forest sk) {a b i : Nat}
    (ha : Descendant sk a i) (hb : Descendant sk b i) :
    a = b ∨ Descendant sk a b ∨ Descendant sk b a := by
  have U : Relator.RightUnique (Function.swap (IsChild sk)) := by
    intro x y z hxy hxz
    exact parent_unique hF.once hxy hxz
  have ra : Reach sk a i := reach_iff.mpr (Or.inr ha)
  have rb : Reach sk b i := reach_iff.mpr (Or.inr hb)
  rcases Relation.ReflTransGen.total_of_right_unique U
      (Relation.ReflTransGen.swap ra) (Relation.ReflTransGen.swap rb) with h | h
  · rcases reach_iff.mp (Relation.reflTransGen_swap.mp h) with e | d
    · exact Or.inl e
    · exact Or.inr (Or.inr d)
  · rcases reach_iff.mp (Relation.reflTransGen_swap.mp h) with e | d
    · exact Or.inl e.symm
    · exact Or.inr (Or.inl d)

theorem rotateTwo_some {glmRotate : RotationLib} {fuel : Nat} {sk out : Skeleton}
    {first second : Nat} {r₁ r₂ : ℚ × ℚ × ℚ × ℚ}
    (h : rotateTwo glmRotate fuel sk first r₁ second r₂ = some out) :
    ∃ mid, rotate glmRotate fuel sk first r₁.1 r₁.2.1 r₁.2.2.1 r₁.2.2.2 = some mid ∧
      rotate glmRotate fuel mid second r₂.1 r₂.2.1 r₂.2.2.1 r₂.2.2.2 = some out := by
  unfold rotateTwo at h
  cases h1 : rotate glmRotate fuel sk first r₁.1 r₁.2.1 r₁.2.2.1 r₁.2.2.2 with
  | none => simp [h1] at h
  | some mid => exact ⟨mid, rfl, by simpa [h1] using h⟩

/-- What two `rotate` calls on different bones `a`, then `b`, of a forest leave in a bone
`i`, by the place of `i`. -/
theorem rotateTwo_spec {glmRotate : RotationLib} {sk out : Skeleton} (hF : Forest sk)
    {a b : Nat} {boneA boneB : Bone} (ha : sk[a]? = some boneA) (hb : sk[b]? = some boneB)
    (hab : a ≠ b) {r₁ r₂ : ℚ × ℚ × ℚ × ℚ} {fuel : Nat}
    (h : rotateTwo glmRotate fuel sk a r₁ b r₂ = some out) :
    out.map Bone.frame = sk.map Bone.frame ∧
    transformsAt out a = (transformsAt sk a).map (fun T =>
      open Classical in
      if Descendant sk b a then
        boneB.jointRotation (glmRotate r₂.1 r₂.2.1 r₂.2.2.1 r₂.2.2.2)
          * (T * boneA.jointRotation (glmRotate r₁.1 r₁.2.1 r₁.2.2.1 r₁.2.2.2))
      else T * boneA.jointRotation (glmRotate r₁.1 r₁.2.1 r₁.2.2.1 r₁.2.2.2)) ∧
    transformsAt out b = (transformsAt sk b).map (fun T =>
      open Classical in
      if Descendant sk a b then
        boneA.jointRotation (glmRotate r₁.1 r₁.2.1 r₁.2.2.1 r₁.2.2.2) * T
          * boneB.jointRotation (glmRotate r₂.1 r₂.2.1 r₂.2.2.1 r₂.2.2.2)
      else T * boneB.jointRotation (glmRotate r₂.1 r₂.2.1 r₂.2.2.1 r₂.2.2.2)) ∧
    (∀ i, i ≠ a → i ≠ b → Descendant sk a i → ¬ Descendant sk b i →
      transformsAt out i = (transformsAt sk i).map
        (boneA.jointRotation (glmRotate r₁.1 r₁.2.1 r₁.2.2.1 r₁.2.2.2) * ·)) ∧
    (∀ i, i ≠ a → i ≠ b → ¬ Descendant sk a i → Descendant sk b i →
      transformsAt out i = (transformsAt sk i).map
        (boneB.jointRotation (glmRotate r₂.1 r₂.2.1 r₂.2.2.1 r₂.2.2.2) * ·)) ∧
    (∀ i, i ≠ a → i ≠ b → ¬ Descendant sk a i → ¬ Descendant sk b i →
      transformsAt out i = transformsAt sk i) := by
  obtain ⟨mid, h1, h2⟩ := rotateTwo_some h
  obtain ⟨f1, own1, in1, out1⟩ := rotate_step hF rfl ha h1
  obtain ⟨f2, own2, in2, out2⟩ := rotate_step hF f1 hb h2
  have haa : ¬ Descendant sk a a := not_descendant_self hF a
  have hbb : ¬ Descendant sk b b := not_descendant_self hF b
  refine ⟨f2, ?_, ?_, ?_, ?_, ?_⟩
  · by_cases hd : Descendant sk b a
    · rw [in2 a hd, own1]
      cases transformsAt sk a <;> simp [hd]
    · rw [out2 a hab hd, own1]
      cases transformsAt sk a <;> simp [hd]
  · rw [own2]
    by_cases hd : Descendant sk a b
    · rw [in1 b hd]
      cases transformsAt sk b <;> simp [hd]
    · rw [out1 b (Ne.symm hab) hd]
      cases transformsAt sk b <;> simp [hd]
  · intro i hia hib hda hdb
    rw [out2 i hib hdb, in1 i hda]
  · intro i hia hib hda hdb
    rw [in2 i hdb, out1 i hia hda]
  · intro i hia hib hda hdb
    rw [out2 i hib hdb, out1 i hia hda]

/-! ## The calls of the recursion -/

/-- The children loop with the record of calls, given what one call does. -/
theorem calls_children {sk₀ : Skeleton} {P : Nat → Prop}
    (call : Skeleton → Nat → Option (Skeleton × List Nat))
    (plain : Skeleton → Nat → Option Skeleton)
    (one : ∀ sk c, sk.map Bone.frame = sk₀.map Bone.frame → P c →
      ∃ sk' vs, call sk c = some (sk', vs) ∧ plain sk c = some sk' ∧
        sk'.map Bone.frame = sk₀.map Bone.frame ∧ vs.Nodup ∧ ∀ i, i ∈ vs ↔ Reach sk₀ c i) :
    ∀ (cs : List Nat) (sk : Skeleton) (acc : List Nat),
      sk.map Bone.frame = sk₀.map Bone.frame → (∀ c ∈ cs, P c) →
      cs.Pairwise (fun c₁ c₂ => ∀ i, Reach sk₀ c₁ i → Reach sk₀ c₂ i → False) →
      ∃ sk' vs, cs.foldlM (childRound call) (sk, acc) = some (sk', acc ++ vs) ∧
        cs.foldlM plain sk = some sk' ∧
        sk'.map Bone.frame = sk₀.map Bone.frame ∧ vs.Nodup ∧
        ∀ i, i ∈ vs ↔ ∃ c ∈ cs, Reach sk₀ c i := by
  intro cs
  induction cs with
  | nil =>
    intro sk acc hfr _ _
    exact ⟨sk, [], by simp, rfl, hfr, List.nodup_nil, by simp⟩
  | cons c cs ih =>
    intro sk acc hfr hP hpw
    obtain ⟨sk₁, vs₁, h1, p1, hfr1, hnd1, hmem1⟩ := one sk c hfr (hP c (List.mem_cons_self _ _))
    obtain ⟨hdisj, hpw'⟩ := List.pairwise_cons.mp hpw
    obtain ⟨sk', vs₂, h2, p2, hfr2, hnd2, hmem2⟩ :=
      ih sk₁ (acc ++ vs₁) hfr1 (fun d hd => hP d (List.mem_cons_of_mem _ hd)) hpw'
    refine ⟨sk', vs₁ ++ vs₂, ?_, ?_, hfr2, ?_, ?_⟩
    · simp only [List.foldlM_cons, childRound, h1, Option.map_some', Option.bind_eq_bind,
        Option.some_bind]
      rw [← List.append_assoc]
      exact h2
    · simp only [List.foldlM_cons, p1, Option.bind_eq_bind, Option.some_bind]
      exact p2
    · refine List.Nodup.append hnd1 hnd2 ?_
      intro i hi1 hi2
      obtain ⟨d, hd, hdi⟩ := (hmem2 i).mp hi2
      exact hdisj d hd i ((hmem1 i).mp hi1) hdi
    · intro i
      rw [List.mem_append, hmem1, hmem2]
      constructor
      · rintro (h | ⟨d, hd, hdi⟩)
        · exact ⟨c, List.mem_cons_self _ _, h⟩
        · exact ⟨d, List.mem_cons_of_mem _ hd, hdi⟩
      · rintro ⟨d, hd, hdi⟩
        rcases List.mem_cons.mp hd with e | e
        · exact Or.inl (e ▸ hdi)
        · exact Or.inr ⟨d, e, hdi⟩

/-- On a forest, with fuel above the rank of the bone, `propagateRotate` is called once on
every bone that is reachable from `b` and on no other bone. -/
theorem propagateRotateCalls_spec {sk₀ : Skeleton} (hF : Forest sk₀) {rank : Nat → Nat}
    (hr : ∀ p c, IsChild sk₀ p c → rank c < rank p) (M : Mat4) :
    ∀ (fuel : Nat) (sk : Skeleton) (b : Nat), sk.map Bone.frame = sk₀.map Bone.frame →
      (b < sk₀.length ∧ rank b < fuel) →
      ∃ sk' vs, propagateRotateCalls fuel sk b M = some (sk', vs) ∧
        propagateRotate fuel sk b M = some sk' ∧
        sk'.map Bone.frame = sk₀.map Bone.frame ∧ vs.Nodup ∧ ∀ i, i ∈ vs ↔ Reach sk₀ b i := by
  intro fuel
  induction fuel with
  | zero => intro sk b _ h; exact absurd h.2 (Nat.not_lt_zero _)
  | succ fuel ih =>
    intro sk b hfr hb
    obtain ⟨bone, hbone⟩ := getElem?_of_frame hfr hb.1
    have hch : bone.children = childrenOf sk₀ b := by
      rw [← frame_childrenOf hfr b]
      simp [childrenOf, hbone]
    have hfr1 : (sk.set b { bone with transforms := M * bone.transforms }).map Bone.frame
        = sk₀.map Bone.frame := by
      rw [frame_set hbone]; exact hfr
    have hP : ∀ c ∈ bone.children, c < sk₀.length ∧ rank c < fuel := by
      intro c hc
      rw [hch] at hc
      exact ⟨hF.closed b c hc, lt_of_lt_of_le (hr b c hc) (Nat.lt_succ_iff.mp hb.2)⟩
    have hpw := children_pairwise hF b
    rw [← hch] at hpw
    obtain ⟨sk', vs, hrun, hplain, hfr', hnd, hmem⟩ :=
      calls_children (fun s child => propagateRotateCalls fuel s child M)
        (fun s child => propagateRotate fuel s child M) ih bone.children _ [b] hfr1 hP hpw
    have hself : b ∉ vs := by
      intro hin
      obtain ⟨c, hc, hcb⟩ := (hmem b).mp hin
      rw [hch] at hc
      exact absurd (rank_le_of_reach hr hcb) (not_le.mpr (hr b c hc))
    refine ⟨sk', b :: vs, ?_, ?_, hfr', List.nodup_cons.mpr ⟨hself, hnd⟩, fun i => ?_⟩
    · simp only [propagateRotateCalls, hbone]
      exact hrun
    · simp only [propagateRotate, hbone]
      exact hplain
    · rw [List.mem_cons, hmem, reach_iff]
      constructor
      · rintro (h | ⟨c, hc, hci⟩)
        · exact Or.inl h
        · rw [hch] at hc
          exact Or.inr (Relation.TransGen.head'_iff.mpr ⟨c, hc, hci⟩)
      · rintro (h | h)
        · exact Or.inl h
        · obtain ⟨c, hbc, hci⟩ := Relation.TransGen.head'_iff.mp h
          exact Or.inr ⟨c, by rw [hch]; exact hbc, hci⟩

/-- C28: for every skeleton whose bone graph is a forest and every bone `b` of it,
`Bone::rotate` on `b` returns for every fuel from some bound on, and the calls of
`propagateRotate` that it makes, directly or through the recursion, are one call on
every proper descendant of `b` and none on any other bone. -/
theorem rotate_bounded (glmRotate : RotationLib) (sk : Skeleton) (hF : Forest sk) (b : Nat)
    (bone : Bone) (hb : sk[b]? = some bone) (x y z angle : ℚ) :
    ∃ fuel₀, ∀ fuel, fuel₀ ≤ fuel →
      ∃ sk' calls, rotateCalls glmRotate fuel sk b x y z angle = some (sk', calls) ∧
        rotate glmRotate fuel sk b x y z angle = some sk' ∧
        (∀ i, Descendant sk b i → calls.count i = 1) ∧
        (∀ i, ¬ Descendant sk b i → calls.count i = 0) := by
  obtain ⟨rank, hr⟩ := hF.acyclic
  refine ⟨rank b, fun fuel hfuel => ?_⟩
  have hch : bone.children = childrenOf sk b := by simp [childrenOf, hb]
  have hfr1 : (sk.set b { bone with
      transforms := bone.transforms * bone.jointRotation (glmRotate x y z angle) }).map
      Bone.frame = sk.map Bone.frame := frame_set hb _
  have hP : ∀ c ∈ bone.children, c < sk.length ∧ rank c < fuel := by
    intro c hc
    rw [hch] at hc
    exact ⟨hF.closed b c hc, lt_of_lt_of_le (hr b c hc) hfuel⟩
  have hpw := children_pairwise hF b
  rw [← hch] at hpw
  obtain ⟨sk', vs, hrun, hplain, _, hnd, hmem⟩ :=
    calls_children
      (fun s child => propagateRotateCalls fuel s child
        (bone.jointRotation (glmRotate x y z angle)))
      (fun s child => propagateRotate fuel s child (bone.jointRotation (glmRotate x y z angle)))
      (propagateRotateCalls_spec hF hr _ fuel) bone.children _ [] hfr1 hP hpw
  have hiff : ∀ i, i ∈ vs ↔ Descendant sk b i := by
    intro i
    rw [hmem]
    constructor
    · rintro ⟨c, hc, hci⟩
      rw [hch] at hc
      exact Relation.TransGen.head'_iff.mpr ⟨c, hc, hci⟩
    · intro h
      obtain ⟨c, hbc, hci⟩ := Relation.TransGen.head'_iff.mp h
      exact ⟨c, by rw [hch]; exact hbc, hci⟩
  refine ⟨sk', vs, ?_, ?_, fun i hi => ?_, fun i hi => ?_⟩
  · simp only [rotateCalls, hb]
    simpa using hrun
  · simp only [rotate, hb]
    exact hplain
  · exact List.count_eq_one_of_mem hnd ((hiff i).mpr hi)
  · exact List.count_eq_zero_of_not_mem (fun h => hi ((hiff i).mp h))

/-- C28, on the chain Root -> Wrist -> Finger: `rotate` on the root calls
`propagateRotate` on the wrist and on the finger, once each. -/
theorem rotate_bounded_witness :
    (rotateCalls quarterTurn 3 handChain 0 1 0 0 90).map Prod.snd = some [1, 2] ∧
      ∃ fuel₀, ∀ fuel, fuel₀ ≤ fuel →
        ∃ sk' calls, rotateCalls quarterTurn fuel handChain 0 1 0 0 90 = some (sk', calls) ∧
          rotate quarterTurn fuel handChain 0 1 0 0 90 = some sk' ∧
          (∀ i, Descendant handChain 0 i → calls.count i = 1) ∧
          (∀ i, ¬ Descendant handChain 0 i → calls.count i = 0) :=
  ⟨by decide!, rotate_bounded quarterTurn handChain handChain_forest 0
    { bone_id := 0, offset := 1, offset_inv := 1, name := "Root", transforms := 1,
      parent := none, children := [1] } (by decide!) 1 0 0 90⟩

/-! ## The bone loop of the constructor -/

theorem findNode_some {bone_name : String} :
    ∀ {nodes : List (String × Bone)} {address : Nat},
      findNode bone_name nodes = some address →
      ∃ node, nodes[address]? = some node ∧ node.1 = bone_name := by
  intro nodes
  induction nodes with
  | nil => intro a h; simp [findNode] at h
  | cons node rest ih =>
    intro a h
    by_cases e : node.1 = bone_name
    · simp only [findNode, if_pos e, Option.some.injEq] at h
      subst h
      exact ⟨node, by simp, e⟩
    · simp only [findNode, if_neg e] at h
      cases hr : findNode bone_name rest with
      | none => simp [hr] at h
      | some a' =>
        simp only [hr, Option.map_some', Option.some.injEq] at h
        subst h
        obtain ⟨n, hn, hk⟩ := ih hr
        exact ⟨n, by simpa using hn, hk⟩

theorem findNode_of_mem {bone_name : String} {nodes : List (String × Bone)}
    {node : String × Bone} (hn : node ∈ nodes) (hk : node.1 = bone_name) :
    ∃ address, findNode bone_name nodes = some address := by
  cases h : findNode bone_name nodes with
  | some a => exact ⟨a, rfl⟩
  | none =>
    exfalso
    induction nodes with
    | nil => cases hn
    | cons n rest ih =>
      by_cases e : n.1 = bone_name
      · simp [findNode, e] at h
      · simp only [findNode, if_neg e, Option.map_eq_none'] at h
        rcases List.mem_cons.mp hn with rfl | hr
        · exact e hk
        · exact ih hr h

theorem findNode_last {bone_name : String} {nodes : List (String × Bone)} (bone : Bone)
    (h : findNode bone_name nodes = none) :
    findNode bone_name (nodes ++ [(bone_name, bone)]) = some nodes.length := by
  induction nodes with
  | nil => simp [findNode]
  | cons n rest ih =>
    by_cases e : n.1 = bone_name
    · simp [findNode, e] at h
    · simp only [findNode, if_neg e, Option.map_eq_none'] at h
      show findNode bone_name (n :: (rest ++ [(bone_name, bone)])) = some (rest.length + 1)
      rw [findNode, if_neg e, ih h]
      rfl

theorem assignBone_new {uninit : Mat4} {m : Mesh} {bone_name : String}
    (h : findNode bone_name m.bone_mapping = none) (new_bone : Bone) :
    m.assignBone uninit bone_name new_bone
      = { m with bone_mapping := m.bone_mapping ++ [(bone_name, new_bone)] } := by
  have hget : (m.bone_mapping ++ [(bone_name, Bone.empty uninit)])[m.bone_mapping.length]?
      = some (bone_name, Bone.empty uninit) := by
    rw [List.getElem?_append_right (le_refl _)]
    simp
  simp only [Mesh.assignBone, Mesh.nodeAt, h, hget, set_last]

theorem updateVertexBones_keeps {m m' : Mesh} {vertex_id bone_id : Int} {weight : ℚ}
    (h : m.updateVertexBones vertex_id bone_id weight = some m') :
    m'.bone_mapping = m.bone_mapping ∧ m'.bone_count = m.bone_count ∧
      m'.vertices.length = m.vertices.length := by
  unfold Mesh.updateVertexBones at h
  split_ifs at h
  cases hv : m.vertices[vertex_id.toNat]? with
  | none => simp [hv] at h
  | some v =>
    simp only [hv, Option.some.injEq] at h
    subst h
    exact ⟨rfl, rfl, List.length_set _ _ _⟩

theorem bindWeights_keeps (bone_id : Int) :
    ∀ (ws : List (Int × ℚ)) (m m' : Mesh), ws.foldlM (Mesh.bindWeight bone_id) m = some m' →
      m'.bone_mapping = m.bone_mapping ∧ m'.bone_count = m.bone_count ∧
        m'.vertices.length = m.vertices.length := by
  intro ws
  induction ws with
  | nil =>
    intro m m' h
    simp only [List.foldlM_nil, Option.pure_def, Option.some.injEq] at h
    subst h
    exact ⟨rfl, rfl, rfl⟩
  | cons w ws ih =>
    intro m m' h
    rw [List.foldlM_cons] at h
    cases h1 : Mesh.bindWeight bone_id m w with
    | none => simp [h1] at h
    | some m₁ =>
      simp only [h1, Option.bind_eq_bind, Option.some_bind] at h
      obtain ⟨a, b, c⟩ := ih m₁ m' h
      unfold Mesh.bindWeight at h1
      split_ifs at h1
      obtain ⟨a1, b1, c1⟩ := updateVertexBones_keeps h1
      exact ⟨a.trans a1, b.trans b1, c.trans c1⟩

theorem bindWeights_returns (bone_id : Int) :
    ∀ (ws : List (Int × ℚ)) (m : Mesh),
      (∀ w ∈ ws, 0 ≤ w.1 ∧ w.1 < m.vertices.length) →
      ∃ m', ws.foldlM (Mesh.bindWeight bone_id) m = some m' := by
  intro ws
  induction ws with
  | nil => intro m _; exact ⟨m, rfl⟩
  | cons w ws ih =>
    intro m h
    obtain ⟨h0, h1⟩ := h w (List.mem_cons_self _ _)
    have hlt : w.1.toNat < m.vertices.length := by omega
    have hassert : m.assertVertexId w.1 := by
      unfold Mesh.assertVertexId toSizeT
      omega
    have hstep := updateVertexBones_eq h0 (List.getElem?_eq_getElem hlt) bone_id w.2
    rw [List.foldlM_cons]
    simp only [Mesh.bindWeight, if_pos hassert, hstep, Option.bind_eq_bind, Option.some_bind]
    apply ih
    intro w' hw'
    simp only [List.length_set]
    exact h w' (List.mem_cons_of_mem _ hw')

/-- What one round of the bone loop does to the map and to `bone_count`. -/
theorem loadBone_map {glmInverse : InverseLib} {uninit : Mat4} {m m' : Mesh} {bone : AiBone}
    (h : m.loadBone glmInverse uninit bone = some m') :
    m'.vertices.length = m.vertices.length ∧
    (findNode bone.mName m.bone_mapping = none →
      m'.bone_mapping = m.bone_mapping ++
        [(bone.mName, Bone.create glmInverse m.bone_count bone.mOffsetMatrix bone.mName)] ∧
      m'.bone_count = m.bone_count + 1) ∧
    (findNode bone.mName m.bone_mapping ≠ none →
      m'.bone_mapping = m.bone_mapping ∧ m'.bone_count = m.bone_count) := by
  unfold Mesh.loadBone at h
  cases hf : findNode bone.mName m.bone_mapping with
  | none =>
    simp only [hf, if_true, assignBone_new hf] at h
    have hlast := findNode_last
      (Bone.create glmInverse m.bone_count bone.mOffsetMatrix bone.mName) hf
    simp only [Mesh.nodeAt, hlast] at h
    have hz : ([(bone.mName,
        Bone.create glmInverse m.bone_count bone.mOffsetMatrix bone.mName)] :
        List (String × Bone))[m.bone_mapping.length - m.bone_mapping.length]?
        = some (bone.mName,
          Bone.create glmInverse m.bone_count bone.mOffsetMatrix bone.mName) := by simp
    rw [List.getElem?_append_right (le_refl _)] at h
    simp only [hz] at h
    obtain ⟨a, b, c⟩ := bindWeights_keeps _ _ _ _ h
    exact ⟨c, fun _ => ⟨a, b⟩, fun hne => absurd rfl hne⟩
  | some address =>
    simp only [hf, reduceCtorEq, if_false, Mesh.nodeAt] at h
    obtain ⟨node, hnode, _⟩ := findNode_some hf
    simp only [hnode] at h
    obtain ⟨a, b, c⟩ := bindWeights_keeps _ _ _ _ h
    exact ⟨c, ⟨fun hnone => Option.noConfusion hnone, fun _ => ⟨a, b⟩⟩⟩

theorem loadBone_returns (glmInverse : InverseLib) (uninit : Mat4) (m : Mesh) (bone : AiBone)
    (hw : ∀ w ∈ bone.mWeights, 0 ≤ w.1 ∧ w.1 < m.vertices.length) :
    ∃ m', m.loadBone glmInverse uninit bone = some m' := by
  unfold Mesh.loadBone
  cases hf : findNode bone.mName m.bone_mapping with
  | none =>
    simp only [if_true, assignBone_new hf]
    have hlast := findNode_last
      (Bone.create glmInverse m.bone_count bone.mOffsetMatrix bone.mName) hf
    simp only [Mesh.nodeAt, hlast]
    have hz : ([(bone.mName,
        Bone.create glmInverse m.bone_count bone.mOffsetMatrix bone.mName)] :
        List (String × Bone))[m.bone_mapping.length - m.bone_mapping.length]?
        = some (bone.mName,
          Bone.create glmInverse m.bone_count bone.mOffsetMatrix bone.mName) := by simp
    rw [List.getElem?_append_right (le_refl _)]
    simp only [hz]
    exact bindWeights_returns _ _ _ hw
  | some address =>
    simp only [reduceCtorEq, if_false, Mesh.nodeAt, hf]
    obtain ⟨node, hnode, _⟩ := findNode_some hf
    simp only [hnode]
    exact bindWeights_returns _ _ _ hw

theorem namesBefore_append_of_mem {seen : List String} {name : String} (h : name ∈ seen)
    (more : List String) : namesBefore (seen ++ more) name = namesBefore seen name := by
  unfold namesBefore
  rw [List.indexOf_append_of_mem h,
    List.take_append_of_le_length (le_of_lt (List.indexOf_lt_length.mpr h))]

theorem namesBefore_append_new {seen : List String} {name : String} (h : name ∉ seen) :
    namesBefore (seen ++ [name]) name = seen.toFinset.card := by
  unfold namesBefore
  rw [List.indexOf_append_of_not_mem h]
  simp

theorem bonesLoaded_step {glmInverse : InverseLib} {uninit : Mat4} {seen : List String}
    {m m' : Mesh} {bone : AiBone} (inv : BonesLoaded seen m)
    (h : m.loadBone glmInverse uninit bone = some m') :
    BonesLoaded (seen ++ [bone.mName]) m' := by
  obtain ⟨_, hnew, hold⟩ := loadBone_map h
  cases hf : findNode bone.mName m.bone_mapping with
  | none =>
    obtain ⟨hmap, hcount⟩ := hnew hf
    have hkey : bone.mName ∉ m.bone_mapping.map Prod.fst := by
      intro hin
      obtain ⟨node, hn, hk⟩ := List.mem_map.mp hin
      obtain ⟨a, ha⟩ := findNode_of_mem hn hk
      rw [hf] at ha
      cases ha
    have hseen : bone.mName ∉ seen := fun hin => hkey ((inv.keys _).mpr hin)
    refine ⟨?_, ?_, ?_, ?_, ?_⟩
    · rw [hmap, List.map_append, List.map_cons, List.map_nil]
      exact List.Nodup.append inv.keys_nodup (List.nodup_singleton _)
        (fun x hx hx' => hkey (by rw [List.mem_singleton.mp hx'] at hx; exact hx))
    · intro name
      rw [hmap, List.map_append, List.mem_append, List.mem_append, inv.keys]
      simp
    · rw [hcount, hmap, inv.count]
      simp
    · rw [hmap, List.length_append, inv.size, List.toFinset_append, List.toFinset_cons,
        List.toFinset_nil, Finset.union_comm]
      simp [Finset.card_insert_of_not_mem, hseen]
      omega
    · intro k node hk
      rw [hmap] at hk
      by_cases hlt : k < m.bone_mapping.length
      · rw [List.getElem?_append_left hlt] at hk
        obtain ⟨h1, h2, h3⟩ := inv.ids k node hk
        have hin : node.1 ∈ seen :=
          (inv.keys _).mp (List.mem_map_of_mem Prod.fst (List.getElem?_mem hk))
        exact ⟨h1, h2, by rw [namesBefore_append_of_mem hin]; exact h3⟩
      · have hle : m.bone_mapping.length ≤ k := not_lt.mp hlt
        rw [List.getElem?_append_right hle] at hk
        have hk0 : k - m.bone_mapping.length = 0 := by
          by_contra hne
          obtain ⟨j, hj⟩ := Nat.exists_eq_succ_of_ne_zero hne
          rw [hj] at hk
          simp at hk
        rw [hk0] at hk
        simp only [List.getElem?_cons_zero, Option.some.injEq] at hk
        subst hk
        have hke : k = m.bone_mapping.length := by omega
        refine ⟨?_, rfl, ?_⟩
        · simp only [Bone.create, inv.count, hke]
        · rw [namesBefore_append_new hseen, ← inv.size, hke]
  | some address =>
    obtain ⟨hmap, hcount⟩ := hold (by rw [hf]; exact Option.some_ne_none _)
    obtain ⟨node, hnode, hkey⟩ := findNode_some hf
    have hseen : bone.mName ∈ seen :=
      (inv.keys _).mp (by
        rw [← hkey]
        exact List.mem_map_of_mem Prod.fst (List.getElem?_mem hnode))
    refine ⟨by rw [hmap]; exact inv.keys_nodup, ?_, by rw [hcount, hmap]; exact inv.count,
      ?_, ?_⟩
    · intro name
      rw [hmap, inv.keys, List.mem_append, List.mem_singleton]
      constructor
      · exact Or.inl
      · rintro (h | h)
        · exact h
        · rw [h]; exact hseen
    · rw [hmap, inv.size, List.toFinset_append]
      congr 1
      ext x
      simp only [Finset.mem_union, List.mem_toFinset, List.mem_singleton]
      constructor
      · exact Or.inl
      · rintro (h | h)
        · exact h
        · rw [h]; exact hseen
    · intro k nd hk
      rw [hmap] at hk
      obtain ⟨h1, h2, h3⟩ := inv.ids k nd hk
      have hin : nd.1 ∈ seen :=
        (inv.keys _).mp (List.mem_map_of_mem Prod.fst (List.getElem?_mem hk))
      exact ⟨h1, h2, by rw [namesBefore_append_of_mem hin]; exact h3⟩

theorem bonesLoaded_loop {glmInverse : InverseLib} {uninit : Mat4} :
    ∀ (bones : List AiBone) (seen : List String) (m m' : Mesh), BonesLoaded seen m →
      m.loadBones glmInverse uninit bones = some m' →
      BonesLoaded (seen ++ bones.map AiBone.mName) m' := by
  intro bones
  induction bones with
  | nil =>
    intro seen m m' inv h
    simp only [Mesh.loadBones, List.foldlM_nil, Option.pure_def, Option.some.injEq] at h
    subst h
    simpa using inv
  | cons b bs ih =>
    intro seen m m' inv h
    simp only [Mesh.loadBones, List.foldlM_cons] at h
    cases h1 : m.loadBone glmInverse uninit b with
    | none => simp [h1] at h
    | some m₁ =>
      simp only [h1, Option.bind_eq_bind, Option.some_bind] at h
      have := ih (seen ++ [b.mName]) m₁ m' (bonesLoaded_step inv h1) h
      simpa using this

theorem loadBones_returns (glmInverse : InverseLib) (uninit : Mat4) :
    ∀ (bones : List AiBone) (m : Mesh),
      (∀ b ∈ bones, ∀ w ∈ b.mWeights, 0 ≤ w.1 ∧ w.1 < m.vertices.length) →
      ∃ m', m.loadBones glmInverse uninit bones = some m' := by
  intro bones
  induction bones with
  | nil => intro m _; exact ⟨m, rfl⟩
  | cons b bs ih =>
    intro m h
    obtain ⟨m₁, h1⟩ := loadBone_returns glmInverse uninit m b (h b (List.mem_cons_self _ _))
    obtain ⟨m', h2⟩ := ih m₁ (fun b' hb' w hw => by
      rw [(loadBone_map h1).1]
      exact h b' (List.mem_cons_of_mem _ hb') w hw)
    exact ⟨m', by simp only [Mesh.loadBones, List.foldlM_cons, h1, Option.bind_eq_bind,
      Option.some_bind]; exact h2⟩

theorem getBones_length {uninit : Mat4} {m : Mesh} {bones : List Bone}
    (h : m.getBones uninit = some bones) (hids : DistinctIds m) :
    bones.length = m.bone_mapping.length := by
  rw [getBones_eq] at h
  have hperm := List.perm_insertionSort (fun (a b : String × Bone) => a.1 ≤ b.1) m.bone_mapping
  have hnd : ((m.bone_mapping.insertionSort (fun a b => a.1 ≤ b.1)).map
      (fun node => node.2.bone_id)).Nodup :=
    (List.Perm.nodup_iff (hperm.map _)).mpr hids
  obtain ⟨hlen, _, _⟩ := storeById_spec _ hnd _ _ h
  rw [hlen, List.length_replicate]

/-- C27: the bone loop of the `Mesh` constructor, run from an empty map and
`bone_count = 0` over the bones of a model, returns when every vertex id is in range; the
keys of the map are then the names of the list, the ids of its bones are pairwise
different and are exactly `0 .. n - 1`, with `n` the number of different names; the id
under a name is the number of different names before its first occurrence (so a repeated
name keeps its first id), and `getBones()[k]` is the bone of the map with id `k`. -/
theorem bone_ids_dense (glmInverse : InverseLib) (uninit : Mat4) (aiBones : List AiBone)
    (m₀ : Mesh) (hcount : m₀.bone_count = 0) (hmap : m₀.bone_mapping = []) :
    ((∀ b ∈ aiBones, ∀ w ∈ b.mWeights, 0 ≤ w.1 ∧ w.1 < m₀.vertices.length) →
      ∃ m, m₀.loadBones glmInverse uninit aiBones = some m) ∧
    ∀ m, m₀.loadBones glmInverse uninit aiBones = some m →
      DistinctIds m ∧
      m.bone_mapping.length = (aiBones.map AiBone.mName).toFinset.card ∧
      (∀ name, (∃ node ∈ m.bone_mapping, node.1 = name) ↔
        name ∈ aiBones.map AiBone.mName) ∧
      (∀ node ∈ m.bone_mapping, 0 ≤ node.2.bone_id ∧
        node.2.bone_id < m.bone_mapping.length ∧
        node.2.bone_id = namesBefore (aiBones.map AiBone.mName) node.1) ∧
      (∀ k : Nat, k < m.bone_mapping.length → ∃ node ∈ m.bone_mapping, node.2.bone_id = k) ∧
      ∃ bones, m.getBones uninit = some bones ∧ bones.length = m.bone_mapping.length ∧
        ∀ k : Nat, k < m.bone_mapping.length →
          ∃ key bone, (key, bone) ∈ m.bone_mapping ∧ bones[k]? = some bone ∧
            bone.bone_id = k := by
  refine ⟨loadBones_returns glmInverse uninit aiBones m₀, fun m hrun => ?_⟩
  have inv0 : BonesLoaded [] m₀ := by
    refine ⟨by rw [hmap]; exact List.nodup_nil, by rw [hmap]; simp, by rw [hcount, hmap]; rfl,
      by rw [hmap]; rfl, ?_⟩
    intro k node hk
    rw [hmap] at hk
    simp at hk
  have inv : BonesLoaded (aiBones.map AiBone.mName) m := by
    simpa using bonesLoaded_loop aiBones [] m₀ m inv0 hrun
  have hat : ∀ node ∈ m.bone_mapping, ∃ k : Nat, m.bone_mapping[k]? = some node ∧
      k < m.bone_mapping.length ∧ node.2.bone_id = k ∧
      k = namesBefore (aiBones.map AiBone.mName) node.1 := by
    intro node hn
    obtain ⟨k, hk⟩ := List.getElem?_of_mem hn
    obtain ⟨h1, _, h3⟩ := inv.ids k node hk
    exact ⟨k, hk, getElem?_lt hk, h1, h3⟩
  have hnode : ∀ k : Nat, k < m.bone_mapping.length →
      ∃ node, m.bone_mapping[k]? = some node ∧ node ∈ m.bone_mapping ∧ node.2.bone_id = k := by
    intro k hk
    obtain ⟨node, hnode⟩ : ∃ node, m.bone_mapping[k]? = some node :=
      ⟨_, List.getElem?_eq_getElem hk⟩
    exact ⟨node, hnode, List.getElem?_mem hnode, (inv.ids k node hnode).1⟩
  have hlist : m.bone_mapping.map (fun node => node.2.bone_id)
      = (List.range m.bone_mapping.length).map (fun k : Nat => (k : Int)) := by
    apply List.ext_getElem?
    intro k
    simp only [List.getElem?_map]
    by_cases hk : k < m.bone_mapping.length
    · obtain ⟨node, hn, _, hid⟩ := hnode k hk
      rw [hn, List.getElem?_range hk]
      simp [hid]
    · rw [List.getElem?_eq_none (not_lt.mp hk),
        List.getElem?_eq_none (by simpa using not_lt.mp hk)]
      rfl
  have hids : DistinctIds m := by
    unfold DistinctIds
    rw [hlist]
    exact List.Nodup.map (fun a b h => by simpa using h) (List.nodup_range _)
  have hrange : ∀ node ∈ m.bone_mapping,
      0 ≤ node.2.bone_id ∧ node.2.bone_id < m.bone_mapping.length := by
    intro node hn
    obtain ⟨k, _, hlt, hid, _⟩ := hat node hn
    rw [hid]
    exact ⟨Int.ofNat_nonneg _, by exact_mod_cast hlt⟩
  refine ⟨hids, inv.size, fun name => ?_, fun node hn => ?_, fun k hk => ?_, ?_⟩
  · rw [← inv.keys, List.mem_map]
  · obtain ⟨k, _, _, hid, hbefore⟩ := hat node hn
    exact ⟨(hrange node hn).1, (hrange node hn).2, by rw [hid, ← hbefore]⟩
  · obtain ⟨node, _, hn, hid⟩ := hnode k hk
    exact ⟨node, hn, hid⟩
  · obtain ⟨bones, hb⟩ := getBones_returns uninit m hrange
    refine ⟨bones, hb, getBones_length hb hids, fun k hk => ?_⟩
    obtain ⟨node, _, hn, hid⟩ := hnode k hk
    have hspec := getBones_spec hids hb node hn
    rw [hid] at hspec
    have hget : bones[k]? = some node.2 := by
      simpa [atIndex] using hspec
    exact ⟨node.1, node.2, hn, hget, hid⟩

/-- C27, on four bones named Root, Wrist, Root and Finger: the map gets the ids 0, 1
and 2, and Root keeps the id 0. -/
theorem bone_ids_dense_witness :
    (oneVertexMesh.loadBones cofactorInverse 0 exampleAiBones).map
        (fun m => m.bone_mapping.map (fun node => (node.1, node.2.bone_id)))
      = some [("Root", 0), ("Wrist", 1), ("Finger", 2)] ∧
    ∃ m, oneVertexMesh.loadBones cofactorInverse 0 exampleAiBones = some m ∧
      DistinctIds m ∧
      ∃ bones, m.getBones 0 = some bones ∧ bones.length = m.bone_mapping.length ∧
        ∀ k : Nat, k < m.bone_mapping.length →
          ∃ key bone, (key, bone) ∈ m.bone_mapping ∧ bones[k]? = some bone ∧
            bone.bone_id = k :=
  let h := bone_ids_dense cofactorInverse 0 exampleAiBones oneVertexMesh rfl rfl
  let ⟨m, hm⟩ := h.1 (by decide)
  let r := h.2 m hm
  ⟨by decide!, m, hm, r.1, r.2.2.2.2.2⟩

/-! ## Linking the bones -/

mutual
theorem loadBoneHierarchy_eq : ∀ (node : AiNode) (parent : Option AiNode) (m : Mesh),
    m.loadBoneHierarchy node parent
      = (node.links parent).foldl (fun mesh e => mesh.linkNodes e.1 e.2) m
  | .mk name children, parent, m => by
    have h := loadChildren_eq children (.mk name children)
    cases parent with
    | none =>
      simp only [Mesh.loadBoneHierarchy, AiNode.links, List.nil_append]
      exact h m
    | some pare =>
      simp only [Mesh.loadBoneHierarchy, AiNode.links, List.foldl_append, List.foldl_cons,
        List.foldl_nil]
      exact h _
theorem loadChildren_eq : ∀ (children : List AiNode) (node : AiNode) (m : Mesh),
    m.loadChildren children node
      = (AiNode.linksOf children node).foldl (fun mesh e => mesh.linkNodes e.1 e.2) m
  | [], _, _ => by simp only [Mesh.loadChildren, AiNode.linksOf, List.foldl_nil]
  | child :: rest, node, m => by
    have h₁ := loadBoneHierarchy_eq child (some node) m
    have h₂ := loadChildren_eq rest node
    simp only [Mesh.loadChildren, AiNode.linksOf, List.foldl_append, h₁, h₂]
end

theorem findNode_lt {bone_name : String} {nodes : List (String × Bone)} {address : Nat}
    (h : findNode bone_name nodes = some address) : address < nodes.length := by
  obtain ⟨_, hn, _⟩ := findNode_some h
  exact getElem?_lt hn

theorem findNode_keys {bone_name : String} :
    ∀ {nodes nodes' : List (String × Bone)}, nodes.map Prod.fst = nodes'.map Prod.fst →
      findNode bone_name nodes = findNode bone_name nodes' := by
  intro nodes
  induction nodes with
  | nil =>
    intro nodes' h
    cases nodes' with
    | nil => rfl
    | cons _ _ => simp at h
  | cons n rest ih =>
    intro nodes' h
    cases nodes' with
    | nil => simp at h
    | cons n' rest' =>
      simp only [List.map_cons, List.cons.injEq] at h
      simp only [findNode, h.1, ih h.2]

theorem onBone_keys (m : Mesh) (address : Nat) (method : Bone → Bone) :
    (m.onBone address method).bone_mapping.map Prod.fst = m.bone_mapping.map Prod.fst := by
  unfold Mesh.onBone
  cases h : m.bone_mapping[address]? with
  | none => rfl
  | some node =>
    apply List.ext_getElem?
    intro i
    simp only [List.getElem?_map, List.getElem?_set]
    by_cases e : address = i
    · subst e
      simp [h, getElem?_lt h]
    · simp [e]

theorem onBone_getElem? (m : Mesh) (address : Nat) (method : Bone → Bone) (i : Nat) :
    (m.onBone address method).skeleton[i]?
      = if i = address then (m.skeleton[i]?).map method else m.skeleton[i]? := by
  unfold Mesh.onBone Mesh.skeleton
  cases h : m.bone_mapping[address]? with
  | none =>
    by_cases e : i = address
    · subst e
      simp [h]
    · simp [e]
  | some node =>
    simp only [List.getElem?_map, List.getElem?_set]
    by_cases e : i = address
    · subst e
      simp [h, getElem?_lt h]
    · have e' : ¬ address = i := fun x => e x.symm
      simp [e, e']

theorem childrenOf_onBone (m : Mesh) (address : Nat) (method : Bone → Bone) (a : Nat) :
    childrenOf (m.onBone address method).skeleton a
      = if a = address then
          match m.skeleton[a]? with
          | some bone => (method bone).children
          | none => []
        else childrenOf m.skeleton a := by
  unfold childrenOf
  rw [onBone_getElem?]
  by_cases e : a = address
  · simp only [e, if_true]
    cases m.skeleton[address]? <;> rfl
  · simp only [e, if_false]

theorem parentOf_onBone (m : Mesh) (address : Nat) (method : Bone → Bone) (a : Nat) :
    parentOf (m.onBone address method).skeleton a
      = if a = address then (m.skeleton[a]?).bind (fun bone => (method bone).parent)
        else parentOf m.skeleton a := by
  unfold parentOf
  rw [onBone_getElem?]
  by_cases e : a = address
  · simp only [e, if_true]
    cases m.skeleton[address]? <;> rfl
  · simp only [e, if_false]

theorem skeleton_getElem?_of_lt {m : Mesh} {a : Nat} (h : a < m.bone_mapping.length) :
    ∃ bone, m.skeleton[a]? = some bone := by
  have : a < m.skeleton.length := by rw [skeleton_length]; exact h
  exact ⟨_, List.getElem?_eq_getElem this⟩

/-- One pass through the `if` of `loadBoneHierarchy`: the keys stay, the bone of the
parent name gets one more child and the bone of the node name a new parent. -/
theorem linkNodes_spec (m : Mesh) (e : String × String) (a : Nat) :
    (m.linkNodes e.1 e.2).bone_mapping.map Prod.fst = m.bone_mapping.map Prod.fst ∧
    childrenOf (m.linkNodes e.1 e.2).skeleton a
      = childrenOf m.skeleton a ++ linkedChildren m.bone_mapping [e] a ∧
    parentOf (m.linkNodes e.1 e.2).skeleton a
      = ((linkedParents m.bone_mapping [e] a).getLast?).or (parentOf m.skeleton a) := by
  cases hc : findNode e.1 m.bone_mapping with
  | none =>
    simp [Mesh.linkNodes, linkedChildren, linkedParents, hc]
  | some c =>
    cases hp : findNode e.2 m.bone_mapping with
    | none =>
      simp [Mesh.linkNodes, linkedChildren, linkedParents, hc, hp]
    | some p =>
      obtain ⟨bc, hbc⟩ := skeleton_getElem?_of_lt (findNode_lt hc)
      obtain ⟨bp, hbp⟩ := skeleton_getElem?_of_lt (findNode_lt hp)
      have hlink : m.linkNodes e.1 e.2
          = (m.onBone c (fun bone => bone.setParent p)).onBone p
              (fun bone => bone.addChild c) := by
        simp only [Mesh.linkNodes, hc, hp]
      rw [hlink]
      refine ⟨by simp only [onBone_keys], ?_, ?_⟩
      · simp only [childrenOf_onBone, onBone_getElem?, linkedChildren, hc, hp,
          Option.some.injEq, List.filterMap_cons, List.filterMap_nil]
        by_cases hap : a = p
        · subst hap
          by_cases hac : a = c
          · subst hac
            simp [hbp, childrenOf, Bone.addChild, Bone.setParent]
          · simp [hac, hbp, childrenOf, Bone.addChild]
        · have hpa : ¬ p = a := fun x => hap x.symm
          by_cases hac : a = c
          · subst hac
            simp [hap, hpa, hbc, childrenOf, Bone.setParent]
          · simp [hap, hpa, hac, childrenOf]
      · simp only [parentOf_onBone, onBone_getElem?, linkedParents, hc, hp,
          Option.some.injEq, List.filterMap_cons, List.filterMap_nil]
        by_cases hac : a = c
        · subst hac
          by_cases hap : a = p
          · subst hap
            simp [hbc, Bone.addChild, Bone.setParent]
          · simp [hap, hbc, parentOf, Bone.setParent]
        · have hca : ¬ c = a := fun x => hac x.symm
          by_cases hap : a = p
          · subst hap
            simp [hac, hca, hbp, parentOf, Bone.addChild]
          · simp [hap, hac, hca, parentOf]

theorem linked_keys {nodes nodes' : List (String × Bone)}
    (h : nodes.map Prod.fst = nodes'.map Prod.fst) (links : List (String × String)) (a : Nat) :
    linkedChildren nodes links a = linkedChildren nodes' links a ∧
      linkedParents nodes links a = linkedParents nodes' links a := by
  unfold linkedChildren linkedParents
  have e : ∀ name, findNode name nodes = findNode name nodes' := fun _ => findNode_keys h
  simp only [e, and_self]

/-- The walk over a list of pairs: the keys stay, every bone gets the children linked
beneath its key after the ones it had, and the last parent linked above its key. -/
theorem linkAll_spec : ∀ (links : List (String × String)) (m : Mesh) (a : Nat),
    (links.foldl (fun mesh e => mesh.linkNodes e.1 e.2) m).bone_mapping.map Prod.fst
      = m.bone_mapping.map Prod.fst ∧
    childrenOf (links.foldl (fun mesh e => mesh.linkNodes e.1 e.2) m).skeleton a
      = childrenOf m.skeleton a ++ linkedChildren m.bone_mapping links a ∧
    parentOf (links.foldl (fun mesh e => mesh.linkNodes e.1 e.2) m).skeleton a
      = ((linkedParents m.bone_mapping links a).getLast?).or (parentOf m.skeleton a) := by
  intro links
  induction links with
  | nil =>
    intro m a
    simp [linkedChildren, linkedParents]
  | cons e rest ih =>
    intro m a
    obtain ⟨k1, c1, p1⟩ := linkNodes_spec m e a
    obtain ⟨k2, c2, p2⟩ := ih (m.linkNodes e.1 e.2) a
    obtain ⟨lc, lp⟩ := linked_keys k1 rest a
    have hc : linkedChildren m.bone_mapping (e :: rest) a
        = linkedChildren m.bone_mapping [e] a ++ linkedChildren m.bone_mapping rest a := by
      unfold linkedChildren
      rw [← List.filterMap_append]
      rfl
    have hp : linkedParents m.bone_mapping (e :: rest) a
        = linkedParents m.bone_mapping [e] a ++ linkedParents m.bone_mapping rest a := by
      unfold linkedParents
      rw [← List.filterMap_append]
      rfl
    refine ⟨by rw [List.foldl_cons, k2, k1], ?_, ?_⟩
    · rw [List.foldl_cons, c2, c1, lc, hc, List.append_assoc]
    · rw [List.foldl_cons, p2, p1, lp, hp, List.getLast?_append, Option.or_assoc]

/-- C23 fails: on the bones Root, Wrist and Finger, one run of `loadBoneHierarchy` over
`chainTree` builds `handChain`, where the wrist has the children list `[2]`; a second run
leaves it with `[2, 2]`, and a quarter turn of the wrist about X then leaves the finger
with the joint rotation applied twice instead of once. -/
theorem loadBoneHierarchy_twice_counterexample :
    (looseChainMesh.loadBoneHierarchy chainTree none).skeleton = handChain ∧
      childrenOf (looseChainMesh.loadBoneHierarchy chainTree none).skeleton 1 = [2] ∧
      childrenOf ((looseChainMesh.loadBoneHierarchy chainTree none).loadBoneHierarchy
        chainTree none).skeleton 1 = [2, 2] ∧
      (rotate quarterTurn 3 (looseChainMesh.loadBoneHierarchy chainTree none).skeleton
          1 1 0 0 90).bind (fun sk => transformsAt sk 2) = some wristTurnX ∧
      (rotate quarterTurn 3 ((looseChainMesh.loadBoneHierarchy chainTree none).loadBoneHierarchy
          chainTree none).skeleton 1 1 0 0 90).bind (fun sk => transformsAt sk 2)
        = some (wristTurnX * wristTurnX) ∧
      wristTurnX * wristTurnX ≠ wristTurnX :=
  ⟨by decide!, by decide!, by decide!, by decide!, by decide!, by decide!⟩

/-- C23 amended: a second run of `loadBoneHierarchy` over the same tree keeps the keys of
the map and the parent of every bone, and appends to the children list of every bone,
once more, the children that the first run appended to it: the bones of the nodes that
the walk links beneath its key, in the order of the walk. -/
theorem loadBoneHierarchy_twice (m : Mesh) (node : AiNode) (parent : Option AiNode)
    (a : Nat) :
    ((m.loadBoneHierarchy node parent).loadBoneHierarchy node parent).bone_mapping.map Prod.fst
      = (m.loadBoneHierarchy node parent).bone_mapping.map Prod.fst ∧
    parentOf ((m.loadBoneHierarchy node parent).loadBoneHierarchy node parent).skeleton a
      = parentOf (m.loadBoneHierarchy node parent).skeleton a ∧
    childrenOf (m.loadBoneHierarchy node parent).skeleton a
      = childrenOf m.skeleton a ++ linkedChildren m.bone_mapping (node.links parent) a ∧
    childrenOf ((m.loadBoneHierarchy node parent).loadBoneHierarchy node parent).skeleton a
      = childrenOf (m.loadBoneHierarchy node parent).skeleton a
        ++ linkedChildren m.bone_mapping (node.links parent) a := by
  obtain ⟨k1, c1, p1⟩ := linkAll_spec (node.links parent) m a
  obtain ⟨k2, c2, p2⟩ := linkAll_spec (node.links parent)
    ((node.links parent).foldl (fun mesh e => mesh.linkNodes e.1 e.2) m) a
  obtain ⟨lc, lp⟩ := linked_keys k1 (node.links parent) a
  rw [loadBoneHierarchy_eq, loadBoneHierarchy_eq]
  refine ⟨k2, ?_, c1, ?_⟩
  · rw [p2, lp, p1]
    cases (linkedParents m.bone_mapping (node.links parent) a).getLast? <;> rfl
  · rw [c2, lc]

/-! ## The pairs of the walk and the tree -/

mutual
theorem links_mem : ∀ (tree : AiNode) (parent : Option AiNode) (e : String × String),
    e ∈ tree.links parent ↔
      (∃ pare, parent = some pare ∧ e = (tree.mName, pare.mName)) ∨
      (∃ pare ∈ tree.subtrees, ∃ node ∈ pare.mChildren, e = (node.mName, pare.mName))
  | .mk name children, parent, e => by
    have h := linksOf_mem children (.mk name children) e
    simp only [AiNode.links, AiNode.subtrees, List.mem_append, h, List.mem_cons]
    constructor
    · rintro (h1 | h2 | h3)
      · left
        cases parent with
        | none => simp at h1
        | some pare => exact ⟨pare, rfl, by simpa using h1⟩
      · obtain ⟨c, hc, he⟩ := h2
        exact Or.inr ⟨.mk name children, Or.inl rfl, c, hc, he⟩
      · obtain ⟨n, hn, c, hc, he⟩ := h3
        exact Or.inr ⟨n, Or.inr hn, c, hc, he⟩
    · rintro (⟨pare, hp, he⟩ | ⟨n, hn | hn, c, hc, he⟩)
      · left
        subst hp
        simpa using he
      · subst hn
        exact Or.inr (Or.inl ⟨c, hc, he⟩)
      · exact Or.inr (Or.inr ⟨n, hn, c, hc, he⟩)
theorem linksOf_mem : ∀ (children : List AiNode) (node : AiNode) (e : String × String),
    e ∈ AiNode.linksOf children node ↔
      (∃ child ∈ children, e = (child.mName, node.mName)) ∨
      (∃ pare ∈ AiNode.subtreesOf children, ∃ c ∈ pare.mChildren, e = (c.mName, pare.mName))
  | [], _, e => by simp [AiNode.linksOf, AiNode.subtreesOf]
  | child :: rest, node, e => by
    have h₁ := links_mem child (some node) e
    have h₂ := linksOf_mem rest node e
    simp only [AiNode.linksOf, AiNode.subtreesOf, List.mem_append, h₁, h₂, List.mem_cons]
    constructor
    · rintro ((⟨pare, hp, he⟩ | ⟨n, hn, c, hc, he⟩) | ⟨c, hc, he⟩ | ⟨n, hn, c, hc, he⟩)
      · simp only [Option.some.injEq] at hp
        subst hp
        exact Or.inl ⟨child, Or.inl rfl, he⟩
      · exact Or.inr ⟨n, Or.inl hn, c, hc, he⟩
      · exact Or.inl ⟨c, Or.inr hc, he⟩
      · exact Or.inr ⟨n, Or.inr hn, c, hc, he⟩
    · rintro (⟨c, hc | hc, he⟩ | ⟨n, hn | hn, c, hc, he⟩)
      · subst hc
        exact Or.inl (Or.inl ⟨node, rfl, he⟩)
      · exact Or.inr (Or.inl ⟨c, hc, he⟩)
      · exact Or.inl (Or.inr ⟨n, hn, c, hc, he⟩)
      · exact Or.inr (Or.inr ⟨n, hn, c, hc, he⟩)
end

/-- The pairs of the walk from the root are the pairs of a node and its immediate parent. -/
theorem links_iff_hasLink (tree : AiNode) (node_name pare_name : String) :
    (node_name, pare_name) ∈ tree.links none ↔ tree.HasLink node_name pare_name := by
  rw [links_mem]
  unfold AiNode.HasLink
  constructor
  · rintro (⟨_, hp, _⟩ | ⟨n, hn, c, hc, he⟩)
    · cases hp
    · simp only [Prod.mk.injEq] at he
      exact ⟨n, hn, c, hc, he.1.symm, he.2.symm⟩
  · rintro ⟨n, hn, c, hc, h1, h2⟩
    exact Or.inr ⟨n, hn, c, hc, by rw [h1, h2]⟩

mutual
theorem links_fst : ∀ (tree : AiNode) (parent : Option AiNode),
    (tree.links parent).map Prod.fst
      = (match parent with
          | some _ => [tree.mName]
          | none => []) ++ tree.names.tail
  | .mk name children, parent => by
    have h := linksOf_fst children (.mk name children)
    cases parent <;> simp [AiNode.links, AiNode.names, h, AiNode.mName]
theorem linksOf_fst : ∀ (children : List AiNode) (node : AiNode),
    (AiNode.linksOf children node).map Prod.fst = AiNode.namesOf children
  | [], _ => by simp [AiNode.linksOf, AiNode.namesOf]
  | .mk name cs :: rest, node => by
    have h₁ := links_fst (.mk name cs) (some node)
    have h₂ := linksOf_fst rest node
    simp only [AiNode.linksOf, AiNode.namesOf, List.map_append, h₁, h₂]
    simp [AiNode.names, AiNode.mName]
end

theorem links_fst_nodup {tree : AiNode} (h : tree.names.Nodup) :
    ((tree.links none).map Prod.fst).Nodup := by
  rw [links_fst]
  exact List.Nodup.sublist (List.tail_sublist _) h

theorem before_append {names : List String} {x y : String} (h : Before names x y)
    (front back : List String) : Before (front ++ names ++ back) x y := by
  obtain ⟨l₁, l₂, l₃, rfl⟩ := h
  exact ⟨front ++ l₁, l₂, l₃ ++ back, by simp⟩

mutual
theorem links_before : ∀ (tree : AiNode) (parent : Option AiNode) (e : String × String),
    e ∈ tree.links parent →
      (∃ pare, parent = some pare ∧ e = (tree.mName, pare.mName)) ∨ Before tree.names e.2 e.1
  | .mk name children, parent, e => by
    intro he
    simp only [AiNode.links, List.mem_append] at he
    rcases he with he | he
    · left
      cases parent with
      | none => simp at he
      | some pare => exact ⟨pare, rfl, by simpa using he⟩
    · right
      rcases linksOf_before children (.mk name children) e he with ⟨h1, l₁, l₂, h2⟩ | h
      · exact ⟨[], l₁, l₂, by simp [AiNode.names, h1, h2, AiNode.mName]⟩
      · have := before_append h [name] []
        simpa [AiNode.names] using this
theorem linksOf_before : ∀ (children : List AiNode) (node : AiNode) (e : String × String),
    e ∈ AiNode.linksOf children node →
      (e.2 = node.mName ∧ ∃ l₁ l₂, AiNode.namesOf children = l₁ ++ e.1 :: l₂) ∨
      Before (AiNode.namesOf children) e.2 e.1
  | [], _, e => by simp [AiNode.linksOf]
  | .mk name cs :: rest, node, e => by
    intro he
    simp only [AiNode.linksOf, List.mem_append] at he
    rcases he with he | he
    · rcases links_before (.mk name cs) (some node) e he with ⟨pare, hp, h⟩ | h
      · simp only [Option.some.injEq] at hp
        subst hp
        left
        exact ⟨by rw [h], [], AiNode.namesOf cs ++ AiNode.namesOf rest,
          by simp [AiNode.namesOf, AiNode.names, h, AiNode.mName]⟩
      · right
        have := before_append h [] (AiNode.namesOf rest)
        simpa [AiNode.namesOf] using this
    · rcases linksOf_before rest node e he with ⟨h1, l₁, l₂, h2⟩ | h
      · left
        exact ⟨h1, AiNode.names (.mk name cs) ++ l₁, l₂, by simp [AiNode.namesOf, h2]⟩
      · right
        have := before_append h (AiNode.names (.mk name cs)) []
        simpa [AiNode.namesOf] using this
end

theorem indexOf_of_before {names : List String} (hnd : names.Nodup) {x y : String}
    (h : Before names x y) :
    names.indexOf x < names.indexOf y ∧ names.indexOf y < names.length := by
  obtain ⟨l₁, l₂, l₃, rfl⟩ := h
  have hx : x ∉ l₁ := by
    intro hin
    have := List.nodup_append.mp hnd
    exact this.2.2 hin (List.mem_cons_self _ _)
  have hy1 : y ∉ l₁ := by
    intro hin
    have := List.nodup_append.mp hnd
    exact this.2.2 hin (by simp)
  have hnd2 := (List.nodup_append.mp hnd).2.1
  have hyx : y ≠ x := by
    rintro rfl
    have := (List.nodup_cons.mp hnd2).1
    exact this (by simp)
  have hy2 : y ∉ l₂ := by
    intro hin
    have h3 := (List.nodup_cons.mp hnd2).2
    have := (List.nodup_append.mp h3).2.2 hin (List.mem_cons_self _ _)
    exact this
  have ex : List.indexOf x (l₁ ++ x :: (l₂ ++ y :: l₃)) = l₁.length := by
    rw [List.indexOf_append_of_not_mem hx, List.indexOf_cons_self]
    rfl
  have ey : List.indexOf y (l₁ ++ x :: (l₂ ++ y :: l₃)) = l₁.length + (l₂.length + 1) := by
    rw [List.indexOf_append_of_not_mem hy1, List.indexOf_cons_ne _ (Ne.symm hyx),
      List.indexOf_append_of_not_mem hy2, List.indexOf_cons_self]
  rw [ex, ey]
  simp only [List.length_append, List.length_cons]
  omega

/-! ## What the walk links -/

theorem findNode_key_iff {nodes : List (String × Bone)} (hk : (nodes.map Prod.fst).Nodup)
    {a : Nat} {key : String} (h : (nodes.map Prod.fst)[a]? = some key) (name : String) :
    findNode name nodes = some a ↔ name = key := by
  constructor
  · intro hf
    obtain ⟨node, hn, hname⟩ := findNode_some hf
    rw [List.getElem?_map, hn] at h
    simp only [Option.map_some', Option.some.injEq] at h
    rw [← hname, h]
  · rintro rfl
    obtain ⟨node, hn, hname⟩ : ∃ node, nodes[a]? = some node ∧ node.1 = name := by
      rw [List.getElem?_map] at h
      cases hn : nodes[a]? with
      | none => simp [hn] at h
      | some node => exact ⟨node, rfl, by simpa [hn] using h⟩
    obtain ⟨q, hq⟩ := findNode_of_mem (List.getElem?_mem hn) hname
    obtain ⟨node', hn', hname'⟩ := findNode_some hq
    have hq' : (nodes.map Prod.fst)[q]? = some name := by
      rw [List.getElem?_map, hn', Option.map_some', hname']
    have : q = a := List.getElem?_inj (getElem?_lt hq') hk (hq'.trans h.symm)
    rw [hq, this]

theorem findNode_inj {nodes : List (String × Bone)} {name name' : String} {a : Nat}
    (h : findNode name nodes = some a) (h' : findNode name' nodes = some a) : name = name' := by
  obtain ⟨node, hn, hname⟩ := findNode_some h
  obtain ⟨node', hn', hname'⟩ := findNode_some h'
  rw [hn] at hn'
  cases hn'
  rw [← hname, ← hname']

theorem keyAt_of_findNode {nodes : List (String × Bone)} {name : String} {a : Nat}
    (h : findNode name nodes = some a) : keyAt nodes a = name := by
  obtain ⟨node, hn, hname⟩ := findNode_some h
  simp only [keyAt, hn, hname]

theorem mem_linkedChildren {nodes : List (String × Bone)} {links : List (String × String)}
    {p c : Nat} :
    c ∈ linkedChildren nodes links p ↔
      ∃ e ∈ links, findNode e.2 nodes = some p ∧ findNode e.1 nodes = some c := by
  unfold linkedChildren
  rw [List.mem_filterMap]
  constructor
  · rintro ⟨e, he, h⟩
    by_cases hp : findNode e.2 nodes = some p
    · rw [if_pos hp] at h
      exact ⟨e, he, hp, h⟩
    · rw [if_neg hp] at h
      cases h
  · rintro ⟨e, he, hp, hc⟩
    exact ⟨e, he, by rw [if_pos hp]; exact hc⟩

theorem mem_linkedParents {nodes : List (String × Bone)} {links : List (String × String)}
    {p c : Nat} :
    p ∈ linkedParents nodes links c ↔
      ∃ e ∈ links, findNode e.2 nodes = some p ∧ findNode e.1 nodes = some c := by
  unfold linkedParents
  rw [List.mem_filterMap]
  constructor
  · rintro ⟨e, he, h⟩
    by_cases hc : findNode e.1 nodes = some c
    · rw [if_pos hc] at h
      exact ⟨e, he, h, hc⟩
    · rw [if_neg hc] at h
      cases h
  · rintro ⟨e, he, hp, hc⟩
    exact ⟨e, he, by rw [if_pos hc]; exact hp⟩

theorem unlinked_skeleton {m : Mesh} (h : Unlinked m) (a : Nat) :
    childrenOf m.skeleton a = [] ∧ parentOf m.skeleton a = none := by
  unfold childrenOf parentOf
  cases hb : m.skeleton[a]? with
  | none => exact ⟨rfl, rfl⟩
  | some bone =>
    obtain ⟨node, hn, rfl⟩ := skeleton_mem hb
    exact ⟨(h node hn).2, (h node hn).1⟩

/-- With pairwise different names in the tree and pairwise different keys in the map, the
bone at `p` is among the linked children of `c`, and `c` among the linked parents of `p`,
exactly when the pair of their keys is a pair of the walk. -/
theorem linked_iff {nodes : List (String × Bone)} (hk : (nodes.map Prod.fst).Nodup)
    {links : List (String × String)} {p c : Nat} {kp kc : String}
    (hp : (nodes.map Prod.fst)[p]? = some kp) (hc : (nodes.map Prod.fst)[c]? = some kc) :
    (∃ e ∈ links, findNode e.2 nodes = some p ∧ findNode e.1 nodes = some c) ↔
      (kc, kp) ∈ links := by
  constructor
  · rintro ⟨e, he, h2, h1⟩
    have e1 := (findNode_key_iff hk hc e.1).mp h1
    have e2 := (findNode_key_iff hk hp e.2).mp h2
    rw [← e1, ← e2]
    exact he
  · intro h
    exact ⟨(kc, kp), h, (findNode_key_iff hk hp kp).mpr rfl, (findNode_key_iff hk hc kc).mpr rfl⟩

theorem last_linkedParent {nodes : List (String × Bone)}
    {links : List (String × String)} (hl : (links.map Prod.fst).Nodup) {p c : Nat} :
    (linkedParents nodes links c).getLast? = some p ↔ p ∈ linkedParents nodes links c := by
  constructor
  · exact List.mem_of_getLast?_eq_some
  · intro hp
    cases hlast : (linkedParents nodes links c).getLast? with
    | none =>
      rw [List.getLast?_eq_none_iff] at hlast
      rw [hlast] at hp
      cases hp
    | some q =>
      have hq := List.mem_of_getLast?_eq_some hlast
      obtain ⟨e, he, h2, h1⟩ := mem_linkedParents.mp hp
      obtain ⟨e', he', h2', h1'⟩ := mem_linkedParents.mp hq
      have hee : e = e' := List.inj_on_of_nodup_map hl he he' (findNode_inj h1 h1')
      subst hee
      rw [h2] at h2'
      exact h2'.symm

/-- C22: for a hierarchy tree whose node names are pairwise different, run from the root
on a map whose bones have no links yet, and for the bones at the addresses `p` and `c` of
the map afterwards: `c` is in the children list of `p` exactly when the parent of `c` is
`p`, exactly when the tree has a node with the key of `c` as name whose immediate parent
node has the key of `p` as name, at whatever depth; and a bone whose immediate parent node
is not a bone has no parent. -/
theorem loadBoneHierarchy_links (m : Mesh) (tree : AiNode) (hnames : tree.names.Nodup)
    (hkeys : (m.bone_mapping.map Prod.fst).Nodup) (hfresh : Unlinked m)
    (p c : Nat) (nodeP nodeC : String × Bone)
    (hp : (m.loadBoneHierarchy tree none).bone_mapping[p]? = some nodeP)
    (hc : (m.loadBoneHierarchy tree none).bone_mapping[c]? = some nodeC) :
    (c ∈ nodeP.2.children ↔ nodeC.2.parent = some p) ∧
    (nodeC.2.parent = some p ↔ tree.HasLink nodeC.1 nodeP.1) ∧
    ((∀ pare_name, tree.HasLink nodeC.1 pare_name →
        findNode pare_name m.bone_mapping = none) → nodeC.2.parent = none) := by
  rw [loadBoneHierarchy_eq] at hp hc
  obtain ⟨k, cp, _⟩ := linkAll_spec (tree.links none) m p
  obtain ⟨_, _, pc⟩ := linkAll_spec (tree.links none) m c
  rw [(unlinked_skeleton hfresh p).1, List.nil_append] at cp
  rw [(unlinked_skeleton hfresh c).2, Option.or_none] at pc
  have hskp : childrenOf ((tree.links none).foldl (fun mesh e => mesh.linkNodes e.1 e.2)
      m).skeleton p = nodeP.2.children := by
    simp only [childrenOf, Mesh.skeleton, List.getElem?_map, hp, Option.map_some']
  have hskc : parentOf ((tree.links none).foldl (fun mesh e => mesh.linkNodes e.1 e.2)
      m).skeleton c = nodeC.2.parent := by
    simp only [parentOf, Mesh.skeleton, List.getElem?_map, hc, Option.map_some',
      Option.some_bind]
  rw [hskp] at cp
  rw [hskc] at pc
  have hKp : (m.bone_mapping.map Prod.fst)[p]? = some nodeP.1 := by
    rw [← k, List.getElem?_map, hp, Option.map_some']
  have hKc : (m.bone_mapping.map Prod.fst)[c]? = some nodeC.1 := by
    rw [← k, List.getElem?_map, hc, Option.map_some']
  have hl := links_fst_nodup hnames
  have hchild : c ∈ nodeP.2.children ↔ (nodeC.1, nodeP.1) ∈ tree.links none := by
    rw [cp, mem_linkedChildren, linked_iff hkeys hKp hKc]
  have hparent : nodeC.2.parent = some p ↔ (nodeC.1, nodeP.1) ∈ tree.links none := by
    rw [pc, last_linkedParent hl, mem_linkedParents, linked_iff hkeys hKp hKc]
  refine ⟨hchild.trans hparent.symm, hparent.trans (links_iff_hasLink _ _ _), fun hno => ?_⟩
  cases hpar : nodeC.2.parent with
  | none => rfl
  | some q =>
    exfalso
    rw [pc] at hpar
    obtain ⟨e, he, h2, h1⟩ := mem_linkedParents.mp (List.mem_of_getLast?_eq_some hpar)
    have e1 := (findNode_key_iff hkeys hKc e.1).mp h1
    have hlink : tree.HasLink nodeC.1 e.2 := by
      rw [← links_iff_hasLink, ← e1]
      exact he
    rw [hno e.2 hlink] at h2
    cases h2

/-- C22, on the bones Root, Wrist and Finger and `chainTree`: the finger is a child of
the wrist, its parent is the wrist, and the root, whose parent node Scene is not a bone,
has no parent. -/
theorem loadBoneHierarchy_links_witness :
    (2 ∈ wristBone.children ↔ fingerBone.parent = some 1) ∧
      (fingerBone.parent = some 1 ↔ chainTree.HasLink "Finger" "Wrist") ∧
      ∃ root, (looseChainMesh.loadBoneHierarchy chainTree none).bone_mapping[0]?
        = some ("Root", root) ∧ root.parent = none :=
  have hw : (looseChainMesh.loadBoneHierarchy chainTree none).bone_mapping[1]?
      = some ("Wrist", wristBone) := by decide!
  have hf : (looseChainMesh.loadBoneHierarchy chainTree none).bone_mapping[2]?
      = some ("Finger", fingerBone) := by decide!
  have hr : (looseChainMesh.loadBoneHierarchy chainTree none).bone_mapping[0]?
      = some ("Root", rootBone) := by decide!
  have hscene : ∀ e ∈ chainTree.links none, e.1 = "Root" →
      findNode e.2 looseChainMesh.bone_mapping = none := by decide
  let h := loadBoneHierarchy_links looseChainMesh chainTree (by decide) (by decide)
    (by decide) 1 2 _ _ hw hf
  let h₀ := loadBoneHierarchy_links looseChainMesh chainTree (by decide) (by decide)
    (by decide) 0 0 _ _ hr hr
  ⟨h.1, h.2.1, _, hr, h₀.2.2 (fun pare_name hl =>
    hscene ("Root", pare_name) ((links_iff_hasLink _ _ _).mpr hl) rfl)⟩

/-! ## The graph that the walk builds -/

theorem allChildren_unlinked : ∀ {sk : Skeleton}, (∀ bone ∈ sk, bone.children = []) →
    allChildren sk = [] := by
  intro sk
  induction sk with
  | nil => intro _; rfl
  | cons b rest ih =>
    intro h
    simp only [allChildren, h b (List.mem_cons_self _ _), List.nil_append]
    exact ih (fun x hx => h x (List.mem_cons_of_mem _ hx))

theorem allChildren_set_same : ∀ {sk : Skeleton} {a : Nat} {b b' : Bone},
    sk[a]? = some b → b'.children = b.children →
    allChildren (sk.set a b') = allChildren sk := by
  intro sk
  induction sk with
  | nil => intro a b b' h _; simp at h
  | cons x rest ih =>
    intro a b b' h hch
    cases a with
    | zero =>
      simp only [List.getElem?_cons_zero, Option.some.injEq] at h
      subst h
      simp only [List.set_cons_zero, allChildren, hch]
    | succ a =>
      simp only [List.getElem?_cons_succ] at h
      simp only [List.set_cons_succ, allChildren, ih h hch]

theorem allChildren_set_add : ∀ {sk : Skeleton} {a : Nat} {b b' : Bone} {c : Nat},
    sk[a]? = some b → b'.children = b.children ++ [c] →
    (allChildren (sk.set a b')).Perm (c :: allChildren sk) := by
  intro sk
  induction sk with
  | nil => intro a b b' c h _; simp at h
  | cons x rest ih =>
    intro a b b' c h hch
    cases a with
    | zero =>
      simp only [List.getElem?_cons_zero, Option.some.injEq] at h
      subst h
      simp only [List.set_cons_zero, allChildren, hch]
      rw [List.append_assoc]
      exact List.perm_middle
    | succ a =>
      simp only [List.getElem?_cons_succ] at h
      simp only [List.set_cons_succ, allChildren]
      exact ((ih h hch).append_left x.children).trans List.perm_middle

theorem onBone_skeleton {m : Mesh} {a : Nat} {b : Bone} (h : m.skeleton[a]? = some b)
    (method : Bone → Bone) : (m.onBone a method).skeleton = m.skeleton.set a (method b) := by
  apply List.ext_getElem?
  intro i
  rw [onBone_getElem?, List.getElem?_set]
  by_cases e : i = a
  · subst e
    simp [h, getElem?_lt h]
  · have e' : ¬ a = i := fun x => e x.symm
    simp [e, e']

theorem linkNodes_allChildren (m : Mesh) (e : String × String) :
    (allChildren (m.linkNodes e.1 e.2).skeleton).Perm
      (linkedAll m.bone_mapping [e] ++ allChildren m.skeleton) := by
  cases hc : findNode e.1 m.bone_mapping with
  | none => simp [Mesh.linkNodes, linkedAll, hc]
  | some c =>
    cases hp : findNode e.2 m.bone_mapping with
    | none => simp [Mesh.linkNodes, linkedAll, hc, hp]
    | some p =>
      obtain ⟨bc, hbc⟩ := skeleton_getElem?_of_lt (findNode_lt hc)
      have hlink : m.linkNodes e.1 e.2
          = (m.onBone c (fun bone => bone.setParent p)).onBone p
              (fun bone => bone.addChild c) := by
        simp only [Mesh.linkNodes, hc, hp]
      have hlt : p < (m.onBone c (fun bone => bone.setParent p)).bone_mapping.length := by
        have := congrArg List.length (onBone_keys m c (fun bone => bone.setParent p))
        simp only [List.length_map] at this
        rw [this]
        exact findNode_lt hp
      obtain ⟨bp, hbp⟩ := skeleton_getElem?_of_lt hlt
      have h1 : allChildren (m.onBone c (fun bone => bone.setParent p)).skeleton
          = allChildren m.skeleton := by
        rw [onBone_skeleton hbc]
        exact allChildren_set_same hbc rfl
      have hall : linkedAll m.bone_mapping [e] = [c] := by
        simp [linkedAll, hc, hp]
      rw [hlink, onBone_skeleton hbp, hall, ← h1]
      exact allChildren_set_add hbp rfl

theorem linkedAll_keys {nodes nodes' : List (String × Bone)}
    (h : nodes.map Prod.fst = nodes'.map Prod.fst) (links : List (String × String)) :
    linkedAll nodes links = linkedAll nodes' links := by
  unfold linkedAll
  have e : ∀ name, findNode name nodes = findNode name nodes' := fun _ => findNode_keys h
  simp only [e]

theorem linkAll_allChildren : ∀ (links : List (String × String)) (m : Mesh),
    (allChildren (links.foldl (fun mesh e => mesh.linkNodes e.1 e.2) m).skeleton).Perm
      (allChildren m.skeleton ++ linkedAll m.bone_mapping links) := by
  intro links
  induction links with
  | nil => intro m; simp [linkedAll]
  | cons e rest ih =>
    intro m
    have h1 := linkNodes_allChildren m e
    have h2 := ih (m.linkNodes e.1 e.2)
    rw [linkedAll_keys (linkNodes_spec m e 0).1 rest] at h2
    have hcons : linkedAll m.bone_mapping (e :: rest)
        = linkedAll m.bone_mapping [e] ++ linkedAll m.bone_mapping rest := by
      unfold linkedAll
      rw [← List.filterMap_append]
      rfl
    rw [List.foldl_cons, hcons]
    refine h2.trans ?_
    refine (h1.append_right _).trans ?_
    rw [← List.append_assoc]
    exact List.perm_append_comm.append_right _

theorem linkedAll_eq (nodes : List (String × Bone)) (links : List (String × String)) :
    linkedAll nodes links
      = ((links.filter (fun e => (findNode e.2 nodes).isSome)).map Prod.fst).filterMap
          (fun name => findNode name nodes) := by
  unfold linkedAll
  induction links with
  | nil => rfl
  | cons e rest ih =>
    by_cases h : (findNode e.2 nodes).isSome = true
    · simp only [List.filterMap_cons, h, if_true, List.filter_cons_of_pos, List.map_cons, ih]
    · have hf : List.filter (fun e => (findNode e.2 nodes).isSome) (e :: rest)
          = List.filter (fun e => (findNode e.2 nodes).isSome) rest :=
        List.filter_cons_of_neg h
      rw [hf, ← ih]
      simp only [List.filterMap_cons, h, if_false, Bool.false_eq_true]

theorem linkedAll_nodup {nodes : List (String × Bone)} {links : List (String × String)}
    (hl : (links.map Prod.fst).Nodup) : (linkedAll nodes links).Nodup := by
  rw [linkedAll_eq]
  apply List.Nodup.filterMap
  · intro a a' b hb hb'
    exact findNode_inj (Option.mem_def.mp hb) (Option.mem_def.mp hb')
  · exact List.Nodup.sublist (List.Sublist.map _ (List.filter_sublist _)) hl

/-- C21 fails: nothing is rejected. On the bones Root, Wrist and Finger, the walk over a
tree in which a node named Root has a child named Root makes the root its own child, and
so its own ancestor; the walk over a tree in which Root has two children named Wrist
lists the wrist twice. Neither graph is a forest. -/
theorem loadBoneHierarchy_forest_counterexample :
    childrenOf (looseChainMesh.loadBoneHierarchy selfTree none).skeleton 0 = [0] ∧
      Descendant (looseChainMesh.loadBoneHierarchy selfTree none).skeleton 0 0 ∧
      ¬ Forest (looseChainMesh.loadBoneHierarchy selfTree none).skeleton ∧
      allChildren (looseChainMesh.loadBoneHierarchy twinTree none).skeleton = [1, 1] ∧
      ¬ Forest (looseChainMesh.loadBoneHierarchy twinTree none).skeleton := by
  have hself : IsChild (looseChainMesh.loadBoneHierarchy selfTree none).skeleton 0 0 := by
    decide
  have htwin : allChildren (looseChainMesh.loadBoneHierarchy twinTree none).skeleton
      = [1, 1] := by decide
  refine ⟨by decide, Relation.TransGen.single hself,
    fun hF => not_descendant_self hF 0 (Relation.TransGen.single hself), htwin, fun hF => ?_⟩
  have := hF.once
  rw [htwin] at this
  exact absurd this (by decide)

theorem filterMap_filter_isSome {α β : Type} (f : α → Option β) (l : List α) :
    l.filterMap f = (l.filter (fun x => (f x).isSome)).filterMap f := by
  induction l with
  | nil => rfl
  | cons x rest ih =>
    cases h : f x with
    | none => simp [List.filterMap_cons, h, List.filter_cons, ih]
    | some y => simp [List.filterMap_cons, h, List.filter_cons, ← ih]

theorem before_filter {names : List String} {x y : String} (h : Before names x y)
    (keep : String → Bool) (hx : keep x = true) (hy : keep y = true) :
    Before (names.filter keep) x y := by
  obtain ⟨l₁, l₂, l₃, rfl⟩ := h
  exact ⟨l₁.filter keep, l₂.filter keep, l₃.filter keep, by
    simp [List.filter_append, List.filter_cons, hx, hy]⟩

theorem linkedAll_nodup_of_boneNames {m : Mesh} {tree : AiNode}
    (h : (tree.boneNames m).Nodup) :
    (linkedAll m.bone_mapping (tree.links none)).Nodup := by
  rw [linkedAll_eq, filterMap_filter_isSome]
  apply List.Nodup.filterMap
  · intro a a' b hb hb'
    exact findNode_inj (Option.mem_def.mp hb) (Option.mem_def.mp hb')
  · refine List.Nodup.sublist ?_ h
    unfold AiNode.boneNames
    refine List.Sublist.filter _ ?_
    refine (List.Sublist.map _ (List.filter_sublist _)).trans ?_
    rw [links_fst]
    exact List.tail_sublist _

/-- C21 amended: `loadBoneHierarchy` rejects nothing; for a hierarchy tree in which no
two nodes carry the name of a bone of the map twice (names that are no bone may repeat),
run from the root on a map whose bones have no links yet, the bone graph after the walk is
a forest: the children links lead to bones of the map, no bone is its own ancestor through
them, and every bone occurs at most once across all children lists. -/
theorem loadBoneHierarchy_forest (m : Mesh) (tree : AiNode)
    (hnames : (tree.boneNames m).Nodup) (hfresh : Unlinked m) :
    Forest (m.loadBoneHierarchy tree none).skeleton ∧
      ∀ b, ¬ Descendant (m.loadBoneHierarchy tree none).skeleton b b := by
  have hF : Forest (m.loadBoneHierarchy tree none).skeleton := by
    rw [loadBoneHierarchy_eq]
    have hchildren : ∀ p c,
        IsChild ((tree.links none).foldl (fun mesh e => mesh.linkNodes e.1 e.2) m).skeleton p c →
        ∃ e ∈ tree.links none, findNode e.2 m.bone_mapping = some p ∧
          findNode e.1 m.bone_mapping = some c := by
      intro p c hc
      unfold IsChild at hc
      rw [(linkAll_spec (tree.links none) m p).2.1, (unlinked_skeleton hfresh p).1,
        List.nil_append] at hc
      exact mem_linkedChildren.mp hc
    refine ⟨fun p c hc => ?_, ?_, ?_⟩
    · obtain ⟨e, _, _, h1⟩ := hchildren p c hc
      have hlen := congrArg List.length (linkAll_spec (tree.links none) m 0).1
      simp only [List.length_map] at hlen
      rw [skeleton_length, hlen]
      exact findNode_lt h1
    · have hperm := linkAll_allChildren (tree.links none) m
      have hnil : allChildren m.skeleton = [] := by
        apply allChildren_unlinked
        intro bone hb
        obtain ⟨node, hn, hnb⟩ := List.mem_map.mp hb
        rw [← hnb]
        exact (hfresh node hn).2
      rw [hnil, List.nil_append] at hperm
      exact (List.Perm.nodup_iff hperm).mpr (linkedAll_nodup_of_boneNames hnames)
    · refine ⟨fun a => (tree.boneNames m).length
          - (tree.boneNames m).indexOf (keyAt m.bone_mapping a), fun p c hc => ?_⟩
      obtain ⟨e, he, h2, h1⟩ := hchildren p c hc
      show (tree.boneNames m).length - (tree.boneNames m).indexOf (keyAt m.bone_mapping c)
        < (tree.boneNames m).length - (tree.boneNames m).indexOf (keyAt m.bone_mapping p)
      rw [keyAt_of_findNode h1, keyAt_of_findNode h2]
      rcases links_before tree none e he with ⟨_, hp, _⟩ | hb
      · cases hp
      · have hb2 : Before (tree.boneNames m) e.2 e.1 :=
          before_filter hb _ (by rw [h2]; rfl) (by rw [h1]; rfl)
        have := indexOf_of_before hnames hb2
        omega
  exact ⟨hF, not_descendant_self hF⟩

/-- C21 amended, on the bones Root, Wrist and Finger and `helperTree`, in which the name
Helper, no bone, stands twice. -/
theorem loadBoneHierarchy_forest_witness :
    ¬ helperTree.names.Nodup ∧ (helperTree.boneNames looseChainMesh).Nodup ∧
      Unlinked looseChainMesh ∧
      Forest (looseChainMesh.loadBoneHierarchy helperTree none).skeleton ∧
      ∀ b, ¬ Descendant (looseChainMesh.loadBoneHierarchy helperTree none).skeleton b b :=
  ⟨by decide, by decide, by decide, loadBoneHierarchy_forest looseChainMesh helperTree
    (by decide) (by decide)⟩

/-! ## Binary32 rounding -/

theorem bitLengthFrom_spec : ∀ (fuel n : Nat), 0 < n → n ≤ fuel →
    2 ^ bitLengthFrom fuel n ≤ 2 * n ∧ n < 2 ^ bitLengthFrom fuel n
  | 0, n, h0, h => by omega
  | fuel + 1, n, h0, h => by
    have hn : n ≠ 0 := by omega
    simp only [bitLengthFrom, hn, if_false]
    by_cases h2 : n / 2 = 0
    · have h1 : n = 1 := by omega
      have hz : bitLengthFrom fuel 0 = 0 := by cases fuel <;> simp [bitLengthFrom]
      subst h1
      simp [hz]
    · have ih := bitLengthFrom_spec fuel (n / 2) (by omega) (by omega)
      rw [pow_succ]
      constructor
      · have := ih.1
        omega
      · have := ih.2
        omega

theorem bitLength_spec {n : Nat} (h : 0 < n) :
    2 ^ bitLength n ≤ 2 * n ∧ n < 2 ^ bitLength n :=
  bitLengthFrom_spec n n h le_rfl

theorem two_zpow_pos (e : Int) : (0 : ℚ) < 2 ^ e := zpow_pos (by norm_num) e

/-- The binary exponent brackets the value. -/
theorem floorLog2_spec {a : ℚ} (h : a ≠ 0) :
    (2 : ℚ) ^ floorLog2 a ≤ |a| ∧ |a| < (2 : ℚ) ^ (floorLog2 a + 1) := by
  have hN : 0 < a.num.natAbs := Int.natAbs_pos.mpr (Rat.num_ne_zero.mpr h)
  have hD : 0 < a.den := a.den_pos
  obtain ⟨n1, n2⟩ := bitLength_spec hN
  obtain ⟨d1, d2⟩ := bitLength_spec hD
  have habs : |a| = (a.num.natAbs : ℚ) / (a.den : ℚ) := by
    conv_lhs => rw [← Rat.num_div_den a]
    rw [abs_div, Nat.abs_cast, Nat.cast_natAbs, Int.cast_abs]
  have hDq : (0 : ℚ) < a.den := by exact_mod_cast hD
  have n1q : (2 : ℚ) ^ (bitLength a.num.natAbs) ≤ 2 * (a.num.natAbs : ℚ) := by exact_mod_cast n1
  have n2q : (a.num.natAbs : ℚ) < (2 : ℚ) ^ (bitLength a.num.natAbs) := by exact_mod_cast n2
  have d1q : (2 : ℚ) ^ (bitLength a.den) ≤ 2 * (a.den : ℚ) := by exact_mod_cast d1
  have d2q : (a.den : ℚ) < (2 : ℚ) ^ (bitLength a.den) := by exact_mod_cast d2
  have hk : (2 : ℚ) ^ ((bitLength a.num.natAbs : Int) - (bitLength a.den : Int))
      = (2 : ℚ) ^ (bitLength a.num.natAbs) / (2 : ℚ) ^ (bitLength a.den) := by
    rw [zpow_sub₀ (by norm_num), zpow_natCast, zpow_natCast]
  have hpd : (0 : ℚ) < (2 : ℚ) ^ (bitLength a.den) := by positivity
  unfold floorLog2
  split_ifs with hc
  · refine ⟨hc, ?_⟩
    rw [zpow_add_one₀ (by norm_num), hk, habs, div_lt_iff₀ hDq]
    calc (a.num.natAbs : ℚ) < (2 : ℚ) ^ (bitLength a.num.natAbs) := n2q
      _ = (2 : ℚ) ^ (bitLength a.num.natAbs) / (2 : ℚ) ^ (bitLength a.den)
            * (2 : ℚ) ^ (bitLength a.den) := by field_simp
      _ ≤ (2 : ℚ) ^ (bitLength a.num.natAbs) / (2 : ℚ) ^ (bitLength a.den) * (2 * a.den) := by
          apply mul_le_mul_of_nonneg_left d1q
          positivity
      _ = _ := by ring
  · rw [sub_add_cancel]
    refine ⟨?_, lt_of_not_le hc⟩
    rw [zpow_sub_one₀ (by norm_num), hk, habs, le_div_iff₀ hDq]
    calc (2 : ℚ) ^ (bitLength a.num.natAbs) / (2 : ℚ) ^ (bitLength a.den) * 2⁻¹ * a.den
        ≤ (2 : ℚ) ^ (bitLength a.num.natAbs) / (2 : ℚ) ^ (bitLength a.den) * 2⁻¹
            * (2 : ℚ) ^ (bitLength a.den) := by
          apply mul_le_mul_of_nonneg_left d2q.le
          positivity
      _ = (2 : ℚ) ^ (bitLength a.num.natAbs) / 2 := by field_simp; ring
      _ ≤ _ := by linarith

theorem roundEven_intCast (n : Int) : roundEven (n : ℚ) = n := by
  simp [roundEven]

theorem roundEven_cases (x : ℚ) :
    roundEven x = ⌊x⌋ ∨ (roundEven x = ⌊x⌋ + 1 ∧ (1 : ℚ) / 2 ≤ x - ⌊x⌋) := by
  unfold roundEven
  split_ifs with h1 h2 h3
  · exact Or.inl rfl
  · exact Or.inr ⟨rfl, le_of_not_lt h1⟩
  · exact Or.inl rfl
  · exact Or.inr ⟨rfl, le_of_not_lt h1⟩

/-- Rounding does not leave a range with integer ends. -/
theorem abs_roundEven_le {x : ℚ} {M : Int} (h : |x| ≤ M) : |roundEven x| ≤ M := by
  have hx := abs_le.mp h
  have hfl : ⌊x⌋ ≤ M := by
    have := Int.floor_le x
    have : ((⌊x⌋ : Int) : ℚ) ≤ (M : ℚ) := le_trans this hx.2
    exact_mod_cast this
  have hfl2 : -M ≤ ⌊x⌋ := by
    apply Int.le_floor.mpr
    push_cast
    exact hx.1
  rw [abs_le]
  rcases roundEven_cases x with e | ⟨e, hr⟩
  · rw [e]; exact ⟨hfl2, hfl⟩
  · rw [e]
    refine ⟨by omega, ?_⟩
    have : ((⌊x⌋ : Int) : ℚ) < (M : ℚ) := by linarith
    have : ⌊x⌋ < M := by exact_mod_cast this
    omega

/-- Rounding does not enter a range with integer ends from outside. -/
theorem le_abs_roundEven {x : ℚ} {M : Int} (h : (M : ℚ) ≤ |x|) : M ≤ |roundEven x| := by
  rcases le_or_lt 0 x with h0 | h0
  · rw [abs_of_nonneg h0] at h
    have hfl : M ≤ ⌊x⌋ := Int.le_floor.mpr h
    have : ⌊x⌋ ≤ roundEven x := by
      rcases roundEven_cases x with e | ⟨e, _⟩ <;> omega
    exact le_trans (le_trans hfl this) (le_abs_self _)
  · rw [abs_of_neg h0] at h
    have hle : roundEven x ≤ -M := by
      rcases roundEven_cases x with e | ⟨e, hr⟩
      · rw [e]
        have : ((⌊x⌋ : Int) : ℚ) ≤ ((-M : Int) : ℚ) := by
          push_cast
          linarith [Int.floor_le x]
        exact_mod_cast this
      · rw [e]
        have : ((⌊x⌋ : Int) : ℚ) < ((-M : Int) : ℚ) := by
          push_cast
          linarith
        have : ⌊x⌋ < -M := by exact_mod_cast this
        omega
    have := neg_le_abs (roundEven x)
    omega

/-- A number `n * 2 ^ (e - 23)` with `|n| < 2 ^ 24` and `-126 ≤ e ≤ 127` is a binary32
value. -/
theorem isF32_of_repr (n e : Int) (hn : |n| < 2 ^ 24) (he : -126 ≤ e) (he2 : e ≤ 127) :
    IsF32 ((n : ℚ) * 2 ^ (e - 23)) := by
  unfold IsF32
  by_cases h0 : n = 0
  · subst h0
    simp [round32]
  have hy : (n : ℚ) * 2 ^ (e - 23) ≠ 0 :=
    mul_ne_zero (by exact_mod_cast h0) (two_zpow_pos _).ne'
  have habs : |(n : ℚ) * 2 ^ (e - 23)| = |(n : ℚ)| * 2 ^ (e - 23) := by
    rw [abs_mul, abs_of_pos (two_zpow_pos _)]
  have hnq : |(n : ℚ)| < 2 ^ 24 := by
    have : ((|n| : Int) : ℚ) < ((2 ^ 24 : Int) : ℚ) := by exact_mod_cast hn
    simpa using this
  have hlt : |(n : ℚ) * 2 ^ (e - 23)| < (2 : ℚ) ^ (e + 1) := by
    rw [habs]
    have : (2 : ℚ) ^ (e + 1) = 2 ^ 24 * 2 ^ (e - 23) := by
      rw [← zpow_natCast, ← zpow_add₀ (by norm_num)]
      congr 1
      push_cast
      ring
    rw [this]
    exact mul_lt_mul_of_pos_right hnq (two_zpow_pos _)
  have hfl : floorLog2 ((n : ℚ) * 2 ^ (e - 23)) ≤ e := by
    have h1 := (floorLog2_spec hy).1
    have h2 := lt_of_le_of_lt h1 hlt
    have := (zpow_lt_zpow_iff_right₀ (by norm_num : (1 : ℚ) < 2)).mp h2
    omega
  have hE : max (floorLog2 ((n : ℚ) * 2 ^ (e - 23))) (-126) ≤ e := max_le hfl he
  obtain ⟨k, hk⟩ : ∃ k : Nat, (k : Int) = e - max (floorLog2 ((n : ℚ) * 2 ^ (e - 23))) (-126) :=
    ⟨(e - max (floorLog2 ((n : ℚ) * 2 ^ (e - 23))) (-126)).toNat,
      Int.toNat_of_nonneg (by omega)⟩
  have hdiv : (n : ℚ) * 2 ^ (e - 23) / ulp32 ((n : ℚ) * 2 ^ (e - 23))
      = ((n * 2 ^ k : Int) : ℚ) := by
    unfold ulp32
    rw [mul_div_assoc, ← zpow_sub₀ (by norm_num)]
    push_cast
    rw [← zpow_natCast, hk]
    congr 2
    ring
  have hback : ((n * 2 ^ k : Int) : ℚ) * ulp32 ((n : ℚ) * 2 ^ (e - 23))
      = (n : ℚ) * 2 ^ (e - 23) := by
    rw [← hdiv]
    exact div_mul_cancel₀ _ (two_zpow_pos _).ne'
  have hno : ¬ (2 : ℚ) ^ 128 ≤ |(n : ℚ) * 2 ^ (e - 23)| := by
    rw [not_le]
    refine lt_of_lt_of_le hlt ?_
    rw [← zpow_natCast]
    exact zpow_le_zpow_right₀ (by norm_num) (by push_cast; omega)
  simp only [round32, hy, if_false, hdiv, roundEven_intCast, hback, hno]

theorem pow24_mul_ulp (e : Int) : (16777216 : ℚ) * 2 ^ (e - 23) = 2 ^ (e + 1) := by
  have : (16777216 : ℚ) = 2 ^ (24 : Int) := by norm_num
  rw [this, ← zpow_add₀ (by norm_num)]
  congr 1
  ring

theorem pow23_mul_ulp (e : Int) : (8388608 : ℚ) * 2 ^ (e - 23) = 2 ^ e := by
  have : (8388608 : ℚ) = 2 ^ (23 : Int) := by norm_num
  rw [this, ← zpow_add₀ (by norm_num)]
  congr 1
  ring

/-- The finite results of rounding are the numbers `n * 2 ^ (e - 23)` with
`|n| < 2 ^ 24` and `-126 ≤ e ≤ 127`. -/
theorem round32_repr {x y : ℚ} (h : round32 x = .fin y) :
    ∃ n e : Int, |n| < 2 ^ 24 ∧ -126 ≤ e ∧ e ≤ 127 ∧ y = (n : ℚ) * 2 ^ (e - 23) := by
  by_cases hx : x = 0
  · subst hx
    simp only [round32, if_true, F32.fin.injEq] at h
    exact ⟨0, 0, by norm_num, by norm_num, by norm_num, by simp [← h]⟩
  simp only [round32, hx, if_false] at h
  split_ifs at h with hover
  simp only [F32.fin.injEq] at h
  rw [not_le, h] at hover
  have hu : (0 : ℚ) < ulp32 x := two_zpow_pos _
  have hm := le_max_right (floorLog2 x) (-126)
  have hupper : |x / ulp32 x| ≤ ((16777216 : Int) : ℚ) := by
    rw [abs_div, abs_of_pos hu, div_le_iff₀ hu]
    have h2 := (floorLog2_spec hx).2
    refine le_trans h2.le ?_
    have : ((16777216 : Int) : ℚ) * ulp32 x = (2 : ℚ) ^ (max (floorLog2 x) (-126) + 1) := by
      unfold ulp32
      push_cast
      exact pow24_mul_ulp _
    rw [this]
    exact zpow_le_zpow_right₀ (by norm_num) (by have := le_max_left (floorLog2 x) (-126); omega)
  have hN := abs_roundEven_le hupper
  have hyabs : |y| = ((|roundEven (x / ulp32 x)| : Int) : ℚ) * ulp32 x := by
    rw [← h, abs_mul, abs_of_pos hu]
    push_cast
    rfl
  rcases lt_or_eq_of_le hN with hlt | heq
  · refine ⟨roundEven (x / ulp32 x), max (floorLog2 x) (-126), by norm_num; exact hlt, hm, ?_,
      h.symm⟩
    by_contra hbig
    rw [not_le] at hbig
    have hmax : max (floorLog2 x) (-126) = floorLog2 x := by
      rcases max_choice (floorLog2 x) (-126) with e | e
      · exact e
      · omega
    have hlow : ((8388608 : Int) : ℚ) ≤ |x / ulp32 x| := by
      rw [abs_div, abs_of_pos hu, le_div_iff₀ hu]
      have h1 := (floorLog2_spec hx).1
      refine le_trans (le_of_eq ?_) h1
      unfold ulp32
      rw [hmax]
      push_cast
      exact pow23_mul_ulp _
    have hN2 := le_abs_roundEven hlow
    have : (2 : ℚ) ^ 128 ≤ |y| := by
      rw [hyabs]
      have h23 : ((8388608 : Int) : ℚ) ≤ ((|roundEven (x / ulp32 x)| : Int) : ℚ) := by
        exact_mod_cast hN2
      calc (2 : ℚ) ^ 128 ≤ (2 : ℚ) ^ (floorLog2 x) := by
            rw [← zpow_natCast]
            exact zpow_le_zpow_right₀ (by norm_num) (by push_cast; omega)
        _ = ((8388608 : Int) : ℚ) * ulp32 x := by
            unfold ulp32
            rw [hmax]
            push_cast
            exact (pow23_mul_ulp _).symm
        _ ≤ _ := mul_le_mul_of_nonneg_right h23 hu.le
    exact absurd hover (not_lt.mpr this)
  · have hy2 : |y| = (2 : ℚ) ^ (max (floorLog2 x) (-126) + 1) := by
      rw [hyabs, heq]
      unfold ulp32
      push_cast
      exact pow24_mul_ulp _
    have hE : max (floorLog2 x) (-126) + 1 ≤ 127 := by
      rw [hy2, ← zpow_natCast] at hover
      have := (zpow_lt_zpow_iff_right₀ (by norm_num : (1 : ℚ) < 2)).mp hover
      push_cast at this
      omega
    have hsign : roundEven (x / ulp32 x) = 16777216 ∨ roundEven (x / ulp32 x) = -16777216 := by
      rcases abs_cases (roundEven (x / ulp32 x)) with ⟨e, _⟩ | ⟨e, _⟩
      · left; omega
      · right; omega
    have hstep : (16777216 : ℚ) * 2 ^ (max (floorLog2 x) (-126) - 23)
        = 8388608 * 2 ^ (max (floorLog2 x) (-126) + 1 - 23) := by
      rw [pow24_mul_ulp, pow23_mul_ulp]
    rcases hsign with e | e
    · refine ⟨8388608, max (floorLog2 x) (-126) + 1, by norm_num, by omega, hE, ?_⟩
      rw [← h, e]
      unfold ulp32
      push_cast
      exact hstep
    · refine ⟨-8388608, max (floorLog2 x) (-126) + 1, by norm_num, by omega, hE, ?_⟩
      rw [← h, e]
      unfold ulp32
      push_cast
      rw [neg_mul, neg_mul, hstep]

/-- A finite result of rounding is a binary32 value: rounding it again changes nothing. -/
theorem round32_isF32 {x y : ℚ} (h : round32 x = .fin y) : IsF32 y := by
  obtain ⟨n, e, hn, he, he2, rfl⟩ := round32_repr h
  exact isF32_of_repr n e hn he he2

/-! ## Skinning on `float` values -/

theorem F32.zero_def : (0 : F32) = .fin 0 := rfl

theorem F32.one_def : (1 : F32) = .fin 1 := rfl

theorem F32.fin_add_fin (a b : ℚ) : (F32.fin a) + (F32.fin b) = round32 (a + b) := rfl

theorem F32.fin_mul_fin (a b : ℚ) : (F32.fin a) * (F32.fin b) = round32 (a * b) := rfl

theorem F32.fin_div_fin (a : ℚ) {b : ℚ} (hb : b ≠ 0) :
    (F32.fin a) / (F32.fin b) = round32 (a / b) := by
  show F32.div _ _ = _
  simp [F32.div, hb]

theorem round32_zero : round32 0 = .fin 0 := by simp [round32]

theorem isF32_zero : IsF32 0 := round32_zero

theorem isF32_one : IsF32 1 := by
  have := isF32_of_repr 8388608 0 (by norm_num) (by norm_num) (by norm_num)
  have e : ((8388608 : Int) : ℚ) * 2 ^ ((0 : Int) - 23) = 1 := by
    have := pow23_mul_ulp 0
    simpa using this
  rwa [e] at this

/-- A finite result of an addition is a binary32 value. -/
theorem F32.add_finite {a b : F32} {y : ℚ} (h : a + b = .fin y) : IsF32 y := by
  cases a <;> cases b <;> first
    | exact round32_isF32 h
    | (exfalso; revert h; show F32.add _ _ = _ → False; simp only [F32.add]
       first | (split_ifs <;> simp) | simp)

theorem F32.zero_add_fin {q : ℚ} (h : IsF32 q) : (0 : F32) + .fin q = .fin q := by
  rw [F32.zero_def, F32.fin_add_fin, zero_add]; exact h

theorem F32.fin_add_zero {q : ℚ} (h : IsF32 q) : (F32.fin q) + 0 = .fin q := by
  rw [F32.zero_def, F32.fin_add_fin, add_zero]; exact h

theorem F32.one_mul_fin {q : ℚ} (h : IsF32 q) : (1 : F32) * .fin q = .fin q := by
  rw [F32.one_def, F32.fin_mul_fin, one_mul]; exact h

theorem F32.fin_mul_one {q : ℚ} (h : IsF32 q) : (F32.fin q) * 1 = .fin q := by
  rw [F32.one_def, F32.fin_mul_fin, mul_one]; exact h

theorem F32.zero_mul_fin (q : ℚ) : (0 : F32) * .fin q = 0 := by
  rw [F32.zero_def, F32.fin_mul_fin, zero_mul]; exact round32_zero

theorem F32.fin_mul_zero (q : ℚ) : (F32.fin q) * 0 = 0 := by
  rw [F32.zero_def, F32.fin_mul_fin, mul_zero]; exact round32_zero

theorem F32.fin_div_one {q : ℚ} (h : IsF32 q) : (F32.fin q) / 1 = .fin q := by
  rw [F32.one_def, F32.fin_div_fin _ one_ne_zero, div_one]; exact h

theorem F32.zero_add_zero : (0 : F32) + 0 = 0 := F32.zero_add_fin isF32_zero

/-- The identity matrix maps a vector of finite `float` components to itself, exactly. -/
theorem one_mulVec32 {p : Vec32} (hp : ∀ k, (p k).Finite) : mulVec32 Mat32.one p = p := by
  obtain ⟨q0, e0, h0⟩ := hp 0
  obtain ⟨q1, e1, h1⟩ := hp 1
  obtain ⟨q2, e2, h2⟩ := hp 2
  obtain ⟨q3, e3, h3⟩ := hp 3
  funext i
  fin_cases i <;>
    simp [mulVec32, Mat32.one, e0, e1, e2, e3, F32.one_mul_fin, F32.zero_mul_fin,
      F32.zero_add_fin, F32.fin_add_zero, F32.zero_add_zero, h0, h1, h2, h3]

theorem skinStep32_eq (bones : List Bone32) (v : Vertex32) (p : Vec32) (acc : Vec32 × F32)
    (j : Fin MAX_BONE_INFLUENCE) :
    skinStep32 bones v p acc j
      = if ValidSlot32 bones v j then
          (fun k => acc.1 k + mulVec32 (slotTransform32 bones v j) p k * v.bone_weights j,
            acc.2 + v.bone_weights j)
        else acc := by
  unfold skinStep32 ValidSlot32 slotTransform32
  by_cases h1 : v.bone_ids j ≤ -1
  · have : ¬ (-1 < v.bone_ids j ∧ v.bone_ids j < (bones.length : Int)) := fun h => by omega
    simp [h1, this]
  · by_cases h2 : (bones.length : Int) ≤ v.bone_ids j
    · have : ¬ (-1 < v.bone_ids j ∧ v.bone_ids j < (bones.length : Int)) := fun h => by omega
      simp [h1, h2, this]
    · have hv : -1 < v.bone_ids j ∧ v.bone_ids j < (bones.length : Int) := by omega
      have hlt : (v.bone_ids j).toNat < bones.length := by omega
      simp only [h1, h2, if_false, hv, and_self, if_true, List.getElem?_eq_getElem hlt]

/-- The loop with its guards is the loop over the valid slots. -/
theorem skinFold32 (bones : List Bone32) (v : Vertex32) (p : Vec32) :
    ∀ (l : List (Fin MAX_BONE_INFLUENCE)) (acc : Vec32 × F32),
      l.foldl (skinStep32 bones v p) acc
        = ((l.filter (fun j => ValidSlot32 bones v j)).foldl
            (fun s j => fun k =>
              s k + mulVec32 (slotTransform32 bones v j) p k * v.bone_weights j) acc.1,
          (l.filter (fun j => ValidSlot32 bones v j)).foldl
            (fun a j => a + v.bone_weights j) acc.2) := by
  intro l
  induction l with
  | nil => intro acc; rfl
  | cons j rest ih =>
    intro acc
    rw [List.foldl_cons, ih, skinStep32_eq]
    by_cases hv : ValidSlot32 bones v j
    · simp [hv, List.filter_cons]
    · simp [hv, List.filter_cons]

/-- The skinning step on `float` values: the input point when the accumulated weight is
zero, the accumulated point divided by the accumulated weight otherwise. -/
theorem skinPoint32_eq (bones : List Bone32) (v : Vertex32) (p : Vec32) :
    skinPoint32 bones v p
      = if accumWeight32 bones v = 0 then p
        else fun k => accumPoint32 bones v p k / accumWeight32 bones v := by
  simp only [skinPoint32, skinFold32]
  rfl

theorem accumWeight32_fold (w : Fin MAX_BONE_INFLUENCE → F32) {q : ℚ} (hq : IsF32 q) :
    ∀ l : List (Fin MAX_BONE_INFLUENCE), (∀ j ∈ l, w j = 0) →
      l.foldl (fun a j => a + w j) (.fin q) = .fin q := by
  intro l
  induction l with
  | nil => intro _; rfl
  | cons j rest ih =>
    intro h
    rw [List.foldl_cons, h j (List.mem_cons_self _ _), F32.fin_add_zero hq]
    exact ih (fun i hi => h i (List.mem_cons_of_mem _ hi))

/-- With every valid slot of weight zero the skinned point is the input point. -/
theorem skinPoint32_zero_weights {bones : List Bone32} {v : Vertex32}
    (h : ∀ j, ValidSlot32 bones v j → v.bone_weights j = 0) (p : Vec32) :
    skinPoint32 bones v p = p := by
  rw [skinPoint32_eq]
  have : accumWeight32 bones v = 0 := by
    unfold accumWeight32
    rw [F32.zero_def]
    apply accumWeight32_fold _ isF32_zero
    intro j hj
    have := (List.mem_filter.mp hj).2
    exact h j (by simpa using this)
  rw [if_pos this]

theorem accumPoint32_fold (bones : List Bone32) (v : Vertex32) {p s : Vec32}
    (hp : ∀ k, (p k).Finite) (hs : ∀ k, (s k).Finite) :
    ∀ l : List (Fin MAX_BONE_INFLUENCE),
      (∀ j ∈ l, v.bone_weights j = 0 ∧ slotTransform32 bones v j = Mat32.one) →
      l.foldl (fun s j => fun k =>
          s k + mulVec32 (slotTransform32 bones v j) p k * v.bone_weights j) s = s := by
  intro l
  induction l with
  | nil => intro _; rfl
  | cons j rest ih =>
    intro h
    obtain ⟨hw, hT⟩ := h j (List.mem_cons_self _ _)
    have hstep : (fun k => s k + mulVec32 (slotTransform32 bones v j) p k * v.bone_weights j)
        = s := by
      funext k
      obtain ⟨q, eq, _⟩ := hp k
      obtain ⟨r, er, hr⟩ := hs k
      rw [hT, one_mulVec32 hp, hw, eq, er, F32.fin_mul_zero, F32.fin_add_zero hr]
    rw [List.foldl_cons, hstep]
    exact ih (fun i hi => h i (List.mem_cons_of_mem _ hi))

theorem validSlots32_nodup (bones : List Bone32) (v : Vertex32) :
    (validSlots32 bones v).Nodup :=
  List.Nodup.filter _ (List.nodup_finRange _)

theorem mem_validSlots32 {bones : List Bone32} {v : Vertex32} {j : Fin MAX_BONE_INFLUENCE} :
    j ∈ validSlots32 bones v ↔ ValidSlot32 bones v j := by
  simp [validSlots32, List.mem_filter]

/-- At rest, with one valid slot of weight 1 and every other valid slot of weight 0, the
skinned point of a point with finite components is the point itself, exactly. -/
theorem skinPoint32_single_weight {bones : List Bone32} {v : Vertex32}
    (hrest : ∀ j, ValidSlot32 bones v j → slotTransform32 bones v j = Mat32.one)
    {k₀ : Fin MAX_BONE_INFLUENCE} (hk : ValidSlot32 bones v k₀) (hw : v.bone_weights k₀ = 1)
    (hothers : ∀ j, j ≠ k₀ → ValidSlot32 bones v j → v.bone_weights j = 0)
    {p : Vec32} (hp : ∀ k, (p k).Finite) :
    skinPoint32 bones v p = p := by
  obtain ⟨l₁, l₂, hl⟩ := List.append_of_mem (mem_validSlots32.mpr hk)
  have hnd := validSlots32_nodup bones v
  rw [hl] at hnd
  have hk1 : k₀ ∉ l₁ := fun hin =>
    (List.nodup_append.mp hnd).2.2 hin (List.mem_cons_self _ _)
  have hk2 : k₀ ∉ l₂ := (List.nodup_cons.mp (List.nodup_append.mp hnd).2.1).1
  have hmem : ∀ j, j ∈ l₁ ∨ j ∈ l₂ → v.bone_weights j = 0 ∧
      slotTransform32 bones v j = Mat32.one := by
    intro j hj
    have hne : j ≠ k₀ := by
      rintro rfl
      rcases hj with h | h
      · exact hk1 h
      · exact hk2 h
    have hv : ValidSlot32 bones v j := by
      apply mem_validSlots32.mp
      rw [hl]
      rcases hj with h | h
      · exact List.mem_append_left _ h
      · exact List.mem_append_right _ (List.mem_cons_of_mem _ h)
    exact ⟨hothers j hne hv, hrest j hv⟩
  have hzero : ∀ k, ((fun _ => 0 : Vec32) k).Finite := fun _ => ⟨0, rfl, isF32_zero⟩
  have hW : accumWeight32 bones v = 1 := by
    unfold accumWeight32
    rw [hl, List.foldl_append, List.foldl_cons, F32.zero_def,
      accumWeight32_fold _ isF32_zero l₁ (fun j hj => (hmem j (Or.inl hj)).1), hw,
      ← F32.zero_def, F32.one_def, F32.zero_add_fin isF32_one,
      accumWeight32_fold _ isF32_one l₂ (fun j hj => (hmem j (Or.inr hj)).1)]
  have hP : accumPoint32 bones v p = p := by
    unfold accumPoint32
    rw [hl, List.foldl_append, List.foldl_cons,
      accumPoint32_fold bones v hp hzero l₁ (fun j hj => hmem j (Or.inl hj))]
    have hstep : (fun k => (0 : F32)
        + mulVec32 (slotTransform32 bones v k₀) p k * v.bone_weights k₀) = p := by
      funext k
      obtain ⟨q, eq, hq⟩ := hp k
      rw [hrest k₀ hk, one_mulVec32 hp, hw, eq, F32.fin_mul_one hq, F32.zero_add_fin hq]
    rw [hstep]
    exact accumPoint32_fold bones v hp hp l₂ (fun j hj => hmem j (Or.inr hj))
  rw [skinPoint32_eq, hW, hP, if_neg (by rw [F32.one_def, F32.zero_def]; simp)]
  funext k
  obtain ⟨q, eq, hq⟩ := hp k
  rw [eq, F32.fin_div_one hq]

theorem slotTransform32_of_atRest {bones : List Bone32}
    (hrest : ∀ bone ∈ bones, bone.transforms = Mat32.one) (v : Vertex32)
    (j : Fin MAX_BONE_INFLUENCE) (hj : ValidSlot32 bones v j) :
    slotTransform32 bones v j = Mat32.one := by
  have hlt : (v.bone_ids j).toNat < bones.length := by
    have := hj.1; have := hj.2; simp only at *; omega
  simp only [slotTransform32, List.getElem?_eq_getElem hlt]
  exact hrest _ (List.getElem_mem _)

/-! ## The loop over the keypoints on `float` values -/

theorem keypointStep32_some {glmInverse : InverseLib32} {km kbm : List Int}
    {bones : List Bone32} {vertices : List Vertex32} {model : Mat32}
    {keypoints kps : List (Fin 3 → F32)} {i : Nat}
    (h : keypointStep32 glmInverse km kbm bones vertices model keypoints i = some kps) :
    ∃ keypoint s, keypoints[i]? = some keypoint ∧
      skinnedKeypoint32 glmInverse km kbm bones vertices keypoint i = some s ∧
      kps = keypoints.set i (xyz32 (mulVec32 model s)) := by
  unfold keypointStep32 at h
  cases h1 : keypoints[i]? with
  | none => simp [h1] at h
  | some keypoint =>
    simp only [h1] at h
    cases h2 : skinnedKeypoint32 glmInverse km kbm bones vertices keypoint i with
    | none => simp [h2] at h
    | some s =>
      simp only [h2, Option.some.injEq] at h
      exact ⟨keypoint, s, rfl, h2, h.symm⟩

/-- What the first `k` rounds of the loop leave, when they return. -/
theorem keypointLoop32_inv (glmInverse : InverseLib32) (km kbm : List Int)
    (bones : List Bone32) (vertices : List Vertex32) (model : Mat32)
    (init : List (Fin 3 → F32)) (hinit : init.length = 21)
    (hzero : ∀ i, i < 21 → init[i]? = some (fun _ => 0)) :
    ∀ (k : Nat) (kps : List (Fin 3 → F32)),
      (List.range k).foldlM (keypointStep32 glmInverse km kbm bones vertices model) init
        = some kps →
      k ≤ 21 ∧ kps.length = 21 ∧
      (∀ i, i < k → ∃ s,
        skinnedKeypoint32 glmInverse km kbm bones vertices (fun _ => 0) i = some s ∧
        kps[i]? = some (xyz32 (mulVec32 model s))) ∧
      (∀ i, k ≤ i → i < 21 → kps[i]? = some (fun _ => 0)) := by
  intro k
  induction k with
  | zero =>
    intro kps h
    simp only [List.range_zero, List.foldlM_nil, Option.pure_def, Option.some.injEq] at h
    subst h
    exact ⟨by omega, hinit, fun i hi => absurd hi (Nat.not_lt_zero _), fun i _ hi => hzero i hi⟩
  | succ k ih =>
    intro kps h
    rw [List.range_succ, List.foldlM_append] at h
    cases hmid : (List.range k).foldlM (keypointStep32 glmInverse km kbm bones vertices model)
        init with
    | none => simp [hmid] at h
    | some mid =>
      simp only [hmid, Option.bind_eq_bind, Option.some_bind, List.foldlM_cons, List.foldlM_nil,
        Option.pure_def, Option.bind_some] at h
      obtain ⟨hk, hlen, hdone, htodo⟩ := ih mid hmid
      obtain ⟨keypoint, s, hget, hs, rfl⟩ := keypointStep32_some h
      have hk21 : k < 21 := by
        have := getElem?_lt hget
        omega
      have hzero' : keypoint = fun _ => 0 := by
        have := htodo k le_rfl hk21
        rw [hget] at this
        exact Option.some.inj this
      subst hzero'
      refine ⟨hk21, by simpa using hlen, fun i hi => ?_, fun i hi hi21 => ?_⟩
      · by_cases e : i = k
        · subst e
          exact ⟨s, hs, by simp [List.getElem?_set, hlen, hk21]⟩
        · obtain ⟨t, ht, hget'⟩ := hdone i (by omega)
          exact ⟨t, ht, by simp [List.getElem?_set, Ne.symm e, hget']⟩
      · have e : k ≠ i := by omega
        simp [List.getElem?_set, e, htodo i (by omega) hi21]

/-- The first `k` rounds of the loop return when every round finds its references. -/
theorem keypointLoop32_returns (glmInverse : InverseLib32) (km kbm : List Int)
    (bones : List Bone32) (vertices : List Vertex32) (model : Mat32)
    (init : List (Fin 3 → F32)) (hinit : init.length = 21)
    (hzero : ∀ i, i < 21 → init[i]? = some (fun _ => 0)) :
    ∀ k : Nat, k ≤ 21 →
      (∀ i, i < k → ∃ s,
        skinnedKeypoint32 glmInverse km kbm bones vertices (fun _ => 0) i = some s) →
      ∃ kps, (List.range k).foldlM (keypointStep32 glmInverse km kbm bones vertices model) init
        = some kps := by
  intro k
  induction k with
  | zero => intro _ _; exact ⟨_, rfl⟩
  | succ k ih =>
    intro hk hall
    obtain ⟨mid, hmid⟩ := ih (by omega) (fun i hi => hall i (by omega))
    obtain ⟨_, _, _, htodo⟩ :=
      keypointLoop32_inv glmInverse km kbm bones vertices model init hinit hzero k mid hmid
    obtain ⟨s, hs⟩ := hall k (by omega)
    refine ⟨mid.set k (xyz32 (mulVec32 model s)), ?_⟩
    rw [List.range_succ, List.foldlM_append, hmid]
    simp [keypointStep32, htodo k le_rfl (by omega), hs]

theorem zeroKeypoints32_spec :
    (List.replicate 21 (fun _ => 0 : Fin 3 → F32)).length = 21 ∧
      ∀ i, i < 21 → (List.replicate 21 (fun _ => 0 : Fin 3 → F32))[i]? = some (fun _ => 0) := by
  refine ⟨List.length_replicate _ _, fun i hi => ?_⟩
  rw [List.getElem?_replicate, if_pos hi]

theorem skinnedKeypoint32_isSome (glmInverse : InverseLib32) (km kbm : List Int)
    (bones : List Bone32) (vertices : List Vertex32) (keypoint : Fin 3 → F32) (i : Nat) :
    (∃ s, skinnedKeypoint32 glmInverse km kbm bones vertices keypoint i = some s) ↔
      ∃ rb rv bone closest, km[i]? = some rb ∧ kbm[i]? = some rv ∧
        atIndex bones rb = some bone ∧ atIndex vertices rv = some closest := by
  unfold skinnedKeypoint32
  constructor
  · rintro ⟨s, h⟩
    cases h1 : km[i]? with
    | none => simp [h1] at h
    | some rb =>
      cases h2 : atIndex bones rb with
      | none => simp [h1, h2] at h
      | some bone =>
        cases h3 : kbm[i]? with
        | none => simp [h1, h2, h3] at h
        | some rv =>
          cases h4 : atIndex vertices rv with
          | none => simp [h1, h2, h3, h4] at h
          | some closest => exact ⟨rb, rv, bone, closest, rfl, rfl, h2, h4⟩
  · rintro ⟨rb, rv, bone, closest, h1, h3, h2, h4⟩
    simp [h1, h2, h3, h4]

theorem skinnedKeypoint32_eq {glmInverse : InverseLib32} {km kbm : List Int}
    {bones : List Bone32} {vertices : List Vertex32} {keypoint : Fin 3 → F32} {i : Nat}
    {rb rv : Int} {bone : Bone32} {closest : Vertex32} (h1 : km[i]? = some rb)
    (h3 : kbm[i]? = some rv) (h2 : atIndex bones rb = some bone)
    (h4 : atIndex vertices rv = some closest) :
    skinnedKeypoint32 glmInverse km kbm bones vertices keypoint i
      = some (skinPoint32 bones closest (referencePoint32 glmInverse keypoint bone.offset i)) := by
  simp [skinnedKeypoint32, h1, h2, h3, h4]

theorem referencePoint32_zero (glmInverse : InverseLib32) (offset : Mat32) (i : Nat) :
    referencePoint32 glmInverse (fun _ => 0) offset i
      = fun k => mulVec32 (glmInverse offset) origin32 k + correctiveOffset32 i k := rfl

theorem references_found32 {bones : List Bone32} {vertices : List Vertex32}
    (hb : 21 ≤ bones.length) (hv : 60806 ≤ vertices.length) (i : Nat) (hi : i < 21) :
    ∃ rb rv bone closest, key_mapping[i]? = some rb ∧ keypoint_bone_map[i]? = some rv ∧
      atIndex bones rb = some bone ∧ atIndex vertices rv = some closest := by
  have h1 : i < key_mapping.length := by rw [key_mapping_range.1]; exact hi
  have h2 : i < keypoint_bone_map.length := by rw [keypoint_bone_map_range.1]; exact hi
  have hr1 := key_mapping_range.2 _ (List.getElem_mem h1)
  have hr2 := keypoint_bone_map_range.2 _ (List.getElem_mem h2)
  obtain ⟨bone, hbone⟩ := atIndex_isSome (l := bones) hr1.1 (by omega)
  obtain ⟨closest, hclosest⟩ := atIndex_isSome (l := vertices) hr2.1 (by omega)
  exact ⟨_, _, bone, closest, List.getElem?_eq_getElem h1, List.getElem?_eq_getElem h2,
    hbone, hclosest⟩

/-- With at least 21 bones and 60806 vertices the loop on `float` values returns. -/
theorem calculateKeypointsFrom32_returns (glmInverse : InverseLib32) (bones : List Bone32)
    (vertices : List Vertex32) (model : Mat32) (hb : 21 ≤ bones.length)
    (hv : 60806 ≤ vertices.length) :
    ∃ kps, calculateKeypointsFrom32 glmInverse key_mapping keypoint_bone_map bones vertices
      model = some kps := by
  unfold calculateKeypointsFrom32
  rw [key_mapping_range.1]
  exact keypointLoop32_returns glmInverse _ _ bones vertices model _
    zeroKeypoints32_spec.1 zeroKeypoints32_spec.2 21 le_rfl
    (fun i hi => (skinnedKeypoint32_isSome _ _ _ _ _ _ i).mpr (references_found32 hb hv i hi))

/-- Every keypoint that the loop on `float` values returns is the model transform applied
to the skinned point of its index. -/
theorem calculateKeypointsFrom32_result {glmInverse : InverseLib32} {bones : List Bone32}
    {vertices : List Vertex32} {model : Mat32} {kps : List (Fin 3 → F32)}
    (hrun : calculateKeypointsFrom32 glmInverse key_mapping keypoint_bone_map bones vertices
      model = some kps) :
    kps.length = 21 ∧
      ∀ i, i < 21 → ∃ rb rv bone closest,
        key_mapping[i]? = some rb ∧ keypoint_bone_map[i]? = some rv ∧
        atIndex bones rb = some bone ∧ atIndex vertices rv = some closest ∧
        kps[i]? = some (xyz32 (mulVec32 model
          (skinPoint32 bones closest
            (fun k => mulVec32 (glmInverse bone.offset) origin32 k
              + correctiveOffset32 i k)))) := by
  unfold calculateKeypointsFrom32 at hrun
  rw [key_mapping_range.1] at hrun
  obtain ⟨_, hlen, hdone, _⟩ := keypointLoop32_inv glmInverse _ _ bones vertices
    model _ zeroKeypoints32_spec.1 zeroKeypoints32_spec.2 21 kps hrun
  refine ⟨hlen, fun i hi => ?_⟩
  obtain ⟨s, hs, hget⟩ := hdone i hi
  obtain ⟨rb, rv, bone, closest, h1, h3, h2, h4⟩ :=
    (skinnedKeypoint32_isSome _ _ _ _ _ _ i).mp ⟨s, hs⟩
  rw [skinnedKeypoint32_eq h1 h3 h2 h4, Option.some.injEq, referencePoint32_zero] at hs
  exact ⟨rb, rv, bone, closest, h1, h3, h2, h4, by rw [hget, hs]⟩

theorem replicate_at {α : Type} (a : α) (r : Int) (h0 : 0 ≤ r) (h1 : r < 60806) :
    atIndex (List.replicate 60806 a) r = some a := by
  have hlt : r.toNat < 60806 := by omega
  unfold atIndex
  rw [if_neg (not_lt.mpr h0), List.getElem?_replicate, if_pos hlt]

theorem restBones32_rest : ∀ bone ∈ restBones32, bone.transforms = Mat32.one := by decide!

/-- C15 fails on `float` values: on 21 bones at rest, bone `k` with its joint at
`(k, 0, 0)`, and the identity as model transform, keypoint 8 is
`(13.9999847412109375, 8.47607421875, 12.544624328613281)`; it differs from the joint
centre `(14, 0, 0)` of its reference bone by `(-0.0000152587890625, 8.47607421875,
12.544624328613281)` and not by `(-0.000015, 8.476074, 12.544624)`. -/
theorem keypoints_at_rest_counterexample :
    (∀ bone ∈ restBones32, bone.transforms = Mat32.one) ∧
      (restBones32[14]?).map (fun b => mulVec32 (exactInverse32 b.offset) origin32)
        = some ![.fin 14, .fin 0, .fin 0, .fin 1] ∧
      ∃ kps, calculateKeypointsFrom32 exactInverse32 key_mapping keypoint_bone_map restBones32
          restVertices32 Mat32.one = some kps ∧
        kps[8]? = some ![.fin (14 - 1 / 65536), .fin (17359 / 2048), .fin (1644249 / 131072)] ∧
        ((14 - 1 / 65536 : ℚ) - 14 ≠ -0.000015 ∧ (17359 / 2048 : ℚ) - 0 ≠ 8.476074 ∧
          (1644249 / 131072 : ℚ) - 0 ≠ 12.544624) := by
  refine ⟨restBones32_rest, by decide!, ?_⟩
  obtain ⟨kps, hk⟩ := calculateKeypointsFrom32_returns exactInverse32 restBones32
    restVertices32 Mat32.one (by decide)
    (le_of_eq (List.length_replicate _ _).symm)
  refine ⟨kps, hk, ?_, by norm_num, by norm_num, by norm_num⟩
  obtain ⟨rb, rv, bone, closest, h1, h3, h2, h4, hget⟩ :=
    (calculateKeypointsFrom32_result hk).2 8 (by norm_num)
  have e1 : key_mapping[8]? = some 14 := by decide
  have e3 : keypoint_bone_map[8]? = some 17825 := by decide
  rw [e1] at h1
  rw [e3] at h3
  obtain rfl := Option.some.inj h1
  obtain rfl := Option.some.inj h3
  have e4 : atIndex restVertices32 17825 = some blendVertex.to32 :=
    replicate_at _ _ (by norm_num) (by norm_num)
  rw [e4] at h4
  obtain rfl := Option.some.inj h4
  have e2 : atIndex restBones32 14
      = some (Bone.create cofactorInverse 14 (translation (-14) 0 0) "O").to32 := by decide!
  rw [e2] at h2
  obtain rfl := Option.some.inj h2
  rw [hget]
  decide!

/-- At rest and under the identity as model transform, a reference point of finite
components whose vertex has only valid slots of weight zero, or one valid slot of weight 1
next to valid slots of weight zero, comes out of skinning and model transform as it went
in. -/
theorem keypoint32_at_rest {bones : List Bone32} {closest : Vertex32} {pt : Vec32}
    (hrest : ∀ bone ∈ bones, bone.transforms = Mat32.one)
    (hfin : ∀ k, (pt k).Finite)
    (hw : (∀ j, ValidSlot32 bones closest j → closest.bone_weights j = 0) ∨
      ∃ k₀, ValidSlot32 bones closest k₀ ∧ closest.bone_weights k₀ = 1 ∧
        ∀ j, j ≠ k₀ → ValidSlot32 bones closest j → closest.bone_weights j = 0) :
    mulVec32 Mat32.one (skinPoint32 bones closest pt) = pt := by
  have hskin : skinPoint32 bones closest pt = pt := by
    rcases hw with h0 | ⟨k₀, hk, hw1, hothers⟩
    · exact skinPoint32_zero_weights h0 pt
    · exact skinPoint32_single_weight (slotTransform32_of_atRest hrest closest) hk hw1 hothers
        hfin
  rw [hskin, one_mulVec32 hfin]

theorem correctiveOffset32_other (i : Nat) (hi : i ∉ [4, 8, 12, 16, 20]) :
    correctiveOffset32 i = fun _ => 0 := by
  simp only [List.mem_cons, List.mem_singleton, List.not_mem_nil, or_false, not_or] at hi
  obtain ⟨h4, h8, h12, h16, h20⟩ := hi
  have : correctiveOffset i = 0 := by
    unfold correctiveOffset
    split <;> first | rfl | omega
  funext k
  simp [correctiveOffset32, toVec32, this, round32_zero, F32.zero_def]

/-- C13 fails on `float` values: on the chain at rest, a vertex blended between wrist and
finger with the weights 0.7f and 0.2f sends the point `(1, 2, 3, 1)` to
`(1, 2, 2.99999976158142, 1)`. -/
theorem skinPoint_identity_at_rest_counterexample :
    (∀ bone ∈ handChain32, bone.transforms = Mat32.one) ∧
      unevenVertex32.bone_weights
        = ![.fin (11744051 / 16777216), .fin (13421773 / 67108864), .fin 0, .fin 0] ∧
      skinPoint32 handChain32 unevenVertex32 ![.fin 1, .fin 2, .fin 3, .fin 1]
        = ![.fin 1, .fin 2, .fin (12582911 / 4194304), .fin 1] ∧
      skinPoint32 handChain32 unevenVertex32 ![.fin 1, .fin 2, .fin 3, .fin 1]
        ≠ ![.fin 1, .fin 2, .fin 3, .fin 1] := by
  refine ⟨by decide!, by decide!, by decide!, by decide!⟩

/-- C14 fails on `float` values: on the twisted chain, with the weights 1/4 and 1/2 the
point `(1, 1, 0.1f, 1)` is skinned to x = 0.4000000059604645, and with the same weights
multiplied by 3 to x = 0.3999999761581421. -/
theorem skinPoint_normalises_counterexample :
    skinPoint32 twistedChain32 quarterHalfVertex32
        ![.fin 1, .fin 1, .fin (13421773 / 134217728), .fin 1] 0
      = .fin (13421773 / 33554432) ∧
    skinPoint32 twistedChain32 tripledVertex32
        ![.fin 1, .fin 1, .fin (13421773 / 134217728), .fin 1] 0
      = .fin (3355443 / 8388608) ∧
    tripledVertex32.bone_weights = ![.fin (3 / 4), .fin (3 / 2), .fin 0, .fin 0] ∧
    IsF32 (13421773 / 134217728) := by
  refine ⟨by decide!, by decide!, by decide!, by decide!⟩

theorem slotTransform32_of_referenced {bones : List Bone32} {v : Vertex32}
    (hrest : ∀ j bone, atIndex bones (v.bone_ids j) = some bone → bone.transforms = Mat32.one)
    (j : Fin MAX_BONE_INFLUENCE) (hj : ValidSlot32 bones v j) :
    slotTransform32 bones v j = Mat32.one := by
  have h0 : ¬ v.bone_ids j < 0 := by have := hj.1; simp only at this; omega
  have hlt : (v.bone_ids j).toNat < bones.length := by
    have := hj.2; simp only at this; omega
  have hget : bones[(v.bone_ids j).toNat]? = some (bones.get ⟨_, hlt⟩) :=
    List.getElem?_eq_getElem hlt
  have := hrest j _ (by simp only [atIndex, h0, if_false]; exact hget)
  simp only [slotTransform32, hget, this]

/-- C13 amended: both constructors of `Bone` leave the identity as accumulated transform.
When every bone that a slot of the vertex refers to has the identity as accumulated
transform, the skinning step of `calculateKeypoints` gives back the input point for every
choice of the four slot weights in exact arithmetic. On `float` values it gives back the
input point, exactly, when every valid slot has weight zero and, with the referenced bones
at rest and for a point of finite components, when one valid slot has weight 1 and every
other valid slot weight 0. -/
theorem skinPoint_identity_at_rest (bones : List Bone) (v : Vertex)
    (hrest : ∀ j bone, atIndex bones (v.bone_ids j) = some bone → bone.transforms = 1) :
    (∀ uninit : Mat4, (Bone.empty uninit).transforms = 1) ∧
    (∀ (glmInverse : InverseLib) (bone_id : Int) (offset : Mat4) (name : String),
      (Bone.create glmInverse bone_id offset name).transforms = 1) ∧
    (∀ (weights : Fin MAX_BONE_INFLUEN → ℚ) (p : Vec4),
      skinPoint bones { v with bone_weights := weights } p = p) ∧
    ∀ (bones32 : List Bone32) (v32 : Vertex32) (p32 : Vec32),
      ((∀ j, ValidSlot32 bones32 v32 j → v32.bone_weights j = 0) →
        skinPoint32 bones32 v32 p32 = p32) ∧
      ((∀ j bone, atIndex bones32 (v32.bone_ids j) = some bone →
          bone.transforms = Mat32.one) →
        ∀ k₀, ValidSlot32 bones32 v32 k₀ → v32.bone_weights k₀ = 1 →
        (∀ j, j ≠ k₀ → ValidSlot32 bones32 v32 j → v32.bone_weights j = 0) →
        (∀ k, (p32 k).Finite) → skinPoint32 bones32 v32 p32 = p32) := by
  refine ⟨fun _ => rfl, fun _ _ _ _ => rfl, fun weights p => ?_, fun bones32 v32 p32 =>
    ⟨fun h0 => skinPoint32_zero_weights h0 p32, fun h32 k₀ hk hw hothers hp =>
      skinPoint32_single_weight (slotTransform32_of_referenced h32) hk hw hothers hp⟩⟩
  apply skinPoint_atRest
  intro j hj
  have h0 : ¬ v.bone_ids j < 0 := by have := hj.1; simp only at this; omega
  have hlt : (v.bone_ids j).toNat < bones.length := by
    have := hj.2; simp only at this; omega
  have hget : bones[(v.bone_ids j).toNat]? = some (bones.get ⟨_, hlt⟩) :=
    List.getElem?_eq_getElem hlt
  have := hrest j _ (by simp only [atIndex, h0, if_false]; exact hget)
  simp only [slotTransform, hget, this]

theorem atIndex_mem {α : Type} {l : List α} {r : Int} {a : α} (h : atIndex l r = some a) :
    a ∈ l := by
  unfold atIndex at h
  split_ifs at h
  exact List.getElem?_mem h

theorem handChain32_rest : ∀ bone ∈ handChain32, bone.transforms = Mat32.one := by decide!

/-- C13 amended, on the chain at rest: in exact arithmetic on a vertex blended between
wrist and finger, on `float` values on a vertex bound to the finger with weight 1. -/
theorem skinPoint_identity_at_rest_witness :
    skinPoint handChain blendVertex ![1, 2, 3, 1] = ![1, 2, 3, 1] ∧
      skinPoint32 handChain32 fingerVertex32
          ![.fin 1, .fin 2, .fin (13421773 / 134217728), .fin 1]
        = ![.fin 1, .fin 2, .fin (13421773 / 134217728), .fin 1] :=
  have h := skinPoint_identity_at_rest handChain blendVertex (by decide!)
  ⟨h.2.2.1 blendVertex.bone_weights ![1, 2, 3, 1],
    (h.2.2.2 handChain32 fingerVertex32
      ![.fin 1, .fin 2, .fin (13421773 / 134217728), .fin 1]).2
      (fun j bone hb => handChain32_rest bone (atIndex_mem hb)) 1 (by decide) (by decide!)
      (by decide!)
      (fun k => ⟨![1, 2, 13421773 / 134217728, 1] k,
        by fin_cases k <;> rfl, by fin_cases k <;> decide!⟩)⟩

/-- C14 amended: on `float` values the skinned point is the input point when the
accumulated weight, the sum of the weights of the valid slots in slot order, is zero, and
otherwise the accumulated point, the sum of the points `(T_j * p) * w_j` of the valid
slots in slot order, divided by the accumulated weight. In exact arithmetic, when the sum
`S` of the weights of the valid slots is not zero the skinned point is the sum of
`w_j * (T_j * p)` over these slots divided by `S`, and multiplying the four slot weights by
one non-zero factor does not change the skinned point. -/
theorem skinPoint_normalises (bones : List Bone) (v : Vertex) (p : Vec4) :
    ((∑ j in Finset.univ.filter (ValidSlot bones v), v.bone_weights j) ≠ 0 →
      skinPoint bones v p
        = (∑ j in Finset.univ.filter (ValidSlot bones v), v.bone_weights j)⁻¹ •
          ∑ j in Finset.univ.filter (ValidSlot bones v),
            v.bone_weights j • (slotTransform bones v j).mulVec p) ∧
    (∀ c : ℚ, c ≠ 0 →
      skinPoint bones { v with bone_weights := fun j => c * v.bone_weights j } p
        = skinPoint bones v p) ∧
    ∀ (bones32 : List Bone32) (v32 : Vertex32) (p32 : Vec32),
      (accumWeight32 bones32 v32 = 0 → skinPoint32 bones32 v32 p32 = p32) ∧
      (accumWeight32 bones32 v32 ≠ 0 →
        skinPoint32 bones32 v32 p32
          = fun k => accumPoint32 bones32 v32 p32 k / accumWeight32 bones32 v32) := by
  have hS : ∑ j in Finset.univ.filter (ValidSlot bones v), v.bone_weights j
      = ∑ j, slotWeight bones v j := by
    simp only [slotWeight, Finset.sum_filter]
  have hP : ∑ j in Finset.univ.filter (ValidSlot bones v),
        v.bone_weights j • (slotTransform bones v j).mulVec p
      = ∑ j, slotPoint bones v p j := by
    simp only [slotPoint, Finset.sum_filter]
  refine ⟨?_, ?_, fun bones32 v32 p32 =>
    ⟨fun h => by rw [skinPoint32_eq, if_pos h], fun h => by rw [skinPoint32_eq, if_neg h]⟩⟩
  · intro h
    rw [hS] at h ⊢
    rw [hP, skinPoint_eq, if_neg h]
  · intro c hc
    have hw : ∀ j, slotWeight bones { v with bone_weights := fun j => c * v.bone_weights j } j
        = c * slotWeight bones v j := by
      intro j
      by_cases hv : ValidSlot bones v j
      · have hv' : ValidSlot bones { v with bone_weights := fun j => c * v.bone_weights j } j := hv
        simp [slotWeight, hv, hv']
      · have hv' : ¬ ValidSlot bones { v with bone_weights := fun j => c * v.bone_weights j } j :=
          hv
        simp [slotWeight, hv, hv']
    have hp : ∀ j, slotPoint bones { v with bone_weights := fun j => c * v.bone_weights j } p j
        = c • slotPoint bones v p j := by
      intro j
      by_cases hv : ValidSlot bones v j
      · have hv' : ValidSlot bones { v with bone_weights := fun j => c * v.bone_weights j } j := hv
        simp [slotPoint, hv, hv', slotTransform, smul_smul]
      · have hv' : ¬ ValidSlot bones { v with bone_weights := fun j => c * v.bone_weights j } j :=
          hv
        simp [slotPoint, hv, hv']
    rw [skinPoint_eq, skinPoint_eq]
    simp only [hw, hp, ← Finset.mul_sum, ← Finset.smul_sum]
    by_cases h0 : ∑ j, slotWeight bones v j = 0
    · simp [h0]
    · have hc0 : c * ∑ j, slotWeight bones v j ≠ 0 := mul_ne_zero hc h0
      rw [if_neg h0, if_neg hc0, smul_smul]
      congr 1
      field_simp

/-- C14 amended, on the twisted chain: in exact arithmetic on a vertex blended between
wrist and finger, one of whose slots refers to no bone (the weights 1/2 and 1/4 count, the
weight 3 does not); on `float` values on the weights 1/4 and 1/2, whose sum is 3/4. -/
theorem skinPoint_normalises_witness :
    (∑ j in Finset.univ.filter (ValidSlot twistedChain blendVertex),
        blendVertex.bone_weights j) = 3 / 4 ∧
      skinPoint twistedChain blendVertex ![1, 2, 3, 1]
        = (3 / 4 : ℚ)⁻¹ •
          ((1 / 2 : ℚ) • wristTurnXZ.mulVec ![1, 2, 3, 1]
            + (1 / 4 : ℚ) • wristTurnZX.mulVec ![1, 2, 3, 1]) ∧
      skinPoint twistedChain
          { blendVertex with bone_weights := fun j => 4 * blendVertex.bone_weights j }
          ![1, 2, 3, 1]
        = skinPoint twistedChain blendVertex ![1, 2, 3, 1] ∧
      accumWeight32 twistedChain32 quarterHalfVertex32 = .fin (3 / 4) ∧
      skinPoint32 twistedChain32 quarterHalfVertex32 ![.fin 1, .fin 2, .fin 3, .fin 1]
        = fun k => accumPoint32 twistedChain32 quarterHalfVertex32
            ![.fin 1, .fin 2, .fin 3, .fin 1] k / .fin (3 / 4) :=
  have hW : accumWeight32 twistedChain32 quarterHalfVertex32 = .fin (3 / 4) := by decide!
  ⟨by decide!,
    ((skinPoint_normalises twistedChain blendVertex ![1, 2, 3, 1]).1 (by decide!)).trans
      (by decide!),
    (skinPoint_normalises twistedChain blendVertex ![1, 2, 3, 1]).2.1 4 (by decide!),
    hW,
    hW ▸ ((skinPoint_normalises twistedChain blendVertex ![1, 2, 3, 1]).2.2 twistedChain32
      quarterHalfVertex32 ![.fin 1, .fin 2, .fin 3, .fin 1]).2 (by decide!)⟩

/-- C15 amended. In exact arithmetic, with the decimals of the literals: when every bone
has the identity as accumulated transform and the model transform of the first mesh is the
identity, `calculateKeypoints` returns (given 21 bones and 60806 vertices) and keypoint `i`
is `xyz(inverse(offset) * (0, 0, 0, 1)) + c_i` for every `i` in 0..20, with `c_i` the
vector of the `switch`, zero outside 4, 8, 12, 16 and 20; keypoint 8 then differs from the
joint centre of bone 14 by `(-0.000015, 8.476074, 12.544624)`. On `float` values, at rest
and under the identity as model transform, the loop returns and keypoint `i` is
`xyz(1 * skin(inverse(offset) * (0, 0, 0, 1) + c_i))` with every product and sum rounded
and `c_i` the `float` values of the literals; it is `xyz` of the rounded sum
`inverse(offset) * (0, 0, 0, 1) + c_i` itself when that sum has finite components and the
reference vertex has only valid slots of weight zero, or one valid slot of weight 1 next
to valid slots of weight zero. The `float` value of `c_8` is
`(-8246337 / 2 ^ 39, 17359 / 2 ^ 11, 1644249 / 2 ^ 17)`. -/
theorem keypoints_at_rest (glmInverse : InverseLib) (uninit : Mat4) (hand : ObjectRigged)
    (bones : List Bone) (mesh : Mesh) (hbones : hand.getBones uninit = some bones)
    (hmesh : hand.meshes[0]? = some mesh) (hrest : ∀ b ∈ bones, b.transforms = 1)
    (hmodel : mesh.transforms = 1) :
    (21 ≤ bones.length → 60806 ≤ mesh.vertices.length →
      ∃ kps, calculateKeypoints glmInverse uninit hand = some kps) ∧
    (∀ kps, calculateKeypoints glmInverse uninit hand = some kps →
      kps.length = 21 ∧
      (∀ i, i < 21 → ∃ rb bone, key_mapping[i]? = some rb ∧ atIndex bones rb = some bone ∧
        kps[i]? = some (xyz ((glmInverse bone.offset).mulVec origin4)
          + xyz (correctiveOffset i))) ∧
      (∃ bone, atIndex bones 14 = some bone ∧
        kps[8]? = some (xyz ((glmInverse bone.offset).mulVec origin4)
          + ![-0.000015, 8.476074, 12.544624]))) ∧
    (∀ i, i ∉ [4, 8, 12, 16, 20] → correctiveOffset i = 0) ∧
    xyz (correctiveOffset 4) = ![-2.712357, 10.171295, 18.986443] ∧
    xyz (correctiveOffset 8) = ![-0.000015, 8.476074, 12.544624] ∧
    xyz (correctiveOffset 12) = ![1.017120, 10.171303, 11.527489] ∧
    xyz (correctiveOffset 16) = ![2.034241, 12.544601, 10.510353] ∧
    xyz (correctiveOffset 20) = ![0.678085, 10.171295, 7.119926] ∧
    (∀ (glmInverse32 : InverseLib32) (bones32 : List Bone32) (vertices32 : List Vertex32),
      (∀ bone ∈ bones32, bone.transforms = Mat32.one) →
      (21 ≤ bones32.length → 60806 ≤ vertices32.length →
        ∃ kps, calculateKeypointsFrom32 glmInverse32 key_mapping keypoint_bone_map bones32
          vertices32 Mat32.one = some kps) ∧
      ∀ kps, calculateKeypointsFrom32 glmInverse32 key_mapping keypoint_bone_map bones32
          vertices32 Mat32.one = some kps →
        kps.length = 21 ∧
        ∀ i, i < 21 → ∃ rb rv bone closest,
          key_mapping[i]? = some rb ∧ keypoint_bone_map[i]? = some rv ∧
          atIndex bones32 rb = some bone ∧ atIndex vertices32 rv = some closest ∧
          kps[i]? = some (xyz32 (mulVec32 Mat32.one (skinPoint32 bones32 closest
            (fun k => mulVec32 (glmInverse32 bone.offset) origin32 k
              + correctiveOffset32 i k)))) ∧
          ((∀ k, ∃ y, mulVec32 (glmInverse32 bone.offset) origin32 k
              + correctiveOffset32 i k = .fin y) →
            ((∀ j, ValidSlot32 bones32 closest j → closest.bone_weights j = 0) ∨
              ∃ k₀, ValidSlot32 bones32 closest k₀ ∧ closest.bone_weights k₀ = 1 ∧
                ∀ j, j ≠ k₀ → ValidSlot32 bones32 closest j → closest.bone_weights j = 0) →
            kps[i]? = some (xyz32 (fun k => mulVec32 (glmInverse32 bone.offset) origin32 k
              + correctiveOffset32 i k)))) ∧
    (∀ i, i ∉ [4, 8, 12, 16, 20] → correctiveOffset32 i = fun _ => 0) ∧
    correctiveOffset32 8
      = ![.fin (-8246337 / 2 ^ 39), .fin (17359 / 2 ^ 11), .fin (1644249 / 2 ^ 17), .fin 0] := by
  have hc8 : xyz (correctiveOffset 8) = ![-0.000015, 8.476074, 12.544624] := by
    simp [xyz, correctiveOffset]
  have hall : ∀ kps, calculateKeypoints glmInverse uninit hand = some kps →
      ∀ i, i < 21 → ∃ rb bone, key_mapping[i]? = some rb ∧ atIndex bones rb = some bone ∧
        kps[i]? = some (xyz ((glmInverse bone.offset).mulVec origin4)
          + xyz (correctiveOffset i)) := by
    intro kps hrun i hi
    obtain ⟨rb, rv, bone, closest, h1, _, h2, _, hget⟩ :=
      (calculateKeypoints_result hbones hmesh hrun).2 i hi
    refine ⟨rb, bone, h1, h2, ?_⟩
    rw [hget, hmodel, Matrix.one_mulVec,
      skinPoint_atRest (slotTransform_of_atRest hrest closest), xyz_add]
  refine ⟨calculateKeypoints_returns hbones hmesh, fun kps hrun => ⟨?_, hall kps hrun, ?_⟩,
    ?_, ?_, hc8, ?_, ?_, ?_, ?_, correctiveOffset32_other, by decide!⟩
  · exact (calculateKeypoints_result hbones hmesh hrun).1
  · obtain ⟨rb, bone, h1, h2, hget⟩ := hall kps hrun 8 (by omega)
    have : rb = 14 := by
      have h14 : key_mapping[8]? = some 14 := by decide
      rw [h14] at h1
      exact (Option.some.inj h1).symm
    subst this
    exact ⟨bone, h2, by rw [hget, hc8]⟩
  · intro i hi
    simp only [List.mem_cons, List.mem_singleton, List.not_mem_nil, or_false, not_or] at hi
    obtain ⟨h4, h8, h12, h16, h20⟩ := hi
    unfold correctiveOffset
    split <;> first | rfl | omega
  · simp [xyz, correctiveOffset]
  · simp [xyz, correctiveOffset]
  · simp [xyz, correctiveOffset]
  · simp [xyz, correctiveOffset]
  · intro glmInverse32 bones32 vertices32 hrest32
    refine ⟨calculateKeypointsFrom32_returns glmInverse32 bones32 vertices32 Mat32.one,
      fun kps hrun => ?_⟩
    refine ⟨(calculateKeypointsFrom32_result hrun).1, fun i hi => ?_⟩
    obtain ⟨rb, rv, bone, closest, h1, h3, h2, h4, hget⟩ :=
      (calculateKeypointsFrom32_result hrun).2 i hi
    refine ⟨rb, rv, bone, closest, h1, h3, h2, h4, hget, fun hfin hw => ?_⟩
    rw [hget, keypoint32_at_rest hrest32
      (fun k => (hfin k).elim (fun y hy => ⟨y, hy, F32.add_finite hy⟩)) hw]

/-- C15 amended, on 21 bones at rest, bone `k` with its joint at `(k, 0, 0)`: in exact
arithmetic on `restHand`, and on `float` values with vertices that are bound to no bone,
where keypoint 8 is `(14 - 2 ^ (-16), 17359 / 2 ^ 11, 1644249 / 2 ^ 17)`. -/
theorem keypoints_at_rest_witness :
    ((restBones[14]?).map (fun b => xyz ((cofactorInverse b.offset).mulVec origin4))
        = some ![14, 0, 0] ∧
      ∃ kps, calculateKeypoints cofactorInverse 0 restHand = some kps ∧
        ∃ bone, atIndex restBones 14 = some bone ∧
          kps[8]? = some (xyz ((cofactorInverse bone.offset).mulVec origin4)
            + ![-0.000015, 8.476074, 12.544624])) ∧
      ∃ kps, calculateKeypointsFrom32 exactInverse32 key_mapping keypoint_bone_map restBones32
          looseVertices32 Mat32.one = some kps ∧
        kps[8]? = some ![.fin (14 - 1 / 2 ^ 16), .fin (17359 / 2 ^ 11),
          .fin (1644249 / 2 ^ 17)] :=
  let h := keypoints_at_rest cofactorInverse 0 restHand restBones restMesh restHand_bones
    rfl restHand_rest rfl
  let ⟨kps, hk⟩ := h.1 (by decide) restMesh_vertices
  let h32 := h.2.2.2.2.2.2.2.2.1 exactInverse32 restBones32 looseVertices32 restBones32_rest
  let ⟨kps32, hk32⟩ := h32.1 (by decide) (le_of_eq (List.length_replicate _ _).symm)
  ⟨⟨by decide!, kps, hk, (h.2.1 kps hk).2.2⟩, kps32, hk32, by
    obtain ⟨rb, rv, bone, closest, h1, h3, h2, h4, _, hgo⟩ := (h32.2 kps32 hk32).2 8 (by norm_num)
    have e1 : key_mapping[8]? = some 14 := by decide
    have e3 : keypoint_bone_map[8]? = some 17825 := by decide
    rw [e1] at h1
    rw [e3] at h3
    obtain rfl := Option.some.inj h1
    obtain rfl := Option.some.inj h3
    have e4 : atIndex looseVertices32 17825 = some looseVertex32 :=
      replicate_at _ _ (by norm_num) (by norm_num)
    rw [e4] at h4
    obtain rfl := Option.some.inj h4
    have e2 : atIndex restBones32 14
        = some (Bone.create cofactorInverse 14 (translation (-14) 0 0) "O").to32 := by decide!
    rw [e2] at h2
    obtain rfl := Option.some.inj h2
    have hpt : (fun k => mulVec32 (exactInverse32
          (Bone.create cofactorInverse 14 (translation (-14) 0 0) "O").to32.offset) origin32 k
          + correctiveOffset32 8 k)
        = ![.fin (14 - 1 / 2 ^ 16), .fin (17359 / 2 ^ 11), .fin (1644249 / 2 ^ 17), .fin 1] := by
      decide!
    rw [hgo (fun k => by rw [congrFun hpt k]; fin_cases k <;> exact ⟨_, rfl⟩)
      (Or.inl (fun j _ => rfl)), hpt]
    decide!⟩

/-! ## Lemmas on the bone graph, on `float` matrices -/

theorem childrenOf_mem_allChildren32 {sk : Skeleton32} {p c : Nat} (h : c ∈ childrenOf32 sk p) :
    c ∈ allChildren32 sk := by
  induction sk generalizing p with
  | nil => simp [childrenOf32] at h
  | cons bone rest ih =>
    cases p with
    | zero =>
      simp only [childrenOf32, List.getElem?_cons_zero] at h
      simp [allChildren32, h]
    | succ p =>
      have h' : c ∈ childrenOf32 rest p := by
        simpa [childrenOf32, List.getElem?_cons_succ] using h
      simp [allChildren32, ih h']

theorem childrenOf_nodup32 {sk : Skeleton32} (h : (allChildren32 sk).Nodup) (p : Nat) :
    (childrenOf32 sk p).Nodup := by
  induction sk generalizing p with
  | nil => simp [childrenOf32]
  | cons bone rest ih =>
    simp only [allChildren32, List.nodup_append] at h
    cases p with
    | zero => simpa [childrenOf32] using h.1
    | succ p => simpa [childrenOf32, List.getElem?_cons_succ] using ih h.2.1 p

theorem parent_unique32 {sk : Skeleton32} (h : (allChildren32 sk).Nodup) {p q c : Nat}
    (hp : c ∈ childrenOf32 sk p) (hq : c ∈ childrenOf32 sk q) : p = q := by
  induction sk generalizing p q with
  | nil => simp [childrenOf32] at hp
  | cons bone rest ih =>
    simp only [allChildren32, List.nodup_append] at h
    cases p with
    | zero =>
      cases q with
      | zero => rfl
      | succ q =>
        have h1 : c ∈ bone.children := by simpa [childrenOf32] using hp
        have h2 : c ∈ childrenOf32 rest q := by
          simpa [childrenOf32, List.getElem?_cons_succ] using hq
        exact absurd (childrenOf_mem_allChildren32 h2) (fun h3 => h.2.2 h1 h3)
    | succ p =>
      have h1 : c ∈ childrenOf32 rest p := by
        simpa [childrenOf32, List.getElem?_cons_succ] using hp
      cases q with
      | zero =>
        have h2 : c ∈ bone.children := by simpa [childrenOf32] using hq
        exact absurd (childrenOf_mem_allChildren32 h1) (fun h3 => h.2.2 h2 h3)
      | succ q =>
        have h2 : c ∈ childrenOf32 rest q := by
          simpa [childrenOf32, List.getElem?_cons_succ] using hq
        rw [ih h.2.1 h1 h2]

theorem reach_iff32 {sk : Skeleton32} {b d : Nat} : Reach32 sk b d ↔ d = b ∨ Descendant32 sk b d :=
  Relation.reflTransGen_iff_eq_or_transGen

theorem rank_le_of_reach32 {sk : Skeleton32} {rank : Nat → Nat}
    (hr : ∀ p c, IsChild32 sk p c → rank c < rank p) {b d : Nat} (h : Reach32 sk b d) :
    rank d ≤ rank b := by
  induction h with
  | refl => exact le_rfl
  | tail _ hcd ih => exact le_trans (le_of_lt (hr _ _ hcd)) ih

theorem rank_lt_of_descendant32 {sk : Skeleton32} {rank : Nat → Nat}
    (hr : ∀ p c, IsChild32 sk p c → rank c < rank p) {b d : Nat} (h : Descendant32 sk b d) :
    rank d < rank b := by
  obtain ⟨c, hbc, hcd⟩ := Relation.TransGen.head'_iff.mp h
  exact lt_of_le_of_lt (rank_le_of_reach32 hr hcd) (hr _ _ hbc)

theorem not_descendant_self32 {sk : Skeleton32} (hF : Forest32 sk) (b : Nat) : ¬ Descendant32 sk b b := by
  obtain ⟨rank, hr⟩ := hF.acyclic
  exact fun h => lt_irrefl _ (rank_lt_of_descendant32 hr h)

/-- In a forest the subtrees of two different children of one bone share no bone. -/
theorem siblings_disjoint32 {sk : Skeleton32} (hF : Forest32 sk) {p c₁ c₂ i : Nat}
    (h₁ : IsChild32 sk p c₁) (h₂ : IsChild32 sk p c₂) (hne : c₁ ≠ c₂)
    (r₁ : Reach32 sk c₁ i) (r₂ : Reach32 sk c₂ i) : False := by
  obtain ⟨rank, hr⟩ := hF.acyclic
  have U : Relator.RightUnique (Function.swap (IsChild32 sk)) := by
    intro a b c hab hac
    exact parent_unique32 hF.once hab hac
  have key : ∀ a b, IsChild32 sk p a → IsChild32 sk p b → a ≠ b → Reach32 sk a b → False := by
    intro a b ha hb hab hreach
    rcases reach_iff32.mp hreach with h | h
    · exact hab h.symm
    · obtain ⟨q, haq, hqb⟩ := Relation.TransGen.tail'_iff.mp h
      have hq : q = p := parent_unique32 hF.once hqb hb
      subst hq
      exact absurd (rank_le_of_reach32 hr haq) (not_le.mpr (hr _ _ ha))
  rcases Relation.ReflTransGen.total_of_right_unique U
      (Relation.ReflTransGen.swap r₁) (Relation.ReflTransGen.swap r₂) with h | h
  · exact key c₂ c₁ h₂ h₁ (Ne.symm hne) (Relation.reflTransGen_swap.mp h)
  · exact key c₁ c₂ h₁ h₂ hne (Relation.reflTransGen_swap.mp h)

/-! ## What rotation leaves alone, on `float` matrices -/

theorem frame_length32 {sk sk' : Skeleton32} (h : sk'.map Bone32.frame = sk.map Bone32.frame) :
    sk'.length = sk.length := by
  simpa using congrArg List.length h

theorem frame32_getElem? {sk sk' : Skeleton32} (h : sk'.map Bone32.frame = sk.map Bone32.frame)
    (i : Nat) : (sk'[i]?).map Bone32.frame = (sk[i]?).map Bone32.frame := by
  have := congrArg (fun l => l[i]?) h
  simpa [List.getElem?_map] using this

theorem frame_childrenOf32 {sk sk' : Skeleton32} (h : sk'.map Bone32.frame = sk.map Bone32.frame)
    (p : Nat) : childrenOf32 sk' p = childrenOf32 sk p := by
  have hp := frame32_getElem? h p
  unfold childrenOf32
  cases h1 : sk'[p]? with
  | none =>
    cases h2 : sk[p]? with
    | none => rfl
    | some b => simp [h1, h2] at hp
  | some b' =>
    cases h2 : sk[p]? with
    | none => simp [h1, h2] at hp
    | some b =>
      simp only [h1, h2, Option.map_some', Option.some.injEq] at hp
      have hc := congrArg Bone32.children hp
      exact hc

theorem frame_set32 {sk : Skeleton32} {b : Nat} {bone : Bone32} (h : sk[b]? = some bone) (M : Mat32) :
    (sk.set b { bone with transforms := M }).map Bone32.frame = sk.map Bone32.frame := by
  apply List.ext_getElem?
  intro i
  simp only [List.getElem?_map, List.getElem?_set]
  by_cases hi : b = i
  · subst hi
    have hlt : b < sk.length := by
      by_contra hc
      rw [List.getElem?_eq_none (not_lt.mp hc)] at h
      cases h
    simp [hlt, h, Bone32.frame]
  · simp [hi]

theorem transformsAt_set32 {sk : Skeleton32} {b : Nat} {bone : Bone32} (h : sk[b]? = some bone)
    (M : Mat32) (i : Nat) :
    transformsAt32 (sk.set b { bone with transforms := M }) i
      = if i = b then some M else transformsAt32 sk i := by
  have hlt : b < sk.length := by
    by_contra hc
    rw [List.getElem?_eq_none (not_lt.mp hc)] at h
    cases h
  unfold transformsAt32
  by_cases hi : i = b
  · subst hi
    simp [List.getElem?_set, hlt]
  · have : b ≠ i := fun e => hi e.symm
    simp [List.getElem?_set, this, hi]

/-- The loop over a children list, given what one `propagateRotate32` call does. -/
theorem propagate_children32 {sk₀ : Skeleton32} {fuel : Nat} {M : Mat32} {P : Nat → Prop}
    (one : ∀ sk c, sk.map Bone32.frame = sk₀.map Bone32.frame → P c →
      ∃ sk', propagateRotate32 fuel sk c M = some sk' ∧
        sk'.map Bone32.frame = sk₀.map Bone32.frame ∧
        (∀ i, Reach32 sk₀ c i → transformsAt32 sk' i = (transformsAt32 sk i).map (mulMat32 M ·)) ∧
        (∀ i, ¬ Reach32 sk₀ c i → transformsAt32 sk' i = transformsAt32 sk i)) :
    ∀ (cs : List Nat) (sk : Skeleton32), sk.map Bone32.frame = sk₀.map Bone32.frame →
      (∀ c ∈ cs, P c) →
      cs.Pairwise (fun c₁ c₂ => ∀ i, Reach32 sk₀ c₁ i → Reach32 sk₀ c₂ i → False) →
      ∃ sk', cs.foldlM (fun s child => propagateRotate32 fuel s child M) sk = some sk' ∧
        sk'.map Bone32.frame = sk₀.map Bone32.frame ∧
        (∀ i, (∃ c ∈ cs, Reach32 sk₀ c i) → transformsAt32 sk' i = (transformsAt32 sk i).map (mulMat32 M ·)) ∧
        (∀ i, (¬ ∃ c ∈ cs, Reach32 sk₀ c i) → transformsAt32 sk' i = transformsAt32 sk i) := by
  intro cs
  induction cs with
  | nil =>
    intro sk hfr _ _
    exact ⟨sk, rfl, hfr, by simp, by simp⟩
  | cons c cs ih =>
    intro sk hfr hlt hpw
    obtain ⟨sk₁, h1, hfr1, hin1, hout1⟩ := one sk c hfr (hlt c (List.mem_cons_self _ _))
    obtain ⟨hdisj, hpw'⟩ := List.pairwise_cons.mp hpw
    obtain ⟨sk', h2, hfr2, hin2, hout2⟩ :=
      ih sk₁ hfr1 (fun d hd => hlt d (List.mem_cons_of_mem _ hd)) hpw'
    refine ⟨sk', ?_, hfr2, ?_, ?_⟩
    · simp only [List.foldlM_cons, h1]
      exact h2
    · intro i hi
      by_cases hc : Reach32 sk₀ c i
      · have hno : ¬ ∃ d ∈ cs, Reach32 sk₀ d i := by
          rintro ⟨d, hd, hdi⟩
          exact hdisj d hd i hc hdi
        rw [hout2 i hno, hin1 i hc]
      · have hrest : ∃ d ∈ cs, Reach32 sk₀ d i := by
          obtain ⟨d, hd, hdi⟩ := hi
          rcases List.mem_cons.mp hd with e | e
          · exact absurd (e ▸ hdi) hc
          · exact ⟨d, e, hdi⟩
        rw [hin2 i hrest, hout1 i hc]
    · intro i hi
      have hc : ¬ Reach32 sk₀ c i := fun h => hi ⟨c, List.mem_cons_self _ _, h⟩
      have hrest : ¬ ∃ d ∈ cs, Reach32 sk₀ d i := by
        rintro ⟨d, hd, hdi⟩
        exact hi ⟨d, List.mem_cons_of_mem _ hd, hdi⟩
      rw [hout2 i hrest, hout1 i hc]

theorem children_pairwise32 {sk₀ : Skeleton32} (hF : Forest32 sk₀) (p : Nat) :
    (childrenOf32 sk₀ p).Pairwise
      (fun c₁ c₂ => ∀ i, Reach32 sk₀ c₁ i → Reach32 sk₀ c₂ i → False) := by
  have hnd : (childrenOf32 sk₀ p).Pairwise (fun a b => a ≠ b) := childrenOf_nodup32 hF.once p
  refine List.Pairwise.imp_of_mem ?_ hnd
  intro a b ha hb hab i r₁ r₂
  exact siblings_disjoint32 hF ha hb hab r₁ r₂

theorem getElem?_of_frame32 {sk sk₀ : Skeleton32} (h : sk.map Bone32.frame = sk₀.map Bone32.frame)
    {b : Nat} (hb : b < sk₀.length) : ∃ bone, sk[b]? = some bone := by
  have hlt : b < sk.length := by rw [frame_length32 h]; exact hb
  exact ⟨sk[b], List.getElem?_eq_getElem hlt⟩

/-- Overwriting the transform of `b` and then running the children loop: `b` keeps the
new value, every proper descendant is multiplied on the left by `M`, the rest is as before. -/
theorem set_then_children32 {sk₀ : Skeleton32} (hF : Forest32 sk₀) {rank : Nat → Nat}
    (hr : ∀ p c, IsChild32 sk₀ p c → rank c < rank p) (M N : Mat32) (fuel : Nat)
    (IH : ∀ sk c, sk.map Bone32.frame = sk₀.map Bone32.frame → (c < sk₀.length ∧ rank c < fuel) →
      ∃ sk', propagateRotate32 fuel sk c M = some sk' ∧
        sk'.map Bone32.frame = sk₀.map Bone32.frame ∧
        (∀ i, Reach32 sk₀ c i → transformsAt32 sk' i = (transformsAt32 sk i).map (mulMat32 M ·)) ∧
        (∀ i, ¬ Reach32 sk₀ c i → transformsAt32 sk' i = transformsAt32 sk i))
    (sk : Skeleton32) (b : Nat) (bone : Bone32) (hfr : sk.map Bone32.frame = sk₀.map Bone32.frame)
    (hb : sk[b]? = some bone) (hfuel : rank b ≤ fuel) :
    ∃ sk', bone.children.foldlM (fun s child => propagateRotate32 fuel s child M)
          (sk.set b { bone with transforms := N }) = some sk' ∧
      sk'.map Bone32.frame = sk₀.map Bone32.frame ∧
      transformsAt32 sk' b = some N ∧
      (∀ i, Descendant32 sk₀ b i → transformsAt32 sk' i = (transformsAt32 sk i).map (mulMat32 M ·)) ∧
      (∀ i, i ≠ b → ¬ Descendant32 sk₀ b i → transformsAt32 sk' i = transformsAt32 sk i) := by
  have hch : bone.children = childrenOf32 sk₀ b := by
    rw [← frame_childrenOf32 hfr b]
    simp [childrenOf32, hb]
  have hfr1 : (sk.set b { bone with transforms := N }).map Bone32.frame = sk₀.map Bone32.frame := by
    rw [frame_set32 hb N]; exact hfr
  have hP : ∀ c ∈ bone.children, c < sk₀.length ∧ rank c < fuel := by
    intro c hc
    rw [hch] at hc
    exact ⟨hF.closed b c hc, lt_of_lt_of_le (hr b c hc) hfuel⟩
  have hpw := children_pairwise32 hF b
  rw [← hch] at hpw
  obtain ⟨sk', hrun, hfr', hin, hout⟩ := propagate_children32 IH bone.children _ hfr1 hP hpw
  have hself : ¬ ∃ c ∈ bone.children, Reach32 sk₀ c b := by
    rintro ⟨c, hc, hcb⟩
    rw [hch] at hc
    exact absurd (rank_le_of_reach32 hr hcb) (not_le.mpr (hr b c hc))
  refine ⟨sk', hrun, hfr', ?_, ?_, ?_⟩
  · rw [hout b hself, transformsAt_set32 hb]
    simp
  · intro i hi
    obtain ⟨c, hbc, hci⟩ := Relation.TransGen.head'_iff.mp hi
    have hib : i ≠ b := by
      rintro rfl
      exact not_descendant_self32 hF _ hi
    have hc : c ∈ bone.children := by rw [hch]; exact hbc
    rw [hin i ⟨c, hc, hci⟩, transformsAt_set32 hb]
    simp [hib]
  · intro i hib hi
    have hno : ¬ ∃ c ∈ bone.children, Reach32 sk₀ c i := by
      rintro ⟨c, hc, hci⟩
      rw [hch] at hc
      exact hi (Relation.TransGen.head'_iff.mpr ⟨c, hc, hci⟩)
    rw [hout i hno, transformsAt_set32 hb]
    simp [hib]

/-- What `propagateRotate32` does on a forest, given fuel above the rank of the bone. -/
theorem propagateRotate_spec32 {sk₀ : Skeleton32} (hF : Forest32 sk₀) {rank : Nat → Nat}
    (hr : ∀ p c, IsChild32 sk₀ p c → rank c < rank p) (M : Mat32) :
    ∀ (fuel : Nat) (sk : Skeleton32) (b : Nat), sk.map Bone32.frame = sk₀.map Bone32.frame →
      (b < sk₀.length ∧ rank b < fuel) →
      ∃ sk', propagateRotate32 fuel sk b M = some sk' ∧
        sk'.map Bone32.frame = sk₀.map Bone32.frame ∧
        (∀ i, Reach32 sk₀ b i → transformsAt32 sk' i = (transformsAt32 sk i).map (mulMat32 M ·)) ∧
        (∀ i, ¬ Reach32 sk₀ b i → transformsAt32 sk' i = transformsAt32 sk i) := by
  intro fuel
  induction fuel with
  | zero => intro sk b _ h; exact absurd h.2 (Nat.not_lt_zero _)
  | succ fuel ih =>
    intro sk b hfr hb
    obtain ⟨bone, hbone⟩ := getElem?_of_frame32 hfr hb.1
    obtain ⟨sk', hrun, hfr', hown, hin, hout⟩ :=
      set_then_children32 hF hr M (mulMat32 M bone.transforms) fuel ih sk b bone hfr hbone
        (Nat.lt_succ_iff.mp hb.2)
    refine ⟨sk', ?_, hfr', ?_, ?_⟩
    · simp only [propagateRotate32, hbone]
      exact hrun
    · intro i hi
      rcases reach_iff32.mp hi with h | h
      · subst h
        rw [hown]
        simp [transformsAt32, hbone]
      · exact hin i h
    · intro i hi
      have h1 : i ≠ b := fun e => hi (reach_iff32.mpr (Or.inl e))
      have h2 : ¬ Descendant32 sk₀ b i := fun e => hi (reach_iff32.mpr (Or.inr e))
      exact hout i h1 h2

/-- What `Bone32::rotate32` does on a forest: the rotated bone is multiplied on the right by the
joint-space rotation, every proper descendant on the left, everything else is untouched. -/
theorem rotate_spec32 (glmRotate : RotationLib32) {sk : Skeleton32} (hF : Forest32 sk) {rank : Nat → Nat}
    (hr : ∀ p c, IsChild32 sk p c → rank c < rank p) (b : Nat) (bone : Bone32)
    (hb : sk[b]? = some bone) (x y z angle : F32) (fuel : Nat) (hfuel : rank b ≤ fuel) :
    ∃ sk', rotate32 glmRotate fuel sk b x y z angle = some sk' ∧
      sk'.map Bone32.frame = sk.map Bone32.frame ∧
      transformsAt32 sk' b
        = some (mulMat32 bone.transforms (bone.jointRotation (glmRotate x y z angle))) ∧
      (∀ i, Descendant32 sk b i → transformsAt32 sk' i
        = (transformsAt32 sk i).map (mulMat32 (bone.jointRotation (glmRotate x y z angle)) ·)) ∧
      (∀ i, i ≠ b → ¬ Descendant32 sk b i → transformsAt32 sk' i = transformsAt32 sk i) := by
  obtain ⟨sk', hrun, rest⟩ :=
    set_then_children32 hF hr (bone.jointRotation (glmRotate x y z angle))
      (mulMat32 bone.transforms (bone.jointRotation (glmRotate x y z angle))) fuel
      (propagateRotate_spec32 hF hr _ fuel) sk b bone rfl hb hfuel
  refine ⟨sk', ?_, rest⟩
  simp only [rotate32, hb]
  exact hrun

/-! ## Facts that hold on every bone graph, on `float` matrices -/

theorem frame_isChild32 {sk sk' : Skeleton32} (h : sk'.map Bone32.frame = sk.map Bone32.frame) :
    IsChild32 sk' = IsChild32 sk := by
  funext p c
  simp only [IsChild32, frame_childrenOf32 h p]

theorem frame_reach32 {sk sk' : Skeleton32} (h : sk'.map Bone32.frame = sk.map Bone32.frame) :
    Reach32 sk' = Reach32 sk := by
  funext b d
  simp only [Reach32, frame_isChild32 h]

theorem frame_descendant32 {sk sk' : Skeleton32} (h : sk'.map Bone32.frame = sk.map Bone32.frame) :
    Descendant32 sk' = Descendant32 sk := by
  funext b d
  simp only [Descendant32, frame_isChild32 h]

/-- A loop of calls that each keep the frame and touch only what they reach. -/
theorem fold_touches_reach32 {sk₀ : Skeleton32} (f : Skeleton32 → Nat → Option Skeleton32)
    (one : ∀ s c s', s.map Bone32.frame = sk₀.map Bone32.frame → f s c = some s' →
      s'.map Bone32.frame = sk₀.map Bone32.frame ∧
        ∀ i, ¬ Reach32 sk₀ c i → transformsAt32 s' i = transformsAt32 s i) :
    ∀ (cs : List Nat) (s s' : Skeleton32), s.map Bone32.frame = sk₀.map Bone32.frame →
      cs.foldlM f s = some s' →
      s'.map Bone32.frame = sk₀.map Bone32.frame ∧
        ∀ i, (∀ c ∈ cs, ¬ Reach32 sk₀ c i) → transformsAt32 s' i = transformsAt32 s i := by
  intro cs
  induction cs with
  | nil =>
    intro s s' hfr h
    simp only [List.foldlM_nil, Option.pure_def, Option.some.injEq] at h
    subst h
    exact ⟨hfr, fun _ _ => rfl⟩
  | cons c cs ih =>
    intro s s' hfr h
    simp only [List.foldlM_cons, Option.bind_eq_bind] at h
    cases h1 : f s c with
    | none => simp [h1] at h
    | some s₁ =>
      simp only [h1, Option.some_bind] at h
      obtain ⟨hfr1, hout1⟩ := one s c s₁ hfr h1
      obtain ⟨hfr2, hout2⟩ := ih s₁ s' hfr1 h
      refine ⟨hfr2, fun i hi => ?_⟩
      rw [hout2 i (fun d hd => hi d (List.mem_cons_of_mem _ hd)),
        hout1 i (hi c (List.mem_cons_self _ _))]

/-- Whenever `propagateRotate32` returns, it has kept every frame and has touched only
bones reachable from where it started. -/
theorem propagateRotate_touches_reach32 (sk₀ : Skeleton32) (M : Mat32) :
    ∀ (fuel : Nat) (s : Skeleton32) (c : Nat) (s' : Skeleton32),
      s.map Bone32.frame = sk₀.map Bone32.frame → propagateRotate32 fuel s c M = some s' →
      s'.map Bone32.frame = sk₀.map Bone32.frame ∧
        ∀ i, ¬ Reach32 sk₀ c i → transformsAt32 s' i = transformsAt32 s i := by
  intro fuel
  induction fuel with
  | zero => intro s c s' _ h; simp [propagateRotate32] at h
  | succ fuel ih =>
    intro s c s' hfr h
    simp only [propagateRotate32] at h
    cases hb : s[c]? with
    | none => simp [hb] at h
    | some bone =>
      simp only [hb] at h
      have hfr1 : (s.set c { bone with transforms := mulMat32 M bone.transforms }).map Bone32.frame
          = sk₀.map Bone32.frame := by rw [frame_set32 hb]; exact hfr
      obtain ⟨hfr', hout⟩ :=
        fold_touches_reach32 (fun s child => propagateRotate32 fuel s child M)
          (fun s d s' hs hd => ih s d s' hs hd) bone.children _ s' hfr1 h
      refine ⟨hfr', fun i hi => ?_⟩
      have hch : bone.children = childrenOf32 sk₀ c := by
        rw [← frame_childrenOf32 hfr c]; simp [childrenOf32, hb]
      have hic : i ≠ c := fun e => hi (e ▸ Relation.ReflTransGen.refl)
      rw [hout i ?_, transformsAt_set32 hb]
      · simp [hic]
      · intro d hd hdi
        rw [hch] at hd
        exact hi (Relation.ReflTransGen.head hd hdi)

/-- On a cycle of children links `propagateRotate32` never returns. -/
theorem propagateRotate_cycle32 (sk₀ : Skeleton32) (M : Mat32) :
    ∀ (fuel : Nat) (s : Skeleton32) (c : Nat), s.map Bone32.frame = sk₀.map Bone32.frame →
      Descendant32 sk₀ c c → propagateRotate32 fuel s c M = none := by
  intro fuel
  induction fuel with
  | zero => intro s c _ _; rfl
  | succ fuel ih =>
    intro s c hfr hcyc
    simp only [propagateRotate32]
    cases hb : s[c]? with
    | none => rfl
    | some bone =>
      simp only []
      have hch : bone.children = childrenOf32 sk₀ c := by
        rw [← frame_childrenOf32 hfr c]; simp [childrenOf32, hb]
      obtain ⟨y, hcy, hyc⟩ := Relation.TransGen.head'_iff.mp hcyc
      have hy : y ∈ bone.children := by rw [hch]; exact hcy
      have hycyc : Descendant32 sk₀ y y := Relation.TransGen.trans_right hyc (Relation.TransGen.single hcy)
      have hfr1 : (s.set c { bone with transforms := mulMat32 M bone.transforms }).map Bone32.frame
          = sk₀.map Bone32.frame := by rw [frame_set32 hb]; exact hfr
      have loop : ∀ (cs : List Nat) (t : Skeleton32), y ∈ cs →
          t.map Bone32.frame = sk₀.map Bone32.frame →
          cs.foldlM (fun s child => propagateRotate32 fuel s child M) t = none := by
        intro cs
        induction cs with
        | nil => intro t h; simp at h
        | cons d ds ihl =>
          intro t hmem hfrt
          simp only [List.foldlM_cons, Option.bind_eq_bind]
          cases h1 : propagateRotate32 fuel t d M with
          | none => rfl
          | some t₁ =>
            simp only [Option.some_bind]
            rcases List.mem_cons.mp hmem with e | e
            · subst e
              rw [ih t y hfrt hycyc] at h1
              cases h1
            · exact ihl t₁ e (propagateRotate_touches_reach32 sk₀ M fuel t d t₁ hfrt h1).1
      exact loop bone.children _ hy hfr1

/-- More fuel does not change a result of `propagateRotate32`. -/
theorem propagateRotate_mono32 (M : Mat32) :
    ∀ (fuel : Nat) (s : Skeleton32) (c : Nat) (s' : Skeleton32),
      propagateRotate32 fuel s c M = some s' → propagateRotate32 (fuel + 1) s c M = some s' := by
  intro fuel
  induction fuel with
  | zero => intro s c s' h; simp [propagateRotate32] at h
  | succ fuel ih =>
    intro s c s' h
    rw [propagateRotate32] at h ⊢
    cases hb : s[c]? with
    | none => simp [hb] at h
    | some bone =>
      simp only [hb] at h ⊢
      have loop : ∀ (cs : List Nat) (t : Skeleton32),
          cs.foldlM (fun s child => propagateRotate32 fuel s child M) t = some s' →
          cs.foldlM (fun s child => propagateRotate32 (fuel + 1) s child M) t = some s' := by
        intro cs
        induction cs with
        | nil => intro t h; exact h
        | cons d ds ihl =>
          intro t ht
          simp only [List.foldlM_cons, Option.bind_eq_bind] at ht ⊢
          cases h1 : propagateRotate32 fuel t d M with
          | none => simp [h1] at ht
          | some t₁ =>
            simp only [h1, Option.some_bind] at ht
            rw [ih t d t₁ h1]
            exact ihl t₁ ht
      exact loop bone.children _ h

theorem foldlM_mono32 {f g : Skeleton32 → Nat → Option Skeleton32}
    (h : ∀ t d t', f t d = some t' → g t d = some t') :
    ∀ (cs : List Nat) (t s' : Skeleton32), cs.foldlM f t = some s' → cs.foldlM g t = some s' := by
  intro cs
  induction cs with
  | nil => intro t s' ht; exact ht
  | cons d ds ih =>
    intro t s' ht
    simp only [List.foldlM_cons, Option.bind_eq_bind] at ht ⊢
    cases h1 : f t d with
    | none => simp [h1] at ht
    | some t₁ =>
      simp only [h1, Option.some_bind] at ht
      rw [h t d t₁ h1]
      exact ih t₁ s' ht

theorem propagateRotate_mono_le32 (M : Mat32) {fuel fuel' : Nat} (hle : fuel ≤ fuel')
    (s : Skeleton32) (c : Nat) (s' : Skeleton32) (h : propagateRotate32 fuel s c M = some s') :
    propagateRotate32 fuel' s c M = some s' := by
  induction hle with
  | refl => exact h
  | step _ ih => exact propagateRotate_mono32 M _ s c s' ih

/-- More fuel does not change a result of `rotate32`. -/
theorem rotate_mono_le32 (glmRotate : RotationLib32) {fuel fuel' : Nat} (hle : fuel ≤ fuel')
    (sk : Skeleton32) (b : Nat) (x y z angle : F32) (sk' : Skeleton32)
    (h : rotate32 glmRotate fuel sk b x y z angle = some sk') :
    rotate32 glmRotate fuel' sk b x y z angle = some sk' := by
  unfold rotate32 at h ⊢
  cases hb : sk[b]? with
  | none => simp [hb] at h
  | some bone =>
    simp only [hb] at h ⊢
    exact foldlM_mono32 (fun t d t' ht => propagateRotate_mono_le32 _ hle t d t' ht) _ _ _ h

/-- Any result of `rotate32` on a forest is the one described by `rotate_spec32`. -/
theorem rotate_result32 {glmRotate : RotationLib32} {sk : Skeleton32} (hF : Forest32 sk) {b : Nat}
    {bone : Bone32} (hb : sk[b]? = some bone) {x y z angle : F32} {fuel : Nat} {sk' : Skeleton32}
    (h : rotate32 glmRotate fuel sk b x y z angle = some sk') :
    sk'.map Bone32.frame = sk.map Bone32.frame ∧
      transformsAt32 sk' b
        = some (mulMat32 bone.transforms (bone.jointRotation (glmRotate x y z angle))) ∧
      (∀ i, Descendant32 sk b i → transformsAt32 sk' i
        = (transformsAt32 sk i).map (mulMat32 (bone.jointRotation (glmRotate x y z angle)) ·)) ∧
      (∀ i, i ≠ b → ¬ Descendant32 sk b i → transformsAt32 sk' i = transformsAt32 sk i) := by
  obtain ⟨rank, hr⟩ := hF.acyclic
  obtain ⟨sk'', hrun, hspec⟩ :=
    rotate_spec32 glmRotate hF hr b bone hb x y z angle (max fuel (rank b)) (le_max_right _ _)
  have h' := rotate_mono_le32 glmRotate (le_max_left fuel (rank b)) sk b x y z angle sk' h
  rw [h'] at hrun
  cases hrun
  exact hspec

/-- On a forest `rotate32` returns, given enough fuel. -/
theorem rotate_returns32 (glmRotate : RotationLib32) {sk : Skeleton32} (hF : Forest32 sk) {b : Nat}
    {bone : Bone32} (hb : sk[b]? = some bone) (x y z angle : F32) :
    ∃ fuel₀, ∀ fuel, fuel₀ ≤ fuel →
      ∃ sk', rotate32 glmRotate fuel sk b x y z angle = some sk' := by
  obtain ⟨rank, hr⟩ := hF.acyclic
  refine ⟨rank b, fun fuel hfuel => ?_⟩
  obtain ⟨sk', hrun, _⟩ := rotate_spec32 glmRotate hF hr b bone hb x y z angle fuel hfuel
  exact ⟨sk', hrun⟩

/-- On every bone graph, a `rotate32` that returns has multiplied the rotated bone on the
right by its joint-space rotation and kept every frame. -/
theorem rotate_own32 {glmRotate : RotationLib32} {sk : Skeleton32} {b : Nat} {bone : Bone32}
    (hb : sk[b]? = some bone) {x y z angle : F32} {fuel : Nat} {sk' : Skeleton32}
    (h : rotate32 glmRotate fuel sk b x y z angle = some sk') :
    sk'.map Bone32.frame = sk.map Bone32.frame ∧
      transformsAt32 sk' b
        = some (mulMat32 bone.transforms (bone.jointRotation (glmRotate x y z angle))) := by
  unfold rotate32 at h
  simp only [hb] at h
  have hfr1 := frame_set32 hb (mulMat32 bone.transforms (bone.jointRotation (glmRotate x y z angle)))
  have hch : bone.children = childrenOf32 sk b := by simp [childrenOf32, hb]
  obtain ⟨hfr', hout⟩ :=
    fold_touches_reach32
      (fun s child => propagateRotate32 fuel s child (bone.jointRotation (glmRotate x y z angle)))
      (fun s d s' hs hd => propagateRotate_touches_reach32 sk _ fuel s d s' hs hd)
      bone.children _ sk' hfr1 h
  refine ⟨hfr', ?_⟩
  by_cases hcyc : ∃ c ∈ bone.children, Reach32 sk c b
  · exfalso
    obtain ⟨c, hc, hcb⟩ := hcyc
    rw [hch] at hc
    have hcc : Descendant32 sk c c := Relation.TransGen.trans_right hcb (Relation.TransGen.single hc)
    have loop : ∀ (cs : List Nat) (t : Skeleton32), c ∈ cs →
        t.map Bone32.frame = sk.map Bone32.frame →
        cs.foldlM (fun s child =>
          propagateRotate32 fuel s child (bone.jointRotation (glmRotate x y z angle))) t = none := by
      intro cs
      induction cs with
      | nil => intro t hm; simp at hm
      | cons d ds ihl =>
        intro t hmem hfrt
        simp only [List.foldlM_cons, Option.bind_eq_bind]
        cases h1 : propagateRotate32 fuel t d (bone.jointRotation (glmRotate x y z angle)) with
        | none => rfl
        | some t₁ =>
          simp only [Option.some_bind]
          rcases List.mem_cons.mp hmem with e | e
          · subst e
            rw [propagateRotate_cycle32 sk _ fuel t c hfrt hcc] at h1
            cases h1
          · exact ihl t₁ e (propagateRotate_touches_reach32 sk _ fuel t d t₁ hfrt h1).1
    rw [loop bone.children _ (hch ▸ hc) hfr1] at h
    cases h
  · rw [hout b (fun c hc hcb => hcyc ⟨c, hc, hcb⟩), transformsAt_set32 hb]
    simp

/-- A forest from three checks that can be evaluated. -/
theorem forest_of_checks32 {sk : Skeleton32} (rank : Nat → Nat)
    (h1 : ∀ c ∈ allChildren32 sk, c < sk.length) (h2 : (allChildren32 sk).Nodup)
    (h3 : ∀ p < sk.length, ∀ c ∈ childrenOf32 sk p, rank c < rank p) : Forest32 sk := by
  refine ⟨fun p c hc => h1 c (childrenOf_mem_allChildren32 hc), h2, rank, fun p c hc => ?_⟩
  by_cases hp : p < sk.length
  · exact h3 p hp c hc
  · simp [IsChild32, childrenOf32, List.getElem?_eq_none (not_lt.mp hp)] at hc

theorem frame_fields32 {sk sk' : Skeleton32} (h : sk'.map Bone32.frame = sk.map Bone32.frame)
    {i : Nat} {old : Bone32} (hi : sk[i]? = some old) :
    ∃ new, sk'[i]? = some new ∧ new.bone_id = old.bone_id ∧ new.name = old.name ∧
      new.offset = old.offset ∧ new.offset_inv = old.offset_inv ∧
      new.parent = old.parent ∧ new.children = old.children := by
  have hp := frame32_getElem? h i
  cases h1 : sk'[i]? with
  | none => simp [h1, hi] at hp
  | some new =>
    simp only [h1, hi, Option.map_some', Option.some.injEq] at hp
    have e1 := congrArg Bone32.bone_id hp
    have e2 := congrArg Bone32.name hp
    have e3 := congrArg Bone32.offset hp
    have e4 := congrArg Bone32.offset_inv hp
    have e5 := congrArg Bone32.parent hp
    have e6 := congrArg Bone32.children hp
    exact ⟨new, rfl, e1, e2, e3, e4, e5, e6⟩

theorem forest_of_frame32 {sk sk' : Skeleton32} (h : sk'.map Bone32.frame = sk.map Bone32.frame)
    (hF : Forest32 sk) : Forest32 sk' := by
  have hall : allChildren32 sk' = allChildren32 sk := by
    have aux : ∀ l : Skeleton32, allChildren32 l = ((l.map Bone32.frame).map Bone32.children).flatten := by
      intro l
      induction l with
      | nil => rfl
      | cons a l ih => simp [allChildren32, ih, Bone32.frame]
    rw [aux, aux, h]
  refine ⟨?_, ?_, ?_⟩
  · intro p c hc
    rw [frame_isChild32 h] at hc
    rw [frame_length32 h]
    exact hF.closed p c hc
  · rw [hall]; exact hF.once
  · obtain ⟨rank, hr⟩ := hF.acyclic
    exact ⟨rank, fun p c hc => hr p c (by rw [frame_isChild32 h] at hc; exact hc)⟩

theorem jointRotation_of_frame32 {a b : Bone32} (h : a.frame = b.frame) (R : Mat32) :
    a.jointRotation R = b.jointRotation R := by
  have e1 := congrArg Bone32.offset h
  have e2 := congrArg Bone32.offset_inv h
  simp only [Bone32.frame] at e1 e2
  simp [Bone32.jointRotation, e1, e2]

theorem frame_bone32 {sk sk' : Skeleton32} (h : sk'.map Bone32.frame = sk.map Bone32.frame)
    {i : Nat} {a b : Bone32} (ha : sk'[i]? = some a) (hb : sk[i]? = some b) :
    a.frame = b.frame := by
  have hp := frame32_getElem? h i
  simpa [ha, hb] using hp

/-! ## Rotating two bones, on `float` matrices -/

/-- One `rotate32` call on a skeleton that has the frame of the forest `sk₀`. -/
theorem rotate_step32 {glmRotate : RotationLib32} {sk₀ sk sk' : Skeleton32} (hF : Forest32 sk₀)
    (hfr : sk.map Bone32.frame = sk₀.map Bone32.frame) {b : Nat} {bone₀ : Bone32}
    (hb₀ : sk₀[b]? = some bone₀) {x y z angle : F32} {fuel : Nat}
    (hrun : rotate32 glmRotate fuel sk b x y z angle = some sk') :
    sk'.map Bone32.frame = sk₀.map Bone32.frame ∧
    transformsAt32 sk' b
      = (transformsAt32 sk b).map (fun T => mulMat32 T (bone₀.jointRotation (glmRotate x y z angle))) ∧
    (∀ i, Descendant32 sk₀ b i → transformsAt32 sk' i
      = (transformsAt32 sk i).map (mulMat32 (bone₀.jointRotation (glmRotate x y z angle)) ·)) ∧
    (∀ i, i ≠ b → ¬ Descendant32 sk₀ b i → transformsAt32 sk' i = transformsAt32 sk i) := by
  obtain ⟨bone, hbone⟩ : ∃ bone, sk[b]? = some bone := getElem?_of_frame32 hfr (getElem?_lt hb₀)
  have hJ : bone.jointRotation (glmRotate x y z angle)
      = bone₀.jointRotation (glmRotate x y z angle) :=
    jointRotation_of_frame32 (frame_bone32 hfr hbone hb₀) _
  obtain ⟨hfr1, hown, hin, hout⟩ := rotate_result32 (forest_of_frame32 hfr hF) hbone hrun
  rw [hJ] at hown hin
  rw [frame_descendant32 hfr] at hin hout
  refine ⟨hfr1.trans hfr, ?_, hin, hout⟩
  rw [hown]
  simp [transformsAt32, hbone]

theorem rotate_step_returns32 (glmRotate : RotationLib32) {sk₀ : Skeleton32} (hF : Forest32 sk₀)
    {b : Nat} (hb : b < sk₀.length) (x y z angle : F32) :
    ∃ fuel₀, ∀ fuel, fuel₀ ≤ fuel → ∀ sk : Skeleton32,
      sk.map Bone32.frame = sk₀.map Bone32.frame →
      ∃ sk', rotate32 glmRotate fuel sk b x y z angle = some sk' := by
  obtain ⟨rank, hr⟩ := hF.acyclic
  refine ⟨rank b, fun fuel hfuel sk hfr => ?_⟩
  obtain ⟨bone, hbone⟩ := getElem?_of_frame32 hfr hb
  have hr' : ∀ p c, IsChild32 sk p c → rank c < rank p := by
    rw [frame_isChild32 hfr]
    exact hr
  obtain ⟨sk', hrun, _⟩ :=
    rotate_spec32 glmRotate (forest_of_frame32 hfr hF) hr' b bone hbone x y z angle fuel hfuel
  exact ⟨sk', hrun⟩

/-- Two skeletons with the same frame and the same accumulated transforms are equal. -/
theorem skeleton_ext32 {sk₁ sk₂ : Skeleton32} (hfr : sk₁.map Bone32.frame = sk₂.map Bone32.frame)
    (h : ∀ i, transformsAt32 sk₁ i = transformsAt32 sk₂ i) : sk₁ = sk₂ := by
  apply List.ext_getElem?
  intro i
  have hf := frame32_getElem? hfr i
  have ht := h i
  unfold transformsAt32 at ht
  cases h1 : sk₁[i]? with
  | none =>
    cases h2 : sk₂[i]? with
    | none => rfl
    | some b => simp [h1, h2] at hf
  | some a =>
    cases h2 : sk₂[i]? with
    | none => simp [h1, h2] at hf
    | some b =>
      simp only [h1, h2, Option.map_some', Option.some.injEq] at hf ht
      cases a
      cases b
      simp only [Bone32.frame, Bone32.mk.injEq] at hf
      simp only at ht
      simp only [Option.some.injEq, Bone32.mk.injEq]
      exact ⟨hf.1, hf.2.1, hf.2.2.1, hf.2.2.2.1, ht, hf.2.2.2.2.2.1, hf.2.2.2.2.2.2⟩

/-- In a forest two bones with a common proper descendant are equal or one is a proper
descendant of the other. -/
theorem ancestors_comparable32 {sk : Skeleton32} (hF : Forest32 sk) {a b i : Nat}
    (ha : Descendant32 sk a i) (hb : Descendant32 sk b i) :
    a = b ∨ Descendant32 sk a b ∨ Descendant32 sk b a := by
  have U : Relator.RightUnique (Function.swap (IsChild32 sk)) := by
    intro x y z hxy hxz
    exact parent_unique32 hF.once hxy hxz
  have ra : Reach32 sk a i := reach_iff32.mpr (Or.inr ha)
  have rb : Reach32 sk b i := reach_iff32.mpr (Or.inr hb)
  rcases Relation.ReflTransGen.total_of_right_unique U
      (Relation.ReflTransGen.swap ra) (Relation.ReflTransGen.swap rb) with h | h
  · rcases reach_iff32.mp (Relation.reflTransGen_swap.mp h) with e | d
    · exact Or.inl e
    · exact Or.inr (Or.inr d)
  · rcases reach_iff32.mp (Relation.reflTransGen_swap.mp h) with e | d
    · exact Or.inl e.symm
    · exact Or.inr (Or.inl d)

theorem rotateTwo_some32 {glmRotate : RotationLib32} {fuel : Nat} {sk out : Skeleton32}
    {first second : Nat} {r₁ r₂ : F32 × F32 × F32 × F32}
    (h : rotateTwo32 glmRotate fuel sk first r₁ second r₂ = some out) :
    ∃ mid, rotate32 glmRotate fuel sk first r₁.1 r₁.2.1 r₁.2.2.1 r₁.2.2.2 = some mid ∧
      rotate32 glmRotate fuel mid second r₂.1 r₂.2.1 r₂.2.2.1 r₂.2.2.2 = some out := by
  unfold rotateTwo32 at h
  cases h1 : rotate32 glmRotate fuel sk first r₁.1 r₁.2.1 r₁.2.2.1 r₁.2.2.2 with
  | none => simp [h1] at h
  | some mid => exact ⟨mid, rfl, by simpa [h1] using h⟩

/-- What two `rotate32` calls on different bones `a`, then `b`, of a forest leave in a bone
`i`, by the place of `i`. -/
theorem rotateTwo_spec32 {glmRotate : RotationLib32} {sk out : Skeleton32} (hF : Forest32 sk)
    {a b : Nat} {boneA boneB : Bone32} (ha : sk[a]? = some boneA) (hb : sk[b]? = some boneB)
    (hab : a ≠ b) {r₁ r₂ : F32 × F32 × F32 × F32} {fuel : Nat}
    (h : rotateTwo32 glmRotate fuel sk a r₁ b r₂ = some out) :
    out.map Bone32.frame = sk.map Bone32.frame ∧
    transformsAt32 out a = (transformsAt32 sk a).map (fun T =>
      open Classical in
      if Descendant32 sk b a then
        mulMat32 (boneB.jointRotation (glmRotate r₂.1 r₂.2.1 r₂.2.2.1 r₂.2.2.2))
          (mulMat32 T (boneA.jointRotation (glmRotate r₁.1 r₁.2.1 r₁.2.2.1 r₁.2.2.2)))
      else mulMat32 T (boneA.jointRotation (glmRotate r₁.1 r₁.2.1 r₁.2.2.1 r₁.2.2.2))) ∧
    transformsAt32 out b = (transformsAt32 sk b).map (fun T =>
      open Classical in
      if Descendant32 sk a b then
        mulMat32
          (mulMat32 (boneA.jointRotation (glmRotate r₁.1 r₁.2.1 r₁.2.2.1 r₁.2.2.2)) T)
          (boneB.jointRotation (glmRotate r₂.1 r₂.2.1 r₂.2.2.1 r₂.2.2.2))
      else mulMat32 T (boneB.jointRotation (glmRotate r₂.1 r₂.2.1 r₂.2.2.1 r₂.2.2.2))) ∧
    (∀ i, i ≠ a → i ≠ b → Descendant32 sk a i → ¬ Descendant32 sk b i →
      transformsAt32 out i = (transformsAt32 sk i).map
        (mulMat32 (boneA.jointRotation (glmRotate r₁.1 r₁.2.1 r₁.2.2.1 r₁.2.2.2)) ·)) ∧
    (∀ i, i ≠ a → i ≠ b → ¬ Descendant32 sk a i → Descendant32 sk b i →
      transformsAt32 out i = (transformsAt32 sk i).map
        (mulMat32 (boneB.jointRotation (glmRotate r₂.1 r₂.2.1 r₂.2.2.1 r₂.2.2.2)) ·)) ∧
    (∀ i, i ≠ a → i ≠ b → ¬ Descendant32 sk a i → ¬ Descendant32 sk b i →
      transformsAt32 out i = transformsAt32 sk i) := by
  obtain ⟨mid, h1, h2⟩ := rotateTwo_some32 h
  obtain ⟨f1, own1, in1, out1⟩ := rotate_step32 hF rfl ha h1
  obtain ⟨f2, own2, in2, out2⟩ := rotate_step32 hF f1 hb h2
  have haa : ¬ Descendant32 sk a a := not_descendant_self32 hF a
  have hbb : ¬ Descendant32 sk b b := not_descendant_self32 hF b
  refine ⟨f2, ?_, ?_, ?_, ?_, ?_⟩
  · by_cases hd : Descendant32 sk b a
    · rw [in2 a hd, own1]
      cases transformsAt32 sk a <;> simp [hd]
    · rw [out2 a hab hd, own1]
      cases transformsAt32 sk a <;> simp [hd]
  · rw [own2]
    by_cases hd : Descendant32 sk a b
    · rw [in1 b hd]
      cases transformsAt32 sk b <;> simp [hd]
    · rw [out1 b (Ne.symm hab) hd]
      cases transformsAt32 sk b <;> simp [hd]
  · intro i hia hib hda hdb
    rw [out2 i hib hdb, in1 i hda]
  · intro i hia hib hda hdb
    rw [in2 i hdb, out1 i hia hda]
  · intro i hia hib hda hdb
    rw [out2 i hib hdb, out1 i hia hda]

theorem handChain32_forest : Forest32 handChain32 :=
  forest_of_checks32 chainRank (by decide) (by decide) (by decide)

theorem farChain32_forest : Forest32 farChain32 :=
  forest_of_checks32 chainRank (by decide) (by decide) (by decide)

theorem farTurned32_forest : Forest32 farTurned32 :=
  forest_of_checks32 chainRank (by decide) (by decide) (by decide)

/-- C5 fails on `float` values: for the bone with its joint at `c = (0, 1, 0.1f)`, whose
offsets are the translations by `-c` and `c` (their `float` product is the identity), and
the quarter turn about X, which fixes the origin, the joint-space rotation sends `c` to
`(0, 1, 0.10000002384185791)`; so does the accumulated transform that `Bone::rotate`
leaves in the bone at rest. -/
theorem jointRotation_fixes_joint_counterexample :
    mulMat32 tenthBone.to32.offset tenthBone.to32.offset_inv = Mat32.one ∧
      mulVec32 (quarterTurn32 1 0 0 (.fin 90)) origin32 = origin32 ∧
      mulVec32 tenthBone.to32.offset_inv origin32
        = ![.fin 0, .fin 1, .fin (13421773 / 134217728), .fin 1] ∧
      mulVec32 (tenthBone.to32.jointRotation (quarterTurn32 1 0 0 (.fin 90)))
          (mulVec32 tenthBone.to32.offset_inv origin32)
        = ![.fin 0, .fin 1, .fin (838861 / 8388608), .fin 1] ∧
      (13421773 / 134217728 : ℚ) ≠ 838861 / 8388608 ∧
      Forest32 [tenthBone.to32] ∧ tenthBone.to32.transforms = Mat32.one ∧
      ∃ sk T, rotate32 quarterTurn32 1 [tenthBone.to32] 0 1 0 0 (.fin 90) = some sk ∧
        transformsAt32 sk 0 = some T ∧
        mulVec32 T (mulVec32 tenthBone.to32.offset_inv origin32)
          = ![.fin 0, .fin 1, .fin (838861 / 8388608), .fin 1] := by
  refine ⟨by decide!, by decide!, by decide!, by decide!, by norm_num,
    forest_of_checks32 chainRank (by decide) (by decide) (by decide), by decide!, ?_⟩
  obtain ⟨sk, hsk, T, hT, h⟩ :
      ∃ sk ∈ rotate32 quarterTurn32 1 [tenthBone.to32] 0 1 0 0 (.fin 90),
      ∃ T ∈ transformsAt32 sk 0,
        mulVec32 T (mulVec32 tenthBone.to32.offset_inv origin32)
          = ![.fin 0, .fin 1, .fin (838861 / 8388608), .fin 1] := by decide!
  exact ⟨sk, T, hsk, hT, h⟩

/-- C29 fails on `float` values: on the chain Root -> Wrist in the state that a quarter
turn of the wrist about X leaves, a quarter turn of the root about X and one of the wrist
about X give the wrist, which is not a proper descendant of both bones, different
accumulated transforms in the two orders: the entry in row 2 and column 3 is
`1 - 2 ^ (-24)` after root, wrist and 1 after wrist, root. -/
theorem rotate_two_bones_order_counterexample :
    rotate32 quarterTurn32 2 farChain32 1 1 0 0 (.fin 90) = some farTurned32 ∧
      Forest32 farTurned32 ∧
      ¬ (Descendant32 farTurned32 0 1 ∧ Descendant32 farTurned32 1 1) ∧
      ∃ ab ba,
        rotateTwo32 quarterTurn32 2 farTurned32 0 (1, 0, 0, .fin 90) 1 (1, 0, 0, .fin 90)
          = some ab ∧
        rotateTwo32 quarterTurn32 2 farTurned32 1 (1, 0, 0, .fin 90) 0 (1, 0, 0, .fin 90)
          = some ba ∧
        (transformsAt32 ab 1).map (fun T => T 2 3) = some (.fin (1 - 1 / 2 ^ 24)) ∧
        (transformsAt32 ba 1).map (fun T => T 2 3) = some (.fin 1) ∧
        transformsAt32 ab 1 ≠ transformsAt32 ba 1 := by
  refine ⟨by decide!, farTurned32_forest,
    fun h => not_descendant_self32 farTurned32_forest 1 h.2, ?_⟩
  obtain ⟨ab, hab, ba, hba, h⟩ :
      ∃ ab ∈ rotateTwo32 quarterTurn32 2 farTurned32 0 (1, 0, 0, .fin 90) 1
        (1, 0, 0, .fin 90),
      ∃ ba ∈ rotateTwo32 quarterTurn32 2 farTurned32 1 (1, 0, 0, .fin 90) 0
        (1, 0, 0, .fin 90),
        (transformsAt32 ab 1).map (fun T => T 2 3) = some (.fin (1 - 1 / 2 ^ 24)) ∧
        (transformsAt32 ba 1).map (fun T => T 2 3) = some (.fin 1) ∧
        transformsAt32 ab 1 ≠ transformsAt32 ba 1 := by decide!
  exact ⟨ab, ba, hab, hba, h⟩

/-- C5 amended: in exact arithmetic, for a bone whose offset is invertible and a rotation
matrix `R` that fixes the origin, the joint-space rotation `J = offset_inv * R * offset`
fixes the joint centre `c = offset_inv * (0, 0, 0, 1)`; `Bone::rotate` on such a bone at
rest returns on a forest skeleton (given enough fuel), and every run that returns leaves
the bone with the accumulated transform `1 * J`, which in exact arithmetic leaves the
joint centre where it was. On `float` matrices `Bone::rotate` on a bone at rest returns on
a forest skeleton and every run that returns leaves the bone with `1 * J`,
`J = (offset_inv * R) * offset`, each product rounded. -/
theorem jointRotation_fixes_joint (bone : Bone) (R : Mat4)
    (hinv : bone.offset * bone.offset_inv = 1) (hR : R.mulVec origin4 = origin4) :
    (bone.jointRotation R).mulVec (bone.offset_inv.mulVec origin4)
        = bone.offset_inv.mulVec origin4 ∧
      (∀ (glmRotate : RotationLib) (sk : Skeleton) (b : Nat) (x y z angle : ℚ),
        sk[b]? = some bone → bone.transforms = 1 → glmRotate x y z angle = R →
        (Forest sk → ∃ fuel₀, ∀ fuel, fuel₀ ≤ fuel →
          ∃ sk', rotate glmRotate fuel sk b x y z angle = some sk') ∧
        ∀ fuel sk', rotate glmRotate fuel sk b x y z angle = some sk' →
          transformsAt sk' b = some (1 * bone.jointRotation R) ∧
          ∃ T, transformsAt sk' b = some T ∧
            T.mulVec (bone.offset_inv.mulVec origin4) = bone.offset_inv.mulVec origin4) ∧
      ∀ (glmRotate32 : RotationLib32) (sk32 : Skeleton32) (b : Nat) (bone32 : Bone32)
        (x y z angle : F32), sk32[b]? = some bone32 → bone32.transforms = Mat32.one →
        (Forest32 sk32 → ∃ fuel₀, ∀ fuel, fuel₀ ≤ fuel →
          ∃ sk', rotate32 glmRotate32 fuel sk32 b x y z angle = some sk') ∧
        ∀ fuel sk', rotate32 glmRotate32 fuel sk32 b x y z angle = some sk' →
          transformsAt32 sk' b
            = some (mulMat32 Mat32.one (bone32.jointRotation (glmRotate32 x y z angle))) := by
  have key : (bone.jointRotation R).mulVec (bone.offset_inv.mulVec origin4)
      = bone.offset_inv.mulVec origin4 := by
    unfold Bone.jointRotation
    rw [Matrix.mulVec_mulVec, Matrix.mul_assoc, Matrix.mul_assoc, hinv, Matrix.mul_one,
      ← Matrix.mulVec_mulVec, hR]
  refine ⟨key, ?_, ?_⟩
  · intro glmRotate sk b x y z angle hb hrest hlib
    refine ⟨fun hF => rotate_returns glmRotate hF hb x y z angle, fun fuel sk' hrun => ?_⟩
    have hown := (rotate_own hb hrun).2
    rw [hrest, hlib] at hown
    refine ⟨hown, _, hown, ?_⟩
    rw [one_mul]
    exact key
  · intro glmRotate32 sk32 b bone32 x y z angle hb hrest
    refine ⟨fun hF => rotate_returns32 glmRotate32 hF hb x y z angle, fun fuel sk' hrun => ?_⟩
    have hown := (rotate_own32 hb hrun).2
    rw [hrest] at hown
    exact hown

/-- C5 amended, on the wrist of the chain at rest: in exact arithmetic its joint centre
`(0, 2, 0)` stays in place under the joint-space quarter turn about X, and `rotate`
returns with fuel 2; on `float` matrices `rotate` returns and leaves the wrist with
`1 * J`. -/
theorem jointRotation_fixes_joint_witness :
    wristBone.offset * wristBone.offset_inv = 1 ∧
      (quarterTurn 1 0 0 90).mulVec origin4 = origin4 ∧
      wristBone.offset_inv.mulVec origin4 = ![0, 2, 0, 1] ∧
      (wristBone.jointRotation (quarterTurn 1 0 0 90)).mulVec
          (wristBone.offset_inv.mulVec origin4)
        = wristBone.offset_inv.mulVec origin4 ∧
      (∃ fuel₀, ∀ fuel, fuel₀ ≤ fuel →
        ∃ sk', rotate quarterTurn fuel handChain 1 1 0 0 90 = some sk') ∧
      rotate quarterTurn 2 handChain 1 1 0 0 90 = some bentChain ∧
      transformsAt bentChain 1 = some (1 * wristBone.jointRotation (quarterTurn 1 0 0 90)) ∧
      (∃ fuel₀, ∀ fuel, fuel₀ ≤ fuel →
        ∃ sk', rotate32 quarterTurn32 fuel handChain32 1 1 0 0 (.fin 90) = some sk') ∧
      ∃ sk', rotate32 quarterTurn32 2 handChain32 1 1 0 0 (.fin 90) = some sk' ∧
        transformsAt32 sk' 1
          = some (mulMat32 Mat32.one
              (wristBone.to32.jointRotation (quarterTurn32 1 0 0 (.fin 90)))) :=
  have h := (jointRotation_fixes_joint wristBone (quarterTurn 1 0 0 90) (by decide!)
    (by decide!))
  have h2 := h.2.1 quarterTurn handChain 1 1 0 0 90 (by decide!) (by decide!) rfl
  have h3 := h.2.2 quarterTurn32 handChain32 1 wristBone.to32 1 0 0 (.fin 90) (by decide!)
    (by decide!)
  have hrun : ∃ sk', rotate32 quarterTurn32 2 handChain32 1 1 0 0 (.fin 90) = some sk' :=
    Option.isSome_iff_exists.mp (by decide!)
  ⟨by decide!, by decide!, by decide!, h.1, h2.1 handChain_forest, by decide!,
    (h2.2 2 bentChain (by decide!)).1, h3.1 handChain32_forest,
    hrun.elim (fun sk' hsk => ⟨sk', hsk, h3.2 2 sk' hsk⟩)⟩

/-- C29 amended. In exact arithmetic: for distinct bones `a` and `b` of a forest skeleton
in any state and any two rotations, `rotate(a)` then `rotate(b)` and `rotate(b)` then
`rotate(a)` both return (given enough fuel) and give the same accumulated transform to
every bone that is not a proper descendant of both `a` and `b`; when neither bone is a
proper descendant of the other the two skeletons are equal, and when `b` is a proper
descendant of `a` both orders leave `b` with `J_a * T_b * J_b`. On `float` matrices both
orders return as well, and they give the same accumulated transform to every bone that is
neither a proper descendant of both `a` and `b` nor the one of `a` and `b` that lies
beneath the other; when neither lies beneath the other the two skeletons are equal, and
when `b` is a proper descendant of `a` the order `a`, `b` leaves `b` with
`(J_a * T_b) * J_b` and the order `b`, `a` with `J_a * (T_b * J_b)`, each product
rounded. -/
theorem rotate_two_bones_order (glmRotate : RotationLib) (sk : Skeleton) (hF : Forest sk)
    (a b : Nat) (boneA boneB : Bone) (ha : sk[a]? = some boneA) (hb : sk[b]? = some boneB)
    (hab : a ≠ b) (r₁ r₂ : ℚ × ℚ × ℚ × ℚ) :
    ((∃ fuel ab ba, rotateTwo glmRotate fuel sk a r₁ b r₂ = some ab ∧
        rotateTwo glmRotate fuel sk b r₂ a r₁ = some ba) ∧
      ∀ fuel₁ fuel₂ ab ba, rotateTwo glmRotate fuel₁ sk a r₁ b r₂ = some ab →
        rotateTwo glmRotate fuel₂ sk b r₂ a r₁ = some ba →
        (∀ i, ¬ (Descendant sk a i ∧ Descendant sk b i) →
          transformsAt ab i = transformsAt ba i) ∧
        (¬ Descendant sk a b → ¬ Descendant sk b a → ab = ba) ∧
        (Descendant sk a b →
          transformsAt ab b
            = some (boneA.jointRotation (glmRotate r₁.1 r₁.2.1 r₁.2.2.1 r₁.2.2.2)
                * boneB.transforms
                * boneB.jointRotation (glmRotate r₂.1 r₂.2.1 r₂.2.2.1 r₂.2.2.2)) ∧
          transformsAt ba b
            = some (boneA.jointRotation (glmRotate r₁.1 r₁.2.1 r₁.2.2.1 r₁.2.2.2)
                * boneB.transforms
                * boneB.jointRotation (glmRotate r₂.1 r₂.2.1 r₂.2.2.1 r₂.2.2.2)))) ∧
    ∀ (glmRotate32 : RotationLib32) (sk32 : Skeleton32) (boneA32 boneB32 : Bone32)
      (s₁ s₂ : F32 × F32 × F32 × F32),
      Forest32 sk32 → sk32[a]? = some boneA32 → sk32[b]? = some boneB32 →
      (∃ fuel ab ba, rotateTwo32 glmRotate32 fuel sk32 a s₁ b s₂ = some ab ∧
        rotateTwo32 glmRotate32 fuel sk32 b s₂ a s₁ = some ba) ∧
      ∀ fuel₁ fuel₂ ab ba, rotateTwo32 glmRotate32 fuel₁ sk32 a s₁ b s₂ = some ab →
        rotateTwo32 glmRotate32 fuel₂ sk32 b s₂ a s₁ = some ba →
        (∀ i, ¬ (Descendant32 sk32 a i ∧ Descendant32 sk32 b i) →
          ¬ (i = b ∧ Descendant32 sk32 a b) → ¬ (i = a ∧ Descendant32 sk32 b a) →
          transformsAt32 ab i = transformsAt32 ba i) ∧
        (¬ Descendant32 sk32 a b → ¬ Descendant32 sk32 b a → ab = ba) ∧
        (Descendant32 sk32 a b →
          transformsAt32 ab b
            = some (mulMat32
                (mulMat32 (boneA32.jointRotation (glmRotate32 s₁.1 s₁.2.1 s₁.2.2.1 s₁.2.2.2))
                  boneB32.transforms)
                (boneB32.jointRotation (glmRotate32 s₂.1 s₂.2.1 s₂.2.2.1 s₂.2.2.2))) ∧
          transformsAt32 ba b
            = some (mulMat32
                (boneA32.jointRotation (glmRotate32 s₁.1 s₁.2.1 s₁.2.2.1 s₁.2.2.2))
                (mulMat32 boneB32.transforms
                  (boneB32.jointRotation (glmRotate32 s₂.1 s₂.2.1 s₂.2.2.1 s₂.2.2.2))))) := by
  refine ⟨⟨?_, ?_⟩, ?_⟩
  · obtain ⟨fa, hfa⟩ := rotate_step_returns glmRotate hF (getElem?_lt ha)
      r₁.1 r₁.2.1 r₁.2.2.1 r₁.2.2.2
    obtain ⟨fb, hfb⟩ := rotate_step_returns glmRotate hF (getElem?_lt hb)
      r₂.1 r₂.2.1 r₂.2.2.1 r₂.2.2.2
    obtain ⟨s₁, h₁⟩ := hfa (max fa fb) (le_max_left _ _) sk rfl
    obtain ⟨t₁, g₁⟩ := hfb (max fa fb) (le_max_right _ _) sk rfl
    obtain ⟨s₂, h₂⟩ := hfb (max fa fb) (le_max_right _ _) s₁
      (rotate_step hF rfl ha h₁).1
    obtain ⟨t₂, g₂⟩ := hfa (max fa fb) (le_max_left _ _) t₁
      (rotate_step hF rfl hb g₁).1
    exact ⟨max fa fb, s₂, t₂, by simp only [rotateTwo, h₁, Option.some_bind, h₂],
      by simp only [rotateTwo, g₁, Option.some_bind, g₂]⟩
  · intro fuel₁ fuel₂ ab ba hab₁ hba₁
    obtain ⟨fab, aba, abb, abA, abB, abN⟩ := rotateTwo_spec hF ha hb hab hab₁
    obtain ⟨fba, bab, baa, baB, baA, baN⟩ := rotateTwo_spec hF hb ha (Ne.symm hab) hba₁
    have hpoint : ∀ i, ¬ (Descendant sk a i ∧ Descendant sk b i) →
        transformsAt ab i = transformsAt ba i := by
      intro i hi
      by_cases hia : i = a
      · subst hia
        rw [aba, baa]
        cases transformsAt sk i <;> simp [Matrix.mul_assoc]
      · by_cases hib : i = b
        · subst hib
          rw [abb, bab]
          cases transformsAt sk i <;> simp [Matrix.mul_assoc]
        · by_cases hda : Descendant sk a i
          · have hdb : ¬ Descendant sk b i := fun h => hi ⟨hda, h⟩
            rw [abA i hia hib hda hdb, baA i hib hia hdb hda]
          · by_cases hdb : Descendant sk b i
            · rw [abB i hia hib hda hdb, baB i hib hia hdb hda]
            · rw [abN i hia hib hda hdb, baN i hib hia hdb hda]
    refine ⟨hpoint, fun hnab hnba => ?_, fun hd => ?_⟩
    · apply skeleton_ext (fab.trans fba.symm)
      intro i
      apply hpoint
      rintro ⟨hda, hdb⟩
      rcases ancestors_comparable hF hda hdb with e | d | d
      · exact hab e
      · exact hnab d
      · exact hnba d
    · have hT : transformsAt sk b = some boneB.transforms := by
        simp [transformsAt, hb]
      rw [abb, bab, hT]
      simp [hd, Matrix.mul_assoc]
  · intro glmRotate32 sk32 boneA32 boneB32 s₁ s₂ hF32 ha32 hb32
    constructor
    · obtain ⟨fa, hfa⟩ := rotate_step_returns32 glmRotate32 hF32 (getElem?_lt ha32)
        s₁.1 s₁.2.1 s₁.2.2.1 s₁.2.2.2
      obtain ⟨fb, hfb⟩ := rotate_step_returns32 glmRotate32 hF32 (getElem?_lt hb32)
        s₂.1 s₂.2.1 s₂.2.2.1 s₂.2.2.2
      obtain ⟨u₁, h₁⟩ := hfa (max fa fb) (le_max_left _ _) sk32 rfl
      obtain ⟨t₁, g₁⟩ := hfb (max fa fb) (le_max_right _ _) sk32 rfl
      obtain ⟨u₂, h₂⟩ := hfb (max fa fb) (le_max_right _ _) u₁
        (rotate_step32 hF32 rfl ha32 h₁).1
      obtain ⟨t₂, g₂⟩ := hfa (max fa fb) (le_max_left _ _) t₁
        (rotate_step32 hF32 rfl hb32 g₁).1
      exact ⟨max fa fb, u₂, t₂, by simp only [rotateTwo32, h₁, Option.some_bind, h₂],
        by simp only [rotateTwo32, g₁, Option.some_bind, g₂]⟩
    · intro fuel₁ fuel₂ ab ba hab₁ hba₁
      obtain ⟨fab, aba, abb, abA, abB, abN⟩ := rotateTwo_spec32 hF32 ha32 hb32 hab hab₁
      obtain ⟨fba, bab, baa, baB, baA, baN⟩ :=
        rotateTwo_spec32 hF32 hb32 ha32 (Ne.symm hab) hba₁
      have hsame : ∀ i, ¬ (Descendant32 sk32 a i ∧ Descendant32 sk32 b i) →
          ¬ (i = b ∧ Descendant32 sk32 a b) → ¬ (i = a ∧ Descendant32 sk32 b a) →
          transformsAt32 ab i = transformsAt32 ba i := by
        intro i hi hnb hna
        by_cases hia : i = a
        · subst hia
          have hd : ¬ Descendant32 sk32 b i := fun h => hna ⟨rfl, h⟩
          rw [aba, baa]
          simp only [hd, if_false]
        · by_cases hib : i = b
          · subst hib
            have hd : ¬ Descendant32 sk32 a i := fun h => hnb ⟨rfl, h⟩
            rw [abb, bab]
            simp only [hd, if_false]
          · by_cases hda : Descendant32 sk32 a i
            · have hdb : ¬ Descendant32 sk32 b i := fun h => hi ⟨hda, h⟩
              rw [abA i hia hib hda hdb, baA i hib hia hdb hda]
            · by_cases hdb : Descendant32 sk32 b i
              · rw [abB i hia hib hda hdb, baB i hib hia hdb hda]
              · rw [abN i hia hib hda hdb, baN i hib hia hdb hda]
      refine ⟨hsame, fun hnab hnba => ?_, fun hd => ?_⟩
      · apply skeleton_ext32 (fab.trans fba.symm)
        intro i
        apply hsame i
        · rintro ⟨hda, hdb⟩
          rcases ancestors_comparable32 hF32 hda hdb with e | d | d
          · exact hab e
          · exact hnab d
          · exact hnba d
        · exact fun h => hnab h.2
        · exact fun h => hnba h.2
      · have hT : transformsAt32 sk32 b = some boneB32.transforms := by
          simp [transformsAt32, hb32]
        constructor
        · rw [abb, hT]
          simp only [hd, if_true, Option.map_some']
        · rw [bab, hT]
          simp only [hd, if_true, Option.map_some']

/-- C29 amended, on the chain Root -> Wrist -> Finger at rest, a quarter turn of the root
about X and one of the wrist about Z in both orders: in exact arithmetic root and wrist
end with the same accumulated transforms; on `float` matrices the wrist ends with the two
groupings of `J_0 * 1 * J_1`. -/
theorem rotate_two_bones_order_witness :
    (∃ ab ba, rotateTwo quarterTurn 3 handChain 0 (1, 0, 0, 90) 1 (0, 0, 1, 90) = some ab ∧
      rotateTwo quarterTurn 3 handChain 1 (0, 0, 1, 90) 0 (1, 0, 0, 90) = some ba ∧
      transformsAt ab 1 = transformsAt ba 1 ∧ transformsAt ab 0 = transformsAt ba 0) ∧
    ∃ ab ba,
      rotateTwo32 quarterTurn32 3 handChain32 0 (1, 0, 0, .fin 90) 1 (0, 0, 1, .fin 90)
        = some ab ∧
      rotateTwo32 quarterTurn32 3 handChain32 1 (0, 0, 1, .fin 90) 0 (1, 0, 0, .fin 90)
        = some ba ∧
      transformsAt32 ab 0 = transformsAt32 ba 0 ∧
      transformsAt32 ab 1
        = some (mulMat32
            (mulMat32 (rootBone.to32.jointRotation (quarterTurn32 1 0 0 (.fin 90)))
              wristBone.to32.transforms)
            (wristBone.to32.jointRotation (quarterTurn32 0 0 1 (.fin 90)))) ∧
      transformsAt32 ba 1
        = some (mulMat32 (rootBone.to32.jointRotation (quarterTurn32 1 0 0 (.fin 90)))
            (mulMat32 wristBone.to32.transforms
              (wristBone.to32.jointRotation (quarterTurn32 0 0 1 (.fin 90))))) :=
  have h₁ : ∃ ab, rotateTwo quarterTurn 3 handChain 0 (1, 0, 0, 90) 1 (0, 0, 1, 90)
      = some ab := Option.isSome_iff_exists.mp (by decide!)
  have h₂ : ∃ ba, rotateTwo quarterTurn 3 handChain 1 (0, 0, 1, 90) 0 (1, 0, 0, 90)
      = some ba := Option.isSome_iff_exists.mp (by decide!)
  have g₁ : ∃ ab, rotateTwo32 quarterTurn32 3 handChain32 0 (1, 0, 0, .fin 90) 1
      (0, 0, 1, .fin 90) = some ab := Option.isSome_iff_exists.mp (by decide!)
  have g₂ : ∃ ba, rotateTwo32 quarterTurn32 3 handChain32 1 (0, 0, 1, .fin 90) 0
      (1, 0, 0, .fin 90) = some ba := Option.isSome_iff_exists.mp (by decide!)
  let ⟨ab, hab⟩ := h₁
  let ⟨ba, hba⟩ := h₂
  let ⟨ab32, hab32⟩ := g₁
  let ⟨ba32, hba32⟩ := g₂
  have hd : Descendant32 handChain32 0 1 := Relation.TransGen.single (by decide)
  let h := rotate_two_bones_order quarterTurn handChain handChain_forest 0 1
    rootBone wristBone (by decide!) (by decide!) (by decide) (1, 0, 0, 90) (0, 0, 1, 90)
  let hq := h.1.2 3 3 ab ba hab hba
  let hf := (h.2 quarterTurn32 handChain32 rootBone.to32 wristBone.to32 (1, 0, 0, .fin 90)
    (0, 0, 1, .fin 90) handChain32_forest (by decide!) (by decide!)).2 3 3 ab32 ba32 hab32 hba32
  ⟨⟨ab, ba, hab, hba,
      hq.1 1 (fun hd => not_descendant_self handChain_forest 1 hd.2),
      hq.1 0 (fun hd => not_descendant_self handChain_forest 0 hd.1)⟩,
    ab32, ba32, hab32, hba32,
    hf.1 0 (fun h0 => not_descendant_self32 handChain32_forest 0 h0.1)
      (fun h01 => absurd h01.1 (by decide))
      (fun h10 => not_descendant_self32 handChain32_forest 0
        (Relation.TransGen.trans hd h10.2)),
    (hf.2.2 hd).1, (hf.2.2 hd).2⟩

end HandyVariations
